import Mathlib

/-!
# FenrusCNCtools: STL toolpath planner (`toolpath/stl.cpp`)

A shallow embedding of the toolpath-planning core of `stl.cpp`.

Conventions of the embedding:

* C `double` values are rationals (`ℚ`); `fmax`, `fabs` and `ceil` are `max`, `|·|` and
  `Int.ceil`.  The arithmetic is embedded twice.  The plain definitions (`line_to`,
  `get_height_tool`, `create_cutout`, `create_toolpath`, ...) compute exactly; they carry the
  statements that do not depend on how a result is rounded: which branch is taken on a given
  input, the order and the place of what is stored, the relations between stored values.  The
  definitions with the suffix `_fl` (`line_to_fl`, `get_height_tool_fl`, `create_cutout_fl`,
  ...) take a rounding function `rnd : ℚ → ℚ` and apply it to the result of every `double`
  operation and to every literal that is not itself a `double`; they carry the counts, bounds
  and termination statements, which do depend on the rounding.  `round53` is the rounding of
  binary64 (to nearest, ties to even, exponent unbounded), `RoundLaws` are the two properties
  of it that the proofs use, and with `rnd` the identity a `_fl` definition is the plain one.
  Overflow, underflow, infinities and NaN are not modelled.
* `sqrt` (libm), `get_height` (the mesh query) and the tool / scene getters are code that is
  not part of `stl.cpp`; they are parameters of the definitions that call them.
* `static` variables of the file (`toolnr`, `tooldepth`, `last_X`, ..., `first`) are the fields
  of `Globals`, threaded explicitly through the functions that read or write them.
* `while` loops whose exit depends on the data take a fuel argument and return `none` when it
  runs out; the termination theorems show how much fuel is enough.
* `unsigned int depth` in `line_to` is a `Nat`: it counts loop iterations and cannot reach
  `2^32` before the running depths (which rise by at least 0.05 per iteration) leave the
  range of a plausible job.
-/

namespace Stl

/-! ## Data model -/

/-- A 2-point polyline `(x1, y1) → (x2, y2)` tagged with a depth range `d1 → d2`: what
`add_poly_vcarve(p2, d1, d2)` stores for a `Polygon_2` holding two points. -/
structure PathSegment where
  x1 : ℚ
  y1 : ℚ
  x2 : ℚ
  y2 : ℚ
  d1 : ℚ
  d2 : ℚ
deriving DecidableEq, Repr

/-- The fields of `class toollevel` that `stl.cpp` assigns, and its list of polygons.
`name = none` is the `NULL` name of the ramp levels of `create_cutout`. -/
structure toollevel where
  level : Int
  offset : ℚ
  diameter : ℚ
  depth : ℚ
  toolnr : Int
  minY : ℚ
  name : Option String
  no_sort : Bool
  polys : List PathSegment
deriving DecidableEq, Repr

/-- The fields of `class tooldepth` that `stl.cpp` assigns, and its list of tool levels. -/
structure tooldepth where
  depth : ℚ
  toolnr : Int
  diameter : ℚ
  toollevels : List toollevel
deriving DecidableEq, Repr

/-- One generated operation: `class inputshape`, a name and its `tooldepths` vector. -/
structure inputshape where
  name : String
  tooldepths : List tooldepth
deriving DecidableEq, Repr

/-- The file-level `static` variables of `stl.cpp`. -/
structure Globals where
  toolnr : Int
  tooldepth : ℚ
  last_X : ℚ
  last_Y : ℚ
  last_Z : ℚ
  cur_X : ℚ
  cur_Y : ℚ
  cur_Z : ℚ
  first : Bool
deriving DecidableEq, Repr

/-- Modelled from the spec: `toollevel::add_poly_vcarve` is declared in `scene.h`, which is not
among the sources; per the spec "a 2-point PathSegment (x1,y1)→(x2,y2) is appended to that
ToolLevel with depth range (z1, z2)". -/
def toollevel.add_poly_vcarve (tl : toollevel) (X1 Y1 X2 Y2 d1 d2 : ℚ) : toollevel :=
  { tl with polys := tl.polys ++ [⟨X1, Y1, X2, Y2, d1, d2⟩] }

/-- A freshly constructed `inputshape` after `set_name`. -/
def inputshape.new (name : String) : inputshape := ⟨name, []⟩

/-- All path segments of a tool depth, level by level. -/
def tooldepth.segments (td : tooldepth) : List PathSegment :=
  (td.toollevels.map toollevel.polys).flatten

/-- All path segments of a shape, depth by depth. -/
def inputshape.segments (s : inputshape) : List PathSegment :=
  (s.tooldepths.map tooldepth.segments).flatten

/-- All tool levels of a shape. -/
def inputshape.levels (s : inputshape) : List toollevel :=
  (s.tooldepths.map tooldepth.toollevels).flatten

/-! ## Depth-band slicer: `line_to` -/

/-- `ceil(Z * 20) / 20.0`: round up to the 0.05 grid. -/
def ceil20 (Z : ℚ) : ℚ := (⌈Z * 20⌉ : ℚ) / 20

/-- The inner loop `while (input->tooldepths.size() <= depth) push_back(td)` of `line_to`:
it appends `depth + 1 - size` tool depths, each built the same way. -/
def pad_tooldepths (tds : List tooldepth) (depth : Nat) (td : tooldepth) : List tooldepth :=
  tds ++ List.replicate (depth + 1 - tds.length) td

/-- The "Manual toolpath" level that `line_to` creates for a tool depth that has none. -/
def manual_level (diam : ℚ) (toolnr : Int) (Z1 : ℚ) : toollevel :=
  { level := 0, offset := diam, diameter := diam, depth := Z1, toolnr := toolnr, minY := 0,
    name := some "Manual toolpath", no_sort := true, polys := [] }

/-- One pass through the body of the `while` loop of `line_to`, after `depth++` and before the
running depths are advanced: pad the tool depths up to index `depth`, give
`tooldepths[depth]` a level if it has none, and append the segment to its level 0.
`diam` is `get_tool_diameter()`. -/
def line_to_band (diam : ℚ) (toolnr : Int) (input : inputshape) (depth : Nat)
    (X1 Y1 Z1 X2 Y2 Z2 : ℚ) : inputshape :=
  let tds := pad_tooldepths input.tooldepths depth
    { depth := Z1, toolnr := toolnr, diameter := diam, toollevels := [] }
  let tds := tds.modify
    (fun td => if td.toollevels.length < 1
      then { td with toollevels := td.toollevels ++ [manual_level diam toolnr Z1] } else td)
    depth
  let tds := tds.modify
    (fun td => { td with
      toollevels := td.toollevels.modify (fun tl => tl.add_poly_vcarve X1 Y1 X2 Y2 Z1 Z2) 0 })
    depth
  { input with tooldepths := tds }

/-- The `while (Z1 < -0.000001 || Z2 < -0.00001)` loop of `line_to`; `t` is the global
`tooldepth` (the plunge increment), `depth` the band counter. -/
def line_to_loop (diam t : ℚ) (toolnr : Int) (X1 Y1 X2 Y2 : ℚ) :
    Nat → inputshape → Nat → ℚ → ℚ → Option inputshape
  | fuel, input, depth, Z1, Z2 =>
    if Z1 < -0.000001 ∨ Z2 < -0.00001 then
      match fuel with
      | 0 => none
      | fuel + 1 =>
        line_to_loop diam t toolnr X1 Y1 X2 Y2 fuel
          (line_to_band diam toolnr input (depth + 1) X1 Y1 Z1 X2 Y2 Z2) (depth + 1)
          (ceil20 (Z1 + t)) (ceil20 (Z2 + t))
    else some input

/-- The `while` loop of `line_to` once more, this time returning with the shape the values
the running depths `Z1`, `Z2` have when the loop is left. -/
def line_to_loop_exit (diam t : ℚ) (toolnr : Int) (X1 Y1 X2 Y2 : ℚ) :
    Nat → inputshape → Nat → ℚ → ℚ → Option (inputshape × ℚ × ℚ)
  | fuel, input, depth, Z1, Z2 =>
    if Z1 < -0.000001 ∨ Z2 < -0.00001 then
      match fuel with
      | 0 => none
      | fuel + 1 =>
        line_to_loop_exit diam t toolnr X1 Y1 X2 Y2 fuel
          (line_to_band diam toolnr input (depth + 1) X1 Y1 Z1 X2 Y2 Z2) (depth + 1)
          (ceil20 (Z1 + t)) (ceil20 (Z2 + t))
    else some (input, Z1, Z2)

/-- `line_to(input, X2, Y2, Z2)`: returns the updated statics and shape. -/
def line_to (diam : ℚ) (fuel : Nat) (g : Globals) (input : inputshape) (X2 Y2 Z2 : ℚ) :
    Option (Globals × inputshape) :=
  let X1 := g.last_X
  let Y1 := g.last_Y
  let Z1 := g.last_Z
  let g := { g with last_X := X2, last_Y := Y2, last_Z := Z2 }
  if g.first then
    some ({ g with first := false, cur_X := X2, cur_Y := Y2, cur_Z := Z2 }, input)
  else
    (line_to_loop diam g.tooldepth g.toolnr X1 Y1 X2 Y2 fuel input 0 Z1 Z2).map
      (fun s => (g, s))

/-! ## Footprint height sampler: `get_height_tool` -/

/-- `ceil(d * ACC) / ACC` with `ACC = 100.0`: round up to the 1/100 grid. -/
def ceilACC (d : ℚ) : ℚ := (⌈d * 100⌉ : ℚ) / 100

/-- The value assigned to `balloffset` when `ballnose` is set:
`sqrt(orgR*orgR - R*R) - orgR`. -/
def ballnose_offset (sqrt : ℚ → ℚ) (orgR R : ℚ) : ℚ := sqrt (orgR * orgR - R * R) - orgR

/-- One run of consecutive statements
`d = fmax(d, get_height(X + cx * R, Y + cy * R) + balloffset)`, given by the list of its
coefficient pairs `(cx, cy)` in source order; a source term `X - c * R` is the pair entry
`-c`. -/
def probe_ring (get_height : ℚ → ℚ → ℚ) (X Y R balloffset : ℚ) (offs : List (ℚ × ℚ))
    (d : ℚ) : ℚ :=
  offs.foldl (fun d o => max d (get_height (X + o.1 * R) (Y + o.2 * R) + balloffset)) d

/-- Coefficients of the four axis probes (source lines 166-169). -/
def axis_offsets : List (ℚ × ℚ) :=
  [(1.0000, 0.0000), (0.0000, 1.0000), (-1.0000, 0.0000), (-0.0000, -1.0000)]

/-- Coefficients of the four diagonal probes (source lines 172-175). -/
def diag_offsets : List (ℚ × ℚ) :=
  [(0.7071, 0.7071), (-0.7071, 0.7071), (-0.7071, -0.7071), (0.7071, -0.7071)]

/-- Coefficients of the eight in-between probes of the first ring (source lines 180-187). -/
def ring8_offsets : List (ℚ × ℚ) :=
  [(0.9239, 0.3827), (0.3827, 0.9239), (-0.3872, 0.9239), (-0.9239, 0.3827),
   (-0.9239, -0.3827), (-0.3827, -0.9239), (0.3827, -0.9239), (0.9239, -0.3827)]

/-- Coefficients of a full 16-point ring (source lines 198-213, and again 224-239). -/
def ring16_offsets : List (ℚ × ℚ) :=
  [(1.0000, 0.0000), (0.9239, 0.3827), (0.7071, 0.7071), (0.3827, 0.9239),
   (0.0000, 1.0000), (-0.3872, 0.9239), (-0.7071, 0.7071), (-0.9239, 0.3827),
   (-1.0000, 0.0000), (-0.9239, -0.3827), (-0.7071, -0.7071), (-0.3827, -0.9239),
   (-0.0000, -1.0000), (0.3827, -0.9239), (0.7071, -0.7071), (0.9239, -0.3827)]

/-- The "sin/cos circle table" of the comment above `get_height_tool` (source lines 132-150):
its `(X, Y)` columns in the order of its angles 0, 22.5, ..., 337.5 degrees. -/
def circle_table : List (ℚ × ℚ) :=
  [(1.0000, 0.0000), (0.9239, 0.3827), (0.7071, 0.7071), (0.3827, 0.9239),
   (0.0000, 1.0000), (-0.3827, 0.9239), (-0.7071, 0.7071), (-0.9239, 0.3827),
   (-1.0000, 0.0000), (-0.9239, -0.3827), (-0.7071, -0.7071), (-0.3827, -0.9239),
   (-0.0000, -1.0000), (0.3827, -0.9239), (0.7071, -0.7071), (0.9239, -0.3827)]

/-- `get_height_tool(X, Y, R, ballnose)`; `sqrt` and `get_height` are the external functions it
calls. -/
def get_height_tool (sqrt : ℚ → ℚ) (get_height : ℚ → ℚ → ℚ) (X Y R : ℚ) (ballnose : Bool) : ℚ :=
  let d : ℚ := 0
  let orgR := R
  let balloffset : ℚ := 0.0
  let d := max d (get_height (X + 0.0000 * R) (Y + 0.0000 * R))
  let balloffset := if ballnose then ballnose_offset sqrt orgR R else balloffset
  let d := probe_ring get_height X Y R balloffset axis_offsets d
  let dorg := d
  let d := probe_ring get_height X Y R balloffset diag_offsets d
  if R < 0.6 ∧ |d - dorg| < 0.1 then ceilACC d
  else
    let d := probe_ring get_height X Y R balloffset ring8_offsets d
    let R := R / 1.5
    if R < 0.4 then ceilACC d
    else
      let balloffset := if ballnose then ballnose_offset sqrt orgR R else balloffset
      let d := probe_ring get_height X Y R balloffset ring16_offsets d
      let R := R / 1.5
      if R < 0.4 then ceilACC d
      else
        let balloffset := if ballnose then ballnose_offset sqrt orgR R else balloffset
        let d := probe_ring get_height X Y R balloffset ring16_offsets d
        ceilACC d

/-! ## Cutout / ramp generator: `create_cutout` -/

/-- `dist(X0, Y0, X1, Y1)`. -/
def dist (sqrt : ℚ → ℚ) (X0 Y0 X1 Y1 : ℚ) : ℚ :=
  sqrt ((X1 - X0) * (X1 - X0) + (Y1 - Y0) * (Y1 - Y0))

/-- The rectangle `p` built by `create_cutout`: the model's bounding box grown by `diam / 2`.
`sx`, `sy` are `stl_image_X()`, `stl_image_Y()`. -/
def cutout_polygon (diam sx sy : ℚ) : List (ℚ × ℚ) :=
  [(-diam / 2, -diam / 2), (sx + diam / 2, -diam / 2),
   (sx + diam / 2, sy + diam / 2), (-diam / 2, sy + diam / 2)]

/-- The pairs `((*p)[i], (*p)[next])` for `i = 0 .. size - 1`, `next = i + 1` wrapping to 0. -/
def polygon_edges (p : List (ℚ × ℚ)) : List ((ℚ × ℚ) × (ℚ × ℚ)) :=
  p.zip (p.rotate 1)

/-- Length of an edge as the loops of `create_cutout` compute it. -/
def edge_length (sqrt : ℚ → ℚ) (e : (ℚ × ℚ) × (ℚ × ℚ)) : ℚ :=
  dist sqrt e.1.1 e.1.2 e.2.1 e.2.2

/-- The tool depth (holding one level that holds one segment) that both loops of
`create_cutout` push for an edge; `tdiam` is `get_tool_diameter()`. The first loop names the
level "Cutout" and gives it a flat segment; the ramp loop leaves the name `NULL`. `no_sort` is
not assigned by either loop and keeps the constructor's value, taken to be `false`. -/
def cutout_tooldepth (tdiam : ℚ) (toolnr : Int) (name : Option String)
    (e : (ℚ × ℚ) × (ℚ × ℚ)) (currentdepth d1 d2 : ℚ) : tooldepth :=
  { depth := currentdepth, toolnr := toolnr, diameter := tdiam,
    toollevels :=
      [toollevel.add_poly_vcarve
        { level := 0, offset := tdiam, diameter := tdiam, depth := currentdepth, toolnr := toolnr,
          minY := 0, name := name, no_sort := false, polys := [] }
        e.1.1 e.1.2 e.2.1 e.2.2 d1 d2] }

/-- The first loop of `create_cutout`: one flat segment per edge at the full cutout depth. -/
def cutout_flat_pass (tdiam : ℚ) (toolnr : Int) (edges : List ((ℚ × ℚ) × (ℚ × ℚ)))
    (currentdepth : ℚ) (input : inputshape) : inputshape :=
  edges.foldl
    (fun input e => { input with tooldepths := input.tooldepths ++
      [cutout_tooldepth tdiam toolnr (some "Cutout") e currentdepth currentdepth currentdepth] })
    input

/-- The second loop of `create_cutout`: `circumfence` accumulated from 0 over the edges. -/
def circumfence (sqrt : ℚ → ℚ) (edges : List ((ℚ × ℚ) × (ℚ × ℚ))) : ℚ :=
  edges.foldl (fun c e => c + edge_length sqrt e) 0

/-- One lap of the ramp: the `for` loop inside `while (currentdepth < 0)`, over the edges that
remain; `if (currentdepth > 0) break` leaves the lap. -/
def ramp_lap (sqrt : ℚ → ℚ) (tdiam : ℚ) (toolnr : Int) (gradient : ℚ) :
    List ((ℚ × ℚ) × (ℚ × ℚ)) → ℚ → inputshape → ℚ × inputshape
  | [], currentdepth, input => (currentdepth, input)
  | e :: es, currentdepth, input =>
    if currentdepth > 0 then (currentdepth, input)
    else
      let d1 := currentdepth
      let d2 := gradient * edge_length sqrt e
      let input := { input with tooldepths := input.tooldepths ++
        [cutout_tooldepth tdiam toolnr none e currentdepth d1 (d1 + d2)] }
      ramp_lap sqrt tdiam toolnr gradient es (currentdepth + d2) input

/-- The ramp: `while (currentdepth < 0)` around `ramp_lap`; returns the final `currentdepth`
and the shape. -/
def ramp_loop (sqrt : ℚ → ℚ) (tdiam : ℚ) (toolnr : Int) (gradient : ℚ)
    (edges : List ((ℚ × ℚ) × (ℚ × ℚ))) : Nat → ℚ → inputshape → Option (ℚ × inputshape)
  | fuel, currentdepth, input =>
    if currentdepth < 0 then
      match fuel with
      | 0 => none
      | fuel + 1 =>
        let r := ramp_lap sqrt tdiam toolnr gradient edges currentdepth input
        ramp_loop sqrt tdiam toolnr gradient edges fuel r.1 r.2
    else some (currentdepth, input)

/-- `create_cutout(scene, tool)` as the shape it pushes onto `scene->shapes` together with the
final value of `currentdepth`. `diam` is `tool_diam(tool)`, `tdiam` is `get_tool_diameter()`,
`maxdepth` is `get_tool_maxdepth()`, `cutout_depth` is `scene->get_cutout_depth()`, `toolnr`
the global of that name, `sx`, `sy` are `stl_image_X()`, `stl_image_Y()`. -/
def create_cutout (sqrt : ℚ → ℚ) (fuel : Nat) (diam tdiam maxdepth cutout_depth sx sy : ℚ)
    (toolnr : Int) : Option (ℚ × inputshape) :=
  let currentdepth := -cutout_depth
  let input := inputshape.new "Cutout path"
  let edges := polygon_edges (cutout_polygon diam sx sy)
  let input := cutout_flat_pass tdiam toolnr edges currentdepth input
  let circumfence := circumfence sqrt edges
  if circumfence = 0 then some (currentdepth, input)
  else
    let gradient := |maxdepth| / circumfence
    ramp_loop sqrt tdiam toolnr gradient edges fuel currentdepth input

/-- The segments of the ramp phase of a cutout shape: those of the tool depths after the four
pushed by the flat pass. -/
def ramp_segments (input : inputshape) : List PathSegment :=
  ((input.tooldepths.drop 4).map tooldepth.segments).flatten

/-! ## Boundary exclusion: `outside_area` -/

/-- `outside_area(X, Y, mX, mY, diam)`. -/
def outside_area (sqrt : ℚ → ℚ) (X Y mX mY diam : ℚ) : Bool :=
  let Y := if Y > mY then mY - Y else Y
  let X := if X > mX then mX - X else X
  if X < 0 ∧ Y < 0 ∧ sqrt (X * X + Y * Y) > diam / 2 * 0.90 then true else false

/-! ## Scan planner: `create_toolpath` -/

/-- The part of `class scene` that `stl.cpp` reads and writes through its accessors:
`shapes`, `get_cutout_depth()`, `get_depth()`, `get_stock_to_leave()`,
`get_finishing_pass_stepover()`, `want_finishing_pass()` and the tool list behind
`get_tool_nr(i)` / `get_tool_count()`. -/
structure scene where
  shapes : List inputshape
  cutout_depth : ℚ
  depth : ℚ
  stock_to_leave : ℚ
  finishing_pass_stepover : ℚ
  finishing_pass : Bool
  tools : List Int

/-- The external functions `create_toolpath` calls, with the values they have during one call:
libm's `sqrt`, the mesh queries `get_height`, `stl_image_X()`, `stl_image_Y()`, and the tool
library's `tool_diam(nr)`, `get_tool_diameter()` (of the active tool), `get_tool_stepover(nr)`
and `tool_is_ballnose(nr)`. -/
structure Env where
  sqrt : ℚ → ℚ
  get_height : ℚ → ℚ → ℚ
  stl_image_X : ℚ
  stl_image_Y : ℚ
  tool_diam : Int → ℚ
  get_tool_diameter : ℚ
  get_tool_stepover : Int → ℚ
  tool_is_ballnose : Int → Bool

/-- The local variables `create_toolpath` computes before it starts scanning. -/
structure ScanLocals where
  diam : ℚ
  maxZ : ℚ
  radius : ℚ
  overshoot : ℚ
  maxX : ℚ
  maxY : ℚ
  stepover : ℚ
  offset : ℚ
  ballnose : Bool
deriving DecidableEq, Repr

/-- Source lines 386-422 of `create_toolpath`: the values of its locals when scanning starts. -/
def scan_locals (E : Env) (sc : scene) (tool : Int) (roughing has_cutout : Bool) : ScanLocals :=
  let toolnr := tool
  let diam := E.tool_diam tool
  let maxZ := sc.cutout_depth
  let radius := diam / 2
  let radius := if roughing then diam else radius
  let overshoot := diam / 2 * 0.9
  let overshoot :=
    if !has_cutout then
      let overshoot := overshoot / 2
      if roughing then 0 else overshoot
    else overshoot
  let maxX := E.stl_image_X + overshoot
  let maxY := E.stl_image_Y + overshoot
  let stepover := E.get_tool_stepover toolnr
  let stepover := if !roughing ∧ stepover > 0.2 then stepover / 1.42 else stepover
  let ballnose := !roughing && E.tool_is_ballnose tool
  let stepover :=
    if !roughing ∧ E.tool_is_ballnose tool then
      let stepover := stepover / 2
      if sc.finishing_pass_stepover > 0 then sc.finishing_pass_stepover else stepover
    else stepover
  let offset := if roughing then sc.stock_to_leave else 0
  { diam := diam, maxZ := maxZ, radius := radius, overshoot := overshoot, maxX := maxX,
    maxY := maxY, stepover := stepover, offset := offset, ballnose := ballnose }

/-- What a scan carries from grid point to grid point: the statics, the shape under
construction, and (ghost, for stating properties only) the arguments of every `line_to` call
made so far, oldest first. -/
structure ScanState where
  g : Globals
  input : inputshape
  moves : List (ℚ × ℚ × ℚ)

/-- A call `line_to(input, X, Y, Z)` made by the scan, recorded in the ghost list. -/
def scan_move (E : Env) (F : Nat) (st : ScanState) (X Y Z : ℚ) : Option ScanState :=
  (line_to E.get_tool_diameter F st.g st.input X Y Z).map
    (fun r => { g := r.1, input := r.2, moves := st.moves ++ [(X, Y, Z)] })

/-- `get_height_tool(X, Y, radius + offset, ballnose)` as every scan loop calls it. -/
def sample (E : Env) (L : ScanLocals) (p : ℚ × ℚ) : ℚ :=
  get_height_tool E.sqrt E.get_height p.1 p.2 (L.radius + L.offset) L.ballnose

/-- The roughing lookahead test `fabs(d - last_Z) > 1 && roughing`. -/
def lookahead_trigger (d last_Z : ℚ) (roughing : Bool) : Bool :=
  decide (|d - last_Z| > 1) && roughing

/-- The body of an inner scan loop up to its `line_to`: sample at the running coordinate `v`,
re-probe at `look` when the lookahead test fires, and move there unless `outside_area`. `pt`
maps the running coordinate to the point `(X, Y)` (the other coordinate is fixed during the
loop). Returns the running coordinate (relocated by a re-probe) and the state. -/
def scan_point (E : Env) (L : ScanLocals) (roughing : Bool) (F : Nat) (pt : ℚ → ℚ × ℚ)
    (look v : ℚ) (st : ScanState) : Option (ℚ × ScanState) :=
  let d := sample E L (pt v)
  let trig := lookahead_trigger d st.g.last_Z roughing
  let v := if trig then look else v
  let d := if trig then sample E L (pt v) else d
  if !outside_area E.sqrt (pt v).1 (pt v).2 E.stl_image_X E.stl_image_Y L.diam then
    (scan_move E F st (pt v).1 (pt v).2 (-L.maxZ + d + L.offset)).map (fun st => (v, st))
  else some (v, st)

/-- The four inner loops of `create_toolpath`. `fwd = true` is `while (v < hi)` stepping by
`+stepover` with lookahead `prev + stepover / 1.5`; `fwd = false` is `while (v > lo)` stepping
by `-stepover` with lookahead `prev - stepover / 1.5`. `F` is the fuel of the `line_to` calls,
the first `Nat` argument the fuel of this loop. -/
def scan_line (E : Env) (L : ScanLocals) (roughing : Bool) (F : Nat) (pt : ℚ → ℚ × ℚ)
    (fwd : Bool) (lo hi : ℚ) : Nat → ℚ → ℚ → ScanState → Option ScanState
  | fuel, v, prev, st =>
    if (if fwd then v < hi else v > lo) then
      match fuel with
      | 0 => none
      | fuel + 1 =>
        match scan_point E L roughing F pt
            (if fwd then prev + L.stepover / 1.5 else prev - L.stepover / 1.5) v st with
        | none => none
        | some (v, st) =>
          scan_line E L roughing F pt fwd lo hi fuel
            (if fwd then v + L.stepover else v - L.stepover) v st
    else some st

/-- The single moves between two inner loops:
`if (cond && !outside_area(X, Y, ...))
line_to(input, X, Y, -maxZ + offset + get_height_tool(...))`. -/
def scan_turn (E : Env) (L : ScanLocals) (F : Nat) (cond : Bool) (X Y : ℚ) (st : ScanState) :
    Option ScanState :=
  if cond && !outside_area E.sqrt X Y E.stl_image_X E.stl_image_Y L.diam then
    scan_move E F st X Y (-L.maxZ + L.offset + sample E L (X, Y))
  else some st

/-- The `even` branch: `while (Y < maxY)` over pairs of rows (source lines 432-476). -/
def scan_even (E : Env) (L : ScanLocals) (roughing : Bool) (F : Nat) :
    Nat → ℚ → ScanState → Option ScanState
  | fuel, Y, st =>
    if Y < L.maxY then
      match fuel with
      | 0 => none
      | fuel + 1 =>
        match scan_line E L roughing F (fun v => (v, Y)) true (-L.overshoot) L.maxX F
            (-L.overshoot) (-L.overshoot) st with
        | none => none
        | some st =>
          match scan_turn E L F true L.maxX (Y + L.stepover) st with
          | none => none
          | some st =>
            match scan_line E L roughing F (fun v => (v, Y + L.stepover)) false (-L.overshoot)
                L.maxX F L.maxX L.maxX st with
            | none => none
            | some st =>
              match scan_turn E L F (decide (Y + L.stepover + L.stepover < L.maxY))
                  (-L.overshoot) (Y + L.stepover + L.stepover) st with
              | none => none
              | some st => scan_even E L roughing F fuel (Y + L.stepover + L.stepover) st
    else some st

/-- The `!even` branch: `while (X < maxX)` over pairs of columns (source lines 484-529). -/
def scan_odd (E : Env) (L : ScanLocals) (roughing : Bool) (F : Nat) :
    Nat → ℚ → ScanState → Option ScanState
  | fuel, X, st =>
    if X < L.maxX then
      match fuel with
      | 0 => none
      | fuel + 1 =>
        match scan_line E L roughing F (fun v => (X, v)) true (-L.overshoot) L.maxY F
            (-L.overshoot) (-L.overshoot) st with
        | none => none
        | some st =>
          match scan_turn E L F (decide (X + L.stepover < L.maxX)) (X + L.stepover) L.maxY st with
          | none => none
          | some st =>
            match scan_line E L roughing F (fun v => (X + L.stepover, v)) false (-L.overshoot)
                L.maxY F L.maxY L.maxY st with
            | none => none
            | some st =>
              match scan_turn E L F (decide (X + L.stepover + L.stepover < L.maxX))
                  (X + L.stepover + L.stepover) (-L.overshoot) st with
              | none => none
              | some st => scan_odd E L roughing F fuel (X + L.stepover + L.stepover) st
    else some st

/-- `create_toolpath(scene, tool, roughing, has_cutout, even)`: the statics, shape and ghost
move list when it returns, and the scene with the new "STL path" shape appended. The progress
display and `gcode_set_roughing` have no effect on the planner's data and are left out. `F` is
the fuel given to every loop. -/
def create_toolpath (E : Env) (F : Nat) (g : Globals) (sc : scene) (tool : Int)
    (roughing has_cutout even : Bool) : Option (ScanState × scene) :=
  let g := { g with toolnr := tool }
  let L := scan_locals E sc tool roughing has_cutout
  let input := inputshape.new "STL path"
  let g := { g with first := true }
  let st : ScanState := { g := g, input := input, moves := [] }
  (if even then scan_even E L roughing F F (-L.overshoot) st
   else scan_odd E L roughing F F (-L.overshoot) st).map
    (fun st => (st, { sc with shapes := sc.shapes ++ [st.input] }))

/-! ## Orchestrator: `process_stl_file` -/

/-- A planner invocation made by `process_stl_file`: `create_toolpath` with the value the
global `tooldepth` has when it is called and its four arguments after `scene`, or
`create_cutout`. -/
inductive PlannerCall where
  | toolpath (tooldepth : ℚ) (tool : Int) (roughing has_cutout even : Bool)
  | cutout (tool : Int)
deriving DecidableEq, Repr

/-- The `even` argument of a planner invocation (`none` for the cutout). -/
def PlannerCall.even? : PlannerCall → Option Bool
  | .toolpath _ _ _ _ even => some even
  | .cutout _ => none

/-- The tool loop `for (int i = get_tool_count() - 1; i >= 0; i--)` of `process_stl_file`, as
the list of invocations it makes. The first argument is `i + 1` (so `0` ends the loop), the
second the current value of `even`; `maxdepth nr` is `get_tool_maxdepth()` after
`activate_tool(nr)`. -/
def tool_loop (sc : scene) (maxdepth : Int → ℚ) (omit_cutout : Bool) :
    Nat → Bool → List PlannerCall
  | 0, _ => []
  | i + 1, even =>
    let nr := sc.tools.getD i 0
    let tooldepth : ℚ := if i ≠ 0 then 5000 else maxdepth nr
    let roughing := decide ((i : Int) < (sc.tools.length : Int) - 1)
    let call := PlannerCall.toolpath tooldepth nr roughing (!omit_cutout) even
    let even := !even
    if (i : Int) = (sc.tools.length : Int) - 1 ∧ sc.finishing_pass then
      call :: PlannerCall.toolpath tooldepth nr roughing (!omit_cutout) even ::
        tool_loop sc maxdepth omit_cutout i (!even)
    else
      call :: tool_loop sc maxdepth omit_cutout i even

/-- `process_stl_file(scene, filename)` after the mesh has been read, normalised and scaled (all
external): the scene with its cutout depth defaulted, and the planner invocations in order. -/
def process_stl_file (sc : scene) (maxdepth : Int → ℚ) : scene × List PlannerCall :=
  let omit_cutout := decide (sc.cutout_depth < 0.01)
  let sc := if sc.cutout_depth < 0.01 then { sc with cutout_depth := sc.depth } else sc
  let even := true
  let calls := tool_loop sc maxdepth omit_cutout sc.tools.length even
  (sc, calls ++ (if !omit_cutout then [PlannerCall.cutout (sc.tools.getD 0 0)] else []))

/-! ## Rounded `double` arithmetic -/

/-- Round to the nearest integer, a tie going to the even neighbour. -/
def round_even (y : ℚ) : ℤ :=
  if y - ⌊y⌋ < 1 / 2 then ⌊y⌋
  else if 1 / 2 < y - ⌊y⌋ then ⌊y⌋ + 1
  else if ⌊y⌋ % 2 = 0 then ⌊y⌋ else ⌊y⌋ + 1

/-- Rounding of a rational number to the nearest IEEE 754 binary64 value (53 significant
bits, ties to even), the exponent range taken as unbounded: it agrees with the rounding of
`double` arithmetic wherever that neither overflows nor falls into the subnormal range. -/
def round53 (x : ℚ) : ℚ :=
  if x = 0 then 0
  else (round_even (x * 2 ^ (52 - Int.log 2 |x|)) : ℚ) / 2 ^ (52 - Int.log 2 |x|)

/-- What the proofs assume of the rounding `rnd` that follows every arithmetic operation on
`double`s and every decimal literal: one rounding changes a value by at most the fraction
`2^-53` of its magnitude, and rounding keeps the order. -/
structure RoundLaws (rnd : ℚ → ℚ) : Prop where
  err : ∀ x, |rnd x - x| ≤ |x| / 2 ^ 53
  mono : ∀ x y, x ≤ y → rnd x ≤ rnd y

/-! ## Depth-band slicer in rounded arithmetic -/

/-- `ceil(Z * 20) / 20.0` as `double` arithmetic computes it: the product is rounded, `ceil`
is exact, the quotient is rounded. -/
def ceil20_fl (rnd : ℚ → ℚ) (Z : ℚ) : ℚ := rnd ((⌈rnd (Z * 20)⌉ : ℚ) / 20)

/-- The `while (Z1 < -0.000001 || Z2 < -0.00001)` loop of `line_to` in rounded arithmetic: the
two thresholds are the literals rounded to `double`, `Z1 += tooldepth` and `Z2 += tooldepth`
round their sums, and the quantization is `ceil20_fl`. Returns the shape and the values the
running depths `Z1`, `Z2` have when the loop is left. -/
def line_to_loop_fl (rnd : ℚ → ℚ) (diam t : ℚ) (toolnr : Int) (X1 Y1 X2 Y2 : ℚ) :
    Nat → inputshape → Nat → ℚ → ℚ → Option (inputshape × ℚ × ℚ)
  | fuel, input, depth, Z1, Z2 =>
    if Z1 < -rnd 0.000001 ∨ Z2 < -rnd 0.00001 then
      match fuel with
      | 0 => none
      | fuel + 1 =>
        line_to_loop_fl rnd diam t toolnr X1 Y1 X2 Y2 fuel
          (line_to_band diam toolnr input (depth + 1) X1 Y1 Z1 X2 Y2 Z2) (depth + 1)
          (ceil20_fl rnd (rnd (Z1 + t))) (ceil20_fl rnd (rnd (Z2 + t)))
    else some (input, Z1, Z2)

/-- `line_to(input, X2, Y2, Z2)` in rounded arithmetic: returns the updated statics and
shape. -/
def line_to_fl (rnd : ℚ → ℚ) (diam : ℚ) (fuel : Nat) (g : Globals) (input : inputshape)
    (X2 Y2 Z2 : ℚ) : Option (Globals × inputshape) :=
  let X1 := g.last_X
  let Y1 := g.last_Y
  let Z1 := g.last_Z
  let g := { g with last_X := X2, last_Y := Y2, last_Z := Z2 }
  if g.first then
    some ({ g with first := false, cur_X := X2, cur_Y := Y2, cur_Z := Z2 }, input)
  else
    (line_to_loop_fl rnd diam g.tooldepth g.toolnr X1 Y1 X2 Y2 fuel input 0 Z1 Z2).map
      (fun r => (g, r.1))

/-- The running depths `(Z1, Z2)` at the start of each pass through the loop of `line_to` in
rounded arithmetic (the depth ranges of the segments it emits, in order), and the running
depths when the loop is left. -/
def bands_fl (rnd : ℚ → ℚ) (t : ℚ) : Nat → ℚ → ℚ → Option (List (ℚ × ℚ) × ℚ × ℚ)
  | fuel, Z1, Z2 =>
    if Z1 < -rnd 0.000001 ∨ Z2 < -rnd 0.00001 then
      match fuel with
      | 0 => none
      | fuel + 1 =>
        (bands_fl rnd t fuel (ceil20_fl rnd (rnd (Z1 + t))) (ceil20_fl rnd (rnd (Z2 + t)))).map
          (fun r => ((Z1, Z2) :: r.1, r.2))
    else some ([], Z1, Z2)

/-- The running depth after `k` passes through the loop of `line_to` in rounded arithmetic,
started at `Z` with plunge increment `t`: raised by `t` and quantized, `k` times. -/
def run_depth_fl (rnd : ℚ → ℚ) (t : ℚ) (k : Nat) (Z : ℚ) : ℚ :=
  (fun Z => ceil20_fl rnd (rnd (Z + t)))^[k] Z

/-! ## Footprint height sampler in rounded arithmetic -/

/-- `ceil(d * ACC) / ACC` with `ACC = 100.0` as `double` arithmetic computes it: the product
is rounded, `ceil` is exact, the quotient is rounded. -/
def ceilACC_fl (rnd : ℚ → ℚ) (d : ℚ) : ℚ := rnd ((⌈rnd (d * 100)⌉ : ℚ) / 100)

/-- `sqrt(orgR*orgR - R*R) - orgR` in rounded arithmetic; `sqrt` is the library function,
which returns a `double`. -/
def ballnose_offset_fl (rnd : ℚ → ℚ) (sqrt : ℚ → ℚ) (orgR R : ℚ) : ℚ :=
  rnd (sqrt (rnd (rnd (orgR * orgR) - rnd (R * R))) - orgR)

/-- One run of consecutive statements
`d = fmax(d, get_height(X + cx * R, Y + cy * R) + balloffset)` in rounded arithmetic, given
by its coefficient pairs `(cx, cy)`: each coefficient is a decimal literal rounded to
`double`, and the product, both sums and the sum with `balloffset` are rounded. A source term
`X - c * R` is the pair entry `-c`: negation is exact in binary64 and its rounding is
symmetric, so `X - c * R` and `X + (-c) * R` are the same `double`. -/
def probe_ring_fl (rnd : ℚ → ℚ) (get_height : ℚ → ℚ → ℚ) (X Y R balloffset : ℚ)
    (offs : List (ℚ × ℚ)) (d : ℚ) : ℚ :=
  offs.foldl (fun d o => max d
    (rnd (get_height (rnd (X + rnd (rnd o.1 * R))) (rnd (Y + rnd (rnd o.2 * R)))
      + balloffset))) d

/-- `get_height_tool(X, Y, R, ballnose)` in rounded arithmetic: as `get_height_tool`, with
every arithmetic operation and every decimal literal that is not a `double` rounded by
`rnd`. -/
def get_height_tool_fl (rnd : ℚ → ℚ) (sqrt : ℚ → ℚ) (get_height : ℚ → ℚ → ℚ) (X Y R : ℚ)
    (ballnose : Bool) : ℚ :=
  let d : ℚ := 0
  let orgR := R
  let balloffset : ℚ := 0.0
  let d := max d (get_height (rnd (X + rnd (rnd 0.0000 * R))) (rnd (Y + rnd (rnd 0.0000 * R))))
  let balloffset := if ballnose then ballnose_offset_fl rnd sqrt orgR R else balloffset
  let d := probe_ring_fl rnd get_height X Y R balloffset axis_offsets d
  let dorg := d
  let d := probe_ring_fl rnd get_height X Y R balloffset diag_offsets d
  if R < rnd 0.6 ∧ |rnd (d - dorg)| < rnd 0.1 then ceilACC_fl rnd d
  else
    let d := probe_ring_fl rnd get_height X Y R balloffset ring8_offsets d
    let R := rnd (R / 1.5)
    if R < rnd 0.4 then ceilACC_fl rnd d
    else
      let balloffset := if ballnose then ballnose_offset_fl rnd sqrt orgR R else balloffset
      let d := probe_ring_fl rnd get_height X Y R balloffset ring16_offsets d
      let R := rnd (R / 1.5)
      if R < rnd 0.4 then ceilACC_fl rnd d
      else
        let balloffset := if ballnose then ballnose_offset_fl rnd sqrt orgR R else balloffset
        let d := probe_ring_fl rnd get_height X Y R balloffset ring16_offsets d
        ceilACC_fl rnd d

/-! ## Cutout / ramp generator in rounded arithmetic -/

/-- What the proofs assume of the external `sqrt` where they need it: it is non-negative, exact
on squares, and never above a non-negative `y` whose square bounds its argument. All three hold
of the real square root. -/
structure SqrtLaws (sqrt : ℚ → ℚ) : Prop where
  nonneg : ∀ x, 0 ≤ sqrt x
  sq : ∀ x, sqrt (x * x) = |x|
  le_of_le_sq : ∀ x y, 0 ≤ y → x ≤ y * y → sqrt x ≤ y

/-- A computable square root on `ℚ` for running the definitions on concrete inputs: exact on
squares of rationals, otherwise rounded down (to about six decimals for integers). -/
def sqrt_down (x : ℚ) : ℚ :=
  (Nat.sqrt (x.num.toNat * x.den * 10 ^ 12) : ℚ) / ((x.den : ℚ) * 10 ^ 6)

/-- The running depths `(Z1, Z2)` at the start of each pass through the loop of `line_to`
started at `(Z1, Z2)` with plunge increment `t`: the depth ranges of the segments it emits, in
order. -/
def bands (t : ℚ) : Nat → ℚ → ℚ → Option (List (ℚ × ℚ))
  | fuel, Z1, Z2 =>
    if Z1 < -0.000001 ∨ Z2 < -0.00001 then
      match fuel with
      | 0 => none
      | fuel + 1 =>
        (bands t fuel (ceil20 (Z1 + t)) (ceil20 (Z2 + t))).map (fun bs => (Z1, Z2) :: bs)
    else some []

/-- The passes of `line_to_band` for a list of depth ranges, the band counter running on from
`depth`. -/
def emit_bands (diam : ℚ) (toolnr : Int) (X1 Y1 X2 Y2 : ℚ) :
    List (ℚ × ℚ) → inputshape → Nat → inputshape
  | [], input, _ => input
  | b :: bs, input, depth =>
    emit_bands diam toolnr X1 Y1 X2 Y2 bs
      (line_to_band diam toolnr input (depth + 1) X1 Y1 b.1 X2 Y2 b.2) (depth + 1)

/-- Closed form of the number of passes the loop of `line_to` makes from `(Z1, Z2)` with plunge
increment `t > 0`: none if both depths are at the surface, else one pass at `(Z1, Z2)` and then
one per quantized increment until the lower of the two rounded depths has reached 0. It also
serves as the fuel that is enough for the loop. -/
def band_count (t Z1 Z2 : ℚ) : ℕ :=
  if Z1 < -0.000001 ∨ Z2 < -0.00001 then
    1 + ⌈((-(min ⌈(Z1 + t) * 20⌉ ⌈(Z2 + t) * 20⌉) : ℤ) : ℚ) / (⌈t * 20⌉ : ℚ)⌉.toNat
  else 0

/-- Closed form of the depth ranges `(Z1, Z2)` of the passes the loop of `line_to` makes with
plunge increment `t > 0`: the starting pair, then the pair rounded up to the 0.05 grid and
raised by one quantized increment per pass. -/
def band_list (t Z1 Z2 : ℚ) : List (ℚ × ℚ) :=
  if Z1 < -0.000001 ∨ Z2 < -0.00001 then
    (Z1, Z2) ::
      (List.range
        ⌈((-(min ⌈(Z1 + t) * 20⌉ ⌈(Z2 + t) * 20⌉) : ℤ) : ℚ) / (⌈t * 20⌉ : ℚ)⌉.toNat).map
        (fun k : Nat =>
          (((⌈(Z1 + t) * 20⌉ + k * ⌈t * 20⌉ : ℤ) : ℚ) / 20,
           ((⌈(Z2 + t) * 20⌉ + k * ⌈t * 20⌉ : ℤ) : ℚ) / 20))
  else []

/-- From the spec's words, "the number of 0.05-quantized plunge increments needed to cover"
a distance `D`: the increment `t` rounded up to the 0.05 grid, and how many of them reach `D`. -/
def increments_to_cover (t D : ℚ) : ℕ := ⌈D / ceil20 t⌉.toNat

/-- The path segments held by the tool depth at index `j` of a shape (none if the shape has
no such tool depth). -/
def inputshape.segments_at (s : inputshape) (j : Nat) : List PathSegment :=
  (s.tooldepths.map tooldepth.segments).getD j []

/-- Every depth value stored in a tool level: its own and both ends of each segment. -/
def toollevel.depths (tl : toollevel) : List ℚ :=
  tl.depth :: (tl.polys.map (fun s => [s.d1, s.d2])).flatten

/-- Every depth value stored in a tool depth. -/
def tooldepth.depths (td : tooldepth) : List ℚ :=
  td.depth :: (td.toollevels.map toollevel.depths).flatten

/-- Every depth value stored in a shape. -/
def inputshape.depths (s : inputshape) : List ℚ :=
  (s.tooldepths.map tooldepth.depths).flatten

/-- The pen is fit for another `line_to` during a scan with plunge increment `t` whose moves stay
at or above depth `-M`: it is still marked `first`, or its remembered depth is at or above
`-M`. -/
def PenOK (M t : ℚ) (st : ScanState) : Prop :=
  st.g.tooldepth = t ∧ (st.g.first = true ∨ -M ≤ st.g.last_Z)

/-- The part of the statics that a later `line_to` can depend on: while `first` is set the
remembered pen position is not used, and `cur_X`, `cur_Y`, `cur_Z` are never read. -/
def Globals.visible (g : Globals) : Globals :=
  { g with
    last_X := if g.first then 0 else g.last_X,
    last_Y := if g.first then 0 else g.last_Y,
    last_Z := if g.first then 0 else g.last_Z,
    cur_X := 0, cur_Y := 0, cur_Z := 0 }

/-- A scan state with its statics reduced to their visible part. -/
def ScanState.visible (st : ScanState) : ScanState := { st with g := st.g.visible }

/-- The corner of the rectangle `[0, mX] x [0, mY]` on the side of the point `(X, Y)`: the
origin side for a negative coordinate, the far side otherwise. -/
def nearest_corner (X Y mX mY : ℚ) : ℚ × ℚ :=
  (if X < 0 then 0 else mX, if Y < 0 then 0 else mY)

/-- The Y coordinates of the `line_to` calls of a scan, oldest first: the scan rows in the order
the moves visit them. -/
def ScanState.rows (st : ScanState) : List ℚ := st.moves.map (fun m => m.2.1)

/-- The moves made so far step from row to row by `s` without skipping one, and the last of them
(if any) is on row `y` or on the row below it: a move on row `y` can follow. -/
def RowsReady (s : ℚ) (st : ScanState) (y : ℚ) : Prop :=
  List.Chain' (fun a b : ℚ => b = a ∨ b = a + s) st.rows ∧
    ∀ l ∈ st.rows.getLast?, l = y ∨ l + s = y

/-! ## Example inputs -/

/-- The statics as `create_toolpath` leaves them when it starts a shape for tool 1: plunge
increment `t`, pen at the origin and marked `first`. -/
def fresh_pen (t : ℚ) : Globals :=
  { toolnr := 1, tooldepth := t, last_X := 0, last_Y := 0, last_Z := 0,
    cur_X := 0, cur_Y := 0, cur_Z := 0, first := true }

/-- The externals of the end-to-end scenario: a flat block 50 by 50 of height 5 (the height
field is 5 everywhere it is queried), every tool flat-ended with diameter 6 and stepover 3. -/
def flat_block_env : Env :=
  { sqrt := sqrt_down, get_height := fun _ _ => 5, stl_image_X := 50, stl_image_Y := 50,
    tool_diam := fun _ => 6, get_tool_diameter := 6, get_tool_stepover := fun _ => 3,
    tool_is_ballnose := fun _ => false }

/-- The scene of the end-to-end scenario: the single tool 1, no cutout depth configured, no
finishing pass, model height 5. -/
def flat_block_scene : scene :=
  { shapes := [], cutout_depth := 0, depth := 5, stock_to_leave := 0,
    finishing_pass_stepover := 0, finishing_pass := false, tools := [1] }

/-- The externals of the boundary exclusion scenario: as `flat_block_env`, for a 10 by 10 model
and tools of diameter 4. -/
def corner_env : Env :=
  { flat_block_env with
    stl_image_X := 10, stl_image_Y := 10, tool_diam := fun _ => 4, get_tool_diameter := 4 }

/-- The statics after the first `line_to(input, 0, 0, z)` of a shape started with
`fresh_pen t`. -/
def pen_at (t z : ℚ) : Globals :=
  { toolnr := 1, tooldepth := t, last_X := 0, last_Y := 0, last_Z := z,
    cur_X := 0, cur_Y := 0, cur_Z := z, first := false }

/-- A height field that is 1 at the single point `(px, py)` and 0 elsewhere. -/
def spike_field (px py : ℚ) : ℚ → ℚ → ℚ :=
  fun x y => if x = px ∧ y = py then 1 else 0

/-- The externals of the roughing scenarios: a model 1 by 4 whose height field is 0 everywhere
it is queried, every tool flat-ended with diameter 1 and stepover 3. -/
def strip_env : Env :=
  { sqrt := sqrt_down, get_height := fun _ _ => 0, stl_image_X := 1, stl_image_Y := 4,
    tool_diam := fun _ => 1, get_tool_diameter := 1, get_tool_stepover := fun _ => 3,
    tool_is_ballnose := fun _ => false }

/-- The scene of the roughing scenarios: three tools, cutout depth `c`, no stock to leave, no
finishing pass. -/
def strip_scene (c : ℚ) : scene :=
  { shapes := [], cutout_depth := c, depth := c, stock_to_leave := 0,
    finishing_pass_stepover := 0, finishing_pass := false, tools := [1, 2, 3] }

/-- A pen as an earlier `create_toolpath` pass with plunge increment 5000 leaves it behind: the
last position is `(0, 0, z)` and `first` is cleared. -/
def stale_pen (z : ℚ) : Globals :=
  { toolnr := 1, tooldepth := 5000, last_X := 0, last_Y := 0, last_Z := z,
    cur_X := 0, cur_Y := 0, cur_Z := 0, first := false }

/-- The `double` nearest to 0.01. -/
def double_0_01 : ℚ := 5764607523034235 / 2 ^ 59

/-- The `double` nearest to 0.1. -/
def double_0_1 : ℚ := 3602879701896397 / 2 ^ 55

/-- A height field for a model 1 by 4 with heights between 0 and 5: a ridge of height 5 across
the model for `5/4 ≤ y ≤ 7/4`, the floor 0 elsewhere on the model and outside it. -/
def ridge_field (x y : ℚ) : ℚ :=
  if 0 ≤ x ∧ x ≤ 1 ∧ 5 / 4 ≤ y ∧ y ≤ 7 / 4 then 5 else 0

/-- The externals of the pen scenario: the model 1 by 4 with the height field `ridge_field`,
every tool flat-ended with diameter 1; stepover 3 for the roughing tools, 2.13 for tool 3 and
2.84 for tool 4. -/
def ridge_env : Env :=
  { sqrt := sqrt_down, get_height := ridge_field, stl_image_X := 1, stl_image_Y := 4,
    tool_diam := fun _ => 1, get_tool_diameter := 1,
    get_tool_stepover := fun nr => if nr = 3 then 2.13 else if nr = 4 then 2.84 else 3,
    tool_is_ballnose := fun _ => false }

/-- The scene of the pen scenario: the roughing tools 1 and 2 and the finishing tool `t`, a
finishing pass wanted, no cutout depth configured, model height 5, no stock to leave. -/
def ridge_scene (t : Int) : scene :=
  { shapes := [], cutout_depth := 0, depth := 5, stock_to_leave := 0,
    finishing_pass_stepover := 0, finishing_pass := true, tools := [1, 2, t] }

/-! ## The computable square root satisfies the assumed laws -/

theorem sqrt_down_nonneg (x : ℚ) : 0 ≤ sqrt_down x := by
  unfold sqrt_down
  positivity

theorem sqrt_down_sq (x : ℚ) : sqrt_down (x * x) = |x| := by
  unfold sqrt_down
  have hnum : ((x * x).num.toNat) = x.num.natAbs * x.num.natAbs := by
    rw [Rat.mul_self_num, ← Int.natAbs_mul_self, Int.toNat_natCast]
  have hroot : (x * x).num.toNat * (x * x).den * 10 ^ 12
      = (x.num.natAbs * x.den * 10 ^ 6) * (x.num.natAbs * x.den * 10 ^ 6) := by
    rw [hnum, Rat.mul_self_den]; ring
  rw [hroot, Nat.sqrt_eq, Rat.mul_self_den]
  have hd : (x.den : ℚ) ≠ 0 := by exact_mod_cast x.den_nz
  have habs : |x| = (x.num.natAbs : ℚ) / x.den := by
    conv_lhs => rw [← Rat.num_div_den x]
    rw [abs_div, Nat.abs_cast, Nat.cast_natAbs, Int.cast_abs]
  rw [habs]
  push_cast
  field_simp
  ring

theorem sqrt_down_le_of_le_sq (x y : ℚ) (hy : 0 ≤ y) (hxy : x ≤ y * y) : sqrt_down x ≤ y := by
  unfold sqrt_down
  set n := x.num.toNat * x.den * 10 ^ 12 with hn
  have hd : (0 : ℚ) < x.den := by exact_mod_cast x.den_pos
  have hs : ((Nat.sqrt n : ℕ) : ℚ) * (Nat.sqrt n : ℕ) ≤ (n : ℚ) := by
    exact_mod_cast Nat.sqrt_le n
  have hpos : (0 : ℚ) < (x.den : ℚ) * 10 ^ 6 := by positivity
  rw [div_le_iff₀ hpos]
  by_cases hx : x.num ≤ 0
  · have : n = 0 := by simp [hn, Int.toNat_eq_zero.mpr hx]
    rw [this]; simp; positivity
  · push_neg at hx
    have hxnum : ((x.num.toNat : ℕ) : ℚ) = x.num := by
      have : ((x.num.toNat : ℕ) : ℤ) = x.num := Int.toNat_of_nonneg hx.le
      exact_mod_cast this
    have hxval : x * (x.den : ℚ) = x.num := Rat.mul_den_eq_num x
    have hxeq : (n : ℚ) = x * ((x.den : ℚ) * 10 ^ 6) * ((x.den : ℚ) * 10 ^ 6) := by
      rw [hn]; push_cast; rw [hxnum, ← hxval]
      ring
    have hle : ((Nat.sqrt n : ℕ) : ℚ) * (Nat.sqrt n : ℕ)
        ≤ (y * ((x.den : ℚ) * 10 ^ 6)) * (y * ((x.den : ℚ) * 10 ^ 6)) := by
      calc ((Nat.sqrt n : ℕ) : ℚ) * (Nat.sqrt n : ℕ) ≤ n := hs
        _ = x * ((x.den : ℚ) * 10 ^ 6) * ((x.den : ℚ) * 10 ^ 6) := hxeq
        _ ≤ (y * y) * ((x.den : ℚ) * 10 ^ 6) * ((x.den : ℚ) * 10 ^ 6) := by gcongr
        _ = _ := by ring
    have hnn : (0 : ℚ) ≤ y * ((x.den : ℚ) * 10 ^ 6) := by positivity
    have hsn : (0 : ℚ) ≤ (Nat.sqrt n : ℕ) := by positivity
    exact (mul_self_le_mul_self_iff hsn hnn).mpr hle

theorem sqrt_down_laws : SqrtLaws sqrt_down :=
  ⟨sqrt_down_nonneg, sqrt_down_sq, sqrt_down_le_of_le_sq⟩

/-! ## Ball-nose offset at full radius (C5) -/

theorem ballnose_offset_self (sqrt : ℚ → ℚ) (h0 : sqrt 0 = 0) (orgR : ℚ) :
    ballnose_offset sqrt orgR orgR = -orgR := by
  simp [ballnose_offset, h0]

theorem sqrt_down_zero : sqrt_down 0 = 0 := by
  have h := sqrt_down_sq 0
  simpa using h

/-- C5 (as stated, refuted): at radius 3 the ball-nose offset of the first ring of probes, where
the effective radius equals the original one, is `-3`, not `0`. -/
theorem ballnose_offset_first_ring_nonzero :
    ballnose_offset sqrt_down 3 3 = -3 ∧ ballnose_offset sqrt_down 3 3 ≠ 0 := by
  have h := ballnose_offset_self sqrt_down sqrt_down_zero 3
  rw [h]
  exact ⟨rfl, by norm_num⟩

/-- C5 (amended): when the effective radius equals the original radius, the square-root term
of the ball-nose offset vanishes and the offset `sqrt(orgR² - R²) - orgR` is exactly `-orgR`;
it is `0` only for a tool of radius `0`. -/
theorem ballnose_offset_first_ring (sqrt : ℚ → ℚ) (h0 : sqrt 0 = 0) (orgR : ℚ) :
    ballnose_offset sqrt orgR orgR = -orgR ∧ (ballnose_offset sqrt orgR orgR = 0 ↔ orgR = 0) := by
  rw [ballnose_offset_self sqrt h0 orgR]
  exact ⟨rfl, neg_eq_zero⟩

theorem ballnose_offset_first_ring_witness :
    sqrt_down 0 = 0 ∧ ballnose_offset sqrt_down 2 2 = -2 :=
  ⟨sqrt_down_zero, (ballnose_offset_first_ring sqrt_down sqrt_down_zero 2).1⟩

/-! ## Boundary exclusion scenario (C6) -/

theorem outside_area_scenario (sqrt : ℚ → ℚ) (hs : SqrtLaws sqrt) :
    outside_area sqrt 11 11 10 10 4 = false := by
  have h : sqrt 2 ≤ 9 / 5 := hs.le_of_le_sq 2 (9 / 5) (by norm_num) (by norm_num)
  norm_num [outside_area]
  exact h

/-- C6 (as stated, refuted): for a 10 by 10 rectangle and tool diameter 4 the point (11, 11) is
not in the dead zone: `outside_area` is false there, for the computable square root and for
every `sqrt` that meets `SqrtLaws`. -/
theorem outside_area_scenario_not_dropped :
    outside_area sqrt_down 11 11 10 10 4 = false ∧
      ¬ ∃ sqrt : ℚ → ℚ, SqrtLaws sqrt ∧ outside_area sqrt 11 11 10 10 4 = true := by
  refine ⟨outside_area_scenario sqrt_down sqrt_down_laws, ?_⟩
  rintro ⟨sqrt, hs, h⟩
  rw [outside_area_scenario sqrt hs] at h
  exact Bool.false_ne_true h

/-- C6 (amended): for a 10 by 10 working rectangle and tool diameter 4, the point (11, 11) is
mirrored to (-1, -1), whose distance sqrt 2 does not exceed the threshold 0.9 * 2 = 1.8, so
`outside_area(11, 11, 10, 10, 4)` is false and the scan planner does make the move to it. -/
theorem outside_area_scenario_kept (E : Env) (L : ScanLocals) (F : Nat) (st : ScanState)
    (hs : SqrtLaws E.sqrt) (hX : E.stl_image_X = 10) (hY : E.stl_image_Y = 10)
    (hd : L.diam = 4) :
    outside_area E.sqrt 11 11 10 10 4 = false ∧
      scan_turn E L F true 11 11 st
        = scan_move E F st 11 11 (-L.maxZ + L.offset + sample E L (11, 11)) := by
  have h := outside_area_scenario E.sqrt hs
  refine ⟨h, ?_⟩
  simp [scan_turn, hX, hY, hd, h]

theorem outside_area_scenario_kept_witness :
    outside_area corner_env.sqrt 11 11 10 10 4 = false ∧
      scan_turn corner_env (scan_locals corner_env flat_block_scene 1 false true) 1 true 11 11
          { g := pen_at 1 0, input := inputshape.new "STL path", moves := [] }
        = scan_move corner_env 1
            { g := pen_at 1 0, input := inputshape.new "STL path", moves := [] } 11 11
            (-(scan_locals corner_env flat_block_scene 1 false true).maxZ
              + (scan_locals corner_env flat_block_scene 1 false true).offset
              + sample corner_env (scan_locals corner_env flat_block_scene 1 false true)
                  (11, 11)) :=
  outside_area_scenario_kept corner_env (scan_locals corner_env flat_block_scene 1 false true) 1
    { g := pen_at 1 0, input := inputshape.new "STL path", moves := [] }
    sqrt_down_laws rfl rfl rfl

/-! ## List lemmas for `List.modify` under `map` and `flatten` -/

theorem map_modify_of_invariant {α β : Type} (h : α → β) (f : α → α)
    (hf : ∀ a, h (f a) = h a) : ∀ (l : List α) (i : Nat), (l.modify f i).map h = l.map h
  | [], _ => by simp
  | a :: l, 0 => by simp [hf]
  | a :: l, i + 1 => by
    simp [map_modify_of_invariant h f hf l i]

theorem flatten_map_modify_perm {α β : Type} (g : α → List β) (f : α → α) (x : β) :
    ∀ (l : List α) (i : Nat) (hi : i < l.length),
      List.Perm (g (f (l.get ⟨i, hi⟩))) (x :: g (l.get ⟨i, hi⟩)) →
      List.Perm ((l.modify f i).map g).flatten (x :: (l.map g).flatten)
  | [], i, hi, _ => by simp at hi
  | a :: l, 0, _, hp => by
    simp only [List.modify_zero_cons, List.map_cons, List.flatten_cons]
    simp only [List.get_eq_getElem, List.getElem_cons_zero] at hp
    exact (hp.append_right _).trans (by simp)
  | a :: l, i + 1, hi, hp => by
    simp only [List.modify_succ_cons, List.map_cons, List.flatten_cons]
    have hi2 : i < l.length := by simpa using hi
    have ih := flatten_map_modify_perm g f x l i hi2 (by simpa using hp)
    exact (ih.append_left (g a)).trans (List.perm_middle)

theorem mem_flatten_map_modify {α β : Type} (g : α → List β) (f : α → α) (P : β → Prop)
    (hf : ∀ a, ∀ y ∈ g (f a), y ∈ g a ∨ P y) :
    ∀ (l : List α) (i : Nat), ∀ y ∈ ((l.modify f i).map g).flatten,
      y ∈ (l.map g).flatten ∨ P y
  | [], _, y, hy => by simp at hy
  | a :: l, 0, y, hy => by
    rw [List.modify_zero_cons, List.map_cons, List.flatten_cons, List.mem_append] at hy
    rw [List.map_cons, List.flatten_cons, List.mem_append]
    rcases hy with hy | hy
    · rcases hf a y hy with h | h
      · exact Or.inl (Or.inl h)
      · exact Or.inr h
    · exact Or.inl (Or.inr hy)
  | a :: l, i + 1, y, hy => by
    rw [List.modify_succ_cons, List.map_cons, List.flatten_cons, List.mem_append] at hy
    rw [List.map_cons, List.flatten_cons, List.mem_append]
    rcases hy with hy | hy
    · exact Or.inl (Or.inl hy)
    · rcases mem_flatten_map_modify g f P hf l i y hy with h | h
      · exact Or.inl (Or.inr h)
      · exact Or.inr h

/-! ## The slicer loop as a list of bands -/

theorem line_to_loop_eq_bands (diam t : ℚ) (toolnr : Int) (X1 Y1 X2 Y2 : ℚ) :
    ∀ (fuel : Nat) (input : inputshape) (depth : Nat) (Z1 Z2 : ℚ),
      line_to_loop diam t toolnr X1 Y1 X2 Y2 fuel input depth Z1 Z2
        = (bands t fuel Z1 Z2).map
            (fun bs => emit_bands diam toolnr X1 Y1 X2 Y2 bs input depth)
  | 0, input, depth, Z1, Z2 => by
    unfold line_to_loop bands
    split <;> simp [emit_bands]
  | fuel + 1, input, depth, Z1, Z2 => by
    unfold line_to_loop bands
    split
    · simp only [line_to_loop_eq_bands diam t toolnr X1 Y1 X2 Y2 fuel, Option.map_map]
      rfl
    · simp [emit_bands]

theorem pad_tooldepths_length_gt (tds : List tooldepth) (depth : Nat) (td : tooldepth) :
    depth < (pad_tooldepths tds depth td).length := by
  simp only [pad_tooldepths, List.length_append, List.length_replicate]
  omega

theorem line_to_band_segments (diam : ℚ) (toolnr : Int) (input : inputshape) (depth : Nat)
    (X1 Y1 Z1 X2 Y2 Z2 : ℚ) :
    List.Perm (line_to_band diam toolnr input depth X1 Y1 Z1 X2 Y2 Z2).segments
      (⟨X1, Y1, X2, Y2, Z1, Z2⟩ :: input.segments) := by
  unfold line_to_band inputshape.segments
  simp only
  set td0 : tooldepth := { depth := Z1, toolnr := toolnr, diameter := diam, toollevels := [] }
  set f1 : tooldepth → tooldepth := fun td => if td.toollevels.length < 1
      then { td with toollevels := td.toollevels ++ [manual_level diam toolnr Z1] } else td
  set f2 : tooldepth → tooldepth := fun td => { td with
      toollevels := td.toollevels.modify (fun tl => tl.add_poly_vcarve X1 Y1 X2 Y2 Z1 Z2) 0 }
  have hlen : depth < ((pad_tooldepths input.tooldepths depth td0).modify f1 depth).length := by
    rw [List.length_modify]; exact pad_tooldepths_length_gt _ _ _
  have hpad : ((pad_tooldepths input.tooldepths depth td0).map tooldepth.segments).flatten
      = (input.tooldepths.map tooldepth.segments).flatten := by
    simp [pad_tooldepths, td0, tooldepth.segments]
  have hf1 : ∀ a, tooldepth.segments (f1 a) = tooldepth.segments a := by
    intro a
    simp only [f1]
    split
    · simp [tooldepth.segments, manual_level]
    · rfl
  have h1 : (((pad_tooldepths input.tooldepths depth td0).modify f1 depth).map
      tooldepth.segments).flatten = (input.tooldepths.map tooldepth.segments).flatten := by
    rw [map_modify_of_invariant tooldepth.segments f1 hf1, hpad]
  rw [← h1]
  apply flatten_map_modify_perm tooldepth.segments f2 _ _ depth hlen
  have hget : (((pad_tooldepths input.tooldepths depth td0).modify f1 depth).get ⟨depth, hlen⟩)
      = f1 ((pad_tooldepths input.tooldepths depth td0).get
          ⟨depth, pad_tooldepths_length_gt _ _ _⟩) := by
    simp
  rw [hget]
  set a := (pad_tooldepths input.tooldepths depth td0).get
    ⟨depth, pad_tooldepths_length_gt _ _ _⟩
  have hlv : 0 < (f1 a).toollevels.length := by
    simp only [f1]
    split
    · simp
    · omega
  simp only [f2, tooldepth.segments]
  apply flatten_map_modify_perm toollevel.polys _ _ _ 0 hlv
  simp [toollevel.add_poly_vcarve]

theorem emit_bands_segments (diam : ℚ) (toolnr : Int) (X1 Y1 X2 Y2 : ℚ) :
    ∀ (bs : List (ℚ × ℚ)) (input : inputshape) (depth : Nat),
      List.Perm (emit_bands diam toolnr X1 Y1 X2 Y2 bs input depth).segments
        (input.segments ++ bs.map (fun b => (⟨X1, Y1, X2, Y2, b.1, b.2⟩ : PathSegment)))
  | [], input, depth => by simp [emit_bands]
  | b :: bs, input, depth => by
    simp only [emit_bands, List.map_cons]
    refine (emit_bands_segments diam toolnr X1 Y1 X2 Y2 bs _ (depth + 1)).trans ?_
    refine ((line_to_band_segments diam toolnr input (depth + 1) X1 Y1 b.1 X2 Y2 b.2).append_right
      _).trans ?_
    simp only [List.cons_append]
    exact List.perm_middle.symm

/-! ## Arithmetic of the running depths -/

theorem ceil20_grid_add (c : ℤ) (t : ℚ) :
    ceil20 ((c : ℚ) / 20 + t) = ((c + ⌈t * 20⌉ : ℤ) : ℚ) / 20 := by
  unfold ceil20
  have h : ((c : ℚ) / 20 + t) * 20 = t * 20 + (c : ℚ) := by ring
  rw [h, Int.ceil_add_int, add_comm]

theorem grid_lt_eps1 (a : ℤ) : ((a : ℚ) / 20 < -0.000001) ↔ a < 0 := by
  constructor
  · intro h
    by_contra hc
    push_neg at hc
    have : (0 : ℚ) ≤ (a : ℚ) := by exact_mod_cast hc
    have h2 : (0 : ℚ) ≤ (a : ℚ) / 20 := by positivity
    norm_num at h
    linarith
  · intro h
    have : (a : ℚ) ≤ -1 := by exact_mod_cast (by omega : a ≤ -1)
    norm_num
    linarith

theorem grid_lt_eps2 (a : ℤ) : ((a : ℚ) / 20 < -0.00001) ↔ a < 0 := by
  constructor
  · intro h
    by_contra hc
    push_neg at hc
    have : (0 : ℚ) ≤ (a : ℚ) := by exact_mod_cast hc
    have h2 : (0 : ℚ) ≤ (a : ℚ) / 20 := by positivity
    norm_num at h
    linarith
  · intro h
    have : (a : ℚ) ≤ -1 := by exact_mod_cast (by omega : a ≤ -1)
    norm_num
    linarith

theorem ceil_step_pos (t : ℚ) (ht : 0 < t) : 1 ≤ ⌈t * 20⌉ := by
  have : 0 < ⌈t * 20⌉ := Int.ceil_pos.mpr (by positivity)
  omega

/-- The bands from a pair of depths on the 0.05 grid: `n` passes, each one quantized increment
above the previous, where `n` is the first index at which the lower depth is no longer
negative. -/
theorem bands_grid_core (t : ℚ) :
    ∀ (n : Nat) (a c : ℤ),
      (∀ k : Nat, k < n → min a c + k * ⌈t * 20⌉ < 0) → 0 ≤ min a c + n * ⌈t * 20⌉ →
      ∀ fuel, n ≤ fuel →
        bands t fuel ((a : ℚ) / 20) ((c : ℚ) / 20)
          = some ((List.range n).map (fun k : Nat =>
              ((((a + k * ⌈t * 20⌉ : ℤ) : ℚ)) / 20, (((c + k * ⌈t * 20⌉ : ℤ) : ℚ)) / 20)))
  | 0, a, c, _, h0, fuel, _ => by
    have hm : 0 ≤ min a c := by simpa using h0
    have ha : ¬ a < 0 := by have := min_le_left a c; omega
    have hc : ¬ c < 0 := by have := min_le_right a c; omega
    unfold bands
    rw [if_neg]
    · simp
    · rw [grid_lt_eps1, grid_lt_eps2]; tauto
  | n + 1, a, c, hlt, hge, fuel, hfuel => by
    have hm : min a c < 0 := by simpa using hlt 0 (Nat.succ_pos n)
    have hcond : (a : ℚ) / 20 < -0.000001 ∨ (c : ℚ) / 20 < -0.00001 := by
      rw [grid_lt_eps1, grid_lt_eps2]
      rcases min_choice a c with h | h <;> rw [h] at hm
      · exact Or.inl hm
      · exact Or.inr hm
    obtain ⟨f, rfl⟩ : ∃ f, fuel = f + 1 := ⟨fuel - 1, by omega⟩
    unfold bands
    rw [if_pos hcond]
    simp only
    rw [ceil20_grid_add, ceil20_grid_add]
    have hmin : min (a + ⌈t * 20⌉) (c + ⌈t * 20⌉) = min a c + ⌈t * 20⌉ :=
      min_add_add_right a c _
    rw [bands_grid_core t n (a + ⌈t * 20⌉) (c + ⌈t * 20⌉) ?_ ?_ f (by omega)]
    · rw [List.range_succ_eq_map]
      simp only [Option.map_some', List.map_cons, List.map_map, Option.some.injEq,
        List.cons.injEq]
      refine ⟨by simp, ?_⟩
      apply List.map_congr_left
      intro k _
      simp only [Function.comp, Nat.succ_eq_add_one]
      push_cast
      refine Prod.ext ?_ ?_ <;> simp only <;> ring
    · intro k hk
      have := hlt (k + 1) (by omega)
      rw [hmin]
      push_cast at this
      linarith
    · rw [hmin]
      push_cast at hge
      linarith

theorem ceil_div_toNat_spec (m s : ℤ) (hs : 1 ≤ s) :
    (∀ k : Nat, k < ⌈((-m : ℤ) : ℚ) / (s : ℚ)⌉.toNat → m + k * s < 0) ∧
      0 ≤ m + (⌈((-m : ℤ) : ℚ) / (s : ℚ)⌉.toNat : ℤ) * s := by
  have hsq : (0 : ℚ) < (s : ℚ) := by exact_mod_cast (by omega : 0 < s)
  constructor
  · intro k hk
    have h1 : (k : ℤ) < ⌈((-m : ℤ) : ℚ) / (s : ℚ)⌉ := by
      have := Int.lt_toNat.mp hk
      exact this
    have h2 : ((k : ℤ) : ℚ) < ((-m : ℤ) : ℚ) / (s : ℚ) := Int.lt_ceil.mp h1
    rw [lt_div_iff₀ hsq] at h2
    have h3 : ((k : ℤ) * s : ℤ) < -m := by exact_mod_cast h2
    linarith
  · have h1 : ((-m : ℤ) : ℚ) / (s : ℚ) ≤ (⌈((-m : ℤ) : ℚ) / (s : ℚ)⌉ : ℚ) := Int.le_ceil _
    have h2 : ⌈((-m : ℤ) : ℚ) / (s : ℚ)⌉ ≤ (⌈((-m : ℤ) : ℚ) / (s : ℚ)⌉.toNat : ℤ) :=
      Int.self_le_toNat _
    have h3 : ((-m : ℤ) : ℚ) / (s : ℚ) ≤ ((⌈((-m : ℤ) : ℚ) / (s : ℚ)⌉.toNat : ℤ) : ℚ) :=
      h1.trans (by exact_mod_cast h2)
    rw [div_le_iff₀ hsq] at h3
    have h4 : (-m : ℤ) ≤ (⌈((-m : ℤ) : ℚ) / (s : ℚ)⌉.toNat : ℤ) * s := by exact_mod_cast h3
    linarith

/-! ## Closed form of the slicer -/

theorem band_list_length (t Z1 Z2 : ℚ) : (band_list t Z1 Z2).length = band_count t Z1 Z2 := by
  unfold band_list band_count
  split
  · simp [Nat.add_comm]
  · simp

theorem bands_eq_band_list (t Z1 Z2 : ℚ) (ht : 0 < t) (fuel : Nat)
    (hfuel : band_count t Z1 Z2 ≤ fuel) : bands t fuel Z1 Z2 = some (band_list t Z1 Z2) := by
  unfold band_list
  unfold band_count at hfuel
  by_cases hc : Z1 < -0.000001 ∨ Z2 < -0.00001
  · rw [if_pos hc] at hfuel ⊢
    obtain ⟨f, rfl⟩ : ∃ f, fuel = f + 1 := ⟨fuel - 1, by omega⟩
    unfold bands
    rw [if_pos hc]
    simp only
    have hs := ceil_step_pos t ht
    have hspec := ceil_div_toNat_spec (min ⌈(Z1 + t) * 20⌉ ⌈(Z2 + t) * 20⌉) ⌈t * 20⌉ hs
    have hcore := bands_grid_core t _ ⌈(Z1 + t) * 20⌉ ⌈(Z2 + t) * 20⌉ hspec.1 hspec.2 f
      (by omega)
    unfold ceil20
    rw [hcore]
    rfl
  · rw [if_neg hc]
    unfold bands
    rw [if_neg hc]

/-- With a positive plunge increment and fuel for `band_count` passes, a `line_to` that is not
the first of its shape records the target and emits the bands of `band_list`. -/
theorem line_to_eq (diam : ℚ) (fuel : Nat) (g : Globals) (input : inputshape) (X2 Y2 Z2 : ℚ)
    (hfirst : g.first = false) (ht : 0 < g.tooldepth)
    (hfuel : band_count g.tooldepth g.last_Z Z2 ≤ fuel) :
    line_to diam fuel g input X2 Y2 Z2
      = some ({ g with last_X := X2, last_Y := Y2, last_Z := Z2 },
          emit_bands diam g.toolnr g.last_X g.last_Y X2 Y2
            (band_list g.tooldepth g.last_Z Z2) input 0) := by
  unfold line_to
  simp only [hfirst, Bool.false_eq_true, if_false]
  rw [line_to_loop_eq_bands, bands_eq_band_list _ _ _ ht fuel hfuel]
  rfl

theorem line_to_segments (diam : ℚ) (fuel : Nat) (g : Globals) (input : inputshape)
    (X2 Y2 Z2 : ℚ) (hfirst : g.first = false) (ht : 0 < g.tooldepth)
    (hfuel : band_count g.tooldepth g.last_Z Z2 ≤ fuel) :
    ∃ r, line_to diam fuel g input X2 Y2 Z2 = some r ∧
      List.Perm r.2.segments (input.segments ++ (band_list g.tooldepth g.last_Z Z2).map
        (fun b => (⟨g.last_X, g.last_Y, X2, Y2, b.1, b.2⟩ : PathSegment))) :=
  ⟨_, line_to_eq diam fuel g input X2 Y2 Z2 hfirst ht hfuel, emit_bands_segments _ _ _ _ _ _ _ _ _⟩

theorem band_count_descending (t Z1 Z2 : ℚ) (hdesc : Z2 ≤ Z1) (hz2 : Z2 < -0.00001) :
    band_count t Z1 Z2 = 1 + increments_to_cover t (-(ceil20 (Z2 + t))) := by
  unfold band_count increments_to_cover ceil20
  rw [if_pos (Or.inr hz2)]
  have hmono : ⌈(Z2 + t) * 20⌉ ≤ ⌈(Z1 + t) * 20⌉ := Int.ceil_mono (by linarith)
  rw [min_eq_right hmono]
  congr 3
  push_cast
  by_cases hs : (⌈t * 20⌉ : ℚ) = 0
  · simp [hs]
  · field_simp
    ring

/-! ## Depth values written by the slicer -/

theorem line_to_band_depths (diam : ℚ) (toolnr : Int) (input : inputshape) (depth : Nat)
    (X1 Y1 Z1 X2 Y2 Z2 : ℚ) :
    ∀ d ∈ (line_to_band diam toolnr input depth X1 Y1 Z1 X2 Y2 Z2).depths,
      d ∈ input.depths ∨ (d = Z1 ∨ d = Z2) := by
  unfold line_to_band inputshape.depths
  simp only
  set td0 : tooldepth := { depth := Z1, toolnr := toolnr, diameter := diam, toollevels := [] }
  set f1 : tooldepth → tooldepth := fun td => if td.toollevels.length < 1
      then { td with toollevels := td.toollevels ++ [manual_level diam toolnr Z1] } else td
  set f2 : tooldepth → tooldepth := fun td => { td with
      toollevels := td.toollevels.modify (fun tl => tl.add_poly_vcarve X1 Y1 X2 Y2 Z1 Z2) 0 }
  have hpad : ∀ d ∈ ((pad_tooldepths input.tooldepths depth td0).map tooldepth.depths).flatten,
      d ∈ (input.tooldepths.map tooldepth.depths).flatten ∨ (d = Z1 ∨ d = Z2) := by
    intro d hd
    simp only [pad_tooldepths, List.map_append, List.flatten_append, List.mem_append] at hd
    rcases hd with hd | hd
    · exact Or.inl hd
    · right; left
      simp only [List.map_replicate, List.mem_flatten, List.mem_replicate] at hd
      obtain ⟨l, ⟨_, rfl⟩, hl⟩ := hd
      simpa [tooldepth.depths, td0] using hl
  have hf1 : ∀ a, ∀ d ∈ tooldepth.depths (f1 a), d ∈ tooldepth.depths a ∨ (d = Z1 ∨ d = Z2) := by
    intro a d hd
    simp only [f1] at hd
    split at hd
    · simp only [tooldepth.depths, List.map_append, List.flatten_append, List.mem_cons,
        List.mem_append, List.map_cons, List.map_nil, List.flatten_cons, List.flatten_nil,
        List.append_nil, toollevel.depths, manual_level, List.not_mem_nil, or_false] at hd ⊢
      tauto
    · exact Or.inl hd
  have hf2 : ∀ a, ∀ d ∈ tooldepth.depths (f2 a), d ∈ tooldepth.depths a ∨ (d = Z1 ∨ d = Z2) := by
    intro a d hd
    simp only [f2, tooldepth.depths, List.mem_cons] at hd ⊢
    rcases hd with hd | hd
    · exact Or.inl (Or.inl hd)
    · have := mem_flatten_map_modify toollevel.depths
        (fun tl => tl.add_poly_vcarve X1 Y1 X2 Y2 Z1 Z2) (fun d => d = Z1 ∨ d = Z2) ?_
        a.toollevels 0 d hd
      · tauto
      · intro tl y hy
        simp only [toollevel.depths, toollevel.add_poly_vcarve, List.map_append,
          List.flatten_append, List.mem_cons, List.mem_append, List.map_cons, List.map_nil,
          List.flatten_cons, List.flatten_nil, List.append_nil, List.not_mem_nil,
          or_false] at hy ⊢
        tauto
  intro d hd
  rcases mem_flatten_map_modify tooldepth.depths f2 (fun d => d = Z1 ∨ d = Z2) hf2 _ depth d hd
    with h | h
  · rcases mem_flatten_map_modify tooldepth.depths f1 (fun d => d = Z1 ∨ d = Z2) hf1 _ depth d h
      with h' | h'
    · exact hpad d h'
    · exact Or.inr h'
  · exact Or.inr h

theorem emit_bands_depths (diam : ℚ) (toolnr : Int) (X1 Y1 X2 Y2 : ℚ) :
    ∀ (bs : List (ℚ × ℚ)) (input : inputshape) (depth : Nat),
      ∀ d ∈ (emit_bands diam toolnr X1 Y1 X2 Y2 bs input depth).depths,
        d ∈ input.depths ∨ ∃ b ∈ bs, d = b.1 ∨ d = b.2
  | [], input, depth, d, hd => by
    simp only [emit_bands] at hd
    exact Or.inl hd
  | b :: bs, input, depth, d, hd => by
    simp only [emit_bands] at hd
    rcases emit_bands_depths diam toolnr X1 Y1 X2 Y2 bs _ (depth + 1) d hd with h | ⟨b', hb', h⟩
    · rcases line_to_band_depths diam toolnr input (depth + 1) X1 Y1 b.1 X2 Y2 b.2 d h
        with h' | h'
      · exact Or.inl h'
      · exact Or.inr ⟨b, List.mem_cons_self _ _, h'⟩
    · exact Or.inr ⟨b', List.mem_cons_of_mem _ hb', h⟩

/-! ## Depth fields of the tool depths appended by the slicer -/

theorem line_to_band_tooldepth_depths (diam : ℚ) (toolnr : Int) (input : inputshape)
    (depth : Nat) (X1 Y1 Z1 X2 Y2 Z2 : ℚ) :
    (line_to_band diam toolnr input depth X1 Y1 Z1 X2 Y2 Z2).tooldepths.map tooldepth.depth
      = input.tooldepths.map tooldepth.depth
          ++ List.replicate (depth + 1 - input.tooldepths.length) Z1 := by
  unfold line_to_band
  simp only
  rw [map_modify_of_invariant tooldepth.depth
      (fun td => { td with
        toollevels := td.toollevels.modify (fun tl => tl.add_poly_vcarve X1 Y1 X2 Y2 Z1 Z2) 0 })
      (fun a => rfl),
    map_modify_of_invariant tooldepth.depth
      (fun td => if td.toollevels.length < 1
        then { td with toollevels := td.toollevels ++ [manual_level diam toolnr Z1] } else td)
      (fun a => by simp only; split <;> rfl)]
  simp [pad_tooldepths]

theorem line_to_band_length (diam : ℚ) (toolnr : Int) (input : inputshape)
    (depth : Nat) (X1 Y1 Z1 X2 Y2 Z2 : ℚ) :
    (line_to_band diam toolnr input depth X1 Y1 Z1 X2 Y2 Z2).tooldepths.length
      = max input.tooldepths.length (depth + 1) := by
  have h := congrArg List.length
    (line_to_band_tooldepth_depths diam toolnr input depth X1 Y1 Z1 X2 Y2 Z2)
  simp only [List.length_map, List.length_append, List.length_replicate] at h
  omega

theorem emit_bands_tooldepth_depths (diam : ℚ) (toolnr : Int) (X1 Y1 X2 Y2 : ℚ) :
    ∀ (bs : List (ℚ × ℚ)) (input : inputshape) (depth : Nat),
      ∃ new : List ℚ,
        (emit_bands diam toolnr X1 Y1 X2 Y2 bs input depth).tooldepths.map tooldepth.depth
          = input.tooldepths.map tooldepth.depth ++ new ∧
        (∀ d ∈ new, d ∈ bs.map Prod.fst) ∧
        ((bs.map Prod.fst).Pairwise (· ≤ ·) → new.Pairwise (· ≤ ·))
  | [], input, depth => ⟨[], by simp [emit_bands]⟩
  | b :: bs, input, depth => by
    obtain ⟨new, h1, h2, h3⟩ := emit_bands_tooldepth_depths diam toolnr X1 Y1 X2 Y2 bs
      (line_to_band diam toolnr input (depth + 1) X1 Y1 b.1 X2 Y2 b.2) (depth + 1)
    refine ⟨List.replicate (depth + 1 + 1 - input.tooldepths.length) b.1 ++ new, ?_, ?_, ?_⟩
    · simp only [emit_bands]
      rw [h1, line_to_band_tooldepth_depths, List.append_assoc]
    · intro d hd
      rcases List.mem_append.mp hd with hd | hd
      · rw [List.mem_replicate] at hd
        simp [hd.2]
      · exact List.mem_cons_of_mem _ (h2 d hd)
    · intro hp
      rw [List.map_cons, List.pairwise_cons] at hp
      rw [List.pairwise_append]
      refine ⟨?_, h3 hp.2, ?_⟩
      · rw [List.pairwise_replicate]
        right; exact le_refl _
      · intro x hx y hy
        rw [List.mem_replicate] at hx
        rw [hx.2]
        exact hp.1 y (h2 y hy)

theorem emit_bands_tooldepth_depths_tight (diam : ℚ) (toolnr : Int) (X1 Y1 X2 Y2 : ℚ) :
    ∀ (bs : List (ℚ × ℚ)) (input : inputshape) (depth : Nat),
      input.tooldepths.length = depth + 1 →
      (emit_bands diam toolnr X1 Y1 X2 Y2 bs input depth).tooldepths.map tooldepth.depth
        = input.tooldepths.map tooldepth.depth ++ bs.map Prod.fst
  | [], input, depth, _ => by simp [emit_bands]
  | b :: bs, input, depth, hlen => by
    simp only [emit_bands]
    rw [emit_bands_tooldepth_depths_tight diam toolnr X1 Y1 X2 Y2 bs _ (depth + 1)
      (by rw [line_to_band_length]; omega), line_to_band_tooldepth_depths, hlen]
    simp

/-! ## Bounds on the bands -/

theorem band_list_fst_increasing (t Z1 Z2 : ℚ) (ht : 0 < t) :
    ((band_list t Z1 Z2).map Prod.fst).Pairwise (· < ·) := by
  unfold band_list
  split
  · have hs : (1 : ℚ) ≤ (⌈t * 20⌉ : ℚ) := by exact_mod_cast ceil_step_pos t ht
    have ha : (Z1 + t) * 20 ≤ (⌈(Z1 + t) * 20⌉ : ℚ) := Int.le_ceil _
    rw [List.map_cons, List.map_map, List.pairwise_cons]
    constructor
    · intro x hx
      rw [List.mem_map] at hx
      obtain ⟨k, _, rfl⟩ := hx
      simp only [Function.comp]
      push_cast
      have hk : (0 : ℚ) ≤ (k : ℚ) * (⌈t * 20⌉ : ℚ) := by positivity
      rw [lt_div_iff₀ (by norm_num : (0 : ℚ) < 20)]
      linarith
    · refine List.Pairwise.map _ ?_ (List.pairwise_lt_range _)
      intro i j hij
      simp only [Function.comp]
      push_cast
      have hij2 : (i : ℚ) + 1 ≤ (j : ℚ) := by exact_mod_cast hij
      have : (i : ℚ) * (⌈t * 20⌉ : ℚ) < (j : ℚ) * (⌈t * 20⌉ : ℚ) := by nlinarith
      rw [div_lt_div_iff_of_pos_right (by norm_num : (0 : ℚ) < 20)]
      linarith
  · simp

theorem band_list_bounds (t Z1 Z2 : ℚ) (ht : 0 < t) (hz1 : Z1 < 0) (hz2 : Z2 < 0) :
    ∀ b ∈ band_list t Z1 Z2, min b.1 b.2 < 0 ∧ max b.1 b.2 < |Z2 - Z1| + 0.05 := by
  intro b hb
  have habs : (0 : ℚ) ≤ |Z2 - Z1| := abs_nonneg _
  unfold band_list at hb
  split at hb
  · rw [List.mem_cons] at hb
    rcases hb with rfl | hb
    · refine ⟨by simp only [min_lt_iff]; exact Or.inl hz1, ?_⟩
      have : max Z1 Z2 < 0 := max_lt hz1 hz2
      have h05 : (0 : ℚ) < 0.05 := by norm_num
      simp only
      linarith
    · rw [List.mem_map] at hb
      obtain ⟨k, hk, rfl⟩ := hb
      rw [List.mem_range] at hk
      have hs := ceil_step_pos t ht
      have hspec := (ceil_div_toNat_spec (min ⌈(Z1 + t) * 20⌉ ⌈(Z2 + t) * 20⌉) ⌈t * 20⌉ hs).1 k hk
      set a := ⌈(Z1 + t) * 20⌉ with ha
      set c := ⌈(Z2 + t) * 20⌉ with hc
      set s := ⌈t * 20⌉ with hsdef
      have ha1 : (Z1 + t) * 20 ≤ (a : ℚ) := Int.le_ceil _
      have ha2 : (a : ℚ) < (Z1 + t) * 20 + 1 := Int.ceil_lt_add_one _
      have hc1 : (Z2 + t) * 20 ≤ (c : ℚ) := Int.le_ceil _
      have hc2 : (c : ℚ) < (Z2 + t) * 20 + 1 := Int.ceil_lt_add_one _
      have hab1 : Z2 - Z1 ≤ |Z2 - Z1| := le_abs_self _
      have hab2 : -(Z2 - Z1) ≤ |Z2 - Z1| := neg_le_abs _
      have hspecq : ((min a c + (k : ℤ) * s : ℤ) : ℚ) < 0 := by exact_mod_cast hspec
      push_cast at hspecq
      simp only
      push_cast
      constructor
      · rw [min_lt_iff]
        rcases min_choice (a : ℚ) (c : ℚ) with h | h <;> rw [h] at hspecq
        · left; rw [div_lt_iff₀ (by norm_num : (0 : ℚ) < 20)]; linarith
        · right; rw [div_lt_iff₀ (by norm_num : (0 : ℚ) < 20)]; linarith
      · rw [max_lt_iff]
        have hmin1 : min (a : ℚ) (c : ℚ) ≤ a := min_le_left _ _
        have hmin2 : min (a : ℚ) (c : ℚ) ≤ c := min_le_right _ _
        have h20 : (|Z2 - Z1| + 0.05) * 20 = |Z2 - Z1| * 20 + 1 := by norm_num; ring
        rcases min_choice (a : ℚ) (c : ℚ) with h | h <;> rw [h] at hspecq
        · constructor <;> rw [div_lt_iff₀ (by norm_num : (0 : ℚ) < 20), h20] <;> linarith
        · constructor <;> rw [div_lt_iff₀ (by norm_num : (0 : ℚ) < 20), h20] <;> linarith
  · simp at hb

/-! ## Worked examples of the slicer -/

theorem line_to_first (diam : ℚ) (fuel : Nat) (g : Globals) (input : inputshape) (X2 Y2 Z2 : ℚ)
    (hfirst : g.first = true) :
    line_to diam fuel g input X2 Y2 Z2
      = some ({ g with last_X := X2, last_Y := Y2, last_Z := Z2, first := false,
                       cur_X := X2, cur_Y := Y2, cur_Z := Z2 }, input) := by
  simp [line_to, hfirst]

theorem line_to_fresh_pen (diam : ℚ) (fuel : Nat) (t z : ℚ) (input : inputshape) :
    line_to diam fuel (fresh_pen t) input 0 0 z = some (pen_at t z, input) := by
  rw [line_to_first diam fuel (fresh_pen t) input 0 0 z rfl]
  rfl

theorem band_list_example_descending :
    band_list (1 / 2) (-1) (-3 / 2) = [(-1, -3 / 2), (-1 / 2, -1), (0, -1 / 2)] := by
  have h1 : ⌈((-1 : ℚ) + 1 / 2) * 20⌉ = -10 := by norm_num [Int.ceil_eq_iff]
  have h2 : ⌈((-3 / 2 : ℚ) + 1 / 2) * 20⌉ = -20 := by norm_num [Int.ceil_eq_iff]
  have h3 : ⌈((1 / 2 : ℚ)) * 20⌉ = 10 := by norm_num [Int.ceil_eq_iff]
  have h4 : ⌈(((-(min (-10) (-20)) : ℤ) : ℚ)) / ((10 : ℤ) : ℚ)⌉ = 2 := by
    norm_num [Int.ceil_eq_iff]
  have h5 : Int.toNat 2 = 2 := rfl
  unfold band_list
  rw [h1, h2, h3, h4, h5]
  norm_num [List.range_succ]

theorem band_list_example_steep :
    band_list (1 / 2) (-1 / 2) (-3 / 2) = [(-1 / 2, -3 / 2), (0, -1), (1 / 2, -1 / 2)] := by
  have h1 : ⌈((-1 / 2 : ℚ) + 1 / 2) * 20⌉ = 0 := by norm_num
  have h2 : ⌈((-3 / 2 : ℚ) + 1 / 2) * 20⌉ = -20 := by norm_num [Int.ceil_eq_iff]
  have h3 : ⌈((1 / 2 : ℚ)) * 20⌉ = 10 := by norm_num [Int.ceil_eq_iff]
  have h4 : ⌈(((-(min 0 (-20)) : ℤ) : ℚ)) / ((10 : ℤ) : ℚ)⌉ = 2 := by
    norm_num [Int.ceil_eq_iff]
  have h5 : Int.toNat 2 = 2 := rfl
  unfold band_list
  rw [h1, h2, h3, h4, h5]
  norm_num [List.range_succ]

theorem band_count_example_descending : band_count (1 / 2) (-1) (-3 / 2) = 3 := by
  rw [← band_list_length, band_list_example_descending]
  rfl

theorem band_count_example_steep : band_count (1 / 2) (-1 / 2) (-3 / 2) = 3 := by
  rw [← band_list_length, band_list_example_steep]
  rfl

theorem emit_bands_fresh_tooldepth_depths (diam : ℚ) (toolnr : Int) (X1 Y1 X2 Y2 : ℚ)
    (b : ℚ × ℚ) (bs : List (ℚ × ℚ)) (input : inputshape) (hin : input.tooldepths = []) :
    (emit_bands diam toolnr X1 Y1 X2 Y2 (b :: bs) input 0).tooldepths.map tooldepth.depth
      = b.1 :: b.1 :: bs.map Prod.fst := by
  simp only [emit_bands]
  rw [emit_bands_tooldepth_depths_tight diam toolnr X1 Y1 X2 Y2 bs _ (0 + 1)
    (by rw [line_to_band_length, hin]; rfl), line_to_band_tooldepth_depths, hin]
  rfl

/-! ## Segment count of a descending move (C1) -/

/-- C1 (as stated, refuted): with plunge increment 0.5, the move from remembered depth -1 down to
-1.5 emits 3 segments, while one 0.05-quantized increment of 0.5 covers |z2 - z1| = 0.5. -/
theorem line_to_count_not_cover_of_move :
    ∃ r, line_to 6 3 (pen_at (1 / 2) (-1)) (inputshape.new "STL path") 1 0 (-3 / 2) = some r ∧
      r.2.segments.length = 3 ∧ increments_to_cover (1 / 2) |(-3 / 2 : ℚ) - (-1)| = 1 := by
  obtain ⟨r, hr, hp⟩ := line_to_segments 6 3 (pen_at (1 / 2) (-1)) (inputshape.new "STL path")
    1 0 (-3 / 2) rfl (by norm_num [pen_at])
    (by simp only [pen_at]; rw [band_count_example_descending])
  refine ⟨r, hr, ?_, ?_⟩
  · rw [hp.length_eq]
    simp only [pen_at, band_list_example_descending]
    rfl
  · have h1 : |(-3 / 2 : ℚ) - (-1)| / ceil20 (1 / 2) = 1 := by
      have : ceil20 (1 / 2) = 1 / 2 := by
        unfold ceil20
        norm_num
      rw [this]
      norm_num [abs_of_neg]
    unfold increments_to_cover
    rw [h1]
    simp

/-! ## Sign of the emitted depths (C2) -/

/-- C2 (as stated, refuted): with plunge increment 0.5, the move from remembered depth -0.5 to
-1.5 (both negative) emits the segment with depth range (0.5, -0.5), whose `d1` is positive,
and creates a tool depth of depth 0.5. -/
theorem line_to_emits_positive_depth :
    ∃ r, line_to 6 3 (pen_at (1 / 2) (-1 / 2)) (inputshape.new "STL path") 1 0 (-3 / 2) = some r ∧
      (∃ s ∈ r.2.segments, 0 < s.d1) ∧ (∃ td ∈ r.2.tooldepths, 0 < td.depth) := by
  have hfuel : band_count (pen_at (1 / 2) (-1 / 2)).tooldepth (pen_at (1 / 2) (-1 / 2)).last_Z
      (-3 / 2) ≤ 3 := by
    simp only [pen_at]; rw [band_count_example_steep]
  have ht : 0 < (pen_at (1 / 2) (-1 / 2)).tooldepth := by norm_num [pen_at]
  have heq := line_to_eq 6 3 (pen_at (1 / 2) (-1 / 2)) (inputshape.new "STL path")
    1 0 (-3 / 2) rfl ht hfuel
  refine ⟨_, heq, ?_, ?_⟩
  · refine ⟨⟨0, 0, 1, 0, 1 / 2, -1 / 2⟩, ?_, by norm_num⟩
    rw [(emit_bands_segments _ _ _ _ _ _ _ _ _).mem_iff]
    simp only [pen_at, band_list_example_steep]
    simp
  · have hd := emit_bands_fresh_tooldepth_depths 6 (pen_at (1 / 2) (-1 / 2)).toolnr
      (pen_at (1 / 2) (-1 / 2)).last_X (pen_at (1 / 2) (-1 / 2)).last_Y 1 0
      (-1 / 2, -3 / 2) [(0, -1), (1 / 2, -1 / 2)] (inputshape.new "STL path") rfl
    have hmem : (1 / 2 : ℚ) ∈ (emit_bands 6 (pen_at (1 / 2) (-1 / 2)).toolnr
        (pen_at (1 / 2) (-1 / 2)).last_X (pen_at (1 / 2) (-1 / 2)).last_Y 1 0
        [(-1 / 2, -3 / 2), (0, -1), (1 / 2, -1 / 2)]
        (inputshape.new "STL path") 0).tooldepths.map tooldepth.depth := by
      rw [hd]; simp
    rw [List.mem_map] at hmem
    obtain ⟨td, htd, hdep⟩ := hmem
    refine ⟨td, ?_, by rw [hdep]; norm_num⟩
    simp only [pen_at, band_list_example_steep] at htd ⊢
    exact htd

/-! ## Order of the tool depths (C9) -/

/-- C9 (as stated, refuted): a shape built by the slicer with plunge increment 0.5 (first call
to depth -1, then a move down to -1.5) gets tool depths -1, -1, -0.5, 0 in that order: their
magnitudes 1, 1, 0.5, 0 do not strictly increase. -/
theorem line_to_tooldepths_not_deepening :
    ∃ r, (line_to 6 3 (fresh_pen (1 / 2)) (inputshape.new "STL path") 0 0 (-1)).bind
        (fun r1 => line_to 6 3 r1.1 r1.2 1 0 (-3 / 2)) = some r ∧
      r.2.tooldepths.map tooldepth.depth = [-1, -1, -1 / 2, 0] ∧
      ¬ (r.2.tooldepths.map (fun td => |td.depth|)).Pairwise (· < ·) := by
  have hfuel : band_count (pen_at (1 / 2) (-1)).tooldepth (pen_at (1 / 2) (-1)).last_Z
      (-3 / 2) ≤ 3 := by
    simp only [pen_at]; rw [band_count_example_descending]
  have heq := line_to_eq 6 3 (pen_at (1 / 2) (-1)) (inputshape.new "STL path")
    1 0 (-3 / 2) rfl (by norm_num [pen_at]) hfuel
  have hd : (emit_bands 6 (pen_at (1 / 2) (-1)).toolnr (pen_at (1 / 2) (-1)).last_X
      (pen_at (1 / 2) (-1)).last_Y 1 0
      (band_list (pen_at (1 / 2) (-1)).tooldepth (pen_at (1 / 2) (-1)).last_Z (-3 / 2))
      (inputshape.new "STL path") 0).tooldepths.map tooldepth.depth = [-1, -1, -1 / 2, 0] := by
    simp only [pen_at, band_list_example_descending]
    rw [emit_bands_fresh_tooldepth_depths 6 1 0 0 1 0 _ _ (inputshape.new "STL path") rfl]
    rfl
  rw [line_to_fresh_pen, Option.some_bind, heq]
  refine ⟨_, rfl, hd, ?_⟩
  · have hmap : ∀ l : List tooldepth, l.map (fun td => |td.depth|)
        = (l.map tooldepth.depth).map (fun d => |d|) := by
      intro l; rw [List.map_map]; rfl
    rw [hmap, hd]
    norm_num

/-- C9 (amended): the depth values of the ToolDepth entries that one `line_to` call (positive
plunge increment, not the first call of the shape) appends to the shape never decrease in value
in the order they are appended: each new band is at the same depth as the previous one or one
quantized increment shallower, not deeper. On a shape that had no tool depth yet the first
entry only repeats the starting depth: all entries after it strictly increase in value. -/
theorem line_to_tooldepths_ascending (diam : ℚ) (fuel : Nat) (g : Globals)
    (input : inputshape) (X2 Y2 Z2 : ℚ) (hfirst : g.first = false) (ht : 0 < g.tooldepth)
    (hfuel : band_count g.tooldepth g.last_Z Z2 ≤ fuel) :
    ∃ r new, line_to diam fuel g input X2 Y2 Z2 = some r ∧
      r.2.tooldepths.map tooldepth.depth = input.tooldepths.map tooldepth.depth ++ new ∧
      new.Pairwise (· ≤ ·) ∧
      (input.tooldepths = [] → new.tail.Pairwise (· < ·)) := by
  have hinc := band_list_fst_increasing g.tooldepth g.last_Z Z2 ht
  obtain ⟨new, h1, _, h3⟩ := emit_bands_tooldepth_depths diam g.toolnr g.last_X g.last_Y X2 Y2
    (band_list g.tooldepth g.last_Z Z2) input 0
  refine ⟨_, new, line_to_eq diam fuel g input X2 Y2 Z2 hfirst ht hfuel, h1,
    h3 (hinc.imp (fun h => le_of_lt h)), ?_⟩
  intro hin
  rcases hbl : band_list g.tooldepth g.last_Z Z2 with _ | ⟨b, bs⟩
  · rw [hbl] at h1
    simp only [emit_bands, hin, List.map_nil, List.nil_append] at h1
    rw [← h1]
    simp
  · rw [hbl] at h1 hinc
    rw [emit_bands_fresh_tooldepth_depths diam g.toolnr g.last_X g.last_Y X2 Y2 b bs input hin,
      hin, List.map_nil, List.nil_append] at h1
    rw [← h1]
    simpa using hinc

theorem line_to_tooldepths_ascending_witness :
    ∃ r new, line_to 6 3 (pen_at (1 / 2) (-1)) (inputshape.new "STL path") 1 0 (-3 / 2) = some r ∧
      r.2.tooldepths.map tooldepth.depth
        = (inputshape.new "STL path").tooldepths.map tooldepth.depth ++ new ∧
      new.Pairwise (· ≤ ·) ∧
      ((inputshape.new "STL path").tooldepths = [] → new.tail.Pairwise (· < ·)) :=
  line_to_tooldepths_ascending 6 3 (pen_at (1 / 2) (-1)) (inputshape.new "STL path")
    1 0 (-3 / 2) rfl (by norm_num [pen_at])
    (by simp only [pen_at]; rw [band_count_example_descending])

/-! ## The first call of a shape (C10) -/

theorem band_list_head (t Z1 Z2 : ℚ) :
    (band_list t Z1 Z2).head? = if Z1 < -0.000001 ∨ Z2 < -0.00001 then some (Z1, Z2) else none := by
  unfold band_list
  split <;> rfl

/-- C10: when the pen is marked `first`, `line_to(shape, x2, y2, z2)` returns (whatever the
fuel, so also for targets far below the surface) with the shape unchanged - no PathSegment, no
ToolDepth - and only clears `first` and records `(x2, y2, z2)` as last (and current) position;
the next call then emits only segments that start at `(x2, y2)`, the first of them with start
depth `z2`. -/
theorem line_to_first_call (diam : ℚ) (fuel : Nat) (g : Globals) (input : inputshape)
    (X2 Y2 Z2 : ℚ) (hfirst : g.first = true) :
    line_to diam fuel g input X2 Y2 Z2
      = some ({ g with last_X := X2, last_Y := Y2, last_Z := Z2, first := false,
                       cur_X := X2, cur_Y := Y2, cur_Z := Z2 }, input) ∧
    ∀ (fuel2 : Nat) (X3 Y3 Z3 : ℚ), 0 < g.tooldepth → band_count g.tooldepth Z2 Z3 ≤ fuel2 →
      ∃ r, line_to diam fuel2
          { g with last_X := X2, last_Y := Y2, last_Z := Z2, first := false,
                   cur_X := X2, cur_Y := Y2, cur_Z := Z2 } input X3 Y3 Z3 = some r ∧
        List.Perm r.2.segments (input.segments ++ (band_list g.tooldepth Z2 Z3).map
          (fun b => (⟨X2, Y2, X3, Y3, b.1, b.2⟩ : PathSegment))) ∧
        (band_list g.tooldepth Z2 Z3).head?
          = if Z2 < -0.000001 ∨ Z3 < -0.00001 then some (Z2, Z3) else none := by
  refine ⟨line_to_first diam fuel g input X2 Y2 Z2 hfirst, ?_⟩
  intro fuel2 X3 Y3 Z3 ht hfuel
  obtain ⟨r, hr, hp⟩ := line_to_segments diam fuel2
    { g with last_X := X2, last_Y := Y2, last_Z := Z2, first := false,
             cur_X := X2, cur_Y := Y2, cur_Z := Z2 } input X3 Y3 Z3 rfl ht hfuel
  exact ⟨r, hr, hp, band_list_head _ _ _⟩

theorem line_to_first_call_witness :
    line_to 6 0 (fresh_pen (1 / 2)) (inputshape.new "STL path") 0 0 (-100)
      = some (pen_at (1 / 2) (-100), inputshape.new "STL path") :=
  (line_to_first_call 6 0 (fresh_pen (1 / 2)) (inputshape.new "STL path") 0 0 (-100) rfl).1

/-! ## Direction alternation (C8) -/

theorem tool_loop_evens (sc : scene) (maxdepth : Int → ℚ) (omit_cutout : Bool) :
    ∀ (k : Nat) (even : Bool), k ≤ sc.tools.length →
      (tool_loop sc maxdepth omit_cutout k even).filterMap PlannerCall.even?
        = (List.range (k + if k = sc.tools.length ∧ 1 ≤ k ∧ sc.finishing_pass = true
              then 1 else 0)).map (fun j => xor even (decide (j % 2 = 1)))
  | 0, even, _ => by simp [tool_loop]
  | i + 1, even, hk => by
    have hi : i ≤ sc.tools.length := by omega
    have hne : ¬ (i = sc.tools.length ∧ 1 ≤ i ∧ sc.finishing_pass = true) := by omega
    have hstep : ∀ j : Nat, (decide ((j + 1) % 2 = 1)) = !(decide (j % 2 = 1)) := by
      intro j
      rcases Nat.mod_two_eq_zero_or_one j with h | h <;> simp [Nat.add_mod, h]
    unfold tool_loop
    simp only
    by_cases hfin : (i : Int) = (sc.tools.length : Int) - 1 ∧ sc.finishing_pass = true
    · have hin : i + 1 = sc.tools.length := by omega
      rw [if_pos hfin, List.filterMap_cons_some (by rfl), List.filterMap_cons_some (by rfl),
        tool_loop_evens sc maxdepth omit_cutout i (!!even) hi, if_neg hne,
        if_pos ⟨hin, by omega, hfin.2⟩]
      rw [List.range_succ_eq_map, List.range_succ_eq_map]
      simp only [List.map_cons, List.map_map, add_zero, Bool.not_not]
      refine congrArg₂ _ (by simp) (congrArg₂ _ (by simp) ?_)
      apply List.map_congr_left
      intro j _
      simp only [Function.comp, Nat.succ_eq_add_one]
      rw [hstep, hstep]
      simp
    · have hcond : ¬ (i + 1 = sc.tools.length ∧ 1 ≤ i + 1 ∧ sc.finishing_pass = true) := by
        intro h
        exact hfin ⟨by omega, h.2.2⟩
      rw [if_neg hfin, List.filterMap_cons_some (by rfl),
        tool_loop_evens sc maxdepth omit_cutout i (!even) hi, if_neg hne, if_neg hcond]
      rw [add_zero, add_zero, List.range_succ_eq_map]
      simp only [List.map_cons, List.map_map]
      refine congrArg₂ _ (by simp) ?_
      apply List.map_congr_left
      intro j _
      simp only [Function.comp, Nat.succ_eq_add_one]
      rw [hstep]
      cases even <;> cases decide (j % 2 = 1) <;> rfl

/-- C8: for every tool count `n` and finishing-pass flag, the `even` arguments that
`process_stl_file` passes to its successive `create_toolpath` calls are true, false, true, ...
(call `k`, counting from 0, gets `even = (k is even)`), and the number of calls is `n`, plus 1
when `n ≥ 1` and a finishing pass is wanted. -/
theorem process_stl_file_even_alternates (sc : scene) (maxdepth : Int → ℚ) :
    ((process_stl_file sc maxdepth).2.filterMap PlannerCall.even?).length
        = sc.tools.length + (if 1 ≤ sc.tools.length ∧ sc.finishing_pass = true then 1 else 0) ∧
      ∀ k, k < ((process_stl_file sc maxdepth).2.filterMap PlannerCall.even?).length →
        ((process_stl_file sc maxdepth).2.filterMap PlannerCall.even?)[k]?
          = some (decide (k % 2 = 0)) := by
  have hcut : ∀ (b : Bool) (t : Int),
      (if b then [PlannerCall.cutout t] else []).filterMap PlannerCall.even? = [] := by
    intro b t; cases b <;> rfl
  have key : (process_stl_file sc maxdepth).2.filterMap PlannerCall.even?
      = (List.range (sc.tools.length
          + if 1 ≤ sc.tools.length ∧ sc.finishing_pass = true then 1 else 0)).map
          (fun j => xor true (decide (j % 2 = 1))) := by
    unfold process_stl_file
    simp only [List.filterMap_append, hcut, List.append_nil]
    by_cases hc : sc.cutout_depth < 0.01
    · rw [if_pos hc]
      exact tool_loop_evens { sc with cutout_depth := sc.depth } maxdepth _ sc.tools.length true
        (le_refl _) |>.trans (by simp)
    · rw [if_neg hc]
      exact tool_loop_evens sc maxdepth _ sc.tools.length true (le_refl _) |>.trans (by simp)
  rw [key]
  refine ⟨by simp, ?_⟩
  intro k hk
  rw [List.length_map, List.length_range] at hk
  rw [List.getElem?_map, List.getElem?_range hk]
  simp only [Option.map_some', Bool.true_xor, Option.some.injEq]
  rcases Nat.mod_two_eq_zero_or_one k with h | h <;> simp [h]

/-! ## The sampler on a flat height field (C4) -/

theorem probe_ring_flat (get_height : ℚ → ℚ → ℚ) (h : ℚ) (hflat : ∀ x y, get_height x y = h)
    (X Y R balloffset d : ℚ) (hd : h + balloffset ≤ d) :
    ∀ offs : List (ℚ × ℚ), probe_ring get_height X Y R balloffset offs d = d
  | [] => rfl
  | o :: offs => by
    have ih := probe_ring_flat get_height h hflat X Y R balloffset d hd offs
    unfold probe_ring at ih ⊢
    rw [List.foldl_cons, hflat, max_eq_left hd]
    exact ih

theorem ballnose_offset_nonpos (sqrt : ℚ → ℚ) (hs : SqrtLaws sqrt) (orgR R : ℚ)
    (horg : 0 ≤ orgR) : ballnose_offset sqrt orgR R ≤ 0 := by
  unfold ballnose_offset
  have := hs.le_of_le_sq (orgR * orgR - R * R) orgR horg (by nlinarith [mul_self_nonneg R])
  linarith

theorem get_height_tool_flat_aux (sqrt : ℚ → ℚ) (get_height : ℚ → ℚ → ℚ) (h X Y R : ℚ)
    (ballnose : Bool) (hflat : ∀ x y, get_height x y = h) (hR : 0 ≤ R)
    (hs : ballnose = true → SqrtLaws sqrt) :
    get_height_tool sqrt get_height X Y R ballnose = ceilACC (max 0 h) := by
  have hb : ∀ R2 : ℚ, (if ballnose = true then ballnose_offset sqrt R R2 else 0.0) ≤ 0 := by
    intro R2
    split
    · rename_i hbn
      exact ballnose_offset_nonpos sqrt (hs hbn) R R2 hR
    · norm_num
  have hring : ∀ (Rp R2 : ℚ) (offs : List (ℚ × ℚ)),
      probe_ring get_height X Y Rp (if ballnose = true then ballnose_offset sqrt R R2 else 0.0)
        offs (max 0 h) = max 0 h := by
    intro Rp R2 offs
    apply probe_ring_flat get_height h hflat
    have := hb R2
    have := le_max_right 0 h
    linarith
  unfold get_height_tool
  simp only [hflat]
  have hnest : ∀ (Rp R2 R3 : ℚ),
      (if ballnose = true then ballnose_offset sqrt R R2
        else if ballnose = true then ballnose_offset sqrt R R3 else 0.0)
        = (if ballnose = true then ballnose_offset sqrt R R2 else 0.0) := by
    intro Rp R2 R3
    split <;> rfl
  simp only [hnest 0, hring]
  split
  · rfl
  · split
    · rfl
    · split <;> rfl

/-! ## The cutout ramp (C3) -/

theorem polygon_edges_cutout (diam sx sy : ℚ) :
    polygon_edges (cutout_polygon diam sx sy)
      = [((-diam / 2, -diam / 2), (sx + diam / 2, -diam / 2)),
         ((sx + diam / 2, -diam / 2), (sx + diam / 2, sy + diam / 2)),
         ((sx + diam / 2, sy + diam / 2), (-diam / 2, sy + diam / 2)),
         ((-diam / 2, sy + diam / 2), (-diam / 2, -diam / 2))] := rfl

theorem foldl_add_eq_sum (f : ((ℚ × ℚ) × (ℚ × ℚ)) → ℚ) :
    ∀ (es : List ((ℚ × ℚ) × (ℚ × ℚ))) (c : ℚ),
      es.foldl (fun c e => c + f e) c = c + (es.map f).sum
  | [], c => by simp
  | e :: es, c => by
    rw [List.foldl_cons, foldl_add_eq_sum f es, List.map_cons, List.sum_cons]
    ring

theorem circumfence_eq_sum (sqrt : ℚ → ℚ) (es : List ((ℚ × ℚ) × (ℚ × ℚ))) :
    circumfence sqrt es = (es.map (edge_length sqrt)).sum := by
  unfold circumfence
  rw [foldl_add_eq_sum]
  simp

theorem cutout_flat_pass_tooldepths (tdiam : ℚ) (toolnr : Int) (currentdepth : ℚ) :
    ∀ (edges : List ((ℚ × ℚ) × (ℚ × ℚ))) (input : inputshape),
      (cutout_flat_pass tdiam toolnr edges currentdepth input).tooldepths
        = input.tooldepths ++ edges.map (fun e =>
            cutout_tooldepth tdiam toolnr (some "Cutout") e currentdepth currentdepth
              currentdepth)
  | [], input => by simp [cutout_flat_pass]
  | e :: es, input => by
    have ih := cutout_flat_pass_tooldepths tdiam toolnr currentdepth es
      { input with tooldepths := input.tooldepths ++
        [cutout_tooldepth tdiam toolnr (some "Cutout") e currentdepth currentdepth
          currentdepth] }
    unfold cutout_flat_pass at ih ⊢
    rw [List.foldl_cons, ih]
    simp

/-- What a ramp segment looks like: it starts at or below the surface and rises by the gradient
times the length of its own edge. -/
theorem ramp_lap_spec (sqrt : ℚ → ℚ) (tdiam : ℚ) (toolnr : Int) (gradient : ℚ) :
    ∀ (es : List ((ℚ × ℚ) × (ℚ × ℚ))) (cd : ℚ) (input : inputshape),
      ∃ new : List tooldepth,
        (ramp_lap sqrt tdiam toolnr gradient es cd input).2.tooldepths
          = input.tooldepths ++ new ∧
        new.length ≤ es.length ∧
        (∀ td ∈ new, ∀ s ∈ td.segments,
          s.d1 ≤ 0 ∧ s.d2 = s.d1 + gradient * dist sqrt s.x1 s.y1 s.x2 s.y2) ∧
        (0 < (ramp_lap sqrt tdiam toolnr gradient es cd input).1 ∨
          (ramp_lap sqrt tdiam toolnr gradient es cd input).1
            = cd + gradient * (es.map (edge_length sqrt)).sum)
  | [], cd, input => ⟨[], by simp [ramp_lap]⟩
  | e :: es, cd, input => by
    unfold ramp_lap
    by_cases hcd : cd > 0
    · rw [if_pos hcd]
      exact ⟨[], by simp, by simp, by simp, Or.inl hcd⟩
    · rw [if_neg hcd]
      simp only
      obtain ⟨new, h1, h2, h3, h4⟩ := ramp_lap_spec sqrt tdiam toolnr gradient es
        (cd + gradient * edge_length sqrt e)
        { input with tooldepths := input.tooldepths ++
          [cutout_tooldepth tdiam toolnr none e cd cd (cd + gradient * edge_length sqrt e)] }
      refine ⟨cutout_tooldepth tdiam toolnr none e cd cd (cd + gradient * edge_length sqrt e)
        :: new, ?_, ?_, ?_, ?_⟩
      · rw [h1]; simp
      · simp only [List.length_cons]; omega
      · intro td htd s hs
        rw [List.mem_cons] at htd
        rcases htd with rfl | htd
        · simp only [cutout_tooldepth, tooldepth.segments, toollevel.add_poly_vcarve,
            List.map_cons, List.map_nil, List.flatten_cons, List.flatten_nil, List.nil_append,
            List.append_nil, List.mem_singleton] at hs
          subst hs
          exact ⟨not_lt.mp hcd, rfl⟩
        · exact h3 td htd s hs
      · rcases h4 with h4 | h4
        · exact Or.inl h4
        · right
          rw [h4, List.map_cons, List.sum_cons]
          ring

theorem ramp_loop_spec (sqrt : ℚ → ℚ) (tdiam : ℚ) (toolnr : Int) (gradient : ℚ)
    (edges : List ((ℚ × ℚ) × (ℚ × ℚ)))
    (hG : 0 ≤ gradient * (edges.map (edge_length sqrt)).sum) :
    ∀ (fuel : Nat) (cd : ℚ) (input : inputshape),
      -cd ≤ fuel * (gradient * (edges.map (edge_length sqrt)).sum) →
      ∃ r new, ramp_loop sqrt tdiam toolnr gradient edges fuel cd input = some r ∧
        0 ≤ r.1 ∧ r.2.tooldepths = input.tooldepths ++ new ∧
        new.length ≤ fuel * edges.length ∧
        ∀ td ∈ new, ∀ s ∈ td.segments,
          s.d1 ≤ 0 ∧ s.d2 = s.d1 + gradient * dist sqrt s.x1 s.y1 s.x2 s.y2
  | 0, cd, input, h => by
    have hcd : ¬ cd < 0 := by
      simp only [Nat.cast_zero, zero_mul] at h
      linarith
    unfold ramp_loop
    rw [if_neg hcd]
    exact ⟨_, [], rfl, not_lt.mp hcd, by simp, by simp, by simp⟩
  | fuel + 1, cd, input, h => by
    unfold ramp_loop
    by_cases hcd : cd < 0
    · rw [if_pos hcd]
      simp only
      obtain ⟨new1, h1, hl1, h3, h4⟩ := ramp_lap_spec sqrt tdiam toolnr gradient edges cd input
      have hnext : -(ramp_lap sqrt tdiam toolnr gradient edges cd input).1
          ≤ fuel * (gradient * (edges.map (edge_length sqrt)).sum) := by
        have hf : (0 : ℚ) ≤ (fuel : ℚ) * (gradient * (edges.map (edge_length sqrt)).sum) :=
          mul_nonneg (Nat.cast_nonneg _) hG
        rcases h4 with h4 | h4
        · linarith
        · rw [h4]
          push_cast at h
          linarith
      obtain ⟨r, new2, hr, hr0, hr2, hl2, hr3⟩ := ramp_loop_spec sqrt tdiam toolnr gradient edges hG
        fuel _ (ramp_lap sqrt tdiam toolnr gradient edges cd input).2 hnext
      refine ⟨r, new1 ++ new2, hr, hr0, ?_, ?_, ?_⟩
      · rw [hr2, h1, List.append_assoc]
      · rw [List.length_append]
        have : (fuel + 1) * edges.length = edges.length + fuel * edges.length := by ring
        omega
      · intro td htd
        rcases List.mem_append.mp htd with htd | htd
        · exact h3 td htd
        · exact hr3 td htd
    · rw [if_neg hcd]
      exact ⟨_, [], rfl, not_lt.mp hcd, by simp, by simp, by simp⟩

theorem dist_horizontal (sqrt : ℚ → ℚ) (hs : SqrtLaws sqrt) (X0 X1 Y : ℚ) :
    dist sqrt X0 Y X1 Y = |X1 - X0| := by
  unfold dist
  rw [sub_self, mul_zero, add_zero, hs.sq]

theorem dist_vertical (sqrt : ℚ → ℚ) (hs : SqrtLaws sqrt) (X Y0 Y1 : ℚ) :
    dist sqrt X Y0 X Y1 = |Y1 - Y0| := by
  unfold dist
  rw [sub_self, mul_zero, zero_add, hs.sq]

theorem circumfence_cutout (sqrt : ℚ → ℚ) (hs : SqrtLaws sqrt) (diam sx sy : ℚ) :
    circumfence sqrt (polygon_edges (cutout_polygon diam sx sy))
      = 2 * |sx + diam| + 2 * |sy + diam| := by
  rw [circumfence_eq_sum, polygon_edges_cutout]
  simp only [List.map_cons, List.map_nil, List.sum_cons, List.sum_nil, edge_length,
    dist_horizontal sqrt hs, dist_vertical sqrt hs]
  have h1 : sx + diam / 2 - -diam / 2 = sx + diam := by ring
  have h2 : sy + diam / 2 - -diam / 2 = sy + diam := by ring
  have h3 : -diam / 2 - (sx + diam / 2) = -(sx + diam) := by ring
  have h4 : -diam / 2 - (sy + diam / 2) = -(sy + diam) := by ring
  rw [h1, h2, h3, h4, abs_neg, abs_neg]
  ring

theorem create_cutout_spec (sqrt : ℚ → ℚ) (fuel : Nat)
    (diam tdiam maxdepth cutout_depth sx sy : ℚ) (toolnr : Int)
    (hC : circumfence sqrt (polygon_edges (cutout_polygon diam sx sy)) ≠ 0)
    (hfuel : cutout_depth ≤ fuel * |maxdepth|) :
    ∃ r, create_cutout sqrt fuel diam tdiam maxdepth cutout_depth sx sy toolnr = some r ∧
      0 ≤ r.1 ∧
      ∀ s ∈ ramp_segments r.2,
        s.d1 ≤ 0 ∧
        s.d2 = s.d1 + |maxdepth| / circumfence sqrt (polygon_edges (cutout_polygon diam sx sy))
          * dist sqrt s.x1 s.y1 s.x2 s.y2 := by
  set edges := polygon_edges (cutout_polygon diam sx sy) with hedges
  set C := circumfence sqrt edges with hCdef
  have hsum : (edges.map (edge_length sqrt)).sum = C := (circumfence_eq_sum sqrt edges).symm
  have hG : |maxdepth| / C * (edges.map (edge_length sqrt)).sum = |maxdepth| := by
    rw [hsum]; field_simp
  have hlen : edges.length = 4 := by rw [hedges, polygon_edges_cutout]; rfl
  obtain ⟨r, new, hr, hr0, hr2, hl, hr3⟩ := ramp_loop_spec sqrt tdiam toolnr (|maxdepth| / C)
    edges (by rw [hG]; exact abs_nonneg _) fuel (-cutout_depth)
    (cutout_flat_pass tdiam toolnr edges (-cutout_depth) (inputshape.new "Cutout path"))
    (by rw [hG, neg_neg]; exact hfuel)
  refine ⟨r, ?_, hr0, ?_⟩
  · unfold create_cutout
    simp only
    rw [if_neg hC]
    exact hr
  · have hdrop : r.2.tooldepths.drop 4 = new := by
      rw [hr2, cutout_flat_pass_tooldepths]
      simp only [inputshape.new, List.nil_append]
      rw [List.drop_left' (by rw [List.length_map, hlen])]
    unfold ramp_segments
    rw [hdrop]
    intro s hs
    rw [List.mem_flatten] at hs
    obtain ⟨l, hl1, hl2⟩ := hs
    rw [List.mem_map] at hl1
    obtain ⟨td, htd, rfl⟩ := hl1
    exact hr3 td htd s hl2

theorem ceil_toNat_mul_ge (D m : ℚ) (hm : 0 < m) (fuel : Nat) (hfuel : ⌈D / m⌉.toNat ≤ fuel) :
    D ≤ fuel * m := by
  have h1 : D / m ≤ (⌈D / m⌉ : ℚ) := Int.le_ceil _
  have h2 : ⌈D / m⌉ ≤ (⌈D / m⌉.toNat : ℤ) := Int.self_le_toNat _
  have h3 : ((⌈D / m⌉.toNat : ℤ) : ℚ) ≤ (fuel : ℚ) := by exact_mod_cast hfuel
  have h4 : D / m ≤ (fuel : ℚ) := h1.trans ((by exact_mod_cast h2 : (⌈D / m⌉ : ℚ) ≤ _).trans h3)
  rwa [div_le_iff₀ hm] at h4

theorem circumfence_example :
    circumfence sqrt_down (polygon_edges (cutout_polygon 6 10 10)) = 64 := by
  rw [circumfence_cutout sqrt_down sqrt_down_laws]
  norm_num [abs_of_pos]

theorem create_cutout_example :
    (create_cutout sqrt_down 1 6 6 3 1 10 10 1).map (fun r => (r.1, ramp_segments r.2))
      = some (1 / 2, [⟨-3, -3, 13, -3, -1, -1 / 4⟩, ⟨13, -3, 13, 13, -1 / 4, 1 / 2⟩]) := by
  have hC := circumfence_example
  have hd1 : dist sqrt_down (-6 / 2) (-6 / 2) (10 + 6 / 2) (-6 / 2) = 16 := by
    rw [dist_horizontal sqrt_down sqrt_down_laws]; norm_num [abs_of_pos]
  have hd2 : dist sqrt_down (10 + 6 / 2) (-6 / 2) (10 + 6 / 2) (10 + 6 / 2) = 16 := by
    rw [dist_vertical sqrt_down sqrt_down_laws]; norm_num [abs_of_pos]
  unfold create_cutout
  simp only
  rw [hC, if_neg (by norm_num), polygon_edges_cutout]
  unfold ramp_loop
  rw [if_pos (by norm_num)]
  simp only [ramp_lap, edge_length, hd1, hd2]
  norm_num
  unfold ramp_loop
  rw [if_neg (by norm_num)]
  simp only [Option.map_some', ramp_segments, cutout_flat_pass, List.foldl_cons, List.foldl_nil,
    inputshape.new, List.nil_append, List.cons_append, List.drop_succ_cons, List.drop_zero,
    List.map_cons, List.map_nil, cutout_tooldepth, tooldepth.segments,
    toollevel.add_poly_vcarve, List.flatten_cons, List.flatten_nil, List.append_nil]
  norm_num
  refine ⟨_, _, ⟨rfl, rfl⟩, rfl, ?_⟩
  simp [tooldepth.segments]

/-- C3 (as stated, refuted): for cutout depth 1, tool maximum plunge depth 3 and the 16 by 16
rectangle around a 10 by 10 model cut with a tool of diameter 6, the second ramp segment
runs from depth -0.25 to +0.5: it ends above the surface. -/
theorem create_cutout_ramp_ends_above_surface :
    ∃ r, create_cutout sqrt_down 1 6 6 3 1 10 10 1 = some r ∧
      ∃ s ∈ ramp_segments r.2, 0 < s.d2 := by
  have h := create_cutout_example
  rw [Option.map_eq_some'] at h
  obtain ⟨r, hr, hv⟩ := h
  have hseg : ramp_segments r.2 = [⟨-3, -3, 13, -3, -1, -1 / 4⟩, ⟨13, -3, 13, 13, -1 / 4, 1 / 2⟩] :=
    congrArg Prod.snd hv
  refine ⟨r, hr, ⟨13, -3, 13, 13, -1 / 4, 1 / 2⟩, ?_, by norm_num⟩
  rw [hseg]
  simp

/-- C3 (amended): for every cutout depth (positive or not), tool max plunge depth `m ≠ 0` and
rectangle of non-zero circumference `C`, `create_cutout` returns (given fuel for
`ceil(depth / |m|)` laps), and every PathSegment emitted by its ramp phase starts at or below
the surface (`d1 ≤ 0`) and rises by the gradient over its own edge,
`d2 = d1 + |m| / C * length`; its end depth `d2` is not clamped and can be positive. -/
theorem create_cutout_ramp_starts_below_surface (sqrt : ℚ → ℚ) (fuel : Nat)
    (diam tdiam maxdepth cutout_depth sx sy : ℚ) (toolnr : Int)
    (hm : maxdepth ≠ 0)
    (hC : circumfence sqrt (polygon_edges (cutout_polygon diam sx sy)) ≠ 0)
    (hfuel : ⌈cutout_depth / |maxdepth|⌉.toNat ≤ fuel) :
    ∃ r, create_cutout sqrt fuel diam tdiam maxdepth cutout_depth sx sy toolnr = some r ∧
      ∀ s ∈ ramp_segments r.2,
        s.d1 ≤ 0 ∧
        s.d2 = s.d1 + |maxdepth| / circumfence sqrt (polygon_edges (cutout_polygon diam sx sy))
          * dist sqrt s.x1 s.y1 s.x2 s.y2 := by
  obtain ⟨r, hr, _, hseg⟩ := create_cutout_spec sqrt fuel diam tdiam maxdepth cutout_depth sx sy
    toolnr hC (ceil_toNat_mul_ge cutout_depth |maxdepth| (abs_pos.mpr hm) fuel hfuel)
  exact ⟨r, hr, hseg⟩

theorem create_cutout_ramp_starts_below_surface_witness :
    ∃ r, create_cutout sqrt_down 1 6 6 3 1 10 10 1 = some r ∧
      ∀ s ∈ ramp_segments r.2,
        s.d1 ≤ 0 ∧
        s.d2 = s.d1 + |(3 : ℚ)| / circumfence sqrt_down (polygon_edges (cutout_polygon 6 10 10))
          * dist sqrt_down s.x1 s.y1 s.x2 s.y2 :=
  create_cutout_ramp_starts_below_surface sqrt_down 1 6 6 3 1 10 10 1
    (by norm_num) (by rw [circumfence_example]; norm_num)
    (by
      have h : ⌈(1 : ℚ) / |(3 : ℚ)|⌉ = 1 := by
        rw [Int.ceil_eq_iff]; norm_num [abs_of_pos]
      rw [h]; rfl)

/-! ## The sampler never returns a negative height -/

theorem probe_ring_ge (get_height : ℚ → ℚ → ℚ) (X Y R balloffset : ℚ) :
    ∀ (offs : List (ℚ × ℚ)) (d : ℚ), d ≤ probe_ring get_height X Y R balloffset offs d
  | [], d => le_refl d
  | o :: offs, d => by
    have ih := probe_ring_ge get_height X Y R balloffset offs
      (max d (get_height (X + o.1 * R) (Y + o.2 * R) + balloffset))
    unfold probe_ring at ih ⊢
    rw [List.foldl_cons]
    exact (le_max_left _ _).trans ih

theorem ceilACC_nonneg (d : ℚ) (hd : 0 ≤ d) : 0 ≤ ceilACC d := by
  unfold ceilACC
  have h : (0 : ℤ) ≤ ⌈d * 100⌉ := Int.ceil_nonneg (by positivity)
  have : (0 : ℚ) ≤ (⌈d * 100⌉ : ℚ) := by exact_mod_cast h
  positivity

theorem get_height_tool_nonneg (sqrt : ℚ → ℚ) (get_height : ℚ → ℚ → ℚ) (X Y R : ℚ)
    (ballnose : Bool) : 0 ≤ get_height_tool sqrt get_height X Y R ballnose := by
  have h0 : ∀ x : ℚ, (0 : ℚ) ≤ max 0 x := fun x => le_max_left 0 x
  have hp : ∀ (Rp b : ℚ) (offs : List (ℚ × ℚ)) (d : ℚ), 0 ≤ d →
      0 ≤ probe_ring get_height X Y Rp b offs d :=
    fun Rp b offs d hd => hd.trans (probe_ring_ge get_height X Y Rp b offs d)
  unfold get_height_tool
  simp only
  generalize (if ballnose = true then ballnose_offset sqrt R R else 0.0) = b1
  generalize (if ballnose = true then ballnose_offset sqrt R (R / 1.5) else b1) = b2
  generalize (if ballnose = true then ballnose_offset sqrt R (R / 1.5 / 1.5) else b2) = b3
  split
  · apply ceilACC_nonneg
    apply hp; apply hp; exact h0 _
  · split
    · apply ceilACC_nonneg
      apply hp; apply hp; apply hp; exact h0 _
    · split
      · apply ceilACC_nonneg
        apply hp; apply hp; apply hp; apply hp; exact h0 _
      · apply ceilACC_nonneg
        apply hp; apply hp; apply hp; apply hp; apply hp; exact h0 _

/-! ## Fuel for the slicer during a scan -/

theorem band_count_le (t Z1 Z2 M : ℚ) (ht : 0 < t) (h1 : -M ≤ Z1) (h2 : -M ≤ Z2) :
    band_count t Z1 Z2 ≤ 1 + ⌈20 * M⌉.toNat := by
  unfold band_count
  split
  · rename_i hc
    have hM : 0 < M := by
      rcases hc with h | h
      · have : Z1 < 0 := lt_trans h (by norm_num)
        linarith
      · have : Z2 < 0 := lt_trans h (by norm_num)
        linarith
    apply Nat.add_le_add_left
    apply Int.toNat_le_toNat
    apply Int.ceil_mono
    have hs : (1 : ℚ) ≤ (⌈t * 20⌉ : ℚ) := by exact_mod_cast ceil_step_pos t ht
    have ha : (Z1 + t) * 20 ≤ (⌈(Z1 + t) * 20⌉ : ℚ) := Int.le_ceil _
    have hc2 : (Z2 + t) * 20 ≤ (⌈(Z2 + t) * 20⌉ : ℚ) := Int.le_ceil _
    have hm : -(20 * M) ≤ ((min ⌈(Z1 + t) * 20⌉ ⌈(Z2 + t) * 20⌉ : ℤ) : ℚ) := by
      rcases min_choice ⌈(Z1 + t) * 20⌉ ⌈(Z2 + t) * 20⌉ with h | h <;> rw [h] <;> linarith
    rw [div_le_iff₀ (by linarith : (0 : ℚ) < (⌈t * 20⌉ : ℚ))]
    push_cast at hm ⊢
    nlinarith
  · exact Nat.zero_le _

theorem scan_move_ok (E : Env) (F : Nat) (st : ScanState) (X Y Z M t : ℚ) (ht : 0 < t)
    (hF : 1 + ⌈20 * M⌉.toNat ≤ F) (hok : PenOK M t st) (hZ : -M ≤ Z) :
    ∃ st2, scan_move E F st X Y Z = some st2 ∧ st2.moves = st.moves ++ [(X, Y, Z)] ∧
      PenOK M t st2 := by
  obtain ⟨htd, hpen⟩ := hok
  unfold scan_move
  by_cases hfirst : st.g.first = true
  · rw [line_to_first _ _ _ _ _ _ _ hfirst]
    exact ⟨_, rfl, rfl, htd, Or.inr hZ⟩
  · have hf : st.g.first = false := by simpa using hfirst
    have hl : -M ≤ st.g.last_Z := hpen.resolve_left hfirst
    rw [line_to_eq _ F st.g st.input X Y Z hf (by rw [htd]; exact ht)
      ((band_count_le _ _ _ M (by rw [htd]; exact ht) hl hZ).trans hF)]
    exact ⟨_, rfl, rfl, htd, Or.inr hZ⟩

/-! ## Scanning in a non-roughing pass -/

theorem scan_point_nonrough (E : Env) (L : ScanLocals) (F : Nat) (pt : ℚ → ℚ × ℚ)
    (look v : ℚ) (st : ScanState) :
    scan_point E L false F pt look v st
      = if outside_area E.sqrt (pt v).1 (pt v).2 E.stl_image_X E.stl_image_Y L.diam = true
        then some (v, st)
        else (scan_move E F st (pt v).1 (pt v).2 (-L.maxZ + sample E L (pt v) + L.offset)).map
          (fun st2 => (v, st2)) := by
  unfold scan_point lookahead_trigger
  simp only [Bool.and_false, Bool.false_eq_true, if_false]
  cases outside_area E.sqrt (pt v).1 (pt v).2 E.stl_image_X E.stl_image_Y L.diam <;> simp

theorem sample_nonneg (E : Env) (L : ScanLocals) (p : ℚ × ℚ) : 0 ≤ sample E L p :=
  get_height_tool_nonneg _ _ _ _ _ _

theorem scan_point_ok (E : Env) (L : ScanLocals) (F : Nat) (pt : ℚ → ℚ × ℚ) (look v : ℚ)
    (st : ScanState) (M t : ℚ) (ht : 0 < t) (hF : 1 + ⌈20 * M⌉.toNat ≤ F)
    (hM : L.maxZ - L.offset ≤ M) (hok : PenOK M t st) :
    ∃ st2, scan_point E L false F pt look v st = some (v, st2) ∧ PenOK M t st2 ∧
      st.moves <+: st2.moves ∧
      (∀ m ∈ st2.moves, m ∈ st.moves ∨ (m.1, m.2.1) = pt v) ∧
      (outside_area E.sqrt (pt v).1 (pt v).2 E.stl_image_X E.stl_image_Y L.diam = false →
        st2.moves = st.moves
          ++ [((pt v).1, (pt v).2, -L.maxZ + sample E L (pt v) + L.offset)]) := by
  rw [scan_point_nonrough]
  by_cases ho : outside_area E.sqrt (pt v).1 (pt v).2 E.stl_image_X E.stl_image_Y L.diam = true
  · rw [if_pos ho]
    refine ⟨st, rfl, hok, List.prefix_refl _, fun m hm => Or.inl hm, ?_⟩
    intro h; rw [h] at ho; exact absurd ho (by decide)
  · rw [if_neg ho]
    have hZ : -M ≤ -L.maxZ + sample E L (pt v) + L.offset := by
      have := sample_nonneg E L (pt v)
      linarith
    obtain ⟨st2, h1, h2, h3⟩ := scan_move_ok E F st (pt v).1 (pt v).2 _ M t ht hF hok hZ
    refine ⟨st2, by rw [h1]; rfl, h3, ?_, ?_, fun _ => h2⟩
    · rw [h2]; exact List.prefix_append _ _
    · intro m hm
      rw [h2, List.mem_append, List.mem_singleton] at hm
      rcases hm with hm | rfl
      · exact Or.inl hm
      · exact Or.inr rfl

theorem scan_line_unfold (E : Env) (L : ScanLocals) (roughing : Bool) (F : Nat) (pt : ℚ → ℚ × ℚ)
    (fwd : Bool) (lo hi : ℚ) (fuel : Nat) (v prev : ℚ) (st : ScanState) :
    scan_line E L roughing F pt fwd lo hi fuel v prev st =
      if (if fwd then v < hi else v > lo) then
      match fuel with
      | 0 => none
      | fuel + 1 =>
        match scan_point E L roughing F pt
            (if fwd then prev + L.stepover / 1.5 else prev - L.stepover / 1.5) v st with
        | none => none
        | some (v, st) =>
          scan_line E L roughing F pt fwd lo hi fuel
            (if fwd then v + L.stepover else v - L.stepover) v st
    else some st := by
  cases fuel <;> rfl

theorem scan_line_ok (E : Env) (L : ScanLocals) (F : Nat) (pt : ℚ → ℚ × ℚ) (fwd : Bool)
    (lo hi M t : ℚ) (ht : 0 < t) (hF : 1 + ⌈20 * M⌉.toNat ≤ F) (hM : L.maxZ - L.offset ≤ M) :
    ∀ (fuel : Nat) (v prev : ℚ) (st : ScanState), PenOK M t st →
      (if fwd then hi - v else v - lo) ≤ fuel * L.stepover →
      ∃ st2, scan_line E L false F pt fwd lo hi fuel v prev st = some st2 ∧ PenOK M t st2 ∧
        st.moves <+: st2.moves ∧
        (∀ m ∈ st2.moves, m ∈ st.moves ∨ ∃ w, (m.1, m.2.1) = pt w) ∧
        ((if fwd then v < hi else v > lo) →
          outside_area E.sqrt (pt v).1 (pt v).2 E.stl_image_X E.stl_image_Y L.diam = false →
          st.moves ++ [((pt v).1, (pt v).2, -L.maxZ + sample E L (pt v) + L.offset)]
            <+: st2.moves) := by
  intro fuel
  induction fuel with
  | zero =>
    intro v prev st hok hfuel
    have hc : ¬ (if fwd = true then v < hi else v > lo) := by
      simp only [Nat.cast_zero, zero_mul] at hfuel
      cases fwd
      · simp only [Bool.false_eq_true, if_false] at hfuel ⊢
        intro h; linarith
      · simp only [if_true] at hfuel ⊢
        intro h; linarith
    rw [scan_line_unfold, if_neg hc]
    exact ⟨st, rfl, hok, List.prefix_refl _, fun m hm => Or.inl hm, fun h => absurd h hc⟩
  | succ fuel ih =>
    intro v prev st hok hfuel
    rw [scan_line_unfold]
    by_cases hc : (if fwd = true then v < hi else v > lo)
    · rw [if_pos hc]
      simp only
      obtain ⟨st1, h1, hok1, hpre1, hmem1, hacc1⟩ := scan_point_ok E L F pt
        (if fwd = true then prev + L.stepover / 1.5 else prev - L.stepover / 1.5) v st M t ht hF
        hM hok
      rw [h1]
      simp only
      have hfuel2 : (if fwd = true then hi - (if fwd = true then v + L.stepover
          else v - L.stepover) else (if fwd = true then v + L.stepover else v - L.stepover) - lo)
          ≤ fuel * L.stepover := by
        push_cast at hfuel
        cases fwd
        · simp only [Bool.false_eq_true, if_false] at hfuel ⊢
          linarith
        · simp only [if_true] at hfuel ⊢
          linarith
      obtain ⟨st2, h2, hok2, hpre2, hmem2, _⟩ := ih
        (if fwd = true then v + L.stepover else v - L.stepover) v st1 hok1 hfuel2
      refine ⟨st2, h2, hok2, hpre1.trans hpre2, ?_, ?_⟩
      · intro m hm
        rcases hmem2 m hm with h | h
        · rcases hmem1 m h with h' | h'
          · exact Or.inl h'
          · exact Or.inr ⟨v, h'⟩
        · exact Or.inr h
      · intro _ hout
        rw [← hacc1 hout]
        exact hpre2
    · rw [if_neg hc]
      exact ⟨st, rfl, hok, List.prefix_refl _, fun m hm => Or.inl hm, fun h => absurd h hc⟩

theorem scan_turn_ok (E : Env) (L : ScanLocals) (F : Nat) (cond : Bool) (X Y : ℚ)
    (st : ScanState) (M t : ℚ) (ht : 0 < t) (hF : 1 + ⌈20 * M⌉.toNat ≤ F)
    (hM : L.maxZ - L.offset ≤ M) (hok : PenOK M t st) :
    ∃ st2, scan_turn E L F cond X Y st = some st2 ∧ PenOK M t st2 ∧
      st.moves <+: st2.moves ∧
      (∀ m ∈ st2.moves, m ∈ st.moves ∨ (m.1, m.2.1) = (X, Y)) ∧
      (cond = true → outside_area E.sqrt X Y E.stl_image_X E.stl_image_Y L.diam = false →
        st2.moves = st.moves ++ [(X, Y, -L.maxZ + L.offset + sample E L (X, Y))]) := by
  unfold scan_turn
  by_cases hc : (cond && !outside_area E.sqrt X Y E.stl_image_X E.stl_image_Y L.diam) = true
  · rw [if_pos hc]
    have hZ : -M ≤ -L.maxZ + L.offset + sample E L (X, Y) := by
      have := sample_nonneg E L (X, Y)
      linarith
    obtain ⟨st2, h1, h2, h3⟩ := scan_move_ok E F st X Y _ M t ht hF hok hZ
    refine ⟨st2, h1, h3, ?_, ?_, fun _ _ => h2⟩
    · rw [h2]; exact List.prefix_append _ _
    · intro m hm
      rw [h2, List.mem_append, List.mem_singleton] at hm
      rcases hm with hm | rfl
      · exact Or.inl hm
      · exact Or.inr rfl
  · rw [if_neg hc]
    refine ⟨st, rfl, hok, List.prefix_refl _, fun m hm => Or.inl hm, ?_⟩
    intro h1 h2
    rw [h1, h2] at hc
    exact absurd rfl hc


theorem scan_even_unfold (E : Env) (L : ScanLocals) (roughing : Bool) (F fuel : Nat) (Y : ℚ)
    (st : ScanState) :
    scan_even E L roughing F fuel Y st =
      if Y < L.maxY then
      match fuel with
      | 0 => none
      | fuel + 1 =>
        match scan_line E L roughing F (fun v => (v, Y)) true (-L.overshoot) L.maxX F
            (-L.overshoot) (-L.overshoot) st with
        | none => none
        | some st =>
          match scan_turn E L F true L.maxX (Y + L.stepover) st with
          | none => none
          | some st =>
            match scan_line E L roughing F (fun v => (v, Y + L.stepover)) false (-L.overshoot)
                L.maxX F L.maxX L.maxX st with
            | none => none
            | some st =>
              match scan_turn E L F (decide (Y + L.stepover + L.stepover < L.maxY))
                  (-L.overshoot) (Y + L.stepover + L.stepover) st with
              | none => none
              | some st => scan_even E L roughing F fuel (Y + L.stepover + L.stepover) st
    else some st := by
  cases fuel <;> rfl

theorem scan_even_ok (E : Env) (L : ScanLocals) (F : Nat) (M t : ℚ) (ht : 0 < t)
    (hF : 1 + ⌈20 * M⌉.toNat ≤ F) (hM : L.maxZ - L.offset ≤ M)
    (hFx : L.maxX + L.overshoot ≤ F * L.stepover) :
    ∀ (fuel : Nat) (Y : ℚ) (st : ScanState), PenOK M t st →
      L.maxY - Y ≤ fuel * (2 * L.stepover) →
      ∃ st2, scan_even E L false F fuel Y st = some st2 ∧ PenOK M t st2 ∧
        st.moves <+: st2.moves ∧
        (∀ m ∈ st2.moves, m ∈ st.moves ∨ ∃ k : ℕ, m.2.1 = Y + k * L.stepover) ∧
        (Y < L.maxY → -L.overshoot < L.maxX →
          outside_area E.sqrt (-L.overshoot) Y E.stl_image_X E.stl_image_Y L.diam = false →
          st.moves ++ [(-L.overshoot, Y, -L.maxZ + sample E L (-L.overshoot, Y) + L.offset)]
            <+: st2.moves) ∧
        (Y < L.maxY →
          outside_area E.sqrt L.maxX (Y + L.stepover) E.stl_image_X E.stl_image_Y L.diam
            = false →
          (L.maxX, Y + L.stepover,
            -L.maxZ + L.offset + sample E L (L.maxX, Y + L.stepover)) ∈ st2.moves) := by
  intro fuel
  induction fuel with
  | zero =>
    intro Y st hok hfuel
    have hc : ¬ Y < L.maxY := by
      simp only [Nat.cast_zero, zero_mul] at hfuel
      intro h; linarith
    rw [scan_even_unfold, if_neg hc]
    exact ⟨st, rfl, hok, List.prefix_refl _, fun m hm => Or.inl hm, fun h => absurd h hc,
      fun h => absurd h hc⟩
  | succ fuel ih =>
    intro Y st hok hfuel
    rw [scan_even_unfold]
    by_cases hc : Y < L.maxY
    · rw [if_pos hc]
      simp only
      obtain ⟨st1, h1, hok1, hpre1, hmem1, hacc1⟩ := scan_line_ok E L F (fun v => (v, Y)) true
        (-L.overshoot) L.maxX M t ht hF hM F (-L.overshoot) (-L.overshoot) st hok
        (by simp only [if_true]; linarith)
      rw [h1]
      simp only
      obtain ⟨st2, h2, hok2, hpre2, hmem2, hacc2⟩ := scan_turn_ok E L F true L.maxX
        (Y + L.stepover) st1 M t ht hF hM hok1
      rw [h2]
      simp only
      obtain ⟨st3, h3, hok3, hpre3, hmem3, _⟩ := scan_line_ok E L F
        (fun v => (v, Y + L.stepover)) false (-L.overshoot) L.maxX M t ht hF hM F L.maxX L.maxX
        st2 hok2 (by simp only [Bool.false_eq_true, if_false]; linarith)
      rw [h3]
      simp only
      obtain ⟨st4, h4, hok4, hpre4, hmem4, _⟩ := scan_turn_ok E L F
        (decide (Y + L.stepover + L.stepover < L.maxY)) (-L.overshoot)
        (Y + L.stepover + L.stepover) st3 M t ht hF hM hok3
      rw [h4]
      simp only
      obtain ⟨st5, h5, hok5, hpre5, hmem5, _, _⟩ := ih (Y + L.stepover + L.stepover) st4 hok4
        (by push_cast at hfuel; linarith)
      refine ⟨st5, h5, hok5,
        hpre1.trans (hpre2.trans (hpre3.trans (hpre4.trans hpre5))), ?_, ?_, ?_⟩
      · intro m hm
        rcases hmem5 m hm with h | ⟨k, hk⟩
        · rcases hmem4 m h with h | h
          · rcases hmem3 m h with h | ⟨w, h⟩
            · rcases hmem2 m h with h | h
              · rcases hmem1 m h with h | ⟨w, h⟩
                · exact Or.inl h
                · exact Or.inr ⟨0, by simpa using (congrArg Prod.snd h)⟩
              · exact Or.inr ⟨1, by simpa using (congrArg Prod.snd h)⟩
            · exact Or.inr ⟨1, by simpa using (congrArg Prod.snd h)⟩
          · refine Or.inr ⟨2, ?_⟩
            have := congrArg Prod.snd h
            simp only at this
            rw [this]; push_cast; ring
        · refine Or.inr ⟨k + 2, ?_⟩
          rw [hk]; push_cast; ring
      · intro _ hlo hout
        exact (hacc1 (by simpa using hlo) hout).trans
          (hpre2.trans (hpre3.trans (hpre4.trans hpre5)))
      · intro _ hout
        have hin : (L.maxX, Y + L.stepover,
            -L.maxZ + L.offset + sample E L (L.maxX, Y + L.stepover)) ∈ st2.moves := by
          rw [hacc2 rfl hout]; simp
        exact (hpre3.trans (hpre4.trans hpre5)).subset hin
    · rw [if_neg hc]
      exact ⟨st, rfl, hok, List.prefix_refl _, fun m hm => Or.inl hm, fun h => absurd h hc,
        fun h => absurd h hc⟩

/-! ## End-to-end row spacing (C7) -/

theorem scan_locals_scenario (E : Env) (sc : scene) (tool : Int) (hdiam : E.tool_diam tool = 6)
    (hstep : E.get_tool_stepover tool = 3) (hflat : E.tool_is_ballnose tool = false)
    (hX : E.stl_image_X = 50) (hY : E.stl_image_Y = 50) :
    scan_locals E sc tool false false
      = { diam := 6, maxZ := sc.cutout_depth, radius := 3, overshoot := 27 / 20,
          maxX := 1027 / 20, maxY := 1027 / 20, stepover := 150 / 71, offset := 0,
          ballnose := false } := by
  unfold scan_locals
  simp only [hdiam, hstep, hflat, hX, hY]
  norm_num

theorem outside_area_scenario_start (sqrt : ℚ → ℚ) (hs : SqrtLaws sqrt) :
    outside_area sqrt (-(27 / 20)) (-(27 / 20)) 50 50 6 = false := by
  have h : sqrt (-(27 / 20) * -(27 / 20) + -(27 / 20) * -(27 / 20)) ≤ 6 / 2 * 0.90 :=
    hs.le_of_le_sq _ _ (by norm_num) (by norm_num)
  unfold outside_area
  simp only [if_neg (by norm_num : ¬ (-(27 / 20) : ℚ) > 50)]
  rw [if_neg]
  intro hc
  exact absurd hc.2.2 (not_lt.mpr h)

theorem outside_area_scenario_turn (sqrt : ℚ → ℚ) :
    outside_area sqrt (1027 / 20) (-(27 / 20) + 150 / 71) 50 50 6 = false := by
  unfold outside_area
  simp only [if_neg (by norm_num : ¬ (-(27 / 20) + 150 / 71 : ℚ) > 50)]
  rw [if_neg]
  intro hc
  exact absurd hc.2.1 (by norm_num)

theorem create_toolpath_scenario (E : Env) (F : Nat) (g : Globals) (sc : scene) (tool : Int)
    (hs : SqrtLaws E.sqrt) (hdiam : E.tool_diam tool = 6)
    (hstep : E.get_tool_stepover tool = 3) (hflat : E.tool_is_ballnose tool = false)
    (hX : E.stl_image_X = 50) (hY : E.stl_image_Y = 50) (ht : 0 < g.tooldepth)
    (hF : 25 ≤ F) (hF2 : 1 + ⌈20 * sc.cutout_depth⌉.toNat ≤ F) :
    ∃ r, create_toolpath E F g sc tool false false true = some r ∧
      (∃ Z, r.1.moves.head? = some (-(27 / 20), -(27 / 20), Z)) ∧
      (∀ m ∈ r.1.moves, ∃ k : ℕ, m.2.1 = -(27 / 20) + k * (150 / 71)) ∧
      (∃ m ∈ r.1.moves, m.2.1 = -(27 / 20) + 150 / 71) := by
  have hL := scan_locals_scenario E sc tool hdiam hstep hflat hX hY
  have hF25 : (25 : ℚ) ≤ (F : ℚ) := by exact_mod_cast hF
  set L := scan_locals E sc tool false false with hLdef
  have hov : L.overshoot = 27 / 20 := by rw [hL]
  have hmx : L.maxX = 1027 / 20 := by rw [hL]
  have hmy : L.maxY = 1027 / 20 := by rw [hL]
  have hst : L.stepover = 150 / 71 := by rw [hL]
  have hof : L.offset = 0 := by rw [hL]
  have hmz : L.maxZ = sc.cutout_depth := by rw [hL]
  have hdm : L.diam = 6 := by rw [hL]
  obtain ⟨st2, h2, _, hpre, hmem, hhead, hrow⟩ := scan_even_ok E L F sc.cutout_depth g.tooldepth
    ht hF2 (by rw [hmz, hof]; linarith) (by rw [hmx, hov, hst]; linarith) F (-L.overshoot)
    { g := { { g with toolnr := tool } with first := true },
      input := inputshape.new "STL path", moves := [] }
    ⟨rfl, Or.inl rfl⟩ (by rw [hmy, hov, hst]; linarith)
  refine ⟨(st2, { sc with shapes := sc.shapes ++ [st2.input] }), ?_, ?_, ?_, ?_⟩
  · unfold create_toolpath
    simp only [if_true]
    rw [← hLdef, h2]
    rfl
  · have := hhead (by rw [hmy, hov]; norm_num) (by rw [hmx, hov]; norm_num)
      (by rw [hov, hX, hY, hdm]; exact outside_area_scenario_start E.sqrt hs)
    rw [List.nil_append, hov] at this
    obtain ⟨rest, hrest⟩ := this
    exact ⟨_, by rw [← hrest]; rfl⟩
  · intro m hm
    rcases hmem m hm with h | ⟨k, hk⟩
    · simp at h
    · exact ⟨k, by rw [hk, hov, hst]⟩
  · have := hrow (by rw [hmy, hov]; norm_num)
      (by rw [hov, hmx, hst, hX, hY, hdm]; exact outside_area_scenario_turn E.sqrt)
    exact ⟨_, this, by rw [hov, hst]⟩

theorem process_stl_file_single_tool (sc : scene) (maxdepth : Int → ℚ) (tool : Int)
    (htools : sc.tools = [tool]) (hcut : sc.cutout_depth < 0.01)
    (hfin : sc.finishing_pass = false) :
    process_stl_file sc maxdepth
      = ({ sc with cutout_depth := sc.depth },
          [PlannerCall.toolpath (maxdepth tool) tool false false true]) := by
  unfold process_stl_file
  simp [hcut, htools, tool_loop, hfin]

theorem flat_block_fuel : 1 + ⌈20 * (5 : ℚ)⌉.toNat ≤ 101 := by
  have h : ⌈20 * (5 : ℚ)⌉ = 100 := by
    rw [Int.ceil_eq_iff]; norm_num
  rw [h]
  decide

/-- C7 (as stated, refuted): in the end-to-end scenario (flat block 50 by 50 by 5, one flat-end
tool of diameter 6 and stepover 3, no cutout depth configured) the planner makes moves on the
row Y = -1.35 and on the row 3 / 1.42 above it; no two rows that far apart are a multiple of 3
apart, so consecutive rows are not 3 units apart. -/
theorem scan_rows_not_three_apart :
    ∃ r, create_toolpath flat_block_env 101 (fresh_pen 3)
        (process_stl_file flat_block_scene (fun _ => 3)).1 1 false false true = some r ∧
      ∃ m1 ∈ r.1.moves, ∃ m2 ∈ r.1.moves,
        m1.2.1 = -1.35 ∧ m2.2.1 = m1.2.1 + 3 / 1.42 ∧ ∀ k : ℤ, m2.2.1 ≠ m1.2.1 + 3 * k := by
  have hp := process_stl_file_single_tool flat_block_scene (fun _ => 3) 1 rfl
    (by norm_num [flat_block_scene]) rfl
  obtain ⟨r, hr, ⟨Z, hhead⟩, _, ⟨m2, hm2, hy2⟩⟩ := create_toolpath_scenario flat_block_env 101
    (fresh_pen 3) (process_stl_file flat_block_scene (fun _ => 3)).1 1 sqrt_down_laws rfl rfl rfl
    rfl rfl (by norm_num [fresh_pen]) (by norm_num)
    (by rw [hp]; exact flat_block_fuel)
  refine ⟨r, hr, (-(27 / 20), -(27 / 20), Z), List.mem_of_mem_head? hhead, m2, hm2, ?_, ?_, ?_⟩
  · norm_num
  · rw [hy2]; norm_num
  · intro k hk
    rw [hy2] at hk
    have h1 : (150 : ℚ) = 213 * k := by
      have : (150 / 71 : ℚ) = 3 * k := by linarith
      linarith
    have h2 : (150 : ℤ) = 213 * k := by exact_mod_cast h1
    omega

/-! ## More on the cutout ramp -/

theorem cutout_tooldepth_segments (tdiam : ℚ) (toolnr : Int) (name : Option String)
    (e : (ℚ × ℚ) × (ℚ × ℚ)) (cd d1 d2 : ℚ) :
    (cutout_tooldepth tdiam toolnr name e cd d1 d2).segments
      = [⟨e.1.1, e.1.2, e.2.1, e.2.2, d1, d2⟩] := by
  simp [cutout_tooldepth, tooldepth.segments, toollevel.add_poly_vcarve]

theorem ramp_lap_edges (sqrt : ℚ → ℚ) (tdiam : ℚ) (toolnr : Int) (gradient : ℚ) :
    ∀ (es : List ((ℚ × ℚ) × (ℚ × ℚ))) (cd : ℚ) (input : inputshape),
      ∃ new : List tooldepth,
        (ramp_lap sqrt tdiam toolnr gradient es cd input).2.tooldepths
          = input.tooldepths ++ new ∧
        new.length ≤ es.length ∧
        ∀ td ∈ new, ∃ e ∈ es, ∃ d : ℚ, d ≤ 0 ∧
          td.segments = [⟨e.1.1, e.1.2, e.2.1, e.2.2, d, d + gradient * edge_length sqrt e⟩]
  | [], cd, input => ⟨[], by simp [ramp_lap]⟩
  | e :: es, cd, input => by
    unfold ramp_lap
    by_cases hcd : cd > 0
    · rw [if_pos hcd]
      exact ⟨[], by simp, by simp, by simp⟩
    · rw [if_neg hcd]
      simp only
      obtain ⟨new, h1, hl, h2⟩ := ramp_lap_edges sqrt tdiam toolnr gradient es
        (cd + gradient * edge_length sqrt e)
        { input with tooldepths := input.tooldepths ++
          [cutout_tooldepth tdiam toolnr none e cd cd (cd + gradient * edge_length sqrt e)] }
      refine ⟨cutout_tooldepth tdiam toolnr none e cd cd (cd + gradient * edge_length sqrt e)
        :: new, by rw [h1]; simp, by rw [List.length_cons, List.length_cons]; omega, ?_⟩
      intro td htd
      rcases List.mem_cons.mp htd with rfl | htd
      · exact ⟨e, List.mem_cons_self _ _, cd, not_lt.mp hcd, cutout_tooldepth_segments _ _ _ _ _ _ _⟩
      · obtain ⟨e2, he2, d, hd, hseg⟩ := h2 td htd
        exact ⟨e2, List.mem_cons_of_mem _ he2, d, hd, hseg⟩

theorem ramp_lap_gain_le (sqrt : ℚ → ℚ) (tdiam : ℚ) (toolnr : Int) (gradient : ℚ) :
    ∀ (es : List ((ℚ × ℚ) × (ℚ × ℚ))) (cd : ℚ) (input : inputshape),
      (∀ e ∈ es, 0 ≤ gradient * edge_length sqrt e) →
      (ramp_lap sqrt tdiam toolnr gradient es cd input).1
        ≤ cd + gradient * (es.map (edge_length sqrt)).sum
  | [], cd, input, _ => by simp [ramp_lap]
  | e :: es, cd, input, h => by
    have he : 0 ≤ gradient * edge_length sqrt e := h e (List.mem_cons_self _ _)
    have hes : 0 ≤ gradient * (es.map (edge_length sqrt)).sum := by
      rw [← List.sum_map_mul_left]
      apply List.sum_nonneg
      intro x hx
      rw [List.mem_map] at hx
      obtain ⟨e2, he2, rfl⟩ := hx
      exact h e2 (List.mem_cons_of_mem _ he2)
    unfold ramp_lap
    by_cases hcd : cd > 0
    · rw [if_pos hcd, List.map_cons, List.sum_cons]
      simp only
      have : gradient * (edge_length sqrt e + (es.map (edge_length sqrt)).sum)
          = gradient * edge_length sqrt e + gradient * (es.map (edge_length sqrt)).sum := by ring
      linarith
    · rw [if_neg hcd]
      simp only
      have ih := ramp_lap_gain_le sqrt tdiam toolnr gradient es
        (cd + gradient * edge_length sqrt e)
        { input with tooldepths := input.tooldepths ++
          [cutout_tooldepth tdiam toolnr none e cd cd (cd + gradient * edge_length sqrt e)] }
        (fun e2 he2 => h e2 (List.mem_cons_of_mem _ he2))
      rw [List.map_cons, List.sum_cons]
      have : gradient * (edge_length sqrt e + (es.map (edge_length sqrt)).sum)
          = gradient * edge_length sqrt e + gradient * (es.map (edge_length sqrt)).sum := by ring
      linarith

theorem ramp_loop_sound (sqrt : ℚ → ℚ) (tdiam : ℚ) (toolnr : Int) (gradient : ℚ)
    (edges : List ((ℚ × ℚ) × (ℚ × ℚ))) :
    ∀ (fuel : Nat) (cd : ℚ) (input : inputshape) (r : ℚ × inputshape),
      ramp_loop sqrt tdiam toolnr gradient edges fuel cd input = some r →
      ∃ new, r.2.tooldepths = input.tooldepths ++ new ∧
        new.length ≤ fuel * edges.length ∧
        ∀ td ∈ new, ∃ e ∈ edges, ∃ d : ℚ, d ≤ 0 ∧
          td.segments = [⟨e.1.1, e.1.2, e.2.1, e.2.2, d, d + gradient * edge_length sqrt e⟩]
  | 0, cd, input, r, h => by
    unfold ramp_loop at h
    split at h
    · exact absurd h (by simp)
    · simp only [Option.some.injEq] at h
      subst h
      exact ⟨[], by simp, by simp, by simp⟩
  | fuel + 1, cd, input, r, h => by
    unfold ramp_loop at h
    split at h
    · simp only at h
      obtain ⟨new1, h1, hl1, h3⟩ := ramp_lap_edges sqrt tdiam toolnr gradient edges cd input
      obtain ⟨new2, h2, hl2, h4⟩ :=
        ramp_loop_sound sqrt tdiam toolnr gradient edges fuel _ _ r h
      refine ⟨new1 ++ new2, by rw [h2, h1, List.append_assoc], ?_, ?_⟩
      · rw [List.length_append, Nat.add_mul, Nat.one_mul]
        omega
      · intro td htd
        rcases List.mem_append.mp htd with htd | htd
        · exact h3 td htd
        · exact h4 td htd
    · simp only [Option.some.injEq] at h
      subst h
      exact ⟨[], by simp, by simp, by simp⟩

theorem ramp_loop_mono (sqrt : ℚ → ℚ) (tdiam : ℚ) (toolnr : Int) (gradient : ℚ)
    (edges : List ((ℚ × ℚ) × (ℚ × ℚ))) :
    ∀ (fuel fuel2 : Nat) (cd : ℚ) (input : inputshape) (r : ℚ × inputshape), fuel ≤ fuel2 →
      ramp_loop sqrt tdiam toolnr gradient edges fuel cd input = some r →
      ramp_loop sqrt tdiam toolnr gradient edges fuel2 cd input = some r
  | 0, fuel2, cd, input, r, _, h => by
    unfold ramp_loop at h ⊢
    split at h
    · exact absurd h (by simp)
    · rename_i hc
      rw [if_neg hc]; exact h
  | fuel + 1, fuel2, cd, input, r, hle, h => by
    obtain ⟨f2, rfl⟩ : ∃ f2, fuel2 = f2 + 1 := ⟨fuel2 - 1, by omega⟩
    unfold ramp_loop at h ⊢
    split at h
    · rename_i hc
      rw [if_pos hc]
      simp only at h ⊢
      exact ramp_loop_mono sqrt tdiam toolnr gradient edges fuel f2 _ _ r (by omega) h
    · rename_i hc
      rw [if_neg hc]; exact h

theorem ramp_segments_after_flat (tdiam : ℚ) (toolnr : Int) (diam sx sy cd : ℚ)
    (s : inputshape) (new : List tooldepth)
    (h : s.tooldepths = (cutout_flat_pass tdiam toolnr (polygon_edges (cutout_polygon diam sx sy))
      cd (inputshape.new "Cutout path")).tooldepths ++ new) :
    ramp_segments s = (new.map tooldepth.segments).flatten := by
  unfold ramp_segments
  rw [h, cutout_flat_pass_tooldepths]
  simp only [inputshape.new, List.nil_append]
  rw [List.drop_left' (by rw [List.length_map, polygon_edges_cutout]; rfl)]

theorem flatten_length_of_singletons {α β : Type} (f : α → List β) :
    ∀ (l : List α), (∀ a ∈ l, (f a).length = 1) → ((l.map f).flatten).length = l.length
  | [], _ => rfl
  | a :: l, h => by
    rw [List.map_cons, List.flatten_cons, List.length_append, h a (List.mem_cons_self _ _),
      flatten_length_of_singletons f l (fun b hb => h b (List.mem_cons_of_mem _ hb)),
      List.length_cons]
    omega

theorem create_cutout_sound (sqrt : ℚ → ℚ) (fuel : Nat)
    (diam tdiam maxdepth cutout_depth sx sy : ℚ) (toolnr : Int)
    (hC : circumfence sqrt (polygon_edges (cutout_polygon diam sx sy)) ≠ 0)
    (r : ℚ × inputshape)
    (hr : create_cutout sqrt fuel diam tdiam maxdepth cutout_depth sx sy toolnr = some r) :
    (ramp_segments r.2).length ≤ fuel * 4 ∧
    ∀ s ∈ ramp_segments r.2, ∃ e ∈ polygon_edges (cutout_polygon diam sx sy), ∃ d : ℚ, d ≤ 0 ∧
      s = ⟨e.1.1, e.1.2, e.2.1, e.2.2, d,
        d + |maxdepth| / circumfence sqrt (polygon_edges (cutout_polygon diam sx sy))
          * edge_length sqrt e⟩ := by
  unfold create_cutout at hr
  simp only at hr
  rw [if_neg hC] at hr
  obtain ⟨new, h1, hl, h2⟩ := ramp_loop_sound sqrt tdiam toolnr _ _ fuel _ _ r hr
  rw [ramp_segments_after_flat tdiam toolnr diam sx sy (-cutout_depth) r.2 new h1]
  constructor
  · rw [flatten_length_of_singletons tooldepth.segments new (fun td htd => by
      obtain ⟨e, _, d, _, hseg⟩ := h2 td htd
      rw [hseg]; rfl)]
    rw [polygon_edges_cutout] at hl
    exact hl
  · intro s hs
    rw [List.mem_flatten] at hs
    obtain ⟨l, hl1, hl2⟩ := hs
    rw [List.mem_map] at hl1
    obtain ⟨td, htd, rfl⟩ := hl1
    obtain ⟨e, he, d, hd, hseg⟩ := h2 td htd
    rw [hseg, List.mem_singleton] at hl2
    exact ⟨e, he, d, hd, hl2⟩

theorem create_cutout_returns (sqrt : ℚ → ℚ) (N fuel : Nat)
    (diam tdiam maxdepth cutout_depth sx sy : ℚ) (toolnr : Int)
    (hC : circumfence sqrt (polygon_edges (cutout_polygon diam sx sy)) ≠ 0)
    (hN : cutout_depth ≤ N * |maxdepth|) (hfuel : N ≤ fuel) :
    ∃ r, create_cutout sqrt fuel diam tdiam maxdepth cutout_depth sx sy toolnr = some r ∧
      create_cutout sqrt N diam tdiam maxdepth cutout_depth sx sy toolnr = some r ∧
      0 ≤ r.1 := by
  obtain ⟨r, hr, h0, _⟩ := create_cutout_spec sqrt N diam tdiam maxdepth cutout_depth sx sy
    toolnr hC hN
  refine ⟨r, ?_, hr, h0⟩
  unfold create_cutout at hr ⊢
  simp only at hr ⊢
  rw [if_neg hC] at hr ⊢
  exact ramp_loop_mono sqrt tdiam toolnr _ _ N fuel _ _ r hfuel hr

theorem lap_gain_total (sqrt : ℚ → ℚ) (maxdepth : ℚ) (edges : List ((ℚ × ℚ) × (ℚ × ℚ)))
    (hC : circumfence sqrt edges ≠ 0) :
    |maxdepth| / circumfence sqrt edges * (edges.map (edge_length sqrt)).sum = |maxdepth| := by
  rw [← circumfence_eq_sum]
  field_simp

/-- C11: for every rectangle of non-zero circumference `C` and tool max plunge depth `m`,
whatever the cutout depth and the fuel, every PathSegment of the ramp phase of a returning
`create_cutout` runs along one edge of the rectangle and has
`d2 - d1 = |m| / C * (length of that edge)`; the gradient times the four edge lengths sums to
exactly `|m|`, so a lap that is not cut short by `break` ends exactly `|m|` above its start,
and with a square root that is never negative no lap gains more than `|m|`; the ramp is
really produced: for `m ≠ 0` and fuel for `ceil(depth / |m|)` laps `create_cutout` returns. -/
theorem create_cutout_ramp_gradient (sqrt : ℚ → ℚ) (fuel : Nat)
    (diam tdiam maxdepth cutout_depth sx sy : ℚ) (toolnr : Int)
    (hC : circumfence sqrt (polygon_edges (cutout_polygon diam sx sy)) ≠ 0) :
    (∀ r, create_cutout sqrt fuel diam tdiam maxdepth cutout_depth sx sy toolnr = some r →
      ∀ s ∈ ramp_segments r.2, ∃ e ∈ polygon_edges (cutout_polygon diam sx sy),
        (s.x1, s.y1) = e.1 ∧ (s.x2, s.y2) = e.2 ∧
        s.d2 - s.d1
          = |maxdepth| / circumfence sqrt (polygon_edges (cutout_polygon diam sx sy))
            * edge_length sqrt e) ∧
    |maxdepth| / circumfence sqrt (polygon_edges (cutout_polygon diam sx sy))
      * ((polygon_edges (cutout_polygon diam sx sy)).map (edge_length sqrt)).sum = |maxdepth| ∧
    (∀ (cd : ℚ) (input : inputshape),
      0 < (ramp_lap sqrt tdiam toolnr
        (|maxdepth| / circumfence sqrt (polygon_edges (cutout_polygon diam sx sy)))
        (polygon_edges (cutout_polygon diam sx sy)) cd input).1 ∨
      (ramp_lap sqrt tdiam toolnr
        (|maxdepth| / circumfence sqrt (polygon_edges (cutout_polygon diam sx sy)))
        (polygon_edges (cutout_polygon diam sx sy)) cd input).1 = cd + |maxdepth|) ∧
    ((∀ x, 0 ≤ sqrt x) → ∀ (cd : ℚ) (input : inputshape),
      (ramp_lap sqrt tdiam toolnr
        (|maxdepth| / circumfence sqrt (polygon_edges (cutout_polygon diam sx sy)))
        (polygon_edges (cutout_polygon diam sx sy)) cd input).1 ≤ cd + |maxdepth|) ∧
    (maxdepth ≠ 0 → ⌈cutout_depth / |maxdepth|⌉.toNat ≤ fuel →
      ∃ r, create_cutout sqrt fuel diam tdiam maxdepth cutout_depth sx sy toolnr = some r) := by
  have hG := lap_gain_total sqrt maxdepth _ hC
  refine ⟨?_, hG, ?_, ?_, ?_⟩
  · intro r hr s hs
    obtain ⟨e, he, d, _, rfl⟩ :=
      (create_cutout_sound sqrt fuel diam tdiam maxdepth cutout_depth sx sy toolnr hC r hr).2
        s hs
    exact ⟨e, he, rfl, rfl, by simp⟩
  · intro cd input
    obtain ⟨_, _, _, _, h⟩ := ramp_lap_spec sqrt tdiam toolnr
      (|maxdepth| / circumfence sqrt (polygon_edges (cutout_polygon diam sx sy)))
      (polygon_edges (cutout_polygon diam sx sy)) cd input
    rw [hG] at h
    exact h
  · intro hs cd input
    have hsum : 0 ≤ circumfence sqrt (polygon_edges (cutout_polygon diam sx sy)) := by
      rw [circumfence_eq_sum]
      apply List.sum_nonneg
      intro x hx
      rw [List.mem_map] at hx
      obtain ⟨e, _, rfl⟩ := hx
      exact hs _
    have h := ramp_lap_gain_le sqrt tdiam toolnr
      (|maxdepth| / circumfence sqrt (polygon_edges (cutout_polygon diam sx sy)))
      (polygon_edges (cutout_polygon diam sx sy)) cd input
      (fun e _ => mul_nonneg (div_nonneg (abs_nonneg _) hsum) (hs _))
    rw [hG] at h
    exact h
  · intro hm hfuel
    obtain ⟨r, hr, _⟩ := create_cutout_returns sqrt fuel fuel diam tdiam maxdepth cutout_depth
      sx sy toolnr hC (ceil_toNat_mul_ge cutout_depth |maxdepth| (abs_pos.mpr hm) fuel hfuel)
      (le_refl _)
    exact ⟨r, hr⟩

theorem create_cutout_ramp_gradient_witness :
    (∀ r, create_cutout sqrt_down 1 6 6 3 1 10 10 1 = some r →
      ∀ s ∈ ramp_segments r.2, ∃ e ∈ polygon_edges (cutout_polygon 6 10 10),
        (s.x1, s.y1) = e.1 ∧ (s.x2, s.y2) = e.2 ∧
        s.d2 - s.d1
          = |(3 : ℚ)| / circumfence sqrt_down (polygon_edges (cutout_polygon 6 10 10))
            * edge_length sqrt_down e) ∧
    |(3 : ℚ)| / circumfence sqrt_down (polygon_edges (cutout_polygon 6 10 10))
      * ((polygon_edges (cutout_polygon 6 10 10)).map (edge_length sqrt_down)).sum = |(3 : ℚ)| ∧
    (∀ (cd : ℚ) (input : inputshape),
      0 < (ramp_lap sqrt_down 6 1
        (|(3 : ℚ)| / circumfence sqrt_down (polygon_edges (cutout_polygon 6 10 10)))
        (polygon_edges (cutout_polygon 6 10 10)) cd input).1 ∨
      (ramp_lap sqrt_down 6 1
        (|(3 : ℚ)| / circumfence sqrt_down (polygon_edges (cutout_polygon 6 10 10)))
        (polygon_edges (cutout_polygon 6 10 10)) cd input).1 = cd + |(3 : ℚ)|) ∧
    ((∀ x, 0 ≤ sqrt_down x) → ∀ (cd : ℚ) (input : inputshape),
      (ramp_lap sqrt_down 6 1
        (|(3 : ℚ)| / circumfence sqrt_down (polygon_edges (cutout_polygon 6 10 10)))
        (polygon_edges (cutout_polygon 6 10 10)) cd input).1 ≤ cd + |(3 : ℚ)|) ∧
    ((3 : ℚ) ≠ 0 → ⌈(1 : ℚ) / |(3 : ℚ)|⌉.toNat ≤ 1 →
      ∃ r, create_cutout sqrt_down 1 6 6 3 1 10 10 1 = some r) :=
  create_cutout_ramp_gradient sqrt_down 1 6 6 3 1 10 10 1
    (by rw [circumfence_example]; norm_num)

theorem circumfence_point : circumfence sqrt_down (polygon_edges (cutout_polygon 0 0 0)) = 0 := by
  rw [circumfence_cutout sqrt_down sqrt_down_laws]
  norm_num

theorem create_cutout_zero (sqrt : ℚ → ℚ) (fuel : Nat)
    (diam tdiam maxdepth cutout_depth sx sy : ℚ) (toolnr : Int)
    (hC : circumfence sqrt (polygon_edges (cutout_polygon diam sx sy)) = 0) :
    create_cutout sqrt fuel diam tdiam maxdepth cutout_depth sx sy toolnr
      = some (-cutout_depth, cutout_flat_pass tdiam toolnr
          (polygon_edges (cutout_polygon diam sx sy)) (-cutout_depth)
          (inputshape.new "Cutout path")) := by
  unfold create_cutout
  simp only
  rw [if_pos hC]

theorem cutout_flat_pass_new (tdiam : ℚ) (toolnr : Int) (diam sx sy cd : ℚ) :
    (cutout_flat_pass tdiam toolnr (polygon_edges (cutout_polygon diam sx sy)) cd
        (inputshape.new "Cutout path")).tooldepths
      = (polygon_edges (cutout_polygon diam sx sy)).map
          (fun e => cutout_tooldepth tdiam toolnr (some "Cutout") e cd cd cd) := by
  rw [cutout_flat_pass_tooldepths]
  simp [inputshape.new]

/-- C12 (counterexample): the rectangle of a zero-size model cut with a zero-diameter tool has
circumference 0, yet the 'Cutout path' shape that `create_cutout` leaves behind holds four
ToolDepths, four ToolLevels and four PathSegments. -/
theorem create_cutout_degenerate_not_noop :
    circumfence sqrt_down (polygon_edges (cutout_polygon 0 0 0)) = 0 ∧
    ∃ r, create_cutout sqrt_down 0 0 6 3 1 0 0 1 = some r ∧
      r.2.tooldepths.length = 4 ∧ r.2.levels.length = 4 ∧ r.2.segments.length = 4 := by
  refine ⟨circumfence_point, _, create_cutout_zero sqrt_down 0 0 6 3 1 0 0 1 circumfence_point,
    ?_, ?_, ?_⟩
  · simp only [cutout_flat_pass_new, polygon_edges_cutout]
    rfl
  · simp only [inputshape.levels, cutout_flat_pass_new, polygon_edges_cutout]
    rfl
  · simp only [inputshape.segments, cutout_flat_pass_new, polygon_edges_cutout]
    rfl

/-- C12 (amended): when the cutout rectangle has zero circumference, `create_cutout` returns
for any fuel, without dividing and without a ramp (no ramp PathSegment, and a result that does
not depend on the tool max plunge depth), but not without output: the 'Cutout path' shape
holds exactly the four ToolDepths of the flat pass, one per rectangle edge, each with one
ToolLevel named "Cutout" holding one flat PathSegment at the full cutout depth. -/
theorem create_cutout_degenerate (sqrt : ℚ → ℚ) (fuel : Nat)
    (diam tdiam maxdepth cutout_depth sx sy : ℚ) (toolnr : Int)
    (hC : circumfence sqrt (polygon_edges (cutout_polygon diam sx sy)) = 0) :
    ∃ r, create_cutout sqrt fuel diam tdiam maxdepth cutout_depth sx sy toolnr = some r ∧
      create_cutout sqrt 0 diam tdiam 0 cutout_depth sx sy toolnr = some r ∧
      r.1 = -cutout_depth ∧
      ramp_segments r.2 = [] ∧
      r.2.tooldepths.length = 4 ∧
      r.2.tooldepths = (polygon_edges (cutout_polygon diam sx sy)).map
        (fun e => cutout_tooldepth tdiam toolnr (some "Cutout") e
          (-cutout_depth) (-cutout_depth) (-cutout_depth)) ∧
      r.2.levels.map toollevel.name = [some "Cutout", some "Cutout", some "Cutout",
        some "Cutout"] ∧
      r.2.segments = (polygon_edges (cutout_polygon diam sx sy)).map
        (fun e => ⟨e.1.1, e.1.2, e.2.1, e.2.2, -cutout_depth, -cutout_depth⟩) := by
  refine ⟨_, create_cutout_zero sqrt fuel diam tdiam maxdepth cutout_depth sx sy toolnr hC,
    create_cutout_zero sqrt 0 diam tdiam 0 cutout_depth sx sy toolnr hC, rfl, ?_, ?_, ?_, ?_, ?_⟩
  · rw [ramp_segments_after_flat tdiam toolnr diam sx sy (-cutout_depth) _ [] (by simp)]
    rfl
  · simp only [cutout_flat_pass_new, polygon_edges_cutout]
    rfl
  · exact cutout_flat_pass_new _ _ _ _ _ _
  · simp only [inputshape.levels, cutout_flat_pass_new, polygon_edges_cutout]
    rfl
  · simp only [inputshape.segments, cutout_flat_pass_new, polygon_edges_cutout]
    rfl

theorem create_cutout_degenerate_witness :
    ∃ r, create_cutout sqrt_down 7 0 6 3 1 0 0 1 = some r ∧
      create_cutout sqrt_down 0 0 6 0 1 0 0 1 = some r ∧
      r.1 = -1 ∧
      ramp_segments r.2 = [] ∧
      r.2.tooldepths.length = 4 ∧
      r.2.tooldepths = (polygon_edges (cutout_polygon 0 0 0)).map
        (fun e => cutout_tooldepth 6 1 (some "Cutout") e (-1) (-1) (-1)) ∧
      r.2.levels.map toollevel.name = [some "Cutout", some "Cutout", some "Cutout",
        some "Cutout"] ∧
      r.2.segments = (polygon_edges (cutout_polygon 0 0 0)).map
        (fun e => ⟨e.1.1, e.1.2, e.2.1, e.2.2, -1, -1⟩) :=
  create_cutout_degenerate sqrt_down 7 0 6 3 1 0 0 1 circumfence_point

/-! ## Termination of the slicer loop (C16) -/

theorem line_to_loop_exit_fst (diam t : ℚ) (toolnr : Int) (X1 Y1 X2 Y2 : ℚ) :
    ∀ (fuel : Nat) (input : inputshape) (depth : Nat) (Z1 Z2 : ℚ),
      (line_to_loop_exit diam t toolnr X1 Y1 X2 Y2 fuel input depth Z1 Z2).map Prod.fst
        = line_to_loop diam t toolnr X1 Y1 X2 Y2 fuel input depth Z1 Z2
  | 0, input, depth, Z1, Z2 => by
    unfold line_to_loop_exit line_to_loop
    split <;> rfl
  | fuel + 1, input, depth, Z1, Z2 => by
    unfold line_to_loop_exit line_to_loop
    split
    · exact line_to_loop_exit_fst diam t toolnr X1 Y1 X2 Y2 fuel _ _ _ _
    · rfl

theorem line_to_loop_exit_depths (diam t : ℚ) (toolnr : Int) (X1 Y1 X2 Y2 : ℚ) :
    ∀ (fuel : Nat) (input : inputshape) (depth : Nat) (Z1 Z2 : ℚ) (r : inputshape × ℚ × ℚ),
      line_to_loop_exit diam t toolnr X1 Y1 X2 Y2 fuel input depth Z1 Z2 = some r →
      -0.000001 ≤ r.2.1 ∧ -0.00001 ≤ r.2.2
  | 0, input, depth, Z1, Z2, r, h => by
    unfold line_to_loop_exit at h
    split at h
    · exact absurd h (by simp)
    · rename_i hc
      simp only [Option.some.injEq] at h
      subst h
      rw [not_or, not_lt, not_lt] at hc
      exact hc
  | fuel + 1, input, depth, Z1, Z2, r, h => by
    unfold line_to_loop_exit at h
    split at h
    · exact line_to_loop_exit_depths diam t toolnr X1 Y1 X2 Y2 fuel _ _ _ _ r h
    · rename_i hc
      simp only [Option.some.injEq] at h
      subst h
      rw [not_or, not_lt, not_lt] at hc
      exact hc

theorem band_count_le_ceil (t Z1 Z2 : ℚ) (ht : 0 < t) :
    band_count t Z1 Z2 ≤ ⌈max 0 (max (-Z1) (-Z2)) / t⌉.toNat := by
  unfold band_count
  split
  · rename_i hc
    set m := max 0 (max (-Z1) (-Z2)) with hm
    have hm1 : -Z1 ≤ m := (le_max_left _ _).trans (le_max_right _ _)
    have hm2 : -Z2 ≤ m := (le_max_right _ _).trans (le_max_right _ _)
    have hmpos : 0 < m := by
      rcases hc with h | h
      · have : Z1 < 0 := lt_trans h (by norm_num)
        linarith
      · have : Z2 < 0 := lt_trans h (by norm_num)
        linarith
    have hN1 : 1 ≤ ⌈m / t⌉ := by
      have : 0 < ⌈m / t⌉ := Int.ceil_pos.mpr (div_pos hmpos ht)
      omega
    have hNt : m ≤ (⌈m / t⌉ : ℚ) * t := by
      have := Int.le_ceil (m / t)
      rwa [div_le_iff₀ ht] at this
    have hs : (20 : ℚ) * t ≤ (⌈t * 20⌉ : ℚ) := by
      have := Int.le_ceil (t * 20)
      linarith
    have hspos : (0 : ℚ) < (⌈t * 20⌉ : ℚ) := by linarith
    have ha : (Z1 + t) * 20 ≤ (⌈(Z1 + t) * 20⌉ : ℚ) := Int.le_ceil _
    have hc2 : (Z2 + t) * 20 ≤ (⌈(Z2 + t) * 20⌉ : ℚ) := Int.le_ceil _
    have hmn : 20 * (t - m) ≤ ((min ⌈(Z1 + t) * 20⌉ ⌈(Z2 + t) * 20⌉ : ℤ) : ℚ) := by
      rcases min_choice ⌈(Z1 + t) * 20⌉ ⌈(Z2 + t) * 20⌉ with h | h <;> rw [h] <;> linarith
    have hN1q : (1 : ℚ) ≤ (⌈m / t⌉ : ℚ) := by exact_mod_cast hN1
    have hkey : ⌈((-(min ⌈(Z1 + t) * 20⌉ ⌈(Z2 + t) * 20⌉) : ℤ) : ℚ) / (⌈t * 20⌉ : ℚ)⌉
        ≤ ⌈m / t⌉ - 1 := by
      rw [Int.ceil_le, div_le_iff₀ hspos]
      push_cast at hmn ⊢
      nlinarith
    have h2 : ⌈((-(min ⌈(Z1 + t) * 20⌉ ⌈(Z2 + t) * 20⌉) : ℤ) : ℚ) / (⌈t * 20⌉ : ℚ)⌉.toNat
        ≤ (⌈m / t⌉ - 1).toNat := Int.toNat_le_toNat hkey
    omega
  · exact Nat.zero_le _

theorem emit_bands_segments_length (diam : ℚ) (toolnr : Int) (X1 Y1 X2 Y2 : ℚ)
    (bs : List (ℚ × ℚ)) (input : inputshape) (depth : Nat) :
    (emit_bands diam toolnr X1 Y1 X2 Y2 bs input depth).segments.length
      = input.segments.length + bs.length := by
  rw [(emit_bands_segments diam toolnr X1 Y1 X2 Y2 bs input depth).length_eq,
    List.length_append, List.length_map]

/-! ## Which tool depth a band goes to (C18) -/

theorem segments_at_eq (s : inputshape) (j : Nat) :
    s.segments_at j = (s.tooldepths[j]?.map tooldepth.segments).getD [] := by
  unfold inputshape.segments_at
  rw [List.getD_eq_getElem?_getD, List.getElem?_map]

theorem pad_tooldepths_getElem? (tds : List tooldepth) (depth : Nat) (td : tooldepth)
    (htd : td.segments = []) (j : Nat) :
    ((pad_tooldepths tds depth td)[j]?.map tooldepth.segments).getD []
      = (tds[j]?.map tooldepth.segments).getD [] := by
  unfold pad_tooldepths
  by_cases hj : j < tds.length
  · rw [List.getElem?_append_left hj]
  · have hj2 : tds.length ≤ j := not_lt.mp hj
    rw [List.getElem?_append_right hj2, List.getElem?_eq_none hj2]
    by_cases hk : j - tds.length < depth + 1 - tds.length
    · rw [List.getElem?_replicate, if_pos hk]
      simp [htd]
    · rw [List.getElem?_replicate, if_neg hk]

theorem line_to_band_segments_at (diam : ℚ) (toolnr : Int) (input : inputshape) (depth : Nat)
    (X1 Y1 Z1 X2 Y2 Z2 : ℚ) (j : Nat) :
    (j ≠ depth →
      (line_to_band diam toolnr input depth X1 Y1 Z1 X2 Y2 Z2).segments_at j
        = input.segments_at j) ∧
    (j = depth →
      List.Perm ((line_to_band diam toolnr input depth X1 Y1 Z1 X2 Y2 Z2).segments_at j)
        (input.segments_at j ++ [⟨X1, Y1, X2, Y2, Z1, Z2⟩])) := by
  rw [segments_at_eq, segments_at_eq]
  unfold line_to_band
  simp only
  set td0 : tooldepth := { depth := Z1, toolnr := toolnr, diameter := diam, toollevels := [] }
  set f1 : tooldepth → tooldepth := fun td => if td.toollevels.length < 1
      then { td with toollevels := td.toollevels ++ [manual_level diam toolnr Z1] } else td
  set f2 : tooldepth → tooldepth := fun td => { td with
      toollevels := td.toollevels.modify (fun tl => tl.add_poly_vcarve X1 Y1 X2 Y2 Z1 Z2) 0 }
  have hpad := pad_tooldepths_getElem? input.tooldepths depth td0 rfl j
  have hf1 : ∀ a, tooldepth.segments (f1 a) = tooldepth.segments a := by
    intro a
    simp only [f1]
    split
    · simp [tooldepth.segments, manual_level]
    · rfl
  have hf2 : ∀ a, List.Perm (tooldepth.segments (f2 (f1 a)))
      (tooldepth.segments a ++ [⟨X1, Y1, X2, Y2, Z1, Z2⟩]) := by
    intro a
    have hlv : 0 < (f1 a).toollevels.length := by
      simp only [f1]
      split
      · simp
      · omega
    have h := flatten_map_modify_perm toollevel.polys
      (fun tl => tl.add_poly_vcarve X1 Y1 X2 Y2 Z1 Z2) ⟨X1, Y1, X2, Y2, Z1, Z2⟩
      (f1 a).toollevels 0 hlv (by simp [toollevel.add_poly_vcarve])
    rw [← hf1 a]
    exact h.trans (List.perm_append_singleton _ _).symm
  rw [List.getElem?_modify, List.getElem?_modify]
  constructor
  · intro hj
    have hne : ¬ depth = j := fun h => hj h.symm
    simp only [hne, if_false]
    rw [← hpad]
    cases (pad_tooldepths input.tooldepths depth td0)[j]? <;> rfl
  · intro hj
    subst hj
    rw [← hpad]
    have hlt := pad_tooldepths_length_gt input.tooldepths j td0
    rw [List.getElem?_eq_getElem hlt]
    simp only [if_true, Option.map_some', Option.getD_some, Functor.map]
    exact hf2 _

theorem emit_bands_segments_at (diam : ℚ) (toolnr : Int) (X1 Y1 X2 Y2 : ℚ) :
    ∀ (bs : List (ℚ × ℚ)) (input : inputshape) (depth j : Nat),
      (j ≤ depth →
        (emit_bands diam toolnr X1 Y1 X2 Y2 bs input depth).segments_at j
          = input.segments_at j) ∧
      (depth < j →
        List.Perm ((emit_bands diam toolnr X1 Y1 X2 Y2 bs input depth).segments_at j)
          (input.segments_at j ++ (bs[j - depth - 1]?.map
            (fun b => (⟨X1, Y1, X2, Y2, b.1, b.2⟩ : PathSegment))).toList))
  | [], input, depth, j => by
    simp [emit_bands]
  | b :: bs, input, depth, j => by
    obtain ⟨ih1, ih2⟩ := emit_bands_segments_at diam toolnr X1 Y1 X2 Y2 bs
      (line_to_band diam toolnr input (depth + 1) X1 Y1 b.1 X2 Y2 b.2) (depth + 1) j
    obtain ⟨hb1, hb2⟩ := line_to_band_segments_at diam toolnr input (depth + 1)
      X1 Y1 b.1 X2 Y2 b.2 j
    simp only [emit_bands]
    constructor
    · intro hj
      rw [ih1 (by omega), hb1 (by omega)]
    · intro hj
      by_cases hj1 : j = depth + 1
      · rw [ih1 (by omega)]
        have h0 : j - depth - 1 = 0 := by omega
        rw [h0, List.getElem?_cons_zero]
        exact hb2 hj1
      · have hlt : depth + 1 < j := by omega
        have hidx : j - depth - 1 = (j - (depth + 1) - 1) + 1 := by omega
        rw [hidx, List.getElem?_cons_succ, ← hb1 hj1]
        exact ih2 hlt

theorem emit_bands_length (diam : ℚ) (toolnr : Int) (X1 Y1 X2 Y2 : ℚ) :
    ∀ (bs : List (ℚ × ℚ)) (input : inputshape) (depth : Nat),
      (emit_bands diam toolnr X1 Y1 X2 Y2 bs input depth).tooldepths.length
        = if bs = [] then input.tooldepths.length
          else max input.tooldepths.length (depth + bs.length + 1)
  | [], input, depth => by simp [emit_bands]
  | b :: bs, input, depth => by
    simp only [emit_bands]
    rw [emit_bands_length diam toolnr X1 Y1 X2 Y2 bs _ (depth + 1), line_to_band_length]
    by_cases hbs : bs = []
    · subst hbs
      simp
    · rw [if_neg hbs, if_neg (by simp)]
      simp only [List.length_cons]
      omega

theorem line_to_segments_at (diam : ℚ) (fuel : Nat) (g : Globals) (input : inputshape)
    (X2 Y2 Z2 : ℚ) (hfirst : g.first = false) (ht : 0 < g.tooldepth)
    (hfuel : band_count g.tooldepth g.last_Z Z2 ≤ fuel) :
    ∃ r, line_to diam fuel g input X2 Y2 Z2 = some r ∧
      r.2.segments_at 0 = input.segments_at 0 ∧
      (∀ k : Nat, List.Perm (r.2.segments_at (k + 1))
        (input.segments_at (k + 1) ++ ((band_list g.tooldepth g.last_Z Z2)[k]?.map
          (fun b => (⟨g.last_X, g.last_Y, X2, Y2, b.1, b.2⟩ : PathSegment))).toList)) ∧
      r.2.tooldepths.length
        = if band_count g.tooldepth g.last_Z Z2 = 0 then input.tooldepths.length
          else max input.tooldepths.length (band_count g.tooldepth g.last_Z Z2 + 1) := by
  refine ⟨_, line_to_eq diam fuel g input X2 Y2 Z2 hfirst ht hfuel, ?_, ?_, ?_⟩
  · exact (emit_bands_segments_at diam g.toolnr g.last_X g.last_Y X2 Y2 _ input 0 0).1
      (le_refl _)
  · intro k
    have h := (emit_bands_segments_at diam g.toolnr g.last_X g.last_Y X2 Y2
      (band_list g.tooldepth g.last_Z Z2) input 0 (k + 1)).2 (Nat.succ_pos k)
    simpa using h
  · simp only
    rw [emit_bands_length, ← band_list_length]
    by_cases hb : band_list g.tooldepth g.last_Z Z2 = []
    · rw [if_pos hb, hb]
      rfl
    · rw [if_neg hb, if_neg (by
        intro h
        exact hb (List.length_eq_zero.mp h))]
      rw [Nat.zero_add]

/-- C18 (as stated, refuted): a move from depth -1 down to -1.5 with plunge increment 0.5 on a
shape that has no tool depth yet emits three PathSegments and leaves four ToolDepths; the one
at index 0 holds no segment at all, the first emitted segment (depth range -1 to -1.5) is in
the ToolDepth at index 1, the second at index 2, the third at index 3. -/
theorem line_to_first_band_not_at_index_zero :
    ∃ r, line_to 6 3 (pen_at (1 / 2) (-1)) (inputshape.new "STL path") 1 0 (-3 / 2) = some r ∧
      r.2.tooldepths.length = 4 ∧
      r.2.segments_at 0 = [] ∧
      r.2.segments_at 1 = [⟨0, 0, 1, 0, -1, -3 / 2⟩] ∧
      r.2.segments_at 2 = [⟨0, 0, 1, 0, -1 / 2, -1⟩] ∧
      r.2.segments_at 3 = [⟨0, 0, 1, 0, 0, -1 / 2⟩] := by
  have hfuel : band_count (pen_at (1 / 2) (-1)).tooldepth (pen_at (1 / 2) (-1)).last_Z
      (-3 / 2) ≤ 3 := by
    simp only [pen_at]; rw [band_count_example_descending]
  obtain ⟨r, hr, h0, hk, hlen⟩ := line_to_segments_at 6 3 (pen_at (1 / 2) (-1))
    (inputshape.new "STL path") 1 0 (-3 / 2) rfl (by norm_num [pen_at]) hfuel
  simp only [pen_at] at hk hlen
  rw [band_list_example_descending] at hk
  rw [band_count_example_descending] at hlen
  have hnew : ∀ j, (inputshape.new "STL path").segments_at j = [] := fun j => rfl
  refine ⟨r, hr, ?_, ?_, ?_, ?_, ?_⟩
  · rw [hlen]; rfl
  · rw [h0, hnew]
  · have h := hk 0
    rw [hnew] at h
    exact List.perm_singleton.mp h
  · have h := hk 1
    rw [hnew] at h
    exact List.perm_singleton.mp h
  · have h := hk 2
    rw [hnew] at h
    exact List.perm_singleton.mp h

/-! ## The sampler as a maximum over its probes (C14) -/

theorem probe_ring_eq_foldl (get_height : ℚ → ℚ → ℚ) (X Y R b : ℚ) (offs : List (ℚ × ℚ))
    (d : ℚ) :
    probe_ring get_height X Y R b offs d
      = (offs.map (fun o => get_height (X + o.1 * R) (Y + o.2 * R) + b)).foldl max d := by
  unfold probe_ring
  rw [List.foldl_map]

theorem le_foldl_max : ∀ (l : List ℚ) (d : ℚ), d ≤ l.foldl max d ∧ ∀ p ∈ l, p ≤ l.foldl max d
  | [], d => ⟨le_refl d, by simp⟩
  | a :: l, d => by
    obtain ⟨h1, h2⟩ := le_foldl_max l (max d a)
    rw [List.foldl_cons]
    refine ⟨(le_max_left _ _).trans h1, ?_⟩
    intro p hp
    rcases List.mem_cons.mp hp with rfl | hp
    · exact (le_max_right _ _).trans h1
    · exact h2 p hp

theorem le_ceilACC (d : ℚ) : d ≤ ceilACC d ∧ ceilACC d < d + 1 / 100 := by
  unfold ceilACC
  have h1 : d * 100 ≤ (⌈d * 100⌉ : ℚ) := Int.le_ceil _
  have h2 : (⌈d * 100⌉ : ℚ) < d * 100 + 1 := Int.ceil_lt_add_one _
  constructor
  · rw [le_div_iff₀ (by norm_num)]; exact h1
  · rw [div_lt_iff₀ (by norm_num)]; linarith

theorem axis_diag_ring8_subset :
    ∀ o ∈ axis_offsets ++ diag_offsets ++ ring8_offsets, o ∈ ring16_offsets := by
  intro o ho
  simp only [axis_offsets, diag_offsets, ring8_offsets, List.cons_append, List.nil_append,
    List.mem_cons, List.mem_singleton, List.not_mem_nil, or_false] at ho
  simp only [ring16_offsets, List.mem_cons, List.mem_singleton, List.not_mem_nil, or_false]
  rcases ho with h | h | h | h | h | h | h | h | h | h | h | h | h | h | h | h <;>
    subst h <;> norm_num

theorem get_height_tool_probes (sqrt : ℚ → ℚ) (get_height : ℚ → ℚ → ℚ) (X Y R : ℚ)
    (ballnose : Bool) :
    ∃ probes : List ℚ,
      get_height_tool sqrt get_height X Y R ballnose = ceilACC (probes.foldl max 0) ∧
      (get_height X Y :: (axis_offsets ++ diag_offsets).map
        (fun o => get_height (X + o.1 * R) (Y + o.2 * R)
          + (if ballnose then ballnose_offset sqrt R R else 0))) <+: probes ∧
      ∀ p ∈ probes, p = get_height X Y ∨ ∃ o ∈ ring16_offsets, ∃ Rk : ℚ,
        (Rk = R ∨ Rk = R / 1.5 ∨ Rk = R / 1.5 / 1.5) ∧
        p = get_height (X + o.1 * Rk) (Y + o.2 * Rk)
          + (if ballnose then ballnose_offset sqrt R Rk else 0) := by
  have hc : get_height (X + 0.0000 * R) (Y + 0.0000 * R) = get_height X Y := by norm_num
  have h00 : (0.0 : ℚ) = 0 := by norm_num
  have hmem1 : ∀ p ∈ get_height X Y :: (axis_offsets ++ diag_offsets).map
        (fun o => get_height (X + o.1 * R) (Y + o.2 * R)
          + (if ballnose then ballnose_offset sqrt R R else 0))
        ++ ring8_offsets.map (fun o => get_height (X + o.1 * R) (Y + o.2 * R)
          + (if ballnose then ballnose_offset sqrt R R else 0)),
      p = get_height X Y ∨ ∃ o ∈ ring16_offsets, ∃ Rk : ℚ,
        (Rk = R ∨ Rk = R / 1.5 ∨ Rk = R / 1.5 / 1.5) ∧
        p = get_height (X + o.1 * Rk) (Y + o.2 * Rk)
          + (if ballnose then ballnose_offset sqrt R Rk else 0) := by
    intro p hp
    rw [List.cons_append, ← List.map_append, List.mem_cons, List.mem_map] at hp
    rcases hp with rfl | ⟨o, ho, rfl⟩
    · exact Or.inl rfl
    · exact Or.inr ⟨o, axis_diag_ring8_subset o ho, R, Or.inl rfl, rfl⟩
  have hmem2 : ∀ p ∈ ring16_offsets.map
        (fun o => get_height (X + o.1 * (R / 1.5)) (Y + o.2 * (R / 1.5))
          + (if ballnose then ballnose_offset sqrt R (R / 1.5) else 0)),
      p = get_height X Y ∨ ∃ o ∈ ring16_offsets, ∃ Rk : ℚ,
        (Rk = R ∨ Rk = R / 1.5 ∨ Rk = R / 1.5 / 1.5) ∧
        p = get_height (X + o.1 * Rk) (Y + o.2 * Rk)
          + (if ballnose then ballnose_offset sqrt R Rk else 0) := by
    intro p hp
    rw [List.mem_map] at hp
    obtain ⟨o, ho, rfl⟩ := hp
    exact Or.inr ⟨o, ho, R / 1.5, Or.inr (Or.inl rfl), rfl⟩
  have hmem3 : ∀ p ∈ ring16_offsets.map
        (fun o => get_height (X + o.1 * (R / 1.5 / 1.5)) (Y + o.2 * (R / 1.5 / 1.5))
          + (if ballnose then ballnose_offset sqrt R (R / 1.5 / 1.5) else 0)),
      p = get_height X Y ∨ ∃ o ∈ ring16_offsets, ∃ Rk : ℚ,
        (Rk = R ∨ Rk = R / 1.5 ∨ Rk = R / 1.5 / 1.5) ∧
        p = get_height (X + o.1 * Rk) (Y + o.2 * Rk)
          + (if ballnose then ballnose_offset sqrt R Rk else 0) := by
    intro p hp
    rw [List.mem_map] at hp
    obtain ⟨o, ho, rfl⟩ := hp
    exact Or.inr ⟨o, ho, R / 1.5 / 1.5, Or.inr (Or.inr rfl), rfl⟩
  unfold get_height_tool
  simp only
  rw [hc]
  simp only [probe_ring_eq_foldl]
  generalize hb1 : (if ballnose = true then ballnose_offset sqrt R R else 0.0) = b1
  generalize hb2 : (if ballnose = true then ballnose_offset sqrt R (R / 1.5) else b1) = b2
  generalize hb3 : (if ballnose = true then ballnose_offset sqrt R (R / 1.5 / 1.5) else b2) = b3
  have hs1 : b1 = (if ballnose then ballnose_offset sqrt R R else 0) := by
    rw [← hb1, h00]
  have hs2 : b2 = (if ballnose then ballnose_offset sqrt R (R / 1.5) else 0) := by
    rw [← hb2, hs1]; cases ballnose <;> rfl
  have hs3 : b3 = (if ballnose then ballnose_offset sqrt R (R / 1.5 / 1.5) else 0) := by
    rw [← hb3, hs2]; cases ballnose <;> rfl
  clear hb1 hb2 hb3
  split
  · subst hs1
    refine ⟨(get_height X Y :: (axis_offsets ++ diag_offsets).map
            (fun o => get_height (X + o.1 * R) (Y + o.2 * R)
              + (if ballnose then ballnose_offset sqrt R R else 0))), ?_, List.prefix_refl _,
      fun p hp => hmem1 p (List.mem_append_left _ hp)⟩
    simp only [List.foldl_cons, List.map_append, List.foldl_append]
  · split
    · subst hs1
      refine ⟨((get_height X Y :: (axis_offsets ++ diag_offsets).map
            (fun o => get_height (X + o.1 * R) (Y + o.2 * R)
              + (if ballnose then ballnose_offset sqrt R R else 0)))
          ++ ring8_offsets.map (fun o => get_height (X + o.1 * R) (Y + o.2 * R)
              + (if ballnose then ballnose_offset sqrt R R else 0))), ?_, List.prefix_append _ _, hmem1⟩
      simp only [List.cons_append, List.foldl_cons, List.map_append, List.foldl_append]
    · split
      · subst hs1 hs2
        refine ⟨(((get_height X Y :: (axis_offsets ++ diag_offsets).map
            (fun o => get_height (X + o.1 * R) (Y + o.2 * R)
              + (if ballnose then ballnose_offset sqrt R R else 0)))
          ++ ring8_offsets.map (fun o => get_height (X + o.1 * R) (Y + o.2 * R)
              + (if ballnose then ballnose_offset sqrt R R else 0)))
          ++ ring16_offsets.map (fun o => get_height (X + o.1 * (R / 1.5)) (Y + o.2 * (R / 1.5))
              + (if ballnose then ballnose_offset sqrt R (R / 1.5) else 0))), ?_,
          (List.prefix_append _ _).trans (List.prefix_append _ _), ?_⟩
        · simp only [List.cons_append, List.foldl_cons, List.map_append, List.foldl_append]
        · intro p hp
          rcases List.mem_append.mp hp with hp | hp
          · exact hmem1 p hp
          · exact hmem2 p hp
      · subst hs1 hs2 hs3
        refine ⟨((((get_height X Y :: (axis_offsets ++ diag_offsets).map
            (fun o => get_height (X + o.1 * R) (Y + o.2 * R)
              + (if ballnose then ballnose_offset sqrt R R else 0)))
          ++ ring8_offsets.map (fun o => get_height (X + o.1 * R) (Y + o.2 * R)
              + (if ballnose then ballnose_offset sqrt R R else 0)))
          ++ ring16_offsets.map (fun o => get_height (X + o.1 * (R / 1.5)) (Y + o.2 * (R / 1.5))
              + (if ballnose then ballnose_offset sqrt R (R / 1.5) else 0)))
          ++ ring16_offsets.map (fun o => get_height (X + o.1 * (R / 1.5 / 1.5)) (Y + o.2 * (R / 1.5 / 1.5))
              + (if ballnose then ballnose_offset sqrt R (R / 1.5 / 1.5) else 0))), ?_,
          ((List.prefix_append _ _).trans (List.prefix_append _ _)).trans
            (List.prefix_append _ _), ?_⟩
        · simp only [List.cons_append, List.foldl_cons, List.map_append, List.foldl_append]
        · intro p hp
          rcases List.mem_append.mp hp with hp | hp
          · rcases List.mem_append.mp hp with hp | hp
            · exact hmem1 p hp
            · exact hmem2 p hp
          · exact hmem3 p hp

/-! ## The ring offsets and the documented circle table (C19) -/

theorem foldl_max_zero : ∀ (l : List ℚ), (∀ p ∈ l, p = 0) → l.foldl max 0 = 0
  | [], _ => rfl
  | a :: l, h => by
    rw [List.foldl_cons, h a (List.mem_cons_self _ _), max_self]
    exact foldl_max_zero l (fun p hp => h p (List.mem_cons_of_mem _ hp))

theorem ceilACC_zero : ceilACC 0 = 0 := by
  unfold ceilACC
  norm_num

theorem spike_missed (o : ℚ × ℚ) (ho : o ∈ ring16_offsets) (Rk : ℚ)
    (hR : Rk = 1 ∨ Rk = 1 / 1.5 ∨ Rk = 1 / 1.5 / 1.5) :
    spike_field (-0.3827) 0.9239 (0 + o.1 * Rk) (0 + o.2 * Rk) = 0 := by
  unfold spike_field
  rw [if_neg]
  simp only [ring16_offsets, List.mem_cons, List.mem_singleton, List.not_mem_nil, or_false] at ho
  rcases ho with h | h | h | h | h | h | h | h | h | h | h | h | h | h | h | h <;>
    rcases hR with hR | hR | hR <;> subst h <;> subst hR <;> norm_num

/-- C19 (the code at the failing input): the 16-point ring of the code is not the documented
circle table: at 112.5 degrees (entry 5) the table has `(-0.3827, 0.9239)` where the code
probes `(-0.3872, 0.9239)`, in the 8-point run of the first ring as well; the code's ring
holds `(0.3827, 0.9239)` but not its mirror image `(-0.3827, 0.9239)`, so it is not symmetric
under negating X. On the height field that is 1 only at the table's 112.5 degree point of the
circle of radius 1 around the origin, and 0 elsewhere, the flat-end sampler returns 0 at the
origin, while for the mirrored field (1 only at the 67.5 degree point) the probes contain
that point. -/
theorem ring16_offsets_not_circle_table :
    ring16_offsets ≠ circle_table ∧
    circle_table[5]? = some ((-0.3827, 0.9239) : ℚ × ℚ) ∧
    ring16_offsets[5]? = some ((-0.3872, 0.9239) : ℚ × ℚ) ∧
    ring8_offsets[2]? = some ((-0.3872, 0.9239) : ℚ × ℚ) ∧
    (0.3827, 0.9239) ∈ ring16_offsets ∧ (-0.3827, 0.9239) ∉ ring16_offsets ∧
    (0.3827, 0.9239) ∈ ring8_offsets ∧ (-0.3827, 0.9239) ∉ ring8_offsets ∧
    spike_field (-0.3827) 0.9239 (0 + (-0.3827) * 1) (0 + 0.9239 * 1) = 1 ∧
    get_height_tool sqrt_down (spike_field (-0.3827) 0.9239) 0 0 1 false = 0 ∧
    spike_field 0.3827 0.9239 (0 + 0.3827 * 1) (0 + 0.9239 * 1) = 1 ∧
    1 ≤ get_height_tool sqrt_down (spike_field 0.3827 0.9239) 0 0 1 false := by
  have hnot16 : (-0.3827, 0.9239) ∉ ring16_offsets := by
    simp only [ring16_offsets, List.mem_cons, List.mem_singleton, List.not_mem_nil, or_false,
      Prod.mk.injEq]
    norm_num
  have hnot8 : (-0.3827, 0.9239) ∉ ring8_offsets := by
    simp only [ring8_offsets, List.mem_cons, List.mem_singleton, List.not_mem_nil, or_false,
      Prod.mk.injEq]
    norm_num
  have hin16 : (0.3827, 0.9239) ∈ ring16_offsets := by
    simp [ring16_offsets]
  have hin8 : (0.3827, 0.9239) ∈ ring8_offsets := by
    simp [ring8_offsets]
  refine ⟨?_, rfl, rfl, rfl, hin16, hnot16, hin8, hnot8, ?_, ?_, ?_, ?_⟩
  · intro h
    apply hnot16
    rw [h]
    simp [circle_table]
  · unfold spike_field
    rw [if_pos]
    norm_num
  · obtain ⟨probes, hv, _, hmem⟩ :=
      get_height_tool_probes sqrt_down (spike_field (-0.3827) 0.9239) 0 0 1 false
    rw [hv, foldl_max_zero probes, ceilACC_zero]
    intro p hp
    rcases hmem p hp with h | ⟨o, ho, Rk, hR, h⟩
    · rw [h]
      unfold spike_field
      rw [if_neg]
      norm_num
    · rw [h, spike_missed o ho Rk hR]
      simp
  · unfold spike_field
    rw [if_pos]
    norm_num
  · have hp : ∀ (Rp b : ℚ) (offs : List (ℚ × ℚ)) (d x : ℚ),
        x ≤ d → x ≤ probe_ring (spike_field 0.3827 0.9239) 0 0 Rp b offs d :=
      fun Rp b offs d x hd =>
        hd.trans (probe_ring_ge (spike_field 0.3827 0.9239) 0 0 Rp b offs d)
    have hring : ∀ d : ℚ,
        1 ≤ probe_ring (spike_field 0.3827 0.9239) 0 0 1 0.0 ring8_offsets d := by
      intro d
      rw [probe_ring_eq_foldl]
      refine le_trans ?_ ((le_foldl_max _ d).2
        (spike_field 0.3827 0.9239 (0 + 0.3827 * 1) (0 + 0.9239 * 1) + 0.0) ?_)
      · unfold spike_field
        rw [if_pos (by norm_num)]
        norm_num
      · rw [List.mem_map]
        exact ⟨(0.3827, 0.9239), hin8, rfl⟩
    unfold get_height_tool
    simp only [Bool.false_eq_true, if_false]
    rw [if_neg (by norm_num), if_neg (by norm_num), if_neg (by norm_num)]
    refine le_trans ?_ (le_ceilACC _).1
    apply hp
    apply hp
    exact hring _

/-! ## One band per move when the plunge increment exceeds the depths (C15) -/

theorem band_list_single (t Z1 Z2 : ℚ) (h1 : -t < Z1) (h2 : -t < Z2) :
    band_list t Z1 Z2 = if Z1 < -0.000001 ∨ Z2 < -0.00001 then [(Z1, Z2)] else [] := by
  unfold band_list
  split
  · rename_i hcnd
    have ha : 0 < ⌈(Z1 + t) * 20⌉ := Int.ceil_pos.mpr (by linarith)
    have hc : 0 < ⌈(Z2 + t) * 20⌉ := Int.ceil_pos.mpr (by linarith)
    have hmn : 0 < min ⌈(Z1 + t) * 20⌉ ⌈(Z2 + t) * 20⌉ := lt_min ha hc
    have hs : 0 < ⌈t * 20⌉ := by
      apply Int.ceil_pos.mpr
      rcases hcnd with h | h
      · have : Z1 < 0 := lt_trans h (by norm_num)
        linarith
      · have : Z2 < 0 := lt_trans h (by norm_num)
        linarith
    have hneg : ((-(min ⌈(Z1 + t) * 20⌉ ⌈(Z2 + t) * 20⌉) : ℤ) : ℚ) / (⌈t * 20⌉ : ℚ) ≤ 0 := by
      apply div_nonpos_of_nonpos_of_nonneg
      · have : ((min ⌈(Z1 + t) * 20⌉ ⌈(Z2 + t) * 20⌉ : ℤ) : ℚ) > 0 := by exact_mod_cast hmn
        push_cast at this ⊢
        linarith
      · exact_mod_cast hs.le
    have hz : ⌈((-(min ⌈(Z1 + t) * 20⌉ ⌈(Z2 + t) * 20⌉) : ℤ) : ℚ) / (⌈t * 20⌉ : ℚ)⌉.toNat
        = 0 := by
      apply Int.toNat_eq_zero.mpr
      exact Int.ceil_le.mpr (by simpa using hneg)
    rw [hz]
    rfl
  · rfl

theorem band_count_single (t Z1 Z2 : ℚ) (h1 : -t < Z1) (h2 : -t < Z2) :
    band_count t Z1 Z2 ≤ 1 := by
  rw [← band_list_length, band_list_single t Z1 Z2 h1 h2]
  split <;> simp

theorem line_to_single (diam : ℚ) (fuel : Nat) (g : Globals) (input : inputshape)
    (X2 Y2 Z2 : ℚ) (ht : 0 < g.tooldepth) (hfuel : 1 ≤ fuel)
    (hz1 : g.first = true ∨ -g.tooldepth < g.last_Z) (hz2 : -g.tooldepth < Z2) :
    ∃ r, line_to diam fuel g input X2 Y2 Z2 = some r ∧
      List.Perm r.2.segments (input.segments ++
        if g.first = false ∧ (g.last_Z < -0.000001 ∨ Z2 < -0.00001)
        then [⟨g.last_X, g.last_Y, X2, Y2, g.last_Z, Z2⟩] else []) ∧
      r.2.tooldepths.length
        = (if g.first = false ∧ (g.last_Z < -0.000001 ∨ Z2 < -0.00001)
          then max input.tooldepths.length 2 else input.tooldepths.length) ∧
      r.1.tooldepth = g.tooldepth ∧ r.1.toolnr = g.toolnr ∧ r.1.first = false ∧
      r.1.last_X = X2 ∧ r.1.last_Y = Y2 ∧ r.1.last_Z = Z2 := by
  by_cases hfirst : g.first = true
  · rw [line_to_first diam fuel g input X2 Y2 Z2 hfirst]
    refine ⟨_, rfl, ?_, ?_, rfl, rfl, rfl, rfl, rfl, rfl⟩
    · rw [if_neg (by rw [hfirst]; simp)]
      simp
    · rw [if_neg (by rw [hfirst]; simp)]
  · have hf : g.first = false := by simpa using hfirst
    have hl : -g.tooldepth < g.last_Z := hz1.resolve_left hfirst
    have hbl := band_list_single g.tooldepth g.last_Z Z2 hl hz2
    rw [line_to_eq diam fuel g input X2 Y2 Z2 hf ht
      ((band_count_single g.tooldepth g.last_Z Z2 hl hz2).trans hfuel)]
    refine ⟨_, rfl, ?_, ?_, rfl, rfl, hf, rfl, rfl, rfl⟩
    · refine (emit_bands_segments diam g.toolnr g.last_X g.last_Y X2 Y2 _ input 0).trans ?_
      rw [hbl]
      by_cases hc : g.last_Z < -0.000001 ∨ Z2 < -0.00001
      · rw [if_pos hc, if_pos ⟨hf, hc⟩]
        rfl
      · rw [if_neg hc, if_neg (fun h => hc h.2)]
        rfl
    · simp only
      rw [emit_bands_length]
      by_cases hc : g.last_Z < -0.000001 ∨ Z2 < -0.00001
      · have hbl2 : band_list g.tooldepth g.last_Z Z2 = [(g.last_Z, Z2)] := by
          rw [hbl, if_pos hc]
        have hif : (g.first = false ∧ (g.last_Z < -0.000001 ∨ Z2 < -0.00001)) := ⟨hf, hc⟩
        rw [hbl2]
        simp only [if_pos hif]
        rw [if_neg (by simp)]
        rfl
      · have hbl2 : band_list g.tooldepth g.last_Z Z2 = [] := by
          rw [hbl, if_neg hc]
        have hif : ¬ (g.first = false ∧ (g.last_Z < -0.000001 ∨ Z2 < -0.00001)) :=
          fun h => hc h.2
        rw [hbl2]
        simp only [if_neg hif]
        rfl

theorem scan_move_single (E : Env) (F : Nat) (st : ScanState) (X Y Z : ℚ)
    (ht : st.g.tooldepth = 5000) (hF : 1 ≤ F)
    (hz1 : st.g.first = true ∨ -5000 < st.g.last_Z) (hz2 : -5000 < Z) :
    ∃ st2, scan_move E F st X Y Z = some st2 ∧
      st2.moves = st.moves ++ [(X, Y, Z)] ∧
      List.Perm st2.input.segments (st.input.segments ++
        if st.g.first = false ∧ (st.g.last_Z < -0.000001 ∨ Z < -0.00001)
        then [⟨st.g.last_X, st.g.last_Y, X, Y, st.g.last_Z, Z⟩] else []) ∧
      st2.input.tooldepths.length
        = (if st.g.first = false ∧ (st.g.last_Z < -0.000001 ∨ Z < -0.00001)
          then max st.input.tooldepths.length 2 else st.input.tooldepths.length) ∧
      st2.g.tooldepth = 5000 ∧ st2.g.first = false ∧
      st2.g.last_X = X ∧ st2.g.last_Y = Y ∧ st2.g.last_Z = Z := by
  obtain ⟨r, hr, h1, h2, h3, _, h5, h6, h7, h8⟩ := line_to_single E.get_tool_diameter F st.g
    st.input X Y Z (by rw [ht]; norm_num) hF (by rw [ht]; exact hz1) (by rw [ht]; exact hz2)
  unfold scan_move
  rw [hr]
  exact ⟨_, rfl, rfl, h1, h2, by rw [h3, ht], h5, h6, h7, h8⟩

/-! ## A pass with plunge increment 5000 never needs a third tool depth (C15) -/

theorem scan_move_unlimited (E : Env) (F : Nat) (st : ScanState) (X Y Z : ℚ) (hF : 1 ≤ F)
    (hinv : st.g.tooldepth = 5000 ∧ (st.g.first = true ∨ -5000 < st.g.last_Z) ∧
      st.input.tooldepths.length ≤ 2) (hZ : -5000 < Z) :
    ∃ st2, scan_move E F st X Y Z = some st2 ∧
      (st2.g.tooldepth = 5000 ∧ (st2.g.first = true ∨ -5000 < st2.g.last_Z) ∧
        st2.input.tooldepths.length ≤ 2) := by
  obtain ⟨ht, hpen, hlen⟩ := hinv
  obtain ⟨st2, h, _, _, h2, h3, _, _, _, h7⟩ := scan_move_single E F st X Y Z ht hF hpen hZ
  refine ⟨st2, h, h3, Or.inr (by rw [h7]; exact hZ), ?_⟩
  rw [h2]
  split
  · exact max_le hlen (le_refl 2)
  · exact hlen

theorem scan_point_unlimited (E : Env) (L : ScanLocals) (roughing : Bool) (F : Nat)
    (pt : ℚ → ℚ × ℚ) (look v : ℚ) (st : ScanState) (hF : 1 ≤ F)
    (hM : L.maxZ - L.offset < 5000)
    (hinv : st.g.tooldepth = 5000 ∧ (st.g.first = true ∨ -5000 < st.g.last_Z) ∧
      st.input.tooldepths.length ≤ 2) :
    ∃ r, scan_point E L roughing F pt look v st = some r ∧
      (r.2.g.tooldepth = 5000 ∧ (r.2.g.first = true ∨ -5000 < r.2.g.last_Z) ∧
        r.2.input.tooldepths.length ≤ 2) := by
  have hZ : ∀ p, -5000 < -L.maxZ + sample E L p + L.offset := by
    intro p
    have := sample_nonneg E L p
    linarith
  have key : ∀ w : ℚ, ∃ r,
      (if (!outside_area E.sqrt (pt w).1 (pt w).2 E.stl_image_X E.stl_image_Y L.diam) = true
        then (scan_move E F st (pt w).1 (pt w).2 (-L.maxZ + sample E L (pt w) + L.offset)).map
          (fun st => (w, st))
        else some (w, st)) = some r ∧
      (r.2.g.tooldepth = 5000 ∧ (r.2.g.first = true ∨ -5000 < r.2.g.last_Z) ∧
        r.2.input.tooldepths.length ≤ 2) := by
    intro w
    split
    · obtain ⟨st2, h, hinv2⟩ := scan_move_unlimited E F st (pt w).1 (pt w).2 _ hF hinv
        (hZ (pt w))
      rw [h]
      exact ⟨_, rfl, hinv2⟩
    · exact ⟨_, rfl, hinv⟩
  unfold scan_point
  simp only
  generalize lookahead_trigger (sample E L (pt v)) st.g.last_Z roughing = trig
  cases trig
  · simp only [Bool.false_eq_true, if_false]
    exact key v
  · simp only [if_true]
    exact key look

theorem scan_turn_unlimited (E : Env) (L : ScanLocals) (F : Nat) (cond : Bool) (X Y : ℚ)
    (st : ScanState) (hF : 1 ≤ F) (hM : L.maxZ - L.offset < 5000)
    (hinv : st.g.tooldepth = 5000 ∧ (st.g.first = true ∨ -5000 < st.g.last_Z) ∧
      st.input.tooldepths.length ≤ 2) :
    ∃ st2, scan_turn E L F cond X Y st = some st2 ∧
      (st2.g.tooldepth = 5000 ∧ (st2.g.first = true ∨ -5000 < st2.g.last_Z) ∧
        st2.input.tooldepths.length ≤ 2) := by
  unfold scan_turn
  split
  · have hZ : -5000 < -L.maxZ + L.offset + sample E L (X, Y) := by
      have := sample_nonneg E L (X, Y)
      linarith
    exact scan_move_unlimited E F st _ _ _ hF hinv hZ
  · exact ⟨st, rfl, hinv⟩

theorem scan_line_unlimited (E : Env) (L : ScanLocals) (roughing : Bool) (F : Nat)
    (pt : ℚ → ℚ × ℚ) (fwd : Bool) (lo hi : ℚ) (hF : 1 ≤ F) (hM : L.maxZ - L.offset < 5000) :
    ∀ (fuel : Nat) (v prev : ℚ) (st st2 : ScanState),
      (st.g.tooldepth = 5000 ∧ (st.g.first = true ∨ -5000 < st.g.last_Z) ∧
        st.input.tooldepths.length ≤ 2) →
      scan_line E L roughing F pt fwd lo hi fuel v prev st = some st2 →
      (st2.g.tooldepth = 5000 ∧ (st2.g.first = true ∨ -5000 < st2.g.last_Z) ∧
        st2.input.tooldepths.length ≤ 2) := by
  intro fuel
  induction fuel with
  | zero =>
    intro v prev st st2 hinv h
    rw [scan_line_unfold] at h
    by_cases hc : (if fwd = true then v < hi else v > lo)
    · rw [if_pos hc] at h
      exact absurd h (by simp)
    · rw [if_neg hc] at h
      simp only [Option.some.injEq] at h
      rw [← h]; exact hinv
  | succ fuel ih =>
    intro v prev st st2 hinv h
    rw [scan_line_unfold] at h
    by_cases hc : (if fwd = true then v < hi else v > lo)
    · rw [if_pos hc] at h
      obtain ⟨r, hr, hinv1⟩ := scan_point_unlimited E L roughing F pt
        (if fwd = true then prev + L.stepover / 1.5 else prev - L.stepover / 1.5) v st hF hM hinv
      simp only at h
      rw [hr] at h
      exact ih _ _ _ _ hinv1 h
    · rw [if_neg hc] at h
      simp only [Option.some.injEq] at h
      rw [← h]; exact hinv

theorem scan_odd_unfold (E : Env) (L : ScanLocals) (roughing : Bool) (F fuel : Nat) (X : ℚ)
    (st : ScanState) :
    scan_odd E L roughing F fuel X st =
      if X < L.maxX then
      match fuel with
      | 0 => none
      | fuel + 1 =>
        match scan_line E L roughing F (fun v => (X, v)) true (-L.overshoot) L.maxY F
            (-L.overshoot) (-L.overshoot) st with
        | none => none
        | some st =>
          match scan_turn E L F (decide (X + L.stepover < L.maxX)) (X + L.stepover) L.maxY st with
          | none => none
          | some st =>
            match scan_line E L roughing F (fun v => (X + L.stepover, v)) false (-L.overshoot)
                L.maxY F L.maxY L.maxY st with
            | none => none
            | some st =>
              match scan_turn E L F (decide (X + L.stepover + L.stepover < L.maxX))
                  (X + L.stepover + L.stepover) (-L.overshoot) st with
              | none => none
              | some st => scan_odd E L roughing F fuel (X + L.stepover + L.stepover) st
    else some st := by
  cases fuel <;> rfl

theorem scan_even_unlimited (E : Env) (L : ScanLocals) (roughing : Bool) (F : Nat)
    (hF : 1 ≤ F) (hM : L.maxZ - L.offset < 5000) :
    ∀ (fuel : Nat) (Y : ℚ) (st st2 : ScanState),
      (st.g.tooldepth = 5000 ∧ (st.g.first = true ∨ -5000 < st.g.last_Z) ∧
        st.input.tooldepths.length ≤ 2) →
      scan_even E L roughing F fuel Y st = some st2 →
      (st2.g.tooldepth = 5000 ∧ (st2.g.first = true ∨ -5000 < st2.g.last_Z) ∧
        st2.input.tooldepths.length ≤ 2) := by
  intro fuel
  induction fuel with
  | zero =>
    intro Y st st2 hinv h
    rw [scan_even_unfold] at h
    split at h
    · exact absurd h (by simp)
    · simp only [Option.some.injEq] at h
      rw [← h]; exact hinv
  | succ fuel ih =>
    intro Y st st2 hinv h
    rw [scan_even_unfold] at h
    split at h
    · simp only at h
      cases h1 : scan_line E L roughing F (fun v => (v, Y)) true (-L.overshoot) L.maxX F
          (-L.overshoot) (-L.overshoot) st with
      | none => rw [h1] at h; exact absurd h (by simp)
      | some s1 =>
        rw [h1] at h
        simp only at h
        have i1 := scan_line_unlimited E L roughing F _ true _ _ hF hM F _ _ st s1 hinv h1
        obtain ⟨s2, h2, i2⟩ := scan_turn_unlimited E L F true L.maxX (Y + L.stepover) s1 hF hM i1
        rw [h2] at h
        simp only at h
        cases h3 : scan_line E L roughing F (fun v => (v, Y + L.stepover)) false (-L.overshoot)
            L.maxX F L.maxX L.maxX s2 with
        | none => rw [h3] at h; exact absurd h (by simp)
        | some s3 =>
          rw [h3] at h
          simp only at h
          have i3 := scan_line_unlimited E L roughing F _ false _ _ hF hM F _ _ s2 s3 i2 h3
          obtain ⟨s4, h4, i4⟩ := scan_turn_unlimited E L F
            (decide (Y + L.stepover + L.stepover < L.maxY)) (-L.overshoot)
            (Y + L.stepover + L.stepover) s3 hF hM i3
          rw [h4] at h
          simp only at h
          exact ih _ _ _ i4 h
    · simp only [Option.some.injEq] at h
      rw [← h]; exact hinv

theorem scan_odd_unlimited (E : Env) (L : ScanLocals) (roughing : Bool) (F : Nat)
    (hF : 1 ≤ F) (hM : L.maxZ - L.offset < 5000) :
    ∀ (fuel : Nat) (X : ℚ) (st st2 : ScanState),
      (st.g.tooldepth = 5000 ∧ (st.g.first = true ∨ -5000 < st.g.last_Z) ∧
        st.input.tooldepths.length ≤ 2) →
      scan_odd E L roughing F fuel X st = some st2 →
      (st2.g.tooldepth = 5000 ∧ (st2.g.first = true ∨ -5000 < st2.g.last_Z) ∧
        st2.input.tooldepths.length ≤ 2) := by
  intro fuel
  induction fuel with
  | zero =>
    intro X st st2 hinv h
    rw [scan_odd_unfold] at h
    split at h
    · exact absurd h (by simp)
    · simp only [Option.some.injEq] at h
      rw [← h]; exact hinv
  | succ fuel ih =>
    intro X st st2 hinv h
    rw [scan_odd_unfold] at h
    split at h
    · simp only at h
      cases h1 : scan_line E L roughing F (fun v => (X, v)) true (-L.overshoot) L.maxY F
          (-L.overshoot) (-L.overshoot) st with
      | none => rw [h1] at h; exact absurd h (by simp)
      | some s1 =>
        rw [h1] at h
        simp only at h
        have i1 := scan_line_unlimited E L roughing F _ true _ _ hF hM F _ _ st s1 hinv h1
        obtain ⟨s2, h2, i2⟩ := scan_turn_unlimited E L F (decide (X + L.stepover < L.maxX))
          (X + L.stepover) L.maxY s1 hF hM i1
        rw [h2] at h
        simp only at h
        cases h3 : scan_line E L roughing F (fun v => (X + L.stepover, v)) false (-L.overshoot)
            L.maxY F L.maxY L.maxY s2 with
        | none => rw [h3] at h; exact absurd h (by simp)
        | some s3 =>
          rw [h3] at h
          simp only at h
          have i3 := scan_line_unlimited E L roughing F _ false _ _ hF hM F _ _ s2 s3 i2 h3
          obtain ⟨s4, h4, i4⟩ := scan_turn_unlimited E L F
            (decide (X + L.stepover + L.stepover < L.maxX)) (X + L.stepover + L.stepover)
            (-L.overshoot) s3 hF hM i3
          rw [h4] at h
          simp only at h
          exact ih _ _ _ i4 h
    · simp only [Option.some.injEq] at h
      rw [← h]; exact hinv

theorem create_toolpath_unlimited (E : Env) (F : Nat) (g : Globals) (sc : scene) (tool : Int)
    (roughing has_cutout even : Bool) (hg : g.tooldepth = 5000) (hF : 1 ≤ F)
    (hM : (scan_locals E sc tool roughing has_cutout).maxZ
      - (scan_locals E sc tool roughing has_cutout).offset < 5000)
    (r : ScanState × scene)
    (hr : create_toolpath E F g sc tool roughing has_cutout even = some r) :
    r.1.input.tooldepths.length ≤ 2 ∧ r.2.shapes = sc.shapes ++ [r.1.input] := by
  unfold create_toolpath at hr
  simp only at hr
  obtain ⟨st, hst, hrst⟩ := Option.map_eq_some'.mp hr
  have hinv : st.g.tooldepth = 5000 ∧ (st.g.first = true ∨ -5000 < st.g.last_Z) ∧
      st.input.tooldepths.length ≤ 2 := by
    cases even
    · simp only [Bool.false_eq_true, if_false] at hst
      exact scan_odd_unlimited E _ roughing F hF hM F _ _ st
        ⟨hg, Or.inl rfl, by simp [inputshape.new]⟩ hst
    · simp only [if_true] at hst
      exact scan_even_unlimited E _ roughing F hF hM F _ _ st
        ⟨hg, Or.inl rfl, by simp [inputshape.new]⟩ hst
  rw [← hrst]
  exact ⟨hinv.2.2, rfl⟩

/-! ## The roughing lookahead on a flat height field (C13, C20) -/

theorem outside_area_inside_Y (sqrt : ℚ → ℚ) (X Y mX mY diam : ℚ) (h0 : 0 ≤ Y) (h1 : Y ≤ mY) :
    outside_area sqrt X Y mX mY diam = false := by
  unfold outside_area
  simp only [if_neg (not_lt.mpr h1)]
  rw [if_neg]
  intro hc
  exact absurd hc.2.1 (not_lt.mpr h0)

theorem scan_point_flat (E : Env) (L : ScanLocals) (F : Nat) (pt : ℚ → ℚ × ℚ) (look v : ℚ)
    (st : ScanState) (d0 : ℚ) (hs : ∀ p, sample E L p = d0) :
    scan_point E L true F pt look v st
      = if outside_area E.sqrt (pt (if |d0 - st.g.last_Z| > 1 then look else v)).1
            (pt (if |d0 - st.g.last_Z| > 1 then look else v)).2
            E.stl_image_X E.stl_image_Y L.diam = true
        then some ((if |d0 - st.g.last_Z| > 1 then look else v), st)
        else (scan_move E F st (pt (if |d0 - st.g.last_Z| > 1 then look else v)).1
            (pt (if |d0 - st.g.last_Z| > 1 then look else v)).2
            (-L.maxZ + d0 + L.offset)).map
          (fun s => ((if |d0 - st.g.last_Z| > 1 then look else v), s)) := by
  unfold scan_point lookahead_trigger
  simp only [hs, Bool.and_true, decide_eq_true_eq, ite_self]
  cases outside_area E.sqrt (pt (if |d0 - st.g.last_Z| > 1 then look else v)).1
    (pt (if |d0 - st.g.last_Z| > 1 then look else v)).2 E.stl_image_X E.stl_image_Y L.diam <;>
    simp

theorem scan_line_one (E : Env) (L : ScanLocals) (roughing : Bool) (F : Nat) (pt : ℚ → ℚ × ℚ)
    (fwd : Bool) (lo hi : ℚ) (fuel : Nat) (v prev w : ℚ) (st st1 : ScanState)
    (hc : if fwd = true then v < hi else v > lo)
    (hp : scan_point E L roughing F pt
      (if fwd = true then prev + L.stepover / 1.5 else prev - L.stepover / 1.5) v st
      = some (w, st1))
    (hend : ¬ (if fwd = true then w + L.stepover < hi else w - L.stepover > lo)) :
    scan_line E L roughing F pt fwd lo hi (fuel + 1) v prev st = some st1 := by
  rw [scan_line_unfold, if_pos hc]
  simp only
  rw [hp]
  simp only
  rw [scan_line_unfold, if_neg]
  cases fwd
  · simpa using hend
  · simpa using hend

theorem strip_locals (c : ℚ) :
    scan_locals strip_env (strip_scene c) 2 true false
      = { diam := 1, maxZ := c, radius := 1, overshoot := 0, maxX := 1, maxY := 4,
          stepover := 3, offset := 0, ballnose := false } := by
  unfold scan_locals
  simp [strip_env, strip_scene]

theorem strip_sample (L : ScanLocals) (hr : 0 ≤ L.radius + L.offset) (hb : L.ballnose = false)
    (p : ℚ × ℚ) : sample strip_env L p = 0 := by
  unfold sample
  rw [get_height_tool_flat_aux strip_env.sqrt strip_env.get_height 0 p.1 p.2 _ L.ballnose
    (fun _ _ => rfl) hr (by rw [hb]; simp)]
  rw [max_self]
  unfold ceilACC
  norm_num

theorem strip_scan (F : Nat) (st0 : ScanState) (c : ℚ) (L : ScanLocals)
    (hL : L = ⟨1, c, 1, 0, 1, 4, 3, 0, false⟩)
    (hg : st0.g.tooldepth = 5000) (hfirst : st0.g.first = true)
    (hc0 : 0.00001 < c) (hc : c < 5000) (hF : 2 ≤ F) :
    ∃ st3, scan_even strip_env L true F F (-L.overshoot) st0 = some st3 ∧
      st3.moves = st0.moves ++
        [((if |0 - st0.g.last_Z| > 1 then 2 else 0), 0, -c), (1, 3, -c),
         ((if |0 - (-c)| > 1 then -1 else 1), 3, -c)] ∧
      List.Perm st3.input.segments (st0.input.segments ++
        [⟨(if |0 - st0.g.last_Z| > 1 then 2 else 0), 0, 1, 3, -c, -c⟩,
         ⟨1, 3, (if |0 - (-c)| > 1 then -1 else 1), 3, -c, -c⟩]) := by
  have hov : L.overshoot = 0 := by rw [hL]
  have hmx : L.maxX = 1 := by rw [hL]
  have hmy : L.maxY = 4 := by rw [hL]
  have hst : L.stepover = 3 := by rw [hL]
  have hof : L.offset = 0 := by rw [hL]
  have hmz : L.maxZ = c := by rw [hL]
  have hdm : L.diam = 1 := by rw [hL]
  have hs : ∀ p, sample strip_env L p = 0 :=
    strip_sample L (by rw [hL]; norm_num) (by rw [hL])
  have hZ : -L.maxZ + 0 + L.offset = -c := by rw [hmz, hof]; ring
  have hZt : ∀ p, -L.maxZ + L.offset + sample strip_env L p = -c := by
    intro p; rw [hmz, hof, hs]; ring
  have hcm : -5000 < -c := by linarith
  obtain ⟨k, rfl⟩ : ∃ k, F = k + 2 := ⟨F - 2, by omega⟩
  -- first row
  obtain ⟨st1, h1, hm1, hp1, _, ht1, hf1, hx1, hy1, hz1⟩ := scan_move_single strip_env (k + 2) st0
    (if |0 - st0.g.last_Z| > 1 then 2 else 0) 0 (-c) hg (by omega) (Or.inl hfirst) hcm
  have hrow1 : scan_line strip_env L true (k + 2) (fun v => (v, -L.overshoot)) true
      (-L.overshoot) L.maxX (k + 2) (-L.overshoot) (-L.overshoot) st0 = some st1 := by
    apply scan_line_one strip_env L true (k + 2) _ true _ _ (k + 1) _ _
      (if |0 - st0.g.last_Z| > 1 then 2 else 0) st0 st1
    · simp only [if_true]; rw [hov, hmx]; norm_num
    · rw [scan_point_flat strip_env L (k + 2) _ _ _ st0 0 hs]
      simp only [if_true]
      rw [outside_area_inside_Y _ _ _ _ _ _ (by rw [hov]; norm_num)
        (by rw [hov]; norm_num [strip_env])]
      simp only [Bool.false_eq_true, if_false]
      rw [hZ, hov, hst]
      have hlook : (-(0 : ℚ) + 3 / 1.5) = 2 := by norm_num
      have hzero : (-(0 : ℚ)) = 0 := by norm_num
      rw [hlook, hzero, h1]
      rfl
    · simp only [if_true]
      rw [hst, hmx]
      split <;> norm_num
  -- the move to the end of the next row
  obtain ⟨st2, h2, hm2, hp2, _, ht2, hf2, hx2, hy2, hz2⟩ := scan_move_single strip_env (k + 2) st1
    1 3 (-c) ht1 (by omega) (Or.inr (by rw [hz1]; exact hcm)) hcm
  have hturn : scan_turn strip_env L (k + 2) true L.maxX (-L.overshoot + L.stepover) st1
      = some st2 := by
    unfold scan_turn
    rw [outside_area_inside_Y _ _ _ _ _ _ (by rw [hov, hst]; norm_num)
      (by rw [hov, hst]; norm_num [strip_env])]
    simp only [Bool.not_false, Bool.and_self, if_true]
    rw [hZt, hmx, hov, hst]
    have h3 : (-(0 : ℚ) + 3) = 3 := by norm_num
    rw [h3, h2]
  -- second row, backwards
  obtain ⟨st3, h3, hm3, hp3, _, ht3, hf3, hx3, hy3, hz3⟩ := scan_move_single strip_env (k + 2) st2
    (if |0 - (-c)| > 1 then -1 else 1) 3 (-c) ht2 (by omega)
    (Or.inr (by rw [hz2]; exact hcm)) hcm
  have hrow2 : scan_line strip_env L true (k + 2) (fun v => (v, -L.overshoot + L.stepover))
      false (-L.overshoot) L.maxX (k + 2) L.maxX L.maxX st2 = some st3 := by
    apply scan_line_one strip_env L true (k + 2) _ false _ _ (k + 1) _ _
      (if |0 - (-c)| > 1 then -1 else 1) st2 st3
    · simp only [Bool.false_eq_true, if_false]; rw [hov, hmx]; norm_num
    · rw [scan_point_flat strip_env L (k + 2) _ _ _ st2 0 hs]
      simp only [Bool.false_eq_true, if_false]
      rw [outside_area_inside_Y _ _ _ _ _ _ (by rw [hov, hst]; norm_num)
        (by rw [hov, hst]; norm_num [strip_env])]
      simp only [Bool.false_eq_true, if_false]
      rw [hZ, hov, hst, hmx, hz2]
      have hlook : ((1 : ℚ) - 3 / 1.5) = -1 := by norm_num
      have h03 : (-(0 : ℚ) + 3) = 3 := by norm_num
      rw [hlook, h03, h3]
      rfl
    · simp only [Bool.false_eq_true, if_false]
      rw [hst, hov]
      split <;> norm_num
  have hturn2 : scan_turn strip_env L (k + 2)
      (decide (-L.overshoot + L.stepover + L.stepover < L.maxY)) (-L.overshoot)
      (-L.overshoot + L.stepover + L.stepover) st3 = some st3 := by
    unfold scan_turn
    have hd : decide (-L.overshoot + L.stepover + L.stepover < L.maxY) = false := by
      rw [hov, hst, hmy]; norm_num
    rw [hd]
    rfl
  have hexit : scan_even strip_env L true (k + 2) (k + 1)
      (-L.overshoot + L.stepover + L.stepover) st3 = some st3 := by
    rw [scan_even_unfold, if_neg (by rw [hov, hst, hmy]; norm_num)]
  refine ⟨st3, ?_, ?_, ?_⟩
  · rw [scan_even_unfold, if_pos (by rw [hov, hmy]; norm_num)]
    simp only
    rw [hrow1]
    simp only
    rw [hturn]
    simp only
    rw [hrow2]
    simp only
    rw [hturn2]
    simp only
    exact hexit
  · rw [hm3, hm2, hm1]
    simp
  · refine hp3.trans ?_
    rw [if_pos ⟨hf2, Or.inl (by rw [hz2]; linarith)⟩, hx2, hy2, hz2]
    refine (hp2.append_right _).trans ?_
    rw [if_pos ⟨hf1, Or.inl (by rw [hz1]; linarith)⟩, hx1, hy1, hz1]
    refine ((hp1.append_right _).append_right _).trans ?_
    rw [if_neg (by rw [hfirst]; simp)]
    simp

theorem strip_run (F : Nat) (g : Globals) (c : ℚ) (hg : g.tooldepth = 5000)
    (hc0 : 0.00001 < c) (hc : c < 5000) (hF : 2 ≤ F) :
    ∃ r, create_toolpath strip_env F g (strip_scene c) 2 true false true = some r ∧
      r.1.moves = [((if |0 - g.last_Z| > 1 then 2 else 0), 0, -c), (1, 3, -c),
         ((if |0 - (-c)| > 1 then -1 else 1), 3, -c)] ∧
      List.Perm r.1.input.segments
        [⟨(if |0 - g.last_Z| > 1 then 2 else 0), 0, 1, 3, -c, -c⟩,
         ⟨1, 3, (if |0 - (-c)| > 1 then -1 else 1), 3, -c, -c⟩] ∧
      r.2.shapes = [r.1.input] := by
  obtain ⟨st3, h, hm, hp⟩ := strip_scan F
    { g := { { g with toolnr := 2 } with first := true },
      input := inputshape.new "STL path", moves := [] } c
    (scan_locals strip_env (strip_scene c) 2 true false) (strip_locals c) hg rfl hc0 hc hF
  refine ⟨(st3, { strip_scene c with shapes := (strip_scene c).shapes ++ [st3.input] }),
    ?_, ?_, ?_, rfl⟩
  · unfold create_toolpath
    simp only [if_true]
    rw [h]
    rfl
  · simpa using hm
  · simpa [inputshape.new, inputshape.segments] using hp

theorem tool_loop_tooldepth (sc : scene) (maxdepth : Int → ℚ) (omit_cutout : Bool) :
    ∀ (k : Nat) (even : Bool),
      (∀ td nr r hc ev,
        PlannerCall.toolpath td nr r hc ev ∈ tool_loop sc maxdepth omit_cutout k even →
        ∃ i, i < k ∧ nr = sc.tools.getD i 0 ∧ td = if i ≠ 0 then 5000 else maxdepth nr) ∧
      (∀ i, i < k → ∃ r hc ev,
        PlannerCall.toolpath (if i ≠ 0 then 5000 else maxdepth (sc.tools.getD i 0))
          (sc.tools.getD i 0) r hc ev ∈ tool_loop sc maxdepth omit_cutout k even)
  | 0, even => by simp [tool_loop]
  | i + 1, even => by
    unfold tool_loop
    simp only
    split
    · obtain ⟨ih1, ih2⟩ := tool_loop_tooldepth sc maxdepth omit_cutout i (!!even)
      constructor
      · intro td nr r hc ev hmem
        rcases List.mem_cons.mp hmem with h | hmem
        · simp only [PlannerCall.toolpath.injEq] at h
          exact ⟨i, by omega, h.2.1, by rw [h.1, h.2.1]⟩
        · rcases List.mem_cons.mp hmem with h | hmem
          · simp only [PlannerCall.toolpath.injEq] at h
            exact ⟨i, by omega, h.2.1, by rw [h.1, h.2.1]⟩
          · obtain ⟨j, hj, h⟩ := ih1 td nr r hc ev hmem
            exact ⟨j, by omega, h⟩
      · intro j hj
        by_cases hji : j = i
        · subst hji
          exact ⟨_, _, _, List.mem_cons_self _ _⟩
        · obtain ⟨r, hc, ev, h⟩ := ih2 j (by omega)
          exact ⟨r, hc, ev, List.mem_cons_of_mem _ (List.mem_cons_of_mem _ h)⟩
    · obtain ⟨ih1, ih2⟩ := tool_loop_tooldepth sc maxdepth omit_cutout i (!even)
      constructor
      · intro td nr r hc ev hmem
        rcases List.mem_cons.mp hmem with h | hmem
        · simp only [PlannerCall.toolpath.injEq] at h
          exact ⟨i, by omega, h.2.1, by rw [h.1, h.2.1]⟩
        · obtain ⟨j, hj, h⟩ := ih1 td nr r hc ev hmem
          exact ⟨j, by omega, h⟩
      · intro j hj
        by_cases hji : j = i
        · subst hji
          exact ⟨_, _, _, List.mem_cons_self _ _⟩
        · obtain ⟨r, hc, ev, h⟩ := ih2 j (by omega)
          exact ⟨r, hc, ev, List.mem_cons_of_mem _ h⟩

theorem process_stl_file_tooldepth (sc : scene) (maxdepth : Int → ℚ) :
    (∀ td nr r hc ev,
      PlannerCall.toolpath td nr r hc ev ∈ (process_stl_file sc maxdepth).2 →
      ∃ i, i < sc.tools.length ∧ nr = sc.tools.getD i 0 ∧
        td = if i ≠ 0 then 5000 else maxdepth nr) ∧
    (∀ i, i < sc.tools.length → ∃ r hc ev,
      PlannerCall.toolpath (if i ≠ 0 then 5000 else maxdepth (sc.tools.getD i 0))
        (sc.tools.getD i 0) r hc ev ∈ (process_stl_file sc maxdepth).2) := by
  have key : ∀ sc2 : scene, sc2.tools = sc.tools → ∀ (b : Bool) (extra : List PlannerCall),
      (∀ c ∈ extra, ∃ t, c = PlannerCall.cutout t) →
      (∀ td nr r hc ev,
        PlannerCall.toolpath td nr r hc ev
          ∈ tool_loop sc2 maxdepth b sc.tools.length true ++ extra →
        ∃ i, i < sc.tools.length ∧ nr = sc.tools.getD i 0 ∧
          td = if i ≠ 0 then 5000 else maxdepth nr) ∧
      (∀ i, i < sc.tools.length → ∃ r hc ev,
        PlannerCall.toolpath (if i ≠ 0 then 5000 else maxdepth (sc.tools.getD i 0))
          (sc.tools.getD i 0) r hc ev
          ∈ tool_loop sc2 maxdepth b sc.tools.length true ++ extra) := by
    intro sc2 htools b extra hextra
    obtain ⟨h1, h2⟩ := tool_loop_tooldepth sc2 maxdepth b sc.tools.length true
    rw [htools] at h1 h2
    constructor
    · intro td nr r hc ev hmem
      rcases List.mem_append.mp hmem with hmem | hmem
      · exact h1 td nr r hc ev hmem
      · obtain ⟨t, ht⟩ := hextra _ hmem
        exact absurd ht (by simp)
    · intro i hi
      obtain ⟨r, hc, ev, h⟩ := h2 i hi
      exact ⟨r, hc, ev, List.mem_append_left _ h⟩
  have hextra : ∀ (b : Bool) (t : Int), ∀ c ∈ (if b then [PlannerCall.cutout t] else []),
      ∃ t2, c = PlannerCall.cutout t2 := by
    intro b t c hc
    cases b
    · simp at hc
    · simp only [if_true, List.mem_singleton] at hc
      exact ⟨t, hc⟩
  unfold process_stl_file
  simp only
  by_cases hcut : sc.cutout_depth < 0.01
  · simp only [if_pos hcut]
    exact key { sc with cutout_depth := sc.depth } rfl _ _ (hextra _ _)
  · simp only [if_neg hcut]
    exact key sc rfl _ _ (hextra _ _)

/-- C15: `process_stl_file` calls `create_toolpath` with plunge increment 5000 for every tool
index `i ≠ 0` and with the tool's rated maximum depth for `i = 0` (and makes such a call for
every index). With increment 5000 a `line_to` call whose depths are above -5000 returns with
fuel for one pass; when it reaches the loop (it is not the shape's first call, which only
records the position) it emits exactly one PathSegment, with depth range `(z1, z2)`, if
`z1 < -0.000001` or `z2 < -0.00001`, and none otherwise, and a shape that had at most two
ToolDepths still has at most two. Hence every `create_toolpath` pass with increment 5000 whose
cutout depth less stock to leave is below 5000 leaves, whenever it returns, a shape with at
most two ToolDepth entries. -/
theorem process_stl_file_unlimited_plunge (sc : scene) (maxdepth : Int → ℚ) (diam : ℚ)
    (fuel : Nat) (g : Globals) (input : inputshape) (X2 Y2 Z2 : ℚ)
    (hg : g.tooldepth = 5000) (hfuel : 1 ≤ fuel)
    (hz1 : g.first = true ∨ -5000 < g.last_Z) (hz2 : -5000 < Z2) :
    (∀ td nr r hc ev,
      PlannerCall.toolpath td nr r hc ev ∈ (process_stl_file sc maxdepth).2 →
      ∃ i, i < sc.tools.length ∧ nr = sc.tools.getD i 0 ∧
        td = if i ≠ 0 then 5000 else maxdepth nr) ∧
    (∀ i, i < sc.tools.length → ∃ r hc ev,
      PlannerCall.toolpath (if i ≠ 0 then 5000 else maxdepth (sc.tools.getD i 0))
        (sc.tools.getD i 0) r hc ev ∈ (process_stl_file sc maxdepth).2) ∧
    (∃ r, line_to diam fuel g input X2 Y2 Z2 = some r ∧
      List.Perm r.2.segments (input.segments ++
        if g.first = false ∧ (g.last_Z < -0.000001 ∨ Z2 < -0.00001)
        then [⟨g.last_X, g.last_Y, X2, Y2, g.last_Z, Z2⟩] else []) ∧
      r.2.tooldepths.length
        = (if g.first = false ∧ (g.last_Z < -0.000001 ∨ Z2 < -0.00001)
          then max input.tooldepths.length 2 else input.tooldepths.length) ∧
      (input.tooldepths.length ≤ 2 → r.2.tooldepths.length ≤ 2) ∧
      r.1.tooldepth = 5000 ∧ r.1.first = false ∧ r.1.last_Z = Z2) ∧
    (∀ (E : Env) (F : Nat) (sc2 : scene) (tool : Int) (roughing has_cutout even : Bool),
      1 ≤ F →
      (scan_locals E sc2 tool roughing has_cutout).maxZ
        - (scan_locals E sc2 tool roughing has_cutout).offset < 5000 →
      ∀ r, create_toolpath E F g sc2 tool roughing has_cutout even = some r →
        r.1.input.tooldepths.length ≤ 2) := by
  obtain ⟨ha1, ha2⟩ := process_stl_file_tooldepth sc maxdepth
  obtain ⟨r, hr, h1, h2, h3, _, h5, _, _, h8⟩ := line_to_single diam fuel g input X2 Y2 Z2
    (by rw [hg]; norm_num) hfuel (by rw [hg]; exact hz1) (by rw [hg]; exact hz2)
  refine ⟨ha1, ha2, ⟨r, hr, h1, h2, ?_, by rw [h3, hg], h5, h8⟩, ?_⟩
  · intro hlen
    rw [h2]
    split
    · exact max_le hlen (le_refl 2)
    · exact hlen
  · intro E F sc2 tool roughing has_cutout even hF hM r hr2
    exact (create_toolpath_unlimited E F g sc2 tool roughing has_cutout even hg hF hM r hr2).1

theorem process_stl_file_unlimited_plunge_witness :
    (∀ td nr r hc ev,
      PlannerCall.toolpath td nr r hc ev ∈ (process_stl_file (strip_scene 5) (fun _ => 3)).2 →
      ∃ i, i < (strip_scene 5).tools.length ∧ nr = (strip_scene 5).tools.getD i 0 ∧
        td = if i ≠ 0 then 5000 else (fun _ => (3 : ℚ)) nr) ∧
    (∀ i, i < (strip_scene 5).tools.length → ∃ r hc ev,
      PlannerCall.toolpath
        (if i ≠ 0 then 5000 else (fun _ => (3 : ℚ)) ((strip_scene 5).tools.getD i 0))
        ((strip_scene 5).tools.getD i 0) r hc ev
        ∈ (process_stl_file (strip_scene 5) (fun _ => 3)).2) ∧
    (∃ r, line_to 1 1 (pen_at 5000 (-5)) (inputshape.new "STL path") 1 3 (-5) = some r ∧
      List.Perm r.2.segments ((inputshape.new "STL path").segments ++
        if (pen_at 5000 (-5)).first = false ∧
          ((pen_at 5000 (-5)).last_Z < -0.000001 ∨ (-5 : ℚ) < -0.00001)
        then [⟨(pen_at 5000 (-5)).last_X, (pen_at 5000 (-5)).last_Y, 1, 3,
          (pen_at 5000 (-5)).last_Z, -5⟩] else []) ∧
      r.2.tooldepths.length
        = (if (pen_at 5000 (-5)).first = false ∧
            ((pen_at 5000 (-5)).last_Z < -0.000001 ∨ (-5 : ℚ) < -0.00001)
          then max (inputshape.new "STL path").tooldepths.length 2
          else (inputshape.new "STL path").tooldepths.length) ∧
      ((inputshape.new "STL path").tooldepths.length ≤ 2 → r.2.tooldepths.length ≤ 2) ∧
      r.1.tooldepth = 5000 ∧ r.1.first = false ∧ r.1.last_Z = -5) ∧
    (∀ (E : Env) (F : Nat) (sc2 : scene) (tool : Int) (roughing has_cutout even : Bool),
      1 ≤ F →
      (scan_locals E sc2 tool roughing has_cutout).maxZ
        - (scan_locals E sc2 tool roughing has_cutout).offset < 5000 →
      ∀ r, create_toolpath E F (pen_at 5000 (-5)) sc2 tool roughing has_cutout even = some r →
        r.1.input.tooldepths.length ≤ 2) :=
  process_stl_file_unlimited_plunge (strip_scene 5) (fun _ => 3) 1 1 (pen_at 5000 (-5))
    (inputshape.new "STL path") 1 3 (-5) rfl (le_refl 1)
    (Or.inr (by norm_num [pen_at])) (by norm_num)

/-- C13 (the code at the failing input): the lookahead test compares the sampled height `d`
with the remembered depth `last_Z = -maxZ + d_prev + offset` of the previous move, not with
the previously sampled height `d_prev`: it fires iff `|d - d_prev + (maxZ - offset)| > 1`.
On the flat field of height 0 with cutout depth 5 and no stock to leave (every sample is 0)
the roughing pass re-probes at the third grid point: after the accepted move to `(1, 3)` the
test `|0 - (-5)| > 1` fires and the move planned for `X = 1` is made at `X = 1 - 3/1.5 = -1`
instead. Conversely, for heights 5 and then 0 (a drop of 5) the test does not fire. -/
theorem lookahead_fires_on_flat_field :
    (∀ d dprev maxZ offset : ℚ,
      lookahead_trigger d (-maxZ + dprev + offset) true
        = decide (|d - dprev + (maxZ - offset)| > 1)) ∧
    (∀ p, sample strip_env (scan_locals strip_env (strip_scene 5) 2 true false) p = 0) ∧
    (∃ r, create_toolpath strip_env 2 (fresh_pen 5000) (strip_scene 5) 2 true false true
        = some r ∧
      r.1.moves = [(0, 0, -5), (1, 3, -5), (-1, 3, -5)] ∧
      List.Perm r.1.input.segments [⟨0, 0, 1, 3, -5, -5⟩, ⟨1, 3, -1, 3, -5, -5⟩]) ∧
    lookahead_trigger 0 (-5 + 0 + 0) true = true ∧
    lookahead_trigger 0 (-5 + 5 + 0) true = false := by
  have hgen : ∀ d dprev maxZ offset : ℚ,
      lookahead_trigger d (-maxZ + dprev + offset) true
        = decide (|d - dprev + (maxZ - offset)| > 1) := by
    intro d dprev maxZ offset
    unfold lookahead_trigger
    rw [Bool.and_true]
    congr 2
    ring_nf
  refine ⟨hgen, ?_, ?_, ?_, ?_⟩
  · intro p
    exact strip_sample _ (by rw [strip_locals]; norm_num) (by rw [strip_locals]) p
  · obtain ⟨r, hr, hm, hp, _⟩ := strip_run 2 (fresh_pen 5000) 5 rfl (by norm_num) (by norm_num)
      (le_refl 2)
    have h1 : ¬ (|0 - (fresh_pen 5000).last_Z| > 1) := by norm_num [fresh_pen]
    have h3 : |0 - (-(5 : ℚ))| > 1 := by norm_num
    rw [if_neg h1, if_pos h3] at hm hp
    exact ⟨r, hr, hm, hp⟩
  · rw [hgen]; norm_num
  · rw [hgen]; norm_num

/-! ## Without roughing the remembered pen does not matter (C20) -/

theorem visible_fields (g g2 : Globals) (h : g.visible = g2.visible) :
    g.first = g2.first ∧ g.toolnr = g2.toolnr ∧ g.tooldepth = g2.tooldepth ∧
    (g.first = false → g.last_X = g2.last_X ∧ g.last_Y = g2.last_Y ∧ g.last_Z = g2.last_Z) := by
  have hf : g.visible.first = g2.visible.first := congrArg Globals.first h
  have hn : g.visible.toolnr = g2.visible.toolnr := congrArg Globals.toolnr h
  have ht : g.visible.tooldepth = g2.visible.tooldepth := congrArg Globals.tooldepth h
  have hx := congrArg Globals.last_X h
  have hy := congrArg Globals.last_Y h
  have hz := congrArg Globals.last_Z h
  refine ⟨hf, hn, ht, ?_⟩
  intro hfalse
  have hfalse2 : g2.first = false := hf.symm.trans hfalse
  simp only [Globals.visible, hfalse, hfalse2, Bool.false_eq_true, if_false] at hx hy hz
  exact ⟨hx, hy, hz⟩

theorem line_to_visible (diam : ℚ) (fuel : Nat) (g g2 : Globals) (input : inputshape)
    (X2 Y2 Z2 : ℚ) (h : g.visible = g2.visible) :
    (line_to diam fuel g input X2 Y2 Z2).map (fun r => (r.1.visible, r.2))
      = (line_to diam fuel g2 input X2 Y2 Z2).map (fun r => (r.1.visible, r.2)) := by
  obtain ⟨hf, hn, ht, hl⟩ := visible_fields g g2 h
  by_cases hfirst : g.first = true
  · rw [line_to_first diam fuel g input X2 Y2 Z2 hfirst,
      line_to_first diam fuel g2 input X2 Y2 Z2 (by rw [← hf]; exact hfirst)]
    simp only [Option.map_some', Globals.visible, Bool.false_eq_true, if_false, hn, ht]
  · have hfalse : g.first = false := by simpa using hfirst
    have hfalse2 : g2.first = false := by rw [← hf]; exact hfalse
    obtain ⟨hx, hy, hz⟩ := hl hfalse
    unfold line_to
    simp only [hfalse, hfalse2, Bool.false_eq_true, if_false, Option.map_map, hn, ht, hx, hy, hz]
    congr 1

theorem scan_move_visible (E : Env) (F : Nat) (st st2 : ScanState) (X Y Z : ℚ)
    (h : st.visible = st2.visible) :
    (scan_move E F st X Y Z).map ScanState.visible
      = (scan_move E F st2 X Y Z).map ScanState.visible := by
  have hg : st.g.visible = st2.g.visible := congrArg ScanState.g h
  have hi : st.visible.input = st2.visible.input := congrArg ScanState.input h
  have hm : st.visible.moves = st2.visible.moves := congrArg ScanState.moves h
  change st.input = st2.input at hi
  change st.moves = st2.moves at hm
  have hl := line_to_visible E.get_tool_diameter F st.g st2.g st.input X Y Z hg
  unfold scan_move
  rw [← hi, ← hm]
  rw [Option.map_map, Option.map_map]
  have := congrArg (Option.map (fun r : Globals × inputshape =>
    ({ g := r.1, input := r.2, moves := st.moves ++ [(X, Y, Z)] } : ScanState))) hl
  simpa [Option.map_map, Function.comp, ScanState.visible] using this

theorem visible_cases (a b : Option ScanState)
    (hab : a.map ScanState.visible = b.map ScanState.visible) :
    (a = none ∧ b = none) ∨
      ∃ s s2, a = some s ∧ b = some s2 ∧ s.visible = s2.visible := by
  cases a with
  | none =>
    cases b with
    | none => exact Or.inl ⟨rfl, rfl⟩
    | some s2 => simp at hab
  | some s =>
    cases b with
    | none => simp at hab
    | some s2 =>
      simp only [Option.map_some', Option.some.injEq] at hab
      exact Or.inr ⟨s, s2, rfl, rfl, hab⟩

theorem scan_point_visible (E : Env) (L : ScanLocals) (F : Nat) (pt : ℚ → ℚ × ℚ) (look v : ℚ)
    (st st2 : ScanState) (h : st.visible = st2.visible) :
    (scan_point E L false F pt look v st = none ∧ scan_point E L false F pt look v st2 = none) ∨
      ∃ s s2, scan_point E L false F pt look v st = some (v, s) ∧
        scan_point E L false F pt look v st2 = some (v, s2) ∧ s.visible = s2.visible := by
  rw [scan_point_nonrough, scan_point_nonrough]
  split
  · exact Or.inr ⟨st, st2, rfl, rfl, h⟩
  · rcases visible_cases _ _ (scan_move_visible E F st st2 (pt v).1 (pt v).2
      (-L.maxZ + sample E L (pt v) + L.offset) h) with ⟨ha, hb⟩ | ⟨s, s2, ha, hb, hs⟩
    · rw [ha, hb]
      exact Or.inl ⟨rfl, rfl⟩
    · rw [ha, hb]
      exact Or.inr ⟨s, s2, rfl, rfl, hs⟩

theorem scan_turn_visible (E : Env) (L : ScanLocals) (F : Nat) (cond : Bool) (X Y : ℚ)
    (st st2 : ScanState) (h : st.visible = st2.visible) :
    (scan_turn E L F cond X Y st).map ScanState.visible
      = (scan_turn E L F cond X Y st2).map ScanState.visible := by
  unfold scan_turn
  split
  · exact scan_move_visible E F st st2 _ _ _ h
  · simp only [Option.map_some']
    rw [h]

theorem scan_line_visible (E : Env) (L : ScanLocals) (F : Nat) (pt : ℚ → ℚ × ℚ) (fwd : Bool)
    (lo hi : ℚ) :
    ∀ (fuel : Nat) (v prev : ℚ) (st st2 : ScanState), st.visible = st2.visible →
      (scan_line E L false F pt fwd lo hi fuel v prev st).map ScanState.visible
        = (scan_line E L false F pt fwd lo hi fuel v prev st2).map ScanState.visible := by
  intro fuel
  induction fuel with
  | zero =>
    intro v prev st st2 h
    rw [scan_line_unfold, scan_line_unfold]
    by_cases hc : (if fwd = true then v < hi else v > lo)
    · rw [if_pos hc, if_pos hc]
    · rw [if_neg hc, if_neg hc]
      simp only [Option.map_some']
      rw [h]
  | succ fuel ih =>
    intro v prev st st2 h
    rw [scan_line_unfold, scan_line_unfold]
    by_cases hc : (if fwd = true then v < hi else v > lo)
    · rw [if_pos hc, if_pos hc]
      simp only
      rcases scan_point_visible E L F pt
        (if fwd = true then prev + L.stepover / 1.5 else prev - L.stepover / 1.5) v st st2 h
        with ⟨ha, hb⟩ | ⟨s, s2, ha, hb, hs⟩
      · rw [ha, hb]
      · rw [ha, hb]
        simp only
        exact ih _ _ s s2 hs
    · rw [if_neg hc, if_neg hc]
      simp only [Option.map_some']
      rw [h]

theorem scan_even_visible (E : Env) (L : ScanLocals) (F : Nat) :
    ∀ (fuel : Nat) (Y : ℚ) (st st2 : ScanState), st.visible = st2.visible →
      (scan_even E L false F fuel Y st).map ScanState.visible
        = (scan_even E L false F fuel Y st2).map ScanState.visible := by
  intro fuel
  induction fuel with
  | zero =>
    intro Y st st2 h
    rw [scan_even_unfold, scan_even_unfold]
    by_cases hc : Y < L.maxY
    · rw [if_pos hc, if_pos hc]
    · rw [if_neg hc, if_neg hc]
      simp only [Option.map_some']
      rw [h]
  | succ fuel ih =>
    intro Y st st2 h
    rw [scan_even_unfold, scan_even_unfold]
    by_cases hc : Y < L.maxY
    · rw [if_pos hc, if_pos hc]
      simp only
      rcases visible_cases _ _ (scan_line_visible E L F (fun v => (v, Y)) true (-L.overshoot)
        L.maxX F (-L.overshoot) (-L.overshoot) st st2 h) with ⟨ha, hb⟩ | ⟨s, s2, ha, hb, hs⟩
      · rw [ha, hb]
      · rw [ha, hb]
        simp only
        rcases visible_cases _ _ (scan_turn_visible E L F true L.maxX (Y + L.stepover) s s2 hs)
          with ⟨ha, hb⟩ | ⟨s, s2, ha, hb, hs⟩
        · rw [ha, hb]
        · rw [ha, hb]
          simp only
          rcases visible_cases _ _ (scan_line_visible E L F (fun v => (v, Y + L.stepover)) false
            (-L.overshoot) L.maxX F L.maxX L.maxX s s2 hs) with ⟨ha, hb⟩ | ⟨s, s2, ha, hb, hs⟩
          · rw [ha, hb]
          · rw [ha, hb]
            simp only
            rcases visible_cases _ _ (scan_turn_visible E L F
              (decide (Y + L.stepover + L.stepover < L.maxY)) (-L.overshoot)
              (Y + L.stepover + L.stepover) s s2 hs) with ⟨ha, hb⟩ | ⟨s, s2, ha, hb, hs⟩
            · rw [ha, hb]
            · rw [ha, hb]
              simp only
              exact ih _ s s2 hs
    · rw [if_neg hc, if_neg hc]
      simp only [Option.map_some']
      rw [h]

theorem scan_odd_visible (E : Env) (L : ScanLocals) (F : Nat) :
    ∀ (fuel : Nat) (X : ℚ) (st st2 : ScanState), st.visible = st2.visible →
      (scan_odd E L false F fuel X st).map ScanState.visible
        = (scan_odd E L false F fuel X st2).map ScanState.visible := by
  intro fuel
  induction fuel with
  | zero =>
    intro X st st2 h
    rw [scan_odd_unfold, scan_odd_unfold]
    by_cases hc : X < L.maxX
    · rw [if_pos hc, if_pos hc]
    · rw [if_neg hc, if_neg hc]
      simp only [Option.map_some']
      rw [h]
  | succ fuel ih =>
    intro X st st2 h
    rw [scan_odd_unfold, scan_odd_unfold]
    by_cases hc : X < L.maxX
    · rw [if_pos hc, if_pos hc]
      simp only
      rcases visible_cases _ _ (scan_line_visible E L F (fun v => (X, v)) true (-L.overshoot)
        L.maxY F (-L.overshoot) (-L.overshoot) st st2 h) with ⟨ha, hb⟩ | ⟨s, s2, ha, hb, hs⟩
      · rw [ha, hb]
      · rw [ha, hb]
        simp only
        rcases visible_cases _ _ (scan_turn_visible E L F (decide (X + L.stepover < L.maxX))
          (X + L.stepover) L.maxY s s2 hs) with ⟨ha, hb⟩ | ⟨s, s2, ha, hb, hs⟩
        · rw [ha, hb]
        · rw [ha, hb]
          simp only
          rcases visible_cases _ _ (scan_line_visible E L F (fun v => (X + L.stepover, v)) false
            (-L.overshoot) L.maxY F L.maxY L.maxY s s2 hs) with ⟨ha, hb⟩ | ⟨s, s2, ha, hb, hs⟩
          · rw [ha, hb]
          · rw [ha, hb]
            simp only
            rcases visible_cases _ _ (scan_turn_visible E L F
              (decide (X + L.stepover + L.stepover < L.maxX)) (X + L.stepover + L.stepover)
              (-L.overshoot) s s2 hs) with ⟨ha, hb⟩ | ⟨s, s2, ha, hb, hs⟩
            · rw [ha, hb]
            · rw [ha, hb]
              simp only
              exact ih _ s s2 hs
    · rw [if_neg hc, if_neg hc]
      simp only [Option.map_some']
      rw [h]

theorem create_toolpath_pen_independent (E : Env) (F : Nat) (g g2 : Globals) (sc : scene)
    (tool : Int) (has_cutout even : Bool) (ht : g.tooldepth = g2.tooldepth) :
    (create_toolpath E F g sc tool false has_cutout even).map
        (fun r => (r.1.input, r.1.moves, r.2))
      = (create_toolpath E F g2 sc tool false has_cutout even).map
        (fun r => (r.1.input, r.1.moves, r.2)) := by
  have hfin : ∀ a b : Option ScanState,
      (a = none ∧ b = none) ∨ (∃ s s2, a = some s ∧ b = some s2 ∧ s.visible = s2.visible) →
      (a.map (fun st => (st, { sc with shapes := sc.shapes ++ [st.input] }))).map
          (fun r : ScanState × scene => (r.1.input, r.1.moves, r.2))
        = (b.map (fun st => (st, { sc with shapes := sc.shapes ++ [st.input] }))).map
          (fun r : ScanState × scene => (r.1.input, r.1.moves, r.2)) := by
    intro a b hab
    rcases hab with ⟨ha, hb⟩ | ⟨s, s2, ha, hb, hs⟩
    · rw [ha, hb]
    · have hi : s.visible.input = s2.visible.input := congrArg ScanState.input hs
      have hm : s.visible.moves = s2.visible.moves := congrArg ScanState.moves hs
      change s.input = s2.input at hi
      change s.moves = s2.moves at hm
      rw [ha, hb]
      simp only [Option.map_some', hi, hm]
  unfold create_toolpath
  simp only
  apply hfin
  apply visible_cases
  cases even
  · simp only [Bool.false_eq_true, if_false]
    exact scan_odd_visible E _ F F _ _ _ (by simp [ScanState.visible, Globals.visible, ht])
  · simp only [if_true]
    exact scan_even_visible E _ F F _ _ _ (by simp [ScanState.visible, Globals.visible, ht])

/-! ## Boundary exclusion only cuts corners (C21) -/

theorem outside_area_inside_X (sqrt : ℚ → ℚ) (X Y mX mY diam : ℚ) (h0 : 0 ≤ X) (h1 : X ≤ mX) :
    outside_area sqrt X Y mX mY diam = false := by
  unfold outside_area
  simp only [if_neg (not_lt.mpr h1)]
  rw [if_neg]
  intro hc
  exact absurd hc.1 (not_lt.mpr h0)

theorem outside_area_iff (sqrt : ℚ → ℚ) (X Y mX mY diam : ℚ) (hmX : 0 ≤ mX) (hmY : 0 ≤ mY) :
    outside_area sqrt X Y mX mY diam = true ↔
      (X < 0 ∨ mX < X) ∧ (Y < 0 ∨ mY < Y) ∧
      sqrt ((X - (nearest_corner X Y mX mY).1) * (X - (nearest_corner X Y mX mY).1)
          + (Y - (nearest_corner X Y mX mY).2) * (Y - (nearest_corner X Y mX mY).2))
        > diam / 2 * 0.90 := by
  have hfx : ∀ (x m : ℚ), 0 ≤ m →
      ((if x > m then m - x else x) < 0 ↔ (x < 0 ∨ m < x)) := by
    intro x m hm
    by_cases h : x > m
    · rw [if_pos h]
      constructor
      · intro _; exact Or.inr h
      · intro _; linarith
    · rw [if_neg h]
      constructor
      · intro hx; exact Or.inl hx
      · rintro (hx | hx)
        · exact hx
        · exact absurd hx h
  have hsq : ∀ (x m : ℚ), 0 ≤ m → (x < 0 ∨ m < x) →
      (if x > m then m - x else x) * (if x > m then m - x else x)
        = (x - (if x < 0 then 0 else m)) * (x - (if x < 0 then 0 else m)) := by
    intro x m hm hx
    by_cases h : x > m
    · rw [if_pos h, if_neg (by linarith)]
      ring
    · have hx0 : x < 0 := hx.resolve_right h
      rw [if_neg h, if_pos hx0]
      ring
  have key : ∀ (P : Prop) [Decidable P], ((if P then true else false) = true ↔ P) := by
    intro P _
    by_cases h : P <;> simp [h]
  unfold outside_area nearest_corner
  simp only
  rw [key]
  constructor
  · rintro ⟨hx, hy, hd⟩
    have hx2 := (hfx X mX hmX).mp hx
    have hy2 := (hfx Y mY hmY).mp hy
    refine ⟨hx2, hy2, ?_⟩
    rw [← hsq X mX hmX hx2, ← hsq Y mY hmY hy2]
    exact hd
  · rintro ⟨hx, hy, hd⟩
    refine ⟨(hfx X mX hmX).mpr hx, (hfx Y mY hmY).mpr hy, ?_⟩
    rw [hsq X mX hmX hx, hsq Y mY hmY hy]
    exact hd

theorem outside_area_reflect (sqrt : ℚ → ℚ) (X Y mX mY diam : ℚ) (hmX : 0 ≤ mX)
    (hmY : 0 ≤ mY) :
    outside_area sqrt (mX - X) (mY - Y) mX mY diam = outside_area sqrt X Y mX mY diam := by
  have hfold : ∀ (x m : ℚ), 0 ≤ m → (x < 0 ∨ m < x) →
      (if m - x > m then m - (m - x) else m - x) = (if x > m then m - x else x) := by
    intro x m hm hx
    rcases hx with hx | hx
    · rw [if_pos (by linarith), if_neg (by linarith)]
      ring
    · rw [if_neg (by linarith), if_pos hx]
  by_cases hx : X < 0 ∨ mX < X
  · by_cases hy : Y < 0 ∨ mY < Y
    · unfold outside_area
      simp only
      rw [hfold X mX hmX hx, hfold Y mY hmY hy]
    · rw [not_or, not_lt, not_lt] at hy
      rw [outside_area_inside_Y sqrt X Y mX mY diam hy.1 hy.2,
        outside_area_inside_Y sqrt (mX - X) (mY - Y) mX mY diam (by linarith) (by linarith)]
  · rw [not_or, not_lt, not_lt] at hx
    rw [outside_area_inside_X sqrt X Y mX mY diam hx.1 hx.2,
      outside_area_inside_X sqrt (mX - X) (mY - Y) mX mY diam (by linarith) (by linarith)]

theorem nearest_corner_nearest (X Y mX mY : ℚ) (hmX : 0 ≤ mX) (hmY : 0 ≤ mY)
    (hx : X < 0 ∨ mX < X) (hy : Y < 0 ∨ mY < Y) (px py : ℚ)
    (hpx : px = 0 ∨ px = mX) (hpy : py = 0 ∨ py = mY) :
    (X - (nearest_corner X Y mX mY).1) * (X - (nearest_corner X Y mX mY).1)
        + (Y - (nearest_corner X Y mX mY).2) * (Y - (nearest_corner X Y mX mY).2)
      ≤ (X - px) * (X - px) + (Y - py) * (Y - py) := by
  have h1 : ∀ (x m p : ℚ), 0 ≤ m → (x < 0 ∨ m < x) → (p = 0 ∨ p = m) →
      (x - (if x < 0 then 0 else m)) * (x - (if x < 0 then 0 else m))
        ≤ (x - p) * (x - p) := by
    intro x m p hm hx hp
    rcases hx with hx | hx
    · rw [if_pos hx]
      rcases hp with rfl | rfl
      · exact le_refl _
      · nlinarith
    · rw [if_neg (by linarith)]
      rcases hp with rfl | rfl
      · nlinarith
      · exact le_refl _
  unfold nearest_corner
  exact add_le_add (h1 X mX px hmX hx hpx) (h1 Y mY py hmY hy hpy)

/-- C21: for all `mX ≥ 0`, `mY ≥ 0` (and any tool diameter) `outside_area` is false at every
point with `0 ≤ X ≤ mX` or `0 ≤ Y ≤ mY`; it takes the same value at `(X, Y)` and at the
reflected point `(mX - X, mY - Y)`; and it is true exactly for the points that lie beyond the
rectangle in both axes and whose distance (as the code computes it, `sqrt` of the sum of
squares) to the corner on their side is greater than `0.9 * diam / 2`, that corner being the
nearest of the four. -/
theorem outside_area_only_cuts_corners (sqrt : ℚ → ℚ) (X Y mX mY diam : ℚ) (hmX : 0 ≤ mX)
    (hmY : 0 ≤ mY) :
    ((0 ≤ X ∧ X ≤ mX) ∨ (0 ≤ Y ∧ Y ≤ mY) → outside_area sqrt X Y mX mY diam = false) ∧
    outside_area sqrt (mX - X) (mY - Y) mX mY diam = outside_area sqrt X Y mX mY diam ∧
    (outside_area sqrt X Y mX mY diam = true ↔
      (X < 0 ∨ mX < X) ∧ (Y < 0 ∨ mY < Y) ∧
      sqrt ((X - (nearest_corner X Y mX mY).1) * (X - (nearest_corner X Y mX mY).1)
          + (Y - (nearest_corner X Y mX mY).2) * (Y - (nearest_corner X Y mX mY).2))
        > diam / 2 * 0.90) ∧
    ((X < 0 ∨ mX < X) → (Y < 0 ∨ mY < Y) → ∀ px py : ℚ, (px = 0 ∨ px = mX) →
      (py = 0 ∨ py = mY) →
      (X - (nearest_corner X Y mX mY).1) * (X - (nearest_corner X Y mX mY).1)
          + (Y - (nearest_corner X Y mX mY).2) * (Y - (nearest_corner X Y mX mY).2)
        ≤ (X - px) * (X - px) + (Y - py) * (Y - py)) := by
  refine ⟨?_, outside_area_reflect sqrt X Y mX mY diam hmX hmY,
    outside_area_iff sqrt X Y mX mY diam hmX hmY,
    fun hx hy px py hpx hpy => nearest_corner_nearest X Y mX mY hmX hmY hx hy px py hpx hpy⟩
  rintro (h | h)
  · exact outside_area_inside_X sqrt X Y mX mY diam h.1 h.2
  · exact outside_area_inside_Y sqrt X Y mX mY diam h.1 h.2

theorem outside_area_only_cuts_corners_witness :
    ((0 ≤ (13 : ℚ) ∧ (13 : ℚ) ≤ 10) ∨ (0 ≤ (-3 : ℚ) ∧ (-3 : ℚ) ≤ 10) →
      outside_area sqrt_down 13 (-3) 10 10 4 = false) ∧
    outside_area sqrt_down (10 - 13) (10 - -3) 10 10 4 = outside_area sqrt_down 13 (-3) 10 10 4 ∧
    (outside_area sqrt_down 13 (-3) 10 10 4 = true ↔
      ((13 : ℚ) < 0 ∨ (10 : ℚ) < 13) ∧ ((-3 : ℚ) < 0 ∨ (10 : ℚ) < -3) ∧
      sqrt_down ((13 - (nearest_corner 13 (-3) 10 10).1) * (13 - (nearest_corner 13 (-3) 10 10).1)
          + (-3 - (nearest_corner 13 (-3) 10 10).2) * (-3 - (nearest_corner 13 (-3) 10 10).2))
        > 4 / 2 * 0.90) ∧
    (((13 : ℚ) < 0 ∨ (10 : ℚ) < 13) → ((-3 : ℚ) < 0 ∨ (10 : ℚ) < -3) → ∀ px py : ℚ,
      (px = 0 ∨ px = 10) → (py = 0 ∨ py = 10) →
      (13 - (nearest_corner 13 (-3) 10 10).1) * (13 - (nearest_corner 13 (-3) 10 10).1)
          + (-3 - (nearest_corner 13 (-3) 10 10).2) * (-3 - (nearest_corner 13 (-3) 10 10).2)
        ≤ (13 - px) * (13 - px) + (-3 - py) * (-3 - py)) :=
  outside_area_only_cuts_corners sqrt_down 13 (-3) 10 10 4 (by norm_num) (by norm_num)

/-! ## The binary64 rounding and its error -/

theorem round_even_near (y : ℚ) : |(round_even y : ℚ) - y| ≤ 1 / 2 := by
  have h1 : (⌊y⌋ : ℚ) ≤ y := Int.floor_le y
  have h2 : y < (⌊y⌋ : ℚ) + 1 := Int.lt_floor_add_one y
  unfold round_even
  split
  · rw [abs_le]; constructor <;> linarith
  · split
    · push_cast
      rw [abs_le]; constructor <;> linarith
    · have h3 : y - ⌊y⌋ = 1 / 2 := by
        rename_i ha hb
        exact le_antisymm (not_lt.mp hb) (not_lt.mp ha)
      split
      · rw [abs_le]; constructor <;> linarith
      · push_cast
        rw [abs_le]; constructor <;> linarith

theorem round_even_eq_of_near (y : ℚ) (n : ℤ) (h : |y - n| < 1 / 2) : round_even y = n := by
  rw [abs_lt] at h
  have hnear := round_even_near y
  rw [abs_le] at hnear
  have h1 : ((round_even y : ℤ) : ℚ) - n < 1 := by linarith
  have h2 : -1 < ((round_even y : ℤ) : ℚ) - n := by linarith
  have h3 : round_even y - n < 1 := by exact_mod_cast h1
  have h4 : -1 < round_even y - n := by exact_mod_cast h2
  omega

theorem round53_err (x : ℚ) : |round53 x - x| ≤ |x| / 2 ^ 53 := by
  unfold round53
  split
  · rename_i h
    rw [h]; simp
  · rename_i hx
    have hpos : 0 < |x| := abs_pos.mpr hx
    have hs : (0 : ℚ) < 2 ^ (52 - Int.log 2 |x|) := zpow_pos (by norm_num) _
    have hlog : (2 : ℚ) ^ Int.log 2 |x| ≤ |x| := by
      have := Int.zpow_log_le_self (b := 2) (r := |x|) (by norm_num) hpos
      simpa using this
    have hnear := round_even_near (x * 2 ^ (52 - Int.log 2 |x|))
    have heq : (round_even (x * 2 ^ (52 - Int.log 2 |x|)) : ℚ) / 2 ^ (52 - Int.log 2 |x|) - x
        = ((round_even (x * 2 ^ (52 - Int.log 2 |x|)) : ℚ) - x * 2 ^ (52 - Int.log 2 |x|))
          / 2 ^ (52 - Int.log 2 |x|) := by
      field_simp
      ring
    rw [heq, abs_div, abs_of_pos hs, div_le_div_iff₀ hs (by positivity)]
    have hsplit : (2 : ℚ) ^ (52 - Int.log 2 |x|) * 2 ^ Int.log 2 |x| = 2 ^ (52 : ℤ) := by
      rw [← zpow_add₀ (by norm_num : (2 : ℚ) ≠ 0)]
      congr 1
      ring
    have h52 : (2 : ℚ) ^ (52 : ℤ) = 2 ^ 52 := by norm_cast
    calc |(round_even (x * 2 ^ (52 - Int.log 2 |x|)) : ℚ) - x * 2 ^ (52 - Int.log 2 |x|)|
          * 2 ^ 53
        ≤ 1 / 2 * 2 ^ 53 := by
          apply mul_le_mul_of_nonneg_right hnear (by positivity)
      _ = 2 ^ (52 - Int.log 2 |x|) * 2 ^ Int.log 2 |x| := by rw [hsplit, h52]; norm_num
      _ ≤ 2 ^ (52 - Int.log 2 |x|) * |x| := by
          apply mul_le_mul_of_nonneg_left hlog hs.le
      _ = |x| * 2 ^ (52 - Int.log 2 |x|) := by ring

theorem round53_eq_of (x : ℚ) (e n : ℤ) (hx0 : 0 < x) (h1 : (2 : ℚ) ^ e ≤ x)
    (h2 : x < (2 : ℚ) ^ (e + 1)) (h3 : |x * 2 ^ (52 - e) - n| < 1 / 2) :
    round53 x = (n : ℚ) / 2 ^ (52 - e) := by
  have hlog : Int.log 2 |x| = e := by
    rw [abs_of_pos hx0]
    have ha : e ≤ Int.log 2 x := by
      rw [← Int.zpow_le_iff_le_log (by norm_num) hx0]
      simpa using h1
    have hb : Int.log 2 x < e + 1 := by
      rw [← Int.lt_zpow_iff_log_lt (by norm_num) hx0]
      simpa using h2
    omega
  unfold round53
  rw [if_neg (ne_of_gt hx0), hlog, round_even_eq_of_near _ n h3]

theorem round_even_floor_le (y : ℚ) : ⌊y⌋ ≤ round_even y ∧ round_even y ≤ ⌊y⌋ + 1 := by
  unfold round_even
  split_ifs <;> constructor <;> omega

theorem round_even_mono (y z : ℚ) (h : y ≤ z) : round_even y ≤ round_even z := by
  have hf : ⌊y⌋ ≤ ⌊z⌋ := Int.floor_mono h
  rcases lt_or_eq_of_le hf with hlt | heq
  · have h1 := (round_even_floor_le y).2
    have h2 := (round_even_floor_le z).1
    omega
  · unfold round_even
    rw [← heq]
    have hfr : y - ⌊y⌋ ≤ z - ⌊y⌋ := by linarith
    split_ifs <;> first | omega | (exfalso; linarith)

theorem round_even_int (n : ℤ) : round_even (n : ℚ) = n := by
  unfold round_even
  rw [Int.floor_intCast]
  simp

theorem round_even_neg (y : ℚ) : round_even (-y) = -round_even y := by
  by_cases hy : (⌊y⌋ : ℚ) = y
  · rw [← hy, ← Int.cast_neg, round_even_int, round_even_int]
  · have h1 : (⌊y⌋ : ℚ) < y := lt_of_le_of_ne (Int.floor_le y) hy
    have h2 : y < (⌊y⌋ : ℚ) + 1 := Int.lt_floor_add_one y
    have hfl : ⌊-y⌋ = -⌊y⌋ - 1 := by
      rw [Int.floor_eq_iff]
      push_cast
      constructor <;> linarith
    unfold round_even
    rw [hfl]
    push_cast
    split_ifs <;> first | omega | (exfalso; linarith)

theorem round53_of_pos (x : ℚ) (hx : 0 < x) :
    round53 x = (round_even (x * 2 ^ (52 - Int.log 2 x)) : ℚ) / 2 ^ (52 - Int.log 2 x) := by
  unfold round53
  rw [if_neg (ne_of_gt hx), abs_of_pos hx]

theorem round53_pos_bounds (x : ℚ) (hx : 0 < x) :
    (2 : ℚ) ^ (Int.log 2 x) ≤ round53 x ∧ round53 x ≤ (2 : ℚ) ^ (Int.log 2 x + 1) := by
  have hlog : (2 : ℚ) ^ Int.log 2 x ≤ x := by
    have := Int.zpow_log_le_self (b := 2) (r := x) (by norm_num) hx
    simpa using this
  have hlog2 : x < (2 : ℚ) ^ (Int.log 2 x + 1) := by
    have := Int.lt_zpow_succ_log_self (b := 2) (by norm_num) x
    simpa using this
  have hs : (0 : ℚ) < 2 ^ (52 - Int.log 2 x) := zpow_pos (by norm_num) _
  have e1 : (2 : ℚ) ^ Int.log 2 x * 2 ^ (52 - Int.log 2 x) = ((2 ^ 52 : ℤ) : ℚ) := by
    rw [← zpow_add₀ (by norm_num : (2 : ℚ) ≠ 0)]
    have : Int.log 2 x + (52 - Int.log 2 x) = 52 := by ring
    rw [this]
    norm_cast
  have e2 : (2 : ℚ) ^ (Int.log 2 x + 1) * 2 ^ (52 - Int.log 2 x) = ((2 ^ 53 : ℤ) : ℚ) := by
    rw [← zpow_add₀ (by norm_num : (2 : ℚ) ≠ 0)]
    have : Int.log 2 x + 1 + (52 - Int.log 2 x) = 53 := by ring
    rw [this]
    norm_cast
  have h1 : ((2 ^ 52 : ℤ) : ℚ) ≤ x * 2 ^ (52 - Int.log 2 x) := by
    rw [← e1]
    exact mul_le_mul_of_nonneg_right hlog hs.le
  have h2 : x * 2 ^ (52 - Int.log 2 x) ≤ ((2 ^ 53 : ℤ) : ℚ) := by
    rw [← e2]
    exact mul_le_mul_of_nonneg_right hlog2.le hs.le
  have r1 := round_even_mono _ _ h1
  have r2 := round_even_mono _ _ h2
  rw [round_even_int] at r1 r2
  have r1q : ((2 ^ 52 : ℤ) : ℚ) ≤ (round_even (x * 2 ^ (52 - Int.log 2 x)) : ℚ) := by
    exact_mod_cast r1
  have r2q : (round_even (x * 2 ^ (52 - Int.log 2 x)) : ℚ) ≤ ((2 ^ 53 : ℤ) : ℚ) := by
    exact_mod_cast r2
  rw [round53_of_pos x hx]
  constructor
  · rw [le_div_iff₀ hs, e1]; exact r1q
  · rw [div_le_iff₀ hs, e2]; exact r2q

theorem round53_mono_pos (x y : ℚ) (hx : 0 < x) (h : x ≤ y) : round53 x ≤ round53 y := by
  have hy : 0 < y := lt_of_lt_of_le hx h
  have hl : Int.log 2 x ≤ Int.log 2 y := Int.log_mono_right hx h
  rcases lt_or_eq_of_le hl with hlt | heq
  · have h1 := (round53_pos_bounds x hx).2
    have h2 := (round53_pos_bounds y hy).1
    have h3 : (2 : ℚ) ^ (Int.log 2 x + 1) ≤ 2 ^ (Int.log 2 y) :=
      zpow_le_zpow_right₀ (by norm_num) (by omega)
    linarith
  · rw [round53_of_pos x hx, round53_of_pos y hy, heq]
    have hs : (0 : ℚ) < 2 ^ (52 - Int.log 2 y) := zpow_pos (by norm_num) _
    have := round_even_mono (x * 2 ^ (52 - Int.log 2 y)) (y * 2 ^ (52 - Int.log 2 y))
      (mul_le_mul_of_nonneg_right h hs.le)
    have hq : (round_even (x * 2 ^ (52 - Int.log 2 y)) : ℚ)
        ≤ (round_even (y * 2 ^ (52 - Int.log 2 y)) : ℚ) := by exact_mod_cast this
    exact div_le_div_of_nonneg_right hq hs.le

theorem round53_neg (x : ℚ) : round53 (-x) = -round53 x := by
  unfold round53
  by_cases hx : x = 0
  · simp [hx]
  · rw [if_neg (by simpa using hx), if_neg hx, abs_neg, neg_mul, round_even_neg]
    push_cast
    ring

theorem round53_pos (x : ℚ) (hx : 0 < x) : 0 < round53 x :=
  lt_of_lt_of_le (zpow_pos (by norm_num) _) (round53_pos_bounds x hx).1

theorem round53_mono (x y : ℚ) (h : x ≤ y) : round53 x ≤ round53 y := by
  rcases lt_trichotomy 0 x with hx | hx | hx
  · exact round53_mono_pos x y hx h
  · subst hx
    rcases lt_or_eq_of_le h with hy | hy
    · have := round53_pos y hy
      have h0 : round53 0 = 0 := by simp [round53]
      linarith
    · rw [← hy]
  · rcases lt_trichotomy 0 y with hy | hy | hy
    · have h1 := round53_pos y hy
      have h2 := round53_pos (-x) (by linarith)
      rw [round53_neg] at h2
      linarith
    · subst hy
      have h2 := round53_pos (-x) (by linarith)
      rw [round53_neg] at h2
      have h0 : round53 0 = 0 := by simp [round53]
      linarith
    · have := round53_mono_pos (-y) (-x) (by linarith) (by linarith)
      rw [round53_neg, round53_neg] at this
      linarith

theorem round53_laws : RoundLaws round53 := ⟨round53_err, round53_mono⟩

theorem exact_laws : RoundLaws (fun x => x) :=
  ⟨fun x => by simp; positivity, fun _ _ h => h⟩

/-! ## Consequences of the rounding laws -/

theorem RoundLaws.le_add {rnd : ℚ → ℚ} (h : RoundLaws rnd) (x : ℚ) :
    rnd x ≤ x + |x| / 2 ^ 53 := by
  have := h.err x
  rw [abs_le] at this
  linarith

theorem RoundLaws.sub_le {rnd : ℚ → ℚ} (h : RoundLaws rnd) (x : ℚ) :
    x - |x| / 2 ^ 53 ≤ rnd x := by
  have := h.err x
  rw [abs_le] at this
  linarith

theorem RoundLaws.zero {rnd : ℚ → ℚ} (h : RoundLaws rnd) : rnd 0 = 0 := by
  have := h.err 0
  simpa using this

theorem RoundLaws.nonneg {rnd : ℚ → ℚ} (h : RoundLaws rnd) (x : ℚ) (hx : 0 ≤ x) :
    0 ≤ rnd x := by
  have := h.sub_le x
  rw [abs_of_nonneg hx] at this
  have h2 : x / 2 ^ 53 ≤ x := div_le_self hx (by norm_num)
  linarith

theorem RoundLaws.nonpos {rnd : ℚ → ℚ} (h : RoundLaws rnd) (x : ℚ) (hx : x ≤ 0) :
    rnd x ≤ 0 := by
  have := h.le_add x
  rw [abs_of_nonpos hx] at this
  have h2 : -x / 2 ^ 53 ≤ -x := div_le_self (by linarith) (by norm_num)
  linarith

theorem RoundLaws.pos {rnd : ℚ → ℚ} (h : RoundLaws rnd) (x : ℚ) (hx : 0 < x) :
    0 < rnd x := by
  have := h.sub_le x
  rw [abs_of_pos hx] at this
  have h2 : x / 2 ^ 53 < x := div_lt_self hx (by norm_num)
  linarith

theorem RoundLaws.neg {rnd : ℚ → ℚ} (h : RoundLaws rnd) (x : ℚ) (hx : x < 0) :
    rnd x < 0 := by
  have := h.le_add x
  rw [abs_of_neg hx] at this
  have h2 : -x / 2 ^ 53 < -x := div_lt_self (by linarith) (by norm_num)
  linarith

/-- Within a magnitude bound `A`, one rounding is off by at most `A / 2^53`. -/
theorem RoundLaws.near {rnd : ℚ → ℚ} (h : RoundLaws rnd) (x A : ℚ) (hx : |x| ≤ A) :
    x - A / 2 ^ 53 ≤ rnd x ∧ rnd x ≤ x + A / 2 ^ 53 := by
  have h1 := h.sub_le x
  have h2 := h.le_add x
  have h3 : |x| / 2 ^ 53 ≤ A / 2 ^ 53 := div_le_div_of_nonneg_right hx (by norm_num)
  constructor <;> linarith

/-! ## The slicer loop in rounded arithmetic -/

theorem ceil20_fl_exact (Z : ℚ) : ceil20_fl (fun x => x) Z = ceil20 Z := rfl

theorem line_to_loop_fl_exact (diam t : ℚ) (toolnr : Int) (X1 Y1 X2 Y2 : ℚ) :
    ∀ (fuel : Nat) (input : inputshape) (depth : Nat) (Z1 Z2 : ℚ),
      line_to_loop_fl (fun x => x) diam t toolnr X1 Y1 X2 Y2 fuel input depth Z1 Z2
        = line_to_loop_exit diam t toolnr X1 Y1 X2 Y2 fuel input depth Z1 Z2
  | 0, input, depth, Z1, Z2 => by
    unfold line_to_loop_fl line_to_loop_exit
    rfl
  | fuel + 1, input, depth, Z1, Z2 => by
    unfold line_to_loop_fl line_to_loop_exit
    simp only [ceil20_fl_exact]
    split
    · exact line_to_loop_fl_exact diam t toolnr X1 Y1 X2 Y2 fuel _ _ _ _
    · rfl

theorem line_to_fl_exact (diam : ℚ) (fuel : Nat) (g : Globals) (input : inputshape)
    (X2 Y2 Z2 : ℚ) :
    line_to_fl (fun x => x) diam fuel g input X2 Y2 Z2 = line_to diam fuel g input X2 Y2 Z2 := by
  unfold line_to_fl line_to
  simp only
  split
  · rfl
  · rw [line_to_loop_fl_exact, ← line_to_loop_exit_fst, Option.map_map]
    rfl

theorem line_to_loop_fl_eq_bands (rnd : ℚ → ℚ) (diam t : ℚ) (toolnr : Int)
    (X1 Y1 X2 Y2 : ℚ) :
    ∀ (fuel : Nat) (input : inputshape) (depth : Nat) (Z1 Z2 : ℚ),
      line_to_loop_fl rnd diam t toolnr X1 Y1 X2 Y2 fuel input depth Z1 Z2
        = (bands_fl rnd t fuel Z1 Z2).map
            (fun r => (emit_bands diam toolnr X1 Y1 X2 Y2 r.1 input depth, r.2))
  | 0, input, depth, Z1, Z2 => by
    unfold line_to_loop_fl bands_fl
    split <;> rfl
  | fuel + 1, input, depth, Z1, Z2 => by
    unfold line_to_loop_fl bands_fl
    split
    · dsimp only
      rw [line_to_loop_fl_eq_bands rnd diam t toolnr X1 Y1 X2 Y2 fuel, Option.map_map]
      rfl
    · rfl

theorem run_depth_fl_succ (rnd : ℚ → ℚ) (t : ℚ) (k : Nat) (Z : ℚ) :
    run_depth_fl rnd t (k + 1) Z = run_depth_fl rnd t k (ceil20_fl rnd (rnd (Z + t))) := by
  unfold run_depth_fl
  rw [Function.iterate_succ_apply]

theorem run_depth_fl_succ_outer (rnd : ℚ → ℚ) (t : ℚ) (k : Nat) (Z : ℚ) :
    run_depth_fl rnd t (k + 1) Z = ceil20_fl rnd (rnd (run_depth_fl rnd t k Z + t)) := by
  unfold run_depth_fl
  rw [Function.iterate_succ_apply']

/-- What `bands_fl` returns: the passes are made at the successive running depths, each pass
is made because the loop test holds, and the loop is left at the first running depths for
which it fails. -/
theorem bands_fl_spec (rnd : ℚ → ℚ) (t : ℚ) :
    ∀ (fuel : Nat) (Z1 Z2 : ℚ) (r : List (ℚ × ℚ) × ℚ × ℚ),
      bands_fl rnd t fuel Z1 Z2 = some r →
      r.1.length ≤ fuel ∧
      r.2 = (run_depth_fl rnd t r.1.length Z1, run_depth_fl rnd t r.1.length Z2) ∧
      (-rnd 0.000001 ≤ r.2.1 ∧ -rnd 0.00001 ≤ r.2.2) ∧
      (∀ (k : Nat) (b : ℚ × ℚ), r.1[k]? = some b →
        b = (run_depth_fl rnd t k Z1, run_depth_fl rnd t k Z2) ∧
        (b.1 < -rnd 0.000001 ∨ b.2 < -rnd 0.00001))
  | 0, Z1, Z2, r, h => by
    unfold bands_fl at h
    split at h
    · exact absurd h (by simp)
    · rename_i hc
      simp only [Option.some.injEq] at h
      subst h
      rw [not_or, not_lt, not_lt] at hc
      refine ⟨le_refl _, rfl, hc, ?_⟩
      intro k b hb
      simp at hb
  | fuel + 1, Z1, Z2, r, h => by
    unfold bands_fl at h
    split at h
    · rename_i hc
      obtain ⟨r', hr', hmap⟩ := Option.map_eq_some'.mp h
      obtain ⟨h1, h2, h3, h4⟩ := bands_fl_spec rnd t fuel _ _ r' hr'
      subst hmap
      refine ⟨by simpa using h1, ?_, h3, ?_⟩
      · simp only [List.length_cons, run_depth_fl_succ]
        exact h2
      · intro k b hb
        cases k with
        | zero =>
          simp only [List.getElem?_cons_zero, Option.some.injEq] at hb
          subst hb
          exact ⟨rfl, hc⟩
        | succ k =>
          simp only [List.getElem?_cons_succ] at hb
          obtain ⟨hb1, hb2⟩ := h4 k b hb
          refine ⟨?_, hb2⟩
          rw [run_depth_fl_succ, run_depth_fl_succ]
          exact hb1
    · rename_i hc
      simp only [Option.some.injEq] at h
      subst h
      rw [not_or, not_lt, not_lt] at hc
      refine ⟨Nat.zero_le _, rfl, hc, ?_⟩
      intro k b hb
      simp at hb

/-- Fuel `n` is enough for `bands_fl` when the loop test fails after `n` passes. -/
theorem bands_fl_of_run_depth (rnd : ℚ → ℚ) (t : ℚ) :
    ∀ (n fuel : Nat) (Z1 Z2 : ℚ), n ≤ fuel →
      -rnd 0.000001 ≤ run_depth_fl rnd t n Z1 → -rnd 0.00001 ≤ run_depth_fl rnd t n Z2 →
      ∃ r, bands_fl rnd t fuel Z1 Z2 = some r ∧ r.1.length ≤ n
  | 0, fuel, Z1, Z2, _, h1, h2 => by
    refine ⟨([], Z1, Z2), ?_, le_refl _⟩
    have hc : ¬ (Z1 < -rnd 0.000001 ∨ Z2 < -rnd 0.00001) := by
      rw [not_or, not_lt, not_lt]
      exact ⟨h1, h2⟩
    unfold bands_fl
    cases fuel <;> simp only [if_neg hc]
  | n + 1, fuel, Z1, Z2, hf, h1, h2 => by
    by_cases hc : Z1 < -rnd 0.000001 ∨ Z2 < -rnd 0.00001
    · obtain ⟨fuel, rfl⟩ : ∃ f, fuel = f + 1 := ⟨fuel - 1, by omega⟩
      rw [run_depth_fl_succ] at h1 h2
      obtain ⟨r, hr, hlen⟩ := bands_fl_of_run_depth rnd t n fuel _ _ (by omega) h1 h2
      refine ⟨((Z1, Z2) :: r.1, r.2), ?_, by simpa using hlen⟩
      unfold bands_fl
      rw [if_pos hc]
      dsimp only
      rw [hr]
      rfl
    · refine ⟨([], Z1, Z2), ?_, Nat.zero_le _⟩
      unfold bands_fl
      cases fuel <;> simp only [if_neg hc]

/-! ## One rounded quantization step -/

/-- Raising and quantizing a depth of magnitude at most 17000 in rounded arithmetic gives
the exact sum up to the quantization (at most 1/20 upwards) and up to `7e-12`. -/
theorem ceil20_fl_bounds {rnd : ℚ → ℚ} (h : RoundLaws rnd) (a : ℚ) (ha : |a| ≤ 17000) :
    a - 7 / 10 ^ 12 ≤ ceil20_fl rnd (rnd a) ∧ ceil20_fl rnd (rnd a) ≤ a + 1 / 20 + 7 / 10 ^ 12 := by
  have ha' := abs_le.mp ha
  obtain ⟨w1, w2⟩ := h.near a 17000 ha
  have hu1 : (17000 : ℚ) / 2 ^ 53 ≤ 2 / 10 ^ 12 := by norm_num
  have hu0 : (0 : ℚ) ≤ 17000 / 2 ^ 53 := by norm_num
  have hw : |rnd a * 20| ≤ 340020 := by
    rw [abs_le]; constructor <;> linarith
  obtain ⟨y1, y2⟩ := h.near (rnd a * 20) 340020 hw
  have hu2 : (340020 : ℚ) / 2 ^ 53 ≤ 1 / 10 ^ 10 := by norm_num
  have c1 : rnd (rnd a * 20) ≤ (⌈rnd (rnd a * 20)⌉ : ℚ) := Int.le_ceil _
  have c2 : (⌈rnd (rnd a * 20)⌉ : ℚ) < rnd (rnd a * 20) + 1 := Int.ceil_lt_add_one _
  have hc : |(⌈rnd (rnd a * 20)⌉ : ℚ) / 20| ≤ 17002 := by
    rw [abs_le]; constructor <;> linarith
  obtain ⟨v1, v2⟩ := h.near ((⌈rnd (rnd a * 20)⌉ : ℚ) / 20) 17002 hc
  have hu3 : (17002 : ℚ) / 2 ^ 53 ≤ 2 / 10 ^ 12 := by norm_num
  have hu2' : (340020 : ℚ) / 2 ^ 53 ≤ 40 / 10 ^ 12 := by norm_num
  unfold ceil20_fl
  constructor <;> linarith

/-- A depth that the increment brings to within 1/25 of the surface is quantized to the
surface or above. -/
theorem ceil20_fl_nonneg {rnd : ℚ → ℚ} (h : RoundLaws rnd) (a : ℚ) (ha : -(1 / 25) ≤ a) :
    0 ≤ ceil20_fl rnd (rnd a) := by
  have hy : -1 < rnd (rnd a * 20) := by
    rcases le_or_lt 0 (rnd a * 20) with h0 | h0
    · have := h.nonneg _ h0
      linarith
    · have hge : -(9 / 10) ≤ rnd a * 20 := by
        rcases le_or_lt 0 a with h1 | h1
        · have := h.nonneg a h1
          linarith
        · have habs : |a| ≤ 1 / 25 := by
            rw [abs_le]; constructor <;> linarith
          have := (h.near a (1 / 25) habs).1
          have hu : (1 / 25 : ℚ) / 2 ^ 53 ≤ 1 / 1000 := by norm_num
          linarith
      have habs : |rnd a * 20| ≤ 9 / 10 := by
        rw [abs_le]; constructor <;> linarith
      have := (h.near _ (9 / 10) habs).1
      have hu : (9 / 10 : ℚ) / 2 ^ 53 ≤ 1 / 1000 := by norm_num
      linarith
  have hc : (-1 : ℤ) < ⌈rnd (rnd a * 20)⌉ := by
    rw [Int.lt_ceil]
    exact_mod_cast hy
  have hc0 : (0 : ℚ) ≤ (⌈rnd (rnd a * 20)⌉ : ℚ) := by
    have : (0 : ℤ) ≤ ⌈rnd (rnd a * 20)⌉ := by omega
    exact_mod_cast this
  unfold ceil20_fl
  exact h.nonneg _ (div_nonneg hc0 (by norm_num))

/-! ## The running depths rise to the surface -/

/-- A map that raises a depth by `t` up to an error `ε`, and takes every depth within `δ` of
`-t` to the surface or above, has raised `Z` by `k * (t - ε)` or to the surface after `k`
applications. -/
theorem iterate_ge (f : ℚ → ℚ) (t ε δ lo : ℚ) (hεt : ε ≤ t) (hε : 0 ≤ ε)
    (hfin : ∀ Z, -δ ≤ Z + t → 0 ≤ f Z)
    (hstep : ∀ Z, lo ≤ Z → Z + t ≤ 0 → Z + t - ε ≤ f Z) (Z : ℚ) (hZ : lo ≤ Z) (hδ : 0 ≤ δ) :
    ∀ k : ℕ, min 0 (Z + k * (t - ε)) ≤ f^[k] Z
  | 0 => by simp
  | k + 1 => by
    have ih := iterate_ge f t ε δ lo hεt hε hfin hstep Z hZ hδ k
    rw [Function.iterate_succ_apply']
    rcases le_or_lt (-δ) (f^[k] Z + t) with hc | hc
    · exact (min_le_left _ _).trans (hfin _ hc)
    · have hW : f^[k] Z + t ≤ 0 := by linarith
      have hk : (0 : ℚ) ≤ k := Nat.cast_nonneg k
      have hL : Z + k * (t - ε) ≤ f^[k] Z := by
        rcases min_choice 0 (Z + k * (t - ε)) with hm | hm
        · rw [hm] at ih
          nlinarith
        · rw [hm] at ih
          exact ih
      have hlo : lo ≤ f^[k] Z := by nlinarith
      have := hstep _ hlo hW
      refine (min_le_right _ _).trans ?_
      push_cast
      linarith

theorem iterate_nonneg (f : ℚ → ℚ) (t ε δ lo : ℚ) (hεt : ε ≤ t) (hε : 0 ≤ ε)
    (hfin : ∀ Z, -δ ≤ Z + t → 0 ≤ f Z)
    (hstep : ∀ Z, lo ≤ Z → Z + t ≤ 0 → Z + t - ε ≤ f Z) (Z : ℚ) (hZ : lo ≤ Z) (hδ : 0 ≤ δ)
    (N : ℕ) (hN : 1 ≤ N) (hNt : 0 ≤ Z + N * t) (hNε : N * ε ≤ δ) : 0 ≤ f^[N] Z := by
  obtain ⟨k, rfl⟩ : ∃ k, N = k + 1 := ⟨N - 1, by omega⟩
  have ih := iterate_ge f t ε δ lo hεt hε hfin hstep Z hZ hδ k
  rw [Function.iterate_succ_apply']
  apply hfin
  have hk : (0 : ℚ) ≤ k := Nat.cast_nonneg k
  push_cast at hNt hNε
  have ht : 0 ≤ t := le_trans hε hεt
  rcases min_choice 0 (Z + k * (t - ε)) with hm | hm
  · rw [hm] at ih
    linarith
  · rw [hm] at ih
    nlinarith

/-! ## Termination of the slicer loop in rounded arithmetic -/

theorem ceil_toNat_mul_ge_self (M t : ℚ) (ht : 0 < t) : M ≤ (⌈M / t⌉.toNat : ℚ) * t := by
  have h1 : M / t ≤ (⌈M / t⌉ : ℚ) := Int.le_ceil _
  have h2 : (⌈M / t⌉ : ℚ) ≤ ((⌈M / t⌉.toNat : ℤ) : ℚ) := by
    exact_mod_cast Int.self_le_toNat _
  have h3 : M / t ≤ (⌈M / t⌉.toNat : ℚ) := by
    have : ((⌈M / t⌉.toNat : ℤ) : ℚ) = (⌈M / t⌉.toNat : ℚ) := by norm_cast
    linarith
  rwa [div_le_iff₀ ht] at h3

theorem ceil_toNat_le_of_le (M t B : ℚ) (ht : 0 < t) (hB : 0 ≤ B) (h : M ≤ B * t) :
    (⌈M / t⌉.toNat : ℚ) ≤ B + 1 := by
  have h1 : M / t ≤ B := by rwa [div_le_iff₀ ht]
  have h2 : (⌈M / t⌉ : ℚ) < M / t + 1 := Int.ceil_lt_add_one _
  rcases le_or_lt 0 ⌈M / t⌉ with h0 | h0
  · have : ((⌈M / t⌉.toNat : ℤ) : ℚ) = (⌈M / t⌉ : ℚ) := by
      rw [Int.toNat_of_nonneg h0]
    have h3 : ((⌈M / t⌉.toNat : ℤ) : ℚ) = (⌈M / t⌉.toNat : ℚ) := by norm_cast
    linarith
  · have : ⌈M / t⌉.toNat = 0 := Int.toNat_eq_zero.mpr h0.le
    rw [this]
    push_cast
    linarith

/-- The loop of `line_to` terminates: in exact arithmetic for every increment `t > 0` and all
depths, in rounded arithmetic for `t ≥ 0.001` and depths not below -10000; it makes at most
`ceil(max(0, -Z1, -Z2) / t)` passes. -/
theorem bands_fl_returns (rnd : ℚ → ℚ) (t Z1 Z2 : ℚ) (ht : 0 < t)
    (hreg : (∀ x, rnd x = x) ∨ (RoundLaws rnd ∧ 1 / 1000 ≤ t ∧ -10000 ≤ Z1 ∧ -10000 ≤ Z2))
    (fuel : Nat) (hfuel : ⌈max 0 (max (-Z1) (-Z2)) / t⌉.toNat ≤ fuel) :
    ∃ r, bands_fl rnd t fuel Z1 Z2 = some r ∧
      r.1.length ≤ ⌈max 0 (max (-Z1) (-Z2)) / t⌉.toNat := by
  have hl : RoundLaws rnd := by
    rcases hreg with hx | hx
    · have : rnd = fun x => x := funext hx
      rw [this]; exact exact_laws
    · exact hx.1
  set M := max 0 (max (-Z1) (-Z2)) with hM
  have hM0 : 0 ≤ M := le_max_left _ _
  have hM1 : -Z1 ≤ M := (le_max_left _ _).trans (le_max_right _ _)
  have hM2 : -Z2 ≤ M := (le_max_right _ _).trans (le_max_right _ _)
  have hNt := ceil_toNat_mul_ge_self M t ht
  have hthr1 : -rnd 0.000001 ≤ 0 := by
    have := hl.nonneg 0.000001 (by norm_num)
    linarith
  have hthr2 : -rnd 0.00001 ≤ 0 := by
    have := hl.nonneg 0.00001 (by norm_num)
    linarith
  have key : ∀ Z, -Z ≤ M → -10000 ≤ Z ∨ (∀ x, rnd x = x) → 1 ≤ ⌈M / t⌉.toNat →
      0 ≤ run_depth_fl rnd t ⌈M / t⌉.toNat Z := by
    intro Z hZ hZr hN
    unfold run_depth_fl
    rcases hreg with hx | ⟨_, ht1, _, _⟩
    · apply iterate_nonneg _ t 0 0 Z (le_of_lt ht) (le_refl _) _ _ Z (le_refl _) (le_refl _)
        _ hN (by linarith) (by simp)
      · intro W hW
        simp only [ceil20_fl, hx]
        have : (0 : ℚ) ≤ (⌈(W + t) * 20⌉ : ℚ) := by
          have : (0 : ℤ) ≤ ⌈(W + t) * 20⌉ := Int.ceil_nonneg (by linarith)
          exact_mod_cast this
        exact div_nonneg this (by norm_num)
      · intro W _ _
        simp only [ceil20_fl, hx]
        have := Int.le_ceil ((W + t) * 20)
        rw [le_div_iff₀ (by norm_num)]
        linarith
    · rcases hZr with hZr | hx
      · have hN2 : (⌈M / t⌉.toNat : ℚ) ≤ 10000 * 1000 + 1 := by
          apply ceil_toNat_le_of_le M t _ ht (by norm_num)
          have : M ≤ 10000 := by
            rw [hM]
            refine max_le (by norm_num) (max_le ?_ ?_) <;> linarith
          nlinarith
        apply iterate_nonneg _ t (7 / 10 ^ 12) (1 / 25) (-10000) (by linarith) (by norm_num)
          _ _ Z hZr (by norm_num) _ hN (by linarith) (by
            have : (7 : ℚ) / 10 ^ 12 * (10000 * 1000 + 1) ≤ 1 / 25 := by norm_num
            nlinarith)
        · intro W hW
          exact ceil20_fl_nonneg hl _ hW
        · intro W hW1 hW2
          exact (ceil20_fl_bounds hl (W + t) (by
            rw [abs_le]; constructor <;> linarith)).1
      · apply iterate_nonneg _ t 0 0 Z (le_of_lt ht) (le_refl _) _ _ Z (le_refl _) (le_refl _)
          _ hN (by linarith) (by simp)
        · intro W hW
          simp only [ceil20_fl, hx]
          have : (0 : ℚ) ≤ (⌈(W + t) * 20⌉ : ℚ) := by
            have : (0 : ℤ) ≤ ⌈(W + t) * 20⌉ := Int.ceil_nonneg (by linarith)
            exact_mod_cast this
          exact div_nonneg this (by norm_num)
        · intro W _ _
          simp only [ceil20_fl, hx]
          have := Int.le_ceil ((W + t) * 20)
          rw [le_div_iff₀ (by norm_num)]
          linarith
  have hr1 : -10000 ≤ Z1 ∨ (∀ x, rnd x = x) := by
    rcases hreg with hx | hx
    · exact Or.inr hx
    · exact Or.inl hx.2.2.1
  have hr2 : -10000 ≤ Z2 ∨ (∀ x, rnd x = x) := by
    rcases hreg with hx | hx
    · exact Or.inr hx
    · exact Or.inl hx.2.2.2
  apply bands_fl_of_run_depth rnd t _ fuel Z1 Z2 hfuel
  · rcases Nat.eq_zero_or_pos ⌈M / t⌉.toNat with h0 | h0
    · rw [h0] at hNt ⊢
      simp only [run_depth_fl, Function.iterate_zero, id]
      push_cast at hNt
      linarith
    · exact hthr1.trans (key Z1 hM1 hr1 h0)
  · rcases Nat.eq_zero_or_pos ⌈M / t⌉.toNat with h0 | h0
    · rw [h0] at hNt ⊢
      simp only [run_depth_fl, Function.iterate_zero, id]
      push_cast at hNt
      linarith
    · exact hthr2.trans (key Z2 hM2 hr2 h0)

/-! ## Termination of the slicer loop (C16) and the index of a band (C18) -/

theorem line_to_fl_eq (rnd : ℚ → ℚ) (diam : ℚ) (fuel : Nat) (g : Globals) (input : inputshape)
    (X2 Y2 Z2 : ℚ) (hfirst : g.first = false) :
    line_to_fl rnd diam fuel g input X2 Y2 Z2
      = (bands_fl rnd g.tooldepth fuel g.last_Z Z2).map
          (fun r => ({ g with last_X := X2, last_Y := Y2, last_Z := Z2 },
            emit_bands diam g.toolnr g.last_X g.last_Y X2 Y2 r.1 input 0)) := by
  unfold line_to_fl
  simp only [hfirst, Bool.false_eq_true, if_false]
  rw [line_to_loop_fl_eq_bands, Option.map_map]
  rfl

theorem ceil_three : ⌈max 0 (max (-(-1 : ℚ)) (-(-3 / 2 : ℚ))) / (1 / 2 : ℚ)⌉.toNat = 3 := by
  have hmax : max 0 (max (-(-1 : ℚ)) (-(-3 / 2 : ℚ))) / (1 / 2 : ℚ) = 3 := by
    norm_num
  have h : ⌈(3 : ℚ)⌉ = 3 := by
    rw [Int.ceil_eq_iff]; norm_num
  rw [hmax, h]; rfl

/-- C18 (amended): within one `line_to` call (not the first call of the shape; exact or
rounded arithmetic, any rounding `rnd`) the band counter is incremented before it is used, so
of the `n` PathSegments the call emits (the passes `bs` of its loop, in order) the k-th
(k = 0, 1, ..., n - 1) is added to the shape's ToolDepth at index k + 1: the ToolDepth at
index 0 receives no segment, the ToolDepth at index k + 1 gains exactly the k-th segment, the
shape gains `n` segments in all, and ToolDepths are created only while the list is not longer
than the counter, so after `n ≥ 1` segments the list has max(old length, n + 1) entries (and
is unchanged for n = 0). The call returns, in exact arithmetic for every positive plunge
increment, in rounded arithmetic for increments from 0.001 and depths not below -10000. -/
theorem line_to_band_index (rnd : ℚ → ℚ) (diam : ℚ) (fuel : Nat) (g : Globals)
    (input : inputshape) (X2 Y2 Z2 : ℚ) (hfirst : g.first = false) :
    (∀ r, line_to_fl rnd diam fuel g input X2 Y2 Z2 = some r →
      ∃ bs z, bands_fl rnd g.tooldepth fuel g.last_Z Z2 = some (bs, z) ∧
        r.2.segments.length = input.segments.length + bs.length ∧
        r.2.segments_at 0 = input.segments_at 0 ∧
        (∀ k : Nat, List.Perm (r.2.segments_at (k + 1))
          (input.segments_at (k + 1) ++ (bs[k]?.map
            (fun b => (⟨g.last_X, g.last_Y, X2, Y2, b.1, b.2⟩ : PathSegment))).toList)) ∧
        r.2.tooldepths.length
          = if bs.length = 0 then input.tooldepths.length
            else max input.tooldepths.length (bs.length + 1)) ∧
    (0 < g.tooldepth →
      ((∀ x, rnd x = x) ∨
        (RoundLaws rnd ∧ 1 / 1000 ≤ g.tooldepth ∧ -10000 ≤ g.last_Z ∧ -10000 ≤ Z2)) →
      ⌈max 0 (max (-g.last_Z) (-Z2)) / g.tooldepth⌉.toNat ≤ fuel →
      ∃ r, line_to_fl rnd diam fuel g input X2 Y2 Z2 = some r) := by
  constructor
  · intro r hr
    rw [line_to_fl_eq rnd diam fuel g input X2 Y2 Z2 hfirst] at hr
    obtain ⟨b, hb, hmap⟩ := Option.map_eq_some'.mp hr
    subst hmap
    refine ⟨b.1, b.2, hb, ?_, ?_, ?_, ?_⟩
    · exact emit_bands_segments_length _ _ _ _ _ _ _ _ _
    · exact (emit_bands_segments_at diam g.toolnr g.last_X g.last_Y X2 Y2 _ input 0 0).1
        (le_refl _)
    · intro k
      have h := (emit_bands_segments_at diam g.toolnr g.last_X g.last_Y X2 Y2
        b.1 input 0 (k + 1)).2 (Nat.succ_pos k)
      simpa using h
    · simp only
      rw [emit_bands_length]
      by_cases hbs : b.1 = []
      · rw [if_pos hbs, hbs]
        rfl
      · rw [if_neg hbs, if_neg (by
          intro h
          exact hbs (List.length_eq_zero.mp h))]
        rw [Nat.zero_add]
  · intro ht hreg hfuel
    obtain ⟨r, hr, _⟩ := bands_fl_returns rnd g.tooldepth g.last_Z Z2 ht hreg fuel hfuel
    rw [line_to_fl_eq rnd diam fuel g input X2 Y2 Z2 hfirst, hr]
    exact ⟨_, rfl⟩

theorem line_to_band_index_witness :
    ∃ r, line_to_fl round53 6 3 (pen_at (1 / 2) (-1)) (inputshape.new "STL path") 1 0 (-3 / 2)
        = some r ∧
      ∃ bs z, bands_fl round53 (pen_at (1 / 2) (-1)).tooldepth 3 (pen_at (1 / 2) (-1)).last_Z
          (-3 / 2) = some (bs, z) ∧
        r.2.segments.length = (inputshape.new "STL path").segments.length + bs.length ∧
        r.2.segments_at 0 = (inputshape.new "STL path").segments_at 0 ∧
        (∀ k : Nat, List.Perm (r.2.segments_at (k + 1))
          ((inputshape.new "STL path").segments_at (k + 1) ++ (bs[k]?.map
            (fun b => (⟨(pen_at (1 / 2) (-1)).last_X, (pen_at (1 / 2) (-1)).last_Y, 1, 0,
              b.1, b.2⟩ : PathSegment))).toList)) ∧
        r.2.tooldepths.length
          = if bs.length = 0 then (inputshape.new "STL path").tooldepths.length
            else max (inputshape.new "STL path").tooldepths.length (bs.length + 1) := by
  have h := line_to_band_index round53 6 3 (pen_at (1 / 2) (-1)) (inputshape.new "STL path")
    1 0 (-3 / 2) rfl
  obtain ⟨r, hr⟩ := h.2 (by norm_num [pen_at])
    (Or.inr ⟨round53_laws, by norm_num [pen_at], by norm_num [pen_at], by norm_num⟩)
    (by simp only [pen_at]; rw [ceil_three])
  exact ⟨r, hr, h.1 r hr⟩

/-! ## How far the running depths rise in rounded arithmetic -/

theorem run_depth_fl_ge {rnd : ℚ → ℚ} (h : RoundLaws rnd) (t Z : ℚ) (ht : 1 / 1000 ≤ t)
    (hZ : -10000 ≤ Z) (k : ℕ) :
    min 0 (Z + k * (t - 7 / 10 ^ 12)) ≤ run_depth_fl rnd t k Z := by
  unfold run_depth_fl
  apply iterate_ge _ t (7 / 10 ^ 12) (1 / 25) (-10000) (by linarith) (by norm_num) _ _ Z hZ
    (by norm_num)
  · intro W hW
    exact ceil20_fl_nonneg h _ hW
  · intro W hW1 hW2
    exact (ceil20_fl_bounds h (W + t) (by rw [abs_le]; constructor <;> linarith)).1

theorem run_depth_fl_le {rnd : ℚ → ℚ} (h : RoundLaws rnd) (t Z : ℚ) (ht1 : 1 / 100 ≤ t)
    (ht2 : t ≤ 5000) (hZ1 : -1000 ≤ Z) (hZ2 : Z ≤ 0) :
    ∀ k : ℕ, (k : ℚ) ≤ 100001 → (k : ℚ) * t ≤ 6000 →
      run_depth_fl rnd t k Z ≤ Z + k * (t + 1 / 20 + 7 / 10 ^ 12)
  | 0, _, _ => by simp [run_depth_fl]
  | k + 1, hk1, hk2 => by
    push_cast at hk1 hk2
    have hk0 : (0 : ℚ) ≤ k := Nat.cast_nonneg k
    have ih := run_depth_fl_le h t Z ht1 ht2 hZ1 hZ2 k (by linarith) (by nlinarith)
    have hlo := run_depth_fl_ge h t Z (by linarith) (by linarith) k
    have hlo2 : -1000 ≤ run_depth_fl rnd t k Z := by
      refine le_trans (le_min (by norm_num) ?_) hlo
      nlinarith
    rw [run_depth_fl_succ_outer]
    have hb := (ceil20_fl_bounds h (run_depth_fl rnd t k Z + t) (by
      rw [abs_le]; constructor <;> nlinarith)).2
    push_cast
    linarith

/-- The number of passes `ceil(M / t)` for depths within 1000 of the surface and an increment
between 0.01 and 5000. -/
theorem passes_le (M t : ℚ) (ht1 : 1 / 100 ≤ t) (ht2 : t ≤ 5000) (hM0 : 0 ≤ M)
    (hM : M ≤ 1000) (n : ℕ) (hn : n ≤ ⌈M / t⌉.toNat) :
    (n : ℚ) ≤ 100001 ∧ (n : ℚ) * t ≤ 6000 := by
  have ht : 0 < t := by linarith
  have hnq : (n : ℚ) ≤ (⌈M / t⌉.toNat : ℚ) := by exact_mod_cast hn
  have h1 : (⌈M / t⌉.toNat : ℚ) ≤ 100000 + 1 :=
    ceil_toNat_le_of_le M t 100000 ht (by norm_num) (by nlinarith)
  have h2 : (⌈M / t⌉.toNat : ℚ) ≤ M / t + 1 :=
    ceil_toNat_le_of_le M t (M / t) ht (div_nonneg hM0 ht.le) (by
      rw [div_mul_cancel₀ _ (ne_of_gt ht)])
  have h3 : (M / t + 1) * t = M + t := by
    field_simp
  constructor
  · linarith
  · nlinarith

/-! ## Depths of the bands in rounded arithmetic -/

theorem band_fl_bounds {rnd : ℚ → ℚ} (h : RoundLaws rnd) (t Z1 Z2 : ℚ) (ht1 : 1 / 100 ≤ t)
    (ht2 : t ≤ 5000) (hz1 : Z1 < 0) (hz1' : -1000 ≤ Z1) (hz2 : Z2 < 0) (hz2' : -1000 ≤ Z2)
    (n k : ℕ) (hk : k < n) (hn : n ≤ ⌈max 0 (max (-Z1) (-Z2)) / t⌉.toNat)
    (hc : run_depth_fl rnd t k Z1 < -rnd 0.000001 ∨ run_depth_fl rnd t k Z2 < -rnd 0.00001) :
    min (run_depth_fl rnd t k Z1) (run_depth_fl rnd t k Z2) < 0 ∧
      max (run_depth_fl rnd t k Z1) (run_depth_fl rnd t k Z2) < |Z2 - Z1| + n / 20 := by
  have hthr1 : 0 ≤ rnd 0.000001 := h.nonneg _ (by norm_num)
  have hthr2 : 0 ≤ rnd 0.00001 := h.nonneg _ (by norm_num)
  have hM0 : (0 : ℚ) ≤ max 0 (max (-Z1) (-Z2)) := le_max_left _ _
  have hM : max 0 (max (-Z1) (-Z2)) ≤ 1000 :=
    max_le (by norm_num) (max_le (by linarith) (by linarith))
  obtain ⟨hk1, hk2⟩ := passes_le _ t ht1 ht2 hM0 hM k (by omega)
  obtain ⟨hn1, _⟩ := passes_le _ t ht1 ht2 hM0 hM n hn
  have hkn : (k : ℚ) + 1 ≤ n := by exact_mod_cast hk
  have hk0 : (0 : ℚ) ≤ k := Nat.cast_nonneg k
  have hu1 := run_depth_fl_le h t Z1 ht1 ht2 hz1' hz1.le k hk1 hk2
  have hu2 := run_depth_fl_le h t Z2 ht1 ht2 hz2' hz2.le k hk1 hk2
  have hl1 := run_depth_fl_ge h t Z1 (by linarith) (by linarith) k
  have hl2 := run_depth_fl_ge h t Z2 (by linarith) (by linarith) k
  have habs1 : Z1 - Z2 ≤ |Z2 - Z1| := by
    rw [abs_sub_comm]; exact le_abs_self _
  have habs2 : Z2 - Z1 ≤ |Z2 - Z1| := le_abs_self _
  have habs0 : 0 ≤ |Z2 - Z1| := abs_nonneg _
  have hsmall : (k : ℚ) * (7 / 10 ^ 12) ≤ 1 / 1000 := by linarith
  rcases hc with hc | hc
  · have hneg : run_depth_fl rnd t k Z1 < 0 := by linarith
    have hL : Z1 + k * (t - 7 / 10 ^ 12) ≤ run_depth_fl rnd t k Z1 := by
      rcases min_choice 0 (Z1 + k * (t - 7 / 10 ^ 12)) with hm | hm
      · rw [hm] at hl1; linarith
      · rw [hm] at hl1; exact hl1
    refine ⟨min_lt_of_left_lt hneg, max_lt ?_ ?_⟩
    · linarith
    · linarith
  · have hneg : run_depth_fl rnd t k Z2 < 0 := by linarith
    have hL : Z2 + k * (t - 7 / 10 ^ 12) ≤ run_depth_fl rnd t k Z2 := by
      rcases min_choice 0 (Z2 + k * (t - 7 / 10 ^ 12)) with hm | hm
      · rw [hm] at hl2; linarith
      · rw [hm] at hl2; exact hl2
    refine ⟨min_lt_of_right_lt hneg, max_lt ?_ ?_⟩
    · linarith
    · linarith

/-! ## Segment count of a descending move (C1) -/

/-- C1 (amended): for every descending move made by `line_to` in `double` arithmetic (any
rounding `rnd` with the laws of `double` rounding; remembered `z1` and target `z2` both
negative, `z2 < z1`, `z2` not below -1000, plunge increment between 0.01 and 5000, not the
first call for the shape), the call returns and the number `n` of PathSegments it emits
equals the number of 0.05-quantized plunge increments needed to raise the move to the surface,
not to cover `|z2 - z1|`: a quantized increment replaces a depth `z` by `ceil((z + t) * 20) / 20`
as the code computes it, `n` is the first number of them after which both running depths are at
or above their thresholds, it is at most `ceil(|z2| / t)`, the number of increments `t` needed
to cover `|z2|`, and `n * (t + 0.05)` covers `|z2| - 0.00001` up to `7e-12` per pass, each pass
raising the depth by no more than the increment rounded up to the 0.05 grid. -/
theorem line_to_descending_segment_count (rnd : ℚ → ℚ) (hl : RoundLaws rnd) (diam : ℚ)
    (fuel : Nat) (g : Globals) (input : inputshape) (X2 Y2 Z2 : ℚ) (hfirst : g.first = false)
    (ht1 : 1 / 100 ≤ g.tooldepth) (ht2 : g.tooldepth ≤ 5000) (hz1 : g.last_Z < 0)
    (hdesc : Z2 < g.last_Z) (hz2 : -1000 ≤ Z2) (hfuel : ⌈-Z2 / g.tooldepth⌉.toNat ≤ fuel) :
    ∃ r n, line_to_fl rnd diam fuel g input X2 Y2 Z2 = some r ∧
      r.2.segments.length = input.segments.length + n ∧
      (∀ k < n, run_depth_fl rnd g.tooldepth k g.last_Z < -rnd 0.000001 ∨
        run_depth_fl rnd g.tooldepth k Z2 < -rnd 0.00001) ∧
      (-rnd 0.000001 ≤ run_depth_fl rnd g.tooldepth n g.last_Z ∧
        -rnd 0.00001 ≤ run_depth_fl rnd g.tooldepth n Z2) ∧
      n ≤ ⌈-Z2 / g.tooldepth⌉.toNat ∧
      -Z2 - rnd 0.00001 ≤ n * (g.tooldepth + 1 / 20 + 7 / 10 ^ 12) := by
  have hmax : max 0 (max (-g.last_Z) (-Z2)) = -Z2 := by
    rw [max_eq_right (by linarith : -g.last_Z ≤ -Z2), max_eq_right (by linarith)]
  have ht : 0 < g.tooldepth := by linarith
  obtain ⟨r, hr, hlen⟩ := bands_fl_returns rnd g.tooldepth g.last_Z Z2 ht
    (Or.inr ⟨hl, by linarith, by linarith, by linarith⟩) fuel (by rw [hmax]; exact hfuel)
  rw [hmax] at hlen
  obtain ⟨_, hrun, hexit, hbands⟩ := bands_fl_spec rnd g.tooldepth fuel g.last_Z Z2 r hr
  refine ⟨({ g with last_X := X2, last_Y := Y2, last_Z := Z2 },
    emit_bands diam g.toolnr g.last_X g.last_Y X2 Y2 r.1 input 0), r.1.length, ?_, ?_, ?_, ?_,
    hlen, ?_⟩
  · rw [line_to_fl_eq rnd diam fuel g input X2 Y2 Z2 hfirst, hr]
    rfl
  · exact emit_bands_segments_length _ _ _ _ _ _ _ _ _
  · intro k hk
    obtain ⟨hb, hc⟩ := hbands k (r.1.get ⟨k, hk⟩) (List.getElem?_eq_getElem hk)
    rw [hb] at hc
    exact hc
  · rw [hrun] at hexit
    exact hexit
  · obtain ⟨hn1, hn2⟩ := passes_le (-Z2) g.tooldepth ht1 ht2 (by linarith) (by linarith)
      r.1.length hlen
    have hu := run_depth_fl_le hl g.tooldepth Z2 ht1 ht2 hz2 (by linarith) r.1.length hn1 hn2
    have h2 : r.2.2 = run_depth_fl rnd g.tooldepth r.1.length Z2 := by rw [hrun]
    have := hexit.2
    rw [h2] at this
    linarith

theorem ceil_three_halves : ⌈-(-3 / 2 : ℚ) / (1 / 2 : ℚ)⌉.toNat = 3 := by
  have hmax : -(-3 / 2 : ℚ) / (1 / 2 : ℚ) = 3 := by norm_num
  have h : ⌈(3 : ℚ)⌉ = 3 := by
    rw [Int.ceil_eq_iff]; norm_num
  rw [hmax, h]; rfl

theorem line_to_descending_segment_count_witness :
    ∃ r n, line_to_fl round53 6 3 (pen_at (1 / 2) (-1)) (inputshape.new "STL path") 1 0
        (-3 / 2) = some r ∧
      r.2.segments.length = (inputshape.new "STL path").segments.length + n ∧
      (∀ k < n, run_depth_fl round53 (pen_at (1 / 2) (-1)).tooldepth k
          (pen_at (1 / 2) (-1)).last_Z < -round53 0.000001 ∨
        run_depth_fl round53 (pen_at (1 / 2) (-1)).tooldepth k (-3 / 2) < -round53 0.00001) ∧
      (-round53 0.000001 ≤ run_depth_fl round53 (pen_at (1 / 2) (-1)).tooldepth n
          (pen_at (1 / 2) (-1)).last_Z ∧
        -round53 0.00001 ≤ run_depth_fl round53 (pen_at (1 / 2) (-1)).tooldepth n (-3 / 2)) ∧
      n ≤ ⌈-(-3 / 2 : ℚ) / (pen_at (1 / 2) (-1)).tooldepth⌉.toNat ∧
      -(-3 / 2 : ℚ) - round53 0.00001
        ≤ n * ((pen_at (1 / 2) (-1)).tooldepth + 1 / 20 + 7 / 10 ^ 12) :=
  line_to_descending_segment_count round53 round53_laws 6 3 (pen_at (1 / 2) (-1))
    (inputshape.new "STL path") 1 0 (-3 / 2) rfl (by norm_num [pen_at]) (by norm_num [pen_at])
    (by norm_num [pen_at]) (by norm_num [pen_at]) (by norm_num)
    (by simp only [pen_at]; rw [ceil_three_halves])

/-! ## Sign of the emitted depths (C2) -/

/-- C2 (amended): for every move made by `line_to` in `double` arithmetic (any rounding `rnd`
with the laws of `double` rounding) whose remembered `z1` and target `z2` are both negative
and not below -1000, with a plunge increment between 0.01 and 5000, the call returns, every
PathSegment it emits has its deeper end below the surface (`min d1 d2 < 0`), and every depth
value the call writes into the shape (both ends of each segment, and the depth of each
ToolDepth / ToolLevel it creates) is below `|z2 - z1| + 0.05 * n`, where `n` is the number of
segments the call emits. The shallower end of a segment can be positive. -/
theorem line_to_depth_bounds (rnd : ℚ → ℚ) (hl : RoundLaws rnd) (diam : ℚ) (fuel : Nat)
    (g : Globals) (input : inputshape) (X2 Y2 Z2 : ℚ) (hfirst : g.first = false)
    (ht1 : 1 / 100 ≤ g.tooldepth) (ht2 : g.tooldepth ≤ 5000) (hz1 : g.last_Z < 0)
    (hz1' : -1000 ≤ g.last_Z) (hz2 : Z2 < 0) (hz2' : -1000 ≤ Z2)
    (hfuel : ⌈max 0 (max (-g.last_Z) (-Z2)) / g.tooldepth⌉.toNat ≤ fuel) :
    ∃ r emitted, line_to_fl rnd diam fuel g input X2 Y2 Z2 = some r ∧
      List.Perm r.2.segments (input.segments ++ emitted) ∧
      (∀ s ∈ emitted, min s.d1 s.d2 < 0 ∧
        max s.d1 s.d2 < |Z2 - g.last_Z| + emitted.length / 20) ∧
      (∀ d ∈ r.2.depths, d ∈ input.depths ∨ d < |Z2 - g.last_Z| + emitted.length / 20) := by
  have ht : 0 < g.tooldepth := by linarith
  obtain ⟨r, hr, hlen⟩ := bands_fl_returns rnd g.tooldepth g.last_Z Z2 ht
    (Or.inr ⟨hl, by linarith, by linarith, by linarith⟩) fuel hfuel
  obtain ⟨_, _, _, hbands⟩ := bands_fl_spec rnd g.tooldepth fuel g.last_Z Z2 r hr
  have hb : ∀ b ∈ r.1, min b.1 b.2 < 0 ∧ max b.1 b.2 < |Z2 - g.last_Z| + r.1.length / 20 := by
    intro b hbm
    obtain ⟨k, hk⟩ := List.mem_iff_getElem?.mp hbm
    have hklt : k < r.1.length := by
      by_contra hcon
      rw [List.getElem?_eq_none (not_lt.mp hcon)] at hk
      exact absurd hk (by simp)
    obtain ⟨hbk, hc⟩ := hbands k b hk
    have := band_fl_bounds hl g.tooldepth g.last_Z Z2 ht1 ht2 hz1 hz1' hz2 hz2' r.1.length k
      hklt hlen (by rw [hbk] at hc; exact hc)
    rw [hbk]
    exact this
  refine ⟨({ g with last_X := X2, last_Y := Y2, last_Z := Z2 },
    emit_bands diam g.toolnr g.last_X g.last_Y X2 Y2 r.1 input 0),
    r.1.map (fun b => (⟨g.last_X, g.last_Y, X2, Y2, b.1, b.2⟩ : PathSegment)), ?_,
    emit_bands_segments diam g.toolnr g.last_X g.last_Y X2 Y2 r.1 input 0, ?_, ?_⟩
  · rw [line_to_fl_eq rnd diam fuel g input X2 Y2 Z2 hfirst, hr]
    rfl
  · intro s hs
    rw [List.mem_map] at hs
    obtain ⟨b, hbm, rfl⟩ := hs
    rw [List.length_map]
    exact hb b hbm
  · intro d hd
    rw [List.length_map]
    rcases emit_bands_depths _ _ _ _ _ _ _ _ _ d hd with h | ⟨b, hbm, h⟩
    · exact Or.inl h
    · right
      have := (hb b hbm).2
      rw [max_lt_iff] at this
      rcases h with rfl | rfl
      · exact this.1
      · exact this.2

theorem ceil_three_steep :
    ⌈max 0 (max (-(-1 / 2 : ℚ)) (-(-3 / 2 : ℚ))) / (1 / 2 : ℚ)⌉.toNat = 3 := by
  have hmax : max 0 (max (-(-1 / 2 : ℚ)) (-(-3 / 2 : ℚ))) / (1 / 2 : ℚ) = 3 := by
    norm_num
  have h : ⌈(3 : ℚ)⌉ = 3 := by
    rw [Int.ceil_eq_iff]; norm_num
  rw [hmax, h]; rfl

theorem line_to_depth_bounds_witness :
    ∃ r emitted, line_to_fl round53 6 3 (pen_at (1 / 2) (-1 / 2)) (inputshape.new "STL path")
        1 0 (-3 / 2) = some r ∧
      List.Perm r.2.segments ((inputshape.new "STL path").segments ++ emitted) ∧
      (∀ s ∈ emitted, min s.d1 s.d2 < 0 ∧
        max s.d1 s.d2 < |(-3 / 2 : ℚ) - (pen_at (1 / 2) (-1 / 2)).last_Z|
          + emitted.length / 20) ∧
      (∀ d ∈ r.2.depths, d ∈ (inputshape.new "STL path").depths
        ∨ d < |(-3 / 2 : ℚ) - (pen_at (1 / 2) (-1 / 2)).last_Z| + emitted.length / 20) :=
  line_to_depth_bounds round53 round53_laws 6 3 (pen_at (1 / 2) (-1 / 2))
    (inputshape.new "STL path") 1 0 (-3 / 2) rfl (by norm_num [pen_at]) (by norm_num [pen_at])
    (by norm_num [pen_at]) (by norm_num [pen_at]) (by norm_num) (by norm_num)
    (by simp only [pen_at]; rw [ceil_three_steep])

/-! ## Rounding up to the 1/100 grid in rounded arithmetic -/

theorem ceilACC_fl_spec {rnd : ℚ → ℚ} (h : RoundLaws rnd) (d : ℚ) (hd : 0 ≤ d) :
    (∃ n : ℤ, 0 ≤ n ∧ ceilACC_fl rnd d = rnd ((n : ℚ) / 100)) ∧
      0 ≤ ceilACC_fl rnd d ∧
      d * (1 - 1 / 2 ^ 51) ≤ ceilACC_fl rnd d ∧
      ceilACC_fl rnd d ≤ (d + 1 / 100) * (1 + 1 / 2 ^ 51) := by
  have hy0 : 0 ≤ rnd (d * 100) := h.nonneg _ (by positivity)
  have hy1 := h.sub_le (d * 100)
  have hy2 := h.le_add (d * 100)
  rw [abs_of_nonneg (by positivity : (0 : ℚ) ≤ d * 100)] at hy1 hy2
  have hn0 : (0 : ℤ) ≤ ⌈rnd (d * 100)⌉ := Int.ceil_nonneg hy0
  have hn0q : (0 : ℚ) ≤ (⌈rnd (d * 100)⌉ : ℚ) := by exact_mod_cast hn0
  have hn1 : rnd (d * 100) ≤ (⌈rnd (d * 100)⌉ : ℚ) := Int.le_ceil _
  have hn2 : (⌈rnd (d * 100)⌉ : ℚ) < rnd (d * 100) + 1 := Int.ceil_lt_add_one _
  have hq0 : (0 : ℚ) ≤ (⌈rnd (d * 100)⌉ : ℚ) / 100 := div_nonneg hn0q (by norm_num)
  have hv1 := h.sub_le ((⌈rnd (d * 100)⌉ : ℚ) / 100)
  have hv2 := h.le_add ((⌈rnd (d * 100)⌉ : ℚ) / 100)
  rw [abs_of_nonneg hq0] at hv1 hv2
  unfold ceilACC_fl
  refine ⟨⟨_, hn0, rfl⟩, h.nonneg _ hq0, ?_, ?_⟩
  · have e1 : d * (1 - 1 / 2 ^ 53) ≤ (⌈rnd (d * 100)⌉ : ℚ) / 100 := by
      rw [le_div_iff₀ (by norm_num)]
      have : d * 100 / 2 ^ 53 = d * (1 / 2 ^ 53) * 100 := by ring
      linarith
    have e2 : d * (1 - 1 / 2 ^ 53) * (1 - 1 / 2 ^ 53)
        ≤ (⌈rnd (d * 100)⌉ : ℚ) / 100 * (1 - 1 / 2 ^ 53) :=
      mul_le_mul_of_nonneg_right e1 (by norm_num)
    have e3 : d * (1 - 1 / 2 ^ 51) ≤ d * ((1 - 1 / 2 ^ 53) * (1 - 1 / 2 ^ 53)) :=
      mul_le_mul_of_nonneg_left (by norm_num) hd
    have e4 : (⌈rnd (d * 100)⌉ : ℚ) / 100 * (1 - 1 / 2 ^ 53)
        = (⌈rnd (d * 100)⌉ : ℚ) / 100 - (⌈rnd (d * 100)⌉ : ℚ) / 100 / 2 ^ 53 := by ring
    have e5 : d * ((1 - 1 / 2 ^ 53) * (1 - 1 / 2 ^ 53))
        = d * (1 - 1 / 2 ^ 53) * (1 - 1 / 2 ^ 53) := by ring
    linarith
  · have e1 : (⌈rnd (d * 100)⌉ : ℚ) / 100 ≤ d * (1 + 1 / 2 ^ 53) + 1 / 100 := by
      rw [div_le_iff₀ (by norm_num)]
      have : d * 100 / 2 ^ 53 = d * (1 / 2 ^ 53) * 100 := by ring
      linarith
    have e1' : (⌈rnd (d * 100)⌉ : ℚ) / 100 ≤ (d + 1 / 100) * (1 + 1 / 2 ^ 53) := by
      have : d * (1 + 1 / 2 ^ 53) + 1 / 100 ≤ (d + 1 / 100) * (1 + 1 / 2 ^ 53) := by
        have : (0 : ℚ) ≤ 1 / 100 * (1 / 2 ^ 53) := by norm_num
        linarith
      linarith
    have e2 : (⌈rnd (d * 100)⌉ : ℚ) / 100 * (1 + 1 / 2 ^ 53)
        ≤ (d + 1 / 100) * (1 + 1 / 2 ^ 53) * (1 + 1 / 2 ^ 53) :=
      mul_le_mul_of_nonneg_right e1' (by norm_num)
    have e3 : (d + 1 / 100) * ((1 + 1 / 2 ^ 53) * (1 + 1 / 2 ^ 53))
        ≤ (d + 1 / 100) * (1 + 1 / 2 ^ 51) :=
      mul_le_mul_of_nonneg_left (by norm_num) (by linarith)
    have e4 : (⌈rnd (d * 100)⌉ : ℚ) / 100 * (1 + 1 / 2 ^ 53)
        = (⌈rnd (d * 100)⌉ : ℚ) / 100 + (⌈rnd (d * 100)⌉ : ℚ) / 100 / 2 ^ 53 := by ring
    have e5 : (d + 1 / 100) * ((1 + 1 / 2 ^ 53) * (1 + 1 / 2 ^ 53))
        = (d + 1 / 100) * (1 + 1 / 2 ^ 53) * (1 + 1 / 2 ^ 53) := by ring
    linarith

theorem foldl_max_nonneg (l : List ℚ) : 0 ≤ l.foldl max 0 := (le_foldl_max l 0).1

/-! ## The rounded sampler as a maximum over its probes -/

theorem probe_ring_fl_eq_foldl (rnd : ℚ → ℚ) (get_height : ℚ → ℚ → ℚ) (X Y R b : ℚ)
    (offs : List (ℚ × ℚ)) (d : ℚ) :
    probe_ring_fl rnd get_height X Y R b offs d
      = (offs.map (fun o => rnd (get_height (rnd (X + rnd (rnd o.1 * R)))
          (rnd (Y + rnd (rnd o.2 * R))) + b))).foldl max d := by
  unfold probe_ring_fl
  rw [List.foldl_map]

theorem centre_probe_fl {rnd : ℚ → ℚ} (h : RoundLaws rnd) (X R : ℚ) :
    rnd (X + rnd (rnd 0.0000 * R)) = rnd X := by
  have h0 : (0.0000 : ℚ) = 0 := by norm_num
  rw [h0, h.zero, zero_mul, h.zero, add_zero]

theorem get_height_tool_fl_probes {rnd : ℚ → ℚ} (hl : RoundLaws rnd) (sqrt : ℚ → ℚ)
    (get_height : ℚ → ℚ → ℚ) (X Y R : ℚ) (ballnose : Bool) :
    ∃ probes : List ℚ,
      get_height_tool_fl rnd sqrt get_height X Y R ballnose
        = ceilACC_fl rnd (probes.foldl max 0) ∧
      (get_height (rnd X) (rnd Y) :: (axis_offsets ++ diag_offsets).map
        (fun o => rnd (get_height (rnd (X + rnd (rnd o.1 * R))) (rnd (Y + rnd (rnd o.2 * R)))
          + (if ballnose then ballnose_offset_fl rnd sqrt R R else 0)))) <+: probes ∧
      ∀ p ∈ probes, p = get_height (rnd X) (rnd Y) ∨ ∃ o ∈ ring16_offsets, ∃ Rk : ℚ,
        (Rk = R ∨ Rk = rnd (R / 1.5) ∨ Rk = rnd (rnd (R / 1.5) / 1.5)) ∧
        p = rnd (get_height (rnd (X + rnd (rnd o.1 * Rk))) (rnd (Y + rnd (rnd o.2 * Rk)))
          + (if ballnose then ballnose_offset_fl rnd sqrt R Rk else 0)) := by
  have h00 : (0.0 : ℚ) = 0 := by norm_num
  have hmem1 : ∀ p ∈ ((get_height (rnd X) (rnd Y) :: (axis_offsets ++ diag_offsets).map
        (fun o => rnd (get_height (rnd (X + rnd (rnd o.1 * R))) (rnd (Y + rnd (rnd o.2 * R)))
          + (if ballnose then ballnose_offset_fl rnd sqrt R R else 0))))
        ++ ring8_offsets.map (fun o => rnd (get_height (rnd (X + rnd (rnd o.1 * R))) (rnd (Y + rnd (rnd o.2 * R)))
          + (if ballnose then ballnose_offset_fl rnd sqrt R R else 0)))),
      p = get_height (rnd X) (rnd Y) ∨ ∃ o ∈ ring16_offsets, ∃ Rk : ℚ,
        (Rk = R ∨ Rk = rnd (R / 1.5) ∨ Rk = rnd (rnd (R / 1.5) / 1.5)) ∧
        p = rnd (get_height (rnd (X + rnd (rnd o.1 * Rk))) (rnd (Y + rnd (rnd o.2 * Rk)))
          + (if ballnose then ballnose_offset_fl rnd sqrt R Rk else 0)) := by
    intro p hp
    rw [List.cons_append, ← List.map_append, List.mem_cons, List.mem_map] at hp
    rcases hp with rfl | ⟨o, ho, rfl⟩
    · exact Or.inl rfl
    · exact Or.inr ⟨o, axis_diag_ring8_subset o ho, R, Or.inl rfl, rfl⟩
  have hmem2 : ∀ p ∈ ring16_offsets.map (fun o => rnd (get_height (rnd (X + rnd (rnd o.1 * (rnd (R / 1.5))))) (rnd (Y + rnd (rnd o.2 * (rnd (R / 1.5)))))
          + (if ballnose then ballnose_offset_fl rnd sqrt R (rnd (R / 1.5)) else 0))),
      p = get_height (rnd X) (rnd Y) ∨ ∃ o ∈ ring16_offsets, ∃ Rk : ℚ,
        (Rk = R ∨ Rk = rnd (R / 1.5) ∨ Rk = rnd (rnd (R / 1.5) / 1.5)) ∧
        p = rnd (get_height (rnd (X + rnd (rnd o.1 * Rk))) (rnd (Y + rnd (rnd o.2 * Rk)))
          + (if ballnose then ballnose_offset_fl rnd sqrt R Rk else 0)) := by
    intro p hp
    rw [List.mem_map] at hp
    obtain ⟨o, ho, rfl⟩ := hp
    exact Or.inr ⟨o, ho, rnd (R / 1.5), Or.inr (Or.inl rfl), rfl⟩
  have hmem3 : ∀ p ∈ ring16_offsets.map (fun o => rnd (get_height (rnd (X + rnd (rnd o.1 * (rnd (rnd (R / 1.5) / 1.5))))) (rnd (Y + rnd (rnd o.2 * (rnd (rnd (R / 1.5) / 1.5)))))
          + (if ballnose then ballnose_offset_fl rnd sqrt R (rnd (rnd (R / 1.5) / 1.5)) else 0))),
      p = get_height (rnd X) (rnd Y) ∨ ∃ o ∈ ring16_offsets, ∃ Rk : ℚ,
        (Rk = R ∨ Rk = rnd (R / 1.5) ∨ Rk = rnd (rnd (R / 1.5) / 1.5)) ∧
        p = rnd (get_height (rnd (X + rnd (rnd o.1 * Rk))) (rnd (Y + rnd (rnd o.2 * Rk)))
          + (if ballnose then ballnose_offset_fl rnd sqrt R Rk else 0)) := by
    intro p hp
    rw [List.mem_map] at hp
    obtain ⟨o, ho, rfl⟩ := hp
    exact Or.inr ⟨o, ho, rnd (rnd (R / 1.5) / 1.5), Or.inr (Or.inr rfl), rfl⟩
  unfold get_height_tool_fl
  simp only
  rw [centre_probe_fl hl X R, centre_probe_fl hl Y R]
  simp only [probe_ring_fl_eq_foldl]
  generalize hb1 : (if ballnose = true then ballnose_offset_fl rnd sqrt R R else 0.0) = b1
  generalize hb2 :
    (if ballnose = true then ballnose_offset_fl rnd sqrt R (rnd (R / 1.5)) else b1) = b2
  generalize hb3 :
    (if ballnose = true then ballnose_offset_fl rnd sqrt R (rnd (rnd (R / 1.5) / 1.5)) else b2)
      = b3
  have hs1 : b1 = (if ballnose then ballnose_offset_fl rnd sqrt R R else 0) := by
    rw [← hb1, h00]
  have hs2 : b2 = (if ballnose then ballnose_offset_fl rnd sqrt R (rnd (R / 1.5)) else 0) := by
    rw [← hb2, hs1]; cases ballnose <;> rfl
  have hs3 : b3
      = (if ballnose then ballnose_offset_fl rnd sqrt R (rnd (rnd (R / 1.5) / 1.5)) else 0) := by
    rw [← hb3, hs2]; cases ballnose <;> rfl
  clear hb1 hb2 hb3
  split
  · subst hs1
    refine ⟨(get_height (rnd X) (rnd Y) :: (axis_offsets ++ diag_offsets).map
        (fun o => rnd (get_height (rnd (X + rnd (rnd o.1 * R))) (rnd (Y + rnd (rnd o.2 * R)))
          + (if ballnose then ballnose_offset_fl rnd sqrt R R else 0)))), ?_, List.prefix_refl _,
      fun p hp => hmem1 p (List.mem_append_left _ hp)⟩
    simp only [List.foldl_cons, List.map_append, List.foldl_append]
  · split
    · subst hs1
      refine ⟨((get_height (rnd X) (rnd Y) :: (axis_offsets ++ diag_offsets).map
        (fun o => rnd (get_height (rnd (X + rnd (rnd o.1 * R))) (rnd (Y + rnd (rnd o.2 * R)))
          + (if ballnose then ballnose_offset_fl rnd sqrt R R else 0))))
        ++ ring8_offsets.map (fun o => rnd (get_height (rnd (X + rnd (rnd o.1 * R))) (rnd (Y + rnd (rnd o.2 * R)))
          + (if ballnose then ballnose_offset_fl rnd sqrt R R else 0)))), ?_, List.prefix_append _ _, hmem1⟩
      simp only [List.cons_append, List.foldl_cons, List.map_append, List.foldl_append]
    · split
      · subst hs1 hs2
        refine ⟨(((get_height (rnd X) (rnd Y) :: (axis_offsets ++ diag_offsets).map
        (fun o => rnd (get_height (rnd (X + rnd (rnd o.1 * R))) (rnd (Y + rnd (rnd o.2 * R)))
          + (if ballnose then ballnose_offset_fl rnd sqrt R R else 0))))
        ++ ring8_offsets.map (fun o => rnd (get_height (rnd (X + rnd (rnd o.1 * R))) (rnd (Y + rnd (rnd o.2 * R)))
          + (if ballnose then ballnose_offset_fl rnd sqrt R R else 0))))
        ++ ring16_offsets.map (fun o => rnd (get_height (rnd (X + rnd (rnd o.1 * (rnd (R / 1.5))))) (rnd (Y + rnd (rnd o.2 * (rnd (R / 1.5)))))
          + (if ballnose then ballnose_offset_fl rnd sqrt R (rnd (R / 1.5)) else 0)))), ?_,
          (List.prefix_append _ _).trans (List.prefix_append _ _), ?_⟩
        · simp only [List.cons_append, List.foldl_cons, List.map_append, List.foldl_append]
        · intro p hp
          rcases List.mem_append.mp hp with hp | hp
          · exact hmem1 p hp
          · exact hmem2 p hp
      · subst hs1 hs2 hs3
        refine ⟨((((get_height (rnd X) (rnd Y) :: (axis_offsets ++ diag_offsets).map
        (fun o => rnd (get_height (rnd (X + rnd (rnd o.1 * R))) (rnd (Y + rnd (rnd o.2 * R)))
          + (if ballnose then ballnose_offset_fl rnd sqrt R R else 0))))
        ++ ring8_offsets.map (fun o => rnd (get_height (rnd (X + rnd (rnd o.1 * R))) (rnd (Y + rnd (rnd o.2 * R)))
          + (if ballnose then ballnose_offset_fl rnd sqrt R R else 0))))
        ++ ring16_offsets.map (fun o => rnd (get_height (rnd (X + rnd (rnd o.1 * (rnd (R / 1.5))))) (rnd (Y + rnd (rnd o.2 * (rnd (R / 1.5)))))
          + (if ballnose then ballnose_offset_fl rnd sqrt R (rnd (R / 1.5)) else 0))))
        ++ ring16_offsets.map (fun o => rnd (get_height (rnd (X + rnd (rnd o.1 * (rnd (rnd (R / 1.5) / 1.5))))) (rnd (Y + rnd (rnd o.2 * (rnd (rnd (R / 1.5) / 1.5)))))
          + (if ballnose then ballnose_offset_fl rnd sqrt R (rnd (rnd (R / 1.5) / 1.5)) else 0)))), ?_,
          ((List.prefix_append _ _).trans (List.prefix_append _ _)).trans
            (List.prefix_append _ _), ?_⟩
        · simp only [List.cons_append, List.foldl_cons, List.map_append, List.foldl_append]
        · intro p hp
          rcases List.mem_append.mp hp with hp | hp
          · rcases List.mem_append.mp hp with hp | hp
            · exact hmem1 p hp
            · exact hmem2 p hp
          · exact hmem3 p hp

/-! ## The rounded sampler on a flat height field -/

theorem ballnose_offset_fl_nonpos {rnd : ℚ → ℚ} (hl : RoundLaws rnd) (sqrt : ℚ → ℚ)
    (hs : SqrtLaws sqrt) (orgR R : ℚ) (horg : 0 ≤ orgR) (hR : orgR / 3 ≤ R) :
    ballnose_offset_fl rnd sqrt orgR R ≤ 0 := by
  have hR0 : 0 ≤ R := le_trans (by positivity) hR
  have hq : 0 ≤ orgR * orgR := mul_self_nonneg _
  have hr : orgR * orgR / 9 ≤ R * R := by nlinarith
  have hA := hl.le_add (orgR * orgR)
  rw [abs_of_nonneg hq] at hA
  have hB := hl.sub_le (R * R)
  rw [abs_of_nonneg (mul_self_nonneg R)] at hB
  have hD : rnd (orgR * orgR) - rnd (R * R)
      ≤ orgR * orgR * (8 / 9 + 10 / 9 * (1 / 2 ^ 53)) := by
    have e1 : R * R / 2 ^ 53 = R * R * (1 / 2 ^ 53) := by ring
    have e2 : orgR * orgR / 2 ^ 53 = orgR * orgR * (1 / 2 ^ 53) := by ring
    have e3 : orgR * orgR / 9 * (1 - 1 / 2 ^ 53) ≤ R * R * (1 - 1 / 2 ^ 53) :=
      mul_le_mul_of_nonneg_right hr (by norm_num)
    nlinarith
  have ha : rnd (rnd (orgR * orgR) - rnd (R * R)) ≤ orgR * orgR := by
    rcases le_or_lt 0 (rnd (orgR * orgR) - rnd (R * R)) with h0 | h0
    · have h1 := hl.le_add (rnd (orgR * orgR) - rnd (R * R))
      rw [abs_of_nonneg h0] at h1
      have h2 : (rnd (orgR * orgR) - rnd (R * R)) * (1 + 1 / 2 ^ 53)
          ≤ orgR * orgR * (8 / 9 + 10 / 9 * (1 / 2 ^ 53)) * (1 + 1 / 2 ^ 53) :=
        mul_le_mul_of_nonneg_right hD (by norm_num)
      have h3 : orgR * orgR * ((8 / 9 + 10 / 9 * (1 / 2 ^ 53)) * (1 + 1 / 2 ^ 53))
          ≤ orgR * orgR * 1 :=
        mul_le_mul_of_nonneg_left (by norm_num) hq
      have e1 : (rnd (orgR * orgR) - rnd (R * R)) * (1 + 1 / 2 ^ 53)
          = (rnd (orgR * orgR) - rnd (R * R)) + (rnd (orgR * orgR) - rnd (R * R)) / 2 ^ 53 := by
        ring
      have e2 : orgR * orgR * ((8 / 9 + 10 / 9 * (1 / 2 ^ 53)) * (1 + 1 / 2 ^ 53))
          = orgR * orgR * (8 / 9 + 10 / 9 * (1 / 2 ^ 53)) * (1 + 1 / 2 ^ 53) := by ring
      linarith
    · have := hl.nonpos _ h0.le
      linarith
  have hsq := hs.le_of_le_sq _ orgR horg ha
  unfold ballnose_offset_fl
  exact hl.nonpos _ (by linarith)

theorem rnd_div_ge {rnd : ℚ → ℚ} (hl : RoundLaws rnd) (R : ℚ) (hR : 0 ≤ R) :
    R * (6 / 10) ≤ rnd (R / 1.5) := by
  have h0 : 0 ≤ R / 1.5 := div_nonneg hR (by norm_num)
  have h1 := hl.sub_le (R / 1.5)
  rw [abs_of_nonneg h0] at h1
  have e : R / 1.5 - R / 1.5 / 2 ^ 53 = R * (2 / 3 * (1 - 1 / 2 ^ 53)) := by
    norm_num
    ring
  rw [e] at h1
  have : R * (6 / 10) ≤ R * (2 / 3 * (1 - 1 / 2 ^ 53)) :=
    mul_le_mul_of_nonneg_left (by norm_num) hR
  linarith

theorem probe_ring_fl_flat {rnd : ℚ → ℚ} (hl : RoundLaws rnd) (get_height : ℚ → ℚ → ℚ)
    (h : ℚ) (hflat : ∀ x y, get_height x y = h) (hrep : rnd h = h) (X Y R b : ℚ)
    (hb : b ≤ 0) :
    ∀ (offs : List (ℚ × ℚ)),
      probe_ring_fl rnd get_height X Y R b offs (max 0 h) = max 0 h := by
  intro offs
  unfold probe_ring_fl
  induction offs with
  | nil => rfl
  | cons o offs ih =>
    rw [List.foldl_cons, hflat]
    have h1 : rnd (h + b) ≤ h := by
      have := hl.mono (h + b) h (by linarith)
      rwa [hrep] at this
    rw [max_eq_left (h1.trans (le_max_right 0 h))]
    exact ih

theorem get_height_tool_fl_flat {rnd : ℚ → ℚ} (hl : RoundLaws rnd) (sqrt : ℚ → ℚ)
    (get_height : ℚ → ℚ → ℚ) (h X Y R : ℚ) (ballnose : Bool)
    (hflat : ∀ x y, get_height x y = h) (hrep : rnd h = h) (hR : 0 ≤ R)
    (hs : ballnose = true → SqrtLaws sqrt) :
    get_height_tool_fl rnd sqrt get_height X Y R ballnose = ceilACC_fl rnd (max 0 h) := by
  have hR1 : R / 3 ≤ rnd (R / 1.5) := by
    have := rnd_div_ge hl R hR
    linarith
  have hR1' : 0 ≤ rnd (R / 1.5) := le_trans (by positivity) hR1
  have hR2 : R / 3 ≤ rnd (rnd (R / 1.5) / 1.5) := by
    have h1 := rnd_div_ge hl R hR
    have h2 := rnd_div_ge hl (rnd (R / 1.5)) hR1'
    nlinarith
  have hb : ∀ R2 : ℚ, R / 3 ≤ R2 →
      (if ballnose = true then ballnose_offset_fl rnd sqrt R R2 else 0.0) ≤ 0 := by
    intro R2 hR2
    split
    · rename_i hbn
      exact ballnose_offset_fl_nonpos hl sqrt (hs hbn) R R2 hR hR2
    · norm_num
  have hring : ∀ (Rp R2 : ℚ) (offs : List (ℚ × ℚ)), R / 3 ≤ R2 →
      probe_ring_fl rnd get_height X Y Rp
        (if ballnose = true then ballnose_offset_fl rnd sqrt R R2 else 0.0)
        offs (max 0 h) = max 0 h := by
    intro Rp R2 offs hR2
    exact probe_ring_fl_flat hl get_height h hflat hrep X Y Rp _ (hb R2 hR2) offs
  have hnest : ∀ (R2 R3 : ℚ),
      (if ballnose = true then ballnose_offset_fl rnd sqrt R R2
        else if ballnose = true then ballnose_offset_fl rnd sqrt R R3 else 0.0)
        = (if ballnose = true then ballnose_offset_fl rnd sqrt R R2 else 0.0) := by
    intro R2 R3
    split <;> rfl
  have hnest2 : ∀ (R2 R3 : ℚ),
      (if ballnose = true then ballnose_offset_fl rnd sqrt R R2
        else if ballnose = true then ballnose_offset_fl rnd sqrt R R3
        else if ballnose = true then ballnose_offset_fl rnd sqrt R R else 0.0)
        = (if ballnose = true then ballnose_offset_fl rnd sqrt R R2 else 0.0) := by
    intro R2 R3
    split <;> rfl
  have h0 : R / 3 ≤ R := by linarith
  unfold get_height_tool_fl
  simp only [hflat]
  simp only [hnest, hnest2, hring _ R _ h0, hring _ _ _ hR1, hring _ _ _ hR2]
  split
  · rfl
  · split
    · rfl
    · split <;> rfl

/-! ## Values of the binary64 rounding -/

theorem zpow_two_nat (n : ℕ) : (2 : ℚ) ^ (n : ℤ) = 2 ^ n := by norm_cast

theorem round53_eq_self (x : ℚ) (e n : ℤ) (hx0 : 0 < x) (h1 : (2 : ℚ) ^ e ≤ x)
    (h2 : x < (2 : ℚ) ^ (e + 1)) (hn : x * 2 ^ (52 - e) = n) : round53 x = x := by
  rw [round53_eq_of x e n hx0 h1 h2 (by rw [hn]; simp), ← hn]
  have hs : (2 : ℚ) ^ (52 - e) ≠ 0 := ne_of_gt (zpow_pos (by norm_num) _)
  field_simp

theorem round53_double_0_01 : round53 double_0_01 = double_0_01 := by
  apply round53_eq_self double_0_01 (-7) 5764607523034235
  · norm_num [double_0_01]
  · norm_num [double_0_01]
  · norm_num [double_0_01]
  · have : (52 : ℤ) - -7 = ((59 : ℕ) : ℤ) := by norm_num
    rw [this, zpow_two_nat]
    norm_num [double_0_01]

theorem round53_hundredth : round53 (1 / 100) = double_0_01 := by
  have h := round53_eq_of (1 / 100) (-7) 5764607523034235 (by norm_num)
    (by norm_num) (by norm_num) (by
      have : (52 : ℤ) - -7 = ((59 : ℕ) : ℤ) := by norm_num
      rw [this, zpow_two_nat, abs_lt]
      constructor <;> norm_num)
  rw [h]
  have : (52 : ℤ) - -7 = ((59 : ℕ) : ℤ) := by norm_num
  rw [this, zpow_two_nat]
  norm_num [double_0_01]

theorem round53_double_0_01_times : round53 (double_0_01 * 100) = 1 := by
  have h := round53_eq_of (double_0_01 * 100) 0 (2 ^ 52) (by norm_num [double_0_01])
    (by norm_num [double_0_01]) (by norm_num [double_0_01]) (by
      have : (52 : ℤ) - 0 = ((52 : ℕ) : ℤ) := by norm_num
      rw [this, zpow_two_nat, abs_lt]
      constructor <;> norm_num [double_0_01])
  rw [h]
  have : (52 : ℤ) - 0 = ((52 : ℕ) : ℤ) := by norm_num
  rw [this, zpow_two_nat]
  norm_num

theorem round53_double_0_1 : round53 double_0_1 = double_0_1 := by
  apply round53_eq_self double_0_1 (-4) 7205759403792794
  · norm_num [double_0_1]
  · norm_num [double_0_1]
  · norm_num [double_0_1]
  · have : (52 : ℤ) - -4 = ((56 : ℕ) : ℤ) := by norm_num
    rw [this, zpow_two_nat]
    norm_num [double_0_1]

theorem round53_tenth : round53 (10 / 100) = double_0_1 := by
  have h := round53_eq_of (10 / 100) (-4) 7205759403792794 (by norm_num)
    (by norm_num) (by norm_num) (by
      have : (52 : ℤ) - -4 = ((56 : ℕ) : ℤ) := by norm_num
      rw [this, zpow_two_nat, abs_lt]
      constructor <;> norm_num)
  rw [h]
  have : (52 : ℤ) - -4 = ((56 : ℕ) : ℤ) := by norm_num
  rw [this, zpow_two_nat]
  norm_num [double_0_1]

theorem round53_double_0_1_times : round53 (double_0_1 * 100) = 10 := by
  have h := round53_eq_of (double_0_1 * 100) 3 (5 * 2 ^ 50) (by norm_num [double_0_1])
    (by norm_num [double_0_1]) (by norm_num [double_0_1]) (by
      have : (52 : ℤ) - 3 = ((49 : ℕ) : ℤ) := by norm_num
      rw [this, zpow_two_nat, abs_lt]
      constructor <;> norm_num [double_0_1])
  rw [h]
  have : (52 : ℤ) - 3 = ((49 : ℕ) : ℤ) := by norm_num
  rw [this, zpow_two_nat]
  norm_num

theorem round53_five : round53 5 = 5 := by
  apply round53_eq_self 5 2 (5 * 2 ^ 50)
  · norm_num
  · norm_num
  · norm_num
  · have : (52 : ℤ) - 2 = ((50 : ℕ) : ℤ) := by norm_num
    rw [this, zpow_two_nat]
    norm_num

theorem ceilACC_fl_double_0_01 : ceilACC_fl round53 double_0_01 = double_0_01 := by
  unfold ceilACC_fl
  rw [round53_double_0_01_times]
  have : ((⌈(1 : ℚ)⌉ : ℤ) : ℚ) / 100 = 1 / 100 := by
    rw [Int.ceil_one]; norm_num
  rw [this, round53_hundredth]

theorem ceilACC_fl_double_0_1 : ceilACC_fl round53 double_0_1 = double_0_1 := by
  unfold ceilACC_fl
  rw [round53_double_0_1_times]
  have : ((⌈(10 : ℚ)⌉ : ℤ) : ℚ) / 100 = 10 / 100 := by
    have : ⌈(10 : ℚ)⌉ = 10 := by
      rw [Int.ceil_eq_iff]; norm_num
    rw [this]; norm_num
  rw [this, round53_tenth]

theorem ceilACC_double_0_01 : ceilACC double_0_01 = 2 / 100 := by
  unfold ceilACC
  have : ⌈double_0_01 * 100⌉ = 2 := by
    rw [Int.ceil_eq_iff]; norm_num [double_0_01]
  rw [this]; norm_num

theorem ceilACC_double_0_1 : ceilACC double_0_1 = 11 / 100 := by
  unfold ceilACC
  have : ⌈double_0_1 * 100⌉ = 11 := by
    rw [Int.ceil_eq_iff]; norm_num [double_0_1]
  rw [this]; norm_num

/-! ## The sampler rounds up in `double` arithmetic (C14) -/

/-- C14 (as stated, refuted): on the height field that is the `double` nearest to 0.1
everywhere, the sampler in binary64 arithmetic (flat-end tool of radius 1/4 at the origin)
returns that same `double`, about 0.1: the product `d * 100.0` is rounded to exactly 10
before `ceil` is taken. Every probed height is `d`, which lies above 0.1, so
`ceil(100 * d) / 100` is 0.11, more than 0.009 above the value returned. -/
theorem get_height_tool_below_ceil :
    get_height_tool_fl round53 sqrt_down (fun _ _ => double_0_1) 0 0 (1 / 4) false
        = double_0_1 ∧
      ceilACC (max 0 double_0_1) = 11 / 100 ∧
      get_height_tool_fl round53 sqrt_down (fun _ _ => double_0_1) 0 0 (1 / 4) false + 9 / 1000
        < ceilACC (max 0 double_0_1) := by
  have hpos : (0 : ℚ) ≤ double_0_1 := by norm_num [double_0_1]
  have hv := get_height_tool_fl_flat round53_laws sqrt_down (fun _ _ => double_0_1) double_0_1
    0 0 (1 / 4) false (fun _ _ => rfl) round53_double_0_1 (by norm_num)
    (fun hb => absurd hb (by decide))
  rw [max_eq_right hpos, ceilACC_fl_double_0_1] at hv
  rw [hv, max_eq_right hpos, ceilACC_double_0_1]
  refine ⟨rfl, rfl, ?_⟩
  norm_num [double_0_1]

/-- C14 (amended): for every height field, position `(X, Y)`, radius `R` and ball-nose flag,
the value `v` returned by `get_height_tool` in `double` arithmetic (any rounding `rnd` with
the laws of `double` rounding) is `rnd(ceil(rnd(100 * d)) / 100)`, where `d` is the maximum of
0 and the list of probed heights: the centre height, then the four axis and four diagonal
probes at radius `R`, then the probes of the further rings the call reaches, every probe
being the height at an offset of the ring table times `R`, `R / 1.5` or `R / 1.5 / 1.5` plus
the ball-nose sag of that radius (0 for a flat-end tool). Hence `v` is the `double` nearest
to a non-negative integer multiple of 1/100, `v ≥ 0`, and `v` is `d` rounded up to the grid to
within the rounding: `d * (1 - 2^-51) ≤ v ≤ (d + 1/100) * (1 + 2^-51)`; `v` is at least every
probe and the centre height up to the factor `1 - 2^-51`, and for a flat-end tool at least the
height at each of the four axis and four diagonal points at radius `R` up to the factor
`1 - 2^-50`. -/
theorem get_height_tool_rounds_up (rnd : ℚ → ℚ) (hl : RoundLaws rnd) (sqrt : ℚ → ℚ)
    (get_height : ℚ → ℚ → ℚ) (X Y R : ℚ) (ballnose : Bool) :
    ∃ (probes : List ℚ) (n : ℤ),
      get_height_tool_fl rnd sqrt get_height X Y R ballnose
        = ceilACC_fl rnd (probes.foldl max 0) ∧
      (get_height (rnd X) (rnd Y) :: (axis_offsets ++ diag_offsets).map
        (fun o => rnd (get_height (rnd (X + rnd (rnd o.1 * R))) (rnd (Y + rnd (rnd o.2 * R)))
          + (if ballnose then ballnose_offset_fl rnd sqrt R R else 0)))) <+: probes ∧
      (∀ p ∈ probes, p = get_height (rnd X) (rnd Y) ∨ ∃ o ∈ ring16_offsets, ∃ Rk : ℚ,
        (Rk = R ∨ Rk = rnd (R / 1.5) ∨ Rk = rnd (rnd (R / 1.5) / 1.5)) ∧
        p = rnd (get_height (rnd (X + rnd (rnd o.1 * Rk))) (rnd (Y + rnd (rnd o.2 * Rk)))
          + (if ballnose then ballnose_offset_fl rnd sqrt R Rk else 0))) ∧
      0 ≤ n ∧
      get_height_tool_fl rnd sqrt get_height X Y R ballnose = rnd ((n : ℚ) / 100) ∧
      0 ≤ get_height_tool_fl rnd sqrt get_height X Y R ballnose ∧
      probes.foldl max 0 * (1 - 1 / 2 ^ 51)
        ≤ get_height_tool_fl rnd sqrt get_height X Y R ballnose ∧
      get_height_tool_fl rnd sqrt get_height X Y R ballnose
        ≤ (probes.foldl max 0 + 1 / 100) * (1 + 1 / 2 ^ 51) ∧
      (∀ p ∈ probes,
        p * (1 - 1 / 2 ^ 51) ≤ get_height_tool_fl rnd sqrt get_height X Y R ballnose) ∧
      get_height (rnd X) (rnd Y) * (1 - 1 / 2 ^ 51)
        ≤ get_height_tool_fl rnd sqrt get_height X Y R ballnose ∧
      (ballnose = false → ∀ o ∈ axis_offsets ++ diag_offsets,
        get_height (rnd (X + rnd (rnd o.1 * R))) (rnd (Y + rnd (rnd o.2 * R)))
            * (1 - 1 / 2 ^ 50)
          ≤ get_height_tool_fl rnd sqrt get_height X Y R ballnose) := by
  obtain ⟨probes, hv, hpre, hmem⟩ := get_height_tool_fl_probes hl sqrt get_height X Y R ballnose
  obtain ⟨hd0, hdp⟩ := le_foldl_max probes 0
  obtain ⟨⟨n, hn0, hn⟩, hv0, hlo, hhi⟩ := ceilACC_fl_spec hl (probes.foldl max 0) hd0
  rw [← hv] at hn hv0 hlo hhi
  have hle : ∀ p ∈ probes,
      p * (1 - 1 / 2 ^ 51) ≤ get_height_tool_fl rnd sqrt get_height X Y R ballnose := by
    intro p hp
    have h1 : p * (1 - 1 / 2 ^ 51) ≤ probes.foldl max 0 * (1 - 1 / 2 ^ 51) :=
      mul_le_mul_of_nonneg_right (hdp p hp) (by norm_num)
    linarith
  refine ⟨probes, n, hv, hpre, hmem, hn0, hn, hv0, hlo, hhi, hle, ?_, ?_⟩
  · exact hle _ (hpre.subset (List.mem_cons_self _ _))
  · intro hb o ho
    have hp : rnd (get_height (rnd (X + rnd (rnd o.1 * R))) (rnd (Y + rnd (rnd o.2 * R))) + 0)
        ∈ probes := by
      apply hpre.subset
      apply List.mem_cons_of_mem
      rw [List.mem_map]
      exact ⟨o, ho, by rw [hb]; simp⟩
    have hvp := hle _ hp
    rw [add_zero] at hvp
    rcases le_or_lt (get_height (rnd (X + rnd (rnd o.1 * R))) (rnd (Y + rnd (rnd o.2 * R)))) 0
      with hneg | hpos
    · have : get_height (rnd (X + rnd (rnd o.1 * R))) (rnd (Y + rnd (rnd o.2 * R)))
          * (1 - 1 / 2 ^ 50) ≤ 0 :=
        mul_nonpos_of_nonpos_of_nonneg hneg (by norm_num)
      linarith
    · have h1 := hl.sub_le
        (get_height (rnd (X + rnd (rnd o.1 * R))) (rnd (Y + rnd (rnd o.2 * R))))
      rw [abs_of_pos hpos] at h1
      set G := get_height (rnd (X + rnd (rnd o.1 * R))) (rnd (Y + rnd (rnd o.2 * R))) with hG
      have h2 : G * (1 - 1 / 2 ^ 53) * (1 - 1 / 2 ^ 51) ≤ rnd G * (1 - 1 / 2 ^ 51) :=
        mul_le_mul_of_nonneg_right (by
          have : G * (1 - 1 / 2 ^ 53) = G - G / 2 ^ 53 := by ring
          linarith) (by norm_num)
      have h3 : G * (1 - 1 / 2 ^ 50) ≤ G * ((1 - 1 / 2 ^ 53) * (1 - 1 / 2 ^ 51)) :=
        mul_le_mul_of_nonneg_left (by norm_num) hpos.le
      have e : G * ((1 - 1 / 2 ^ 53) * (1 - 1 / 2 ^ 51))
          = G * (1 - 1 / 2 ^ 53) * (1 - 1 / 2 ^ 51) := by ring
      linarith

theorem get_height_tool_rounds_up_witness :
    ∃ (probes : List ℚ) (n : ℤ),
      get_height_tool_fl round53 sqrt_down (spike_field 1 0) 0 0 1 false
        = ceilACC_fl round53 (probes.foldl max 0) ∧
      (spike_field 1 0 (round53 0) (round53 0) :: (axis_offsets ++ diag_offsets).map
        (fun o => round53 (spike_field 1 0 (round53 (0 + round53 (round53 o.1 * 1)))
            (round53 (0 + round53 (round53 o.2 * 1)))
          + (if false then ballnose_offset_fl round53 sqrt_down 1 1 else 0)))) <+: probes ∧
      (∀ p ∈ probes, p = spike_field 1 0 (round53 0) (round53 0) ∨
        ∃ o ∈ ring16_offsets, ∃ Rk : ℚ,
        (Rk = 1 ∨ Rk = round53 (1 / 1.5) ∨ Rk = round53 (round53 (1 / 1.5) / 1.5)) ∧
        p = round53 (spike_field 1 0 (round53 (0 + round53 (round53 o.1 * Rk)))
            (round53 (0 + round53 (round53 o.2 * Rk)))
          + (if false then ballnose_offset_fl round53 sqrt_down 1 Rk else 0))) ∧
      0 ≤ n ∧
      get_height_tool_fl round53 sqrt_down (spike_field 1 0) 0 0 1 false
        = round53 ((n : ℚ) / 100) ∧
      0 ≤ get_height_tool_fl round53 sqrt_down (spike_field 1 0) 0 0 1 false ∧
      probes.foldl max 0 * (1 - 1 / 2 ^ 51)
        ≤ get_height_tool_fl round53 sqrt_down (spike_field 1 0) 0 0 1 false ∧
      get_height_tool_fl round53 sqrt_down (spike_field 1 0) 0 0 1 false
        ≤ (probes.foldl max 0 + 1 / 100) * (1 + 1 / 2 ^ 51) ∧
      (∀ p ∈ probes,
        p * (1 - 1 / 2 ^ 51)
          ≤ get_height_tool_fl round53 sqrt_down (spike_field 1 0) 0 0 1 false) ∧
      spike_field 1 0 (round53 0) (round53 0) * (1 - 1 / 2 ^ 51)
        ≤ get_height_tool_fl round53 sqrt_down (spike_field 1 0) 0 0 1 false ∧
      (false = false → ∀ o ∈ axis_offsets ++ diag_offsets,
        spike_field 1 0 (round53 (0 + round53 (round53 o.1 * 1)))
            (round53 (0 + round53 (round53 o.2 * 1))) * (1 - 1 / 2 ^ 50)
          ≤ get_height_tool_fl round53 sqrt_down (spike_field 1 0) 0 0 1 false) :=
  get_height_tool_rounds_up round53 round53_laws sqrt_down (spike_field 1 0) 0 0 1 false

/-! ## The sampler on a flat height field (C4) -/

/-- C4 (as stated, refuted): on the flat height field whose height is the `double` nearest to
0.01 (a height of zero or more, as the sampler receives them), the sampler in binary64
arithmetic (flat-end tool of radius 3) returns that same `double`, about 0.01, because the
product `h * 100.0` is rounded to exactly 1 before `ceil` is taken; the flat height itself
lies above 0.01, so `ceil(100 * h) / 100` is 0.02. -/
theorem get_height_tool_flat_below_ceil :
    0 ≤ double_0_01 ∧ round53 double_0_01 = double_0_01 ∧
      get_height_tool_fl round53 sqrt_down (fun _ _ => double_0_01) 0 0 3 false
        = double_0_01 ∧
      ceilACC double_0_01 = 2 / 100 ∧
      get_height_tool_fl round53 sqrt_down (fun _ _ => double_0_01) 0 0 3 false
        ≠ ceilACC double_0_01 := by
  have hpos : (0 : ℚ) ≤ double_0_01 := by norm_num [double_0_01]
  have hv := get_height_tool_fl_flat round53_laws sqrt_down (fun _ _ => double_0_01)
    double_0_01 0 0 3 false (fun _ _ => rfl) round53_double_0_01 (by norm_num)
    (fun hb => absurd hb (by decide))
  rw [max_eq_right hpos, ceilACC_fl_double_0_01] at hv
  refine ⟨hpos, round53_double_0_01, hv, ceilACC_double_0_01, ?_⟩
  rw [hv, ceilACC_double_0_01]
  norm_num [double_0_01]

/-- C4 (amended): for every constant height field `get_height(x, y) = h` whose height `h` is
a `double` (`rnd h = h`), every position `(X, Y)`, every tool radius `R ≥ 0` and either value
of the ball-nose flag (for a ball-nose tool, with a `sqrt` that meets `SqrtLaws`),
`get_height_tool(X, Y, R, ballnose)` in `double` arithmetic (any rounding `rnd` with the laws
of `double` rounding) returns `rnd(ceil(rnd(100 * max(0, h))) / 100)`: for `h ≥ 0` the flat
height rounded up to the 1/100 grid as `double` arithmetic does it, the product `100 * h`
being rounded before `ceil` is taken and the quotient after, so that the value lies between
`h * (1 - 2^-51)` and `(h + 1/100) * (1 + 2^-51)`; and 0 for a field below zero. -/
theorem get_height_tool_flat (rnd : ℚ → ℚ) (hl : RoundLaws rnd) (sqrt : ℚ → ℚ)
    (get_height : ℚ → ℚ → ℚ) (h X Y R : ℚ) (ballnose : Bool)
    (hflat : ∀ x y, get_height x y = h) (hrep : rnd h = h) (hR : 0 ≤ R)
    (hs : ballnose = true → SqrtLaws sqrt) :
    get_height_tool_fl rnd sqrt get_height X Y R ballnose = ceilACC_fl rnd (max 0 h) ∧
      (0 ≤ h →
        get_height_tool_fl rnd sqrt get_height X Y R ballnose
          = rnd ((⌈rnd (h * 100)⌉ : ℚ) / 100) ∧
        h * (1 - 1 / 2 ^ 51) ≤ get_height_tool_fl rnd sqrt get_height X Y R ballnose ∧
        get_height_tool_fl rnd sqrt get_height X Y R ballnose
          ≤ (h + 1 / 100) * (1 + 1 / 2 ^ 51)) ∧
      (h ≤ 0 → get_height_tool_fl rnd sqrt get_height X Y R ballnose = 0) := by
  have key := get_height_tool_fl_flat hl sqrt get_height h X Y R ballnose hflat hrep hR hs
  refine ⟨key, ?_, ?_⟩
  · intro hh
    rw [key, max_eq_right hh]
    obtain ⟨_, _, h1, h2⟩ := ceilACC_fl_spec hl h hh
    exact ⟨rfl, h1, h2⟩
  · intro hh
    rw [key, max_eq_left hh]
    unfold ceilACC_fl
    rw [zero_mul, hl.zero, Int.ceil_zero, Int.cast_zero, zero_div, hl.zero]

theorem get_height_tool_flat_witness :
    get_height_tool_fl round53 sqrt_down (fun _ _ => 5) 10 20 3 true
        = ceilACC_fl round53 (max 0 5) ∧
      ((0 : ℚ) ≤ 5 →
        get_height_tool_fl round53 sqrt_down (fun _ _ => 5) 10 20 3 true
          = round53 ((⌈round53 ((5 : ℚ) * 100)⌉ : ℚ) / 100) ∧
        (5 : ℚ) * (1 - 1 / 2 ^ 51)
          ≤ get_height_tool_fl round53 sqrt_down (fun _ _ => 5) 10 20 3 true ∧
        get_height_tool_fl round53 sqrt_down (fun _ _ => 5) 10 20 3 true
          ≤ ((5 : ℚ) + 1 / 100) * (1 + 1 / 2 ^ 51)) ∧
      ((5 : ℚ) ≤ 0 → get_height_tool_fl round53 sqrt_down (fun _ _ => 5) 10 20 3 true = 0) :=
  get_height_tool_flat round53 round53_laws sqrt_down (fun _ _ => 5) 5 10 20 3 true
    (fun _ _ => rfl) round53_five (by norm_num) (fun _ => sqrt_down_laws)

/-! ## The ramp in rounded arithmetic -/

theorem scan_move_moves (E : Env) (F : Nat) (st st2 : ScanState) (X Y Z : ℚ)
    (h : scan_move E F st X Y Z = some st2) : st2.moves = st.moves ++ [(X, Y, Z)] := by
  unfold scan_move at h
  rw [Option.map_eq_some'] at h
  obtain ⟨r, _, hr⟩ := h
  rw [← hr]

theorem rows_after_move (s : ℚ) (st st2 : ScanState) (X y Z : ℚ)
    (hm : st2.moves = st.moves ++ [(X, y, Z)]) (hinv : RowsReady s st y) :
    RowsReady s st2 y ∧ st2.rows.getLast? = some y := by
  have hr : st2.rows = st.rows ++ [y] := by
    unfold ScanState.rows
    rw [hm, List.map_append]
    rfl
  have hl : st2.rows.getLast? = some y := by
    rw [hr, List.getLast?_append]
    rfl
  refine ⟨⟨?_, ?_⟩, hl⟩
  · rw [hr, List.chain'_append]
    refine ⟨hinv.1, List.chain'_singleton _, ?_⟩
    intro a ha b hb
    simp only [List.head?_cons, Option.mem_def, Option.some.injEq] at hb
    subst hb
    rcases hinv.2 a ha with h | h
    · exact Or.inl h.symm
    · exact Or.inr h.symm
  · intro l hl2
    rw [hl] at hl2
    simp only [Option.mem_def, Option.some.injEq] at hl2
    exact Or.inl hl2.symm

theorem rows_next_row (s : ℚ) (st : ScanState) (y : ℚ)
    (hc : List.Chain' (fun a b : ℚ => b = a ∨ b = a + s) st.rows)
    (hl : st.rows.getLast? = some y) : RowsReady s st (y + s) := by
  refine ⟨hc, ?_⟩
  intro l hl2
  rw [hl] at hl2
  simp only [Option.mem_def, Option.some.injEq] at hl2
  exact Or.inr (by rw [hl2])

theorem scan_point_rows (E : Env) (L : ScanLocals) (F : Nat) (y look v w : ℚ)
    (st st2 : ScanState) (s : ℚ)
    (h : scan_point E L false F (fun v => (v, y)) look v st = some (w, st2))
    (hinv : RowsReady s st y) :
    w = v ∧ RowsReady s st2 y ∧
      (st.rows.getLast? = some y → st2.rows.getLast? = some y) ∧
      (outside_area E.sqrt v y E.stl_image_X E.stl_image_Y L.diam = false →
        st2.rows.getLast? = some y) := by
  rw [scan_point_nonrough] at h
  by_cases ho : outside_area E.sqrt v y E.stl_image_X E.stl_image_Y L.diam = true
  · rw [if_pos ho] at h
    simp only [Option.some.injEq, Prod.mk.injEq] at h
    obtain ⟨h1, h2⟩ := h
    subst h1 h2
    refine ⟨rfl, hinv, fun h => h, ?_⟩
    intro hf
    rw [hf] at ho
    exact absurd ho (by decide)
  · rw [if_neg ho, Option.map_eq_some'] at h
    obtain ⟨st1, hmv, h1⟩ := h
    simp only [Prod.mk.injEq] at h1
    obtain ⟨h1, h2⟩ := h1
    subst h1 h2
    have := rows_after_move s st st1 v y _ (scan_move_moves E F st st1 _ _ _ hmv) hinv
    exact ⟨rfl, this.1, fun _ => this.2, fun _ => this.2⟩

theorem scan_turn_rows (E : Env) (L : ScanLocals) (F : Nat) (cond : Bool) (X y : ℚ)
    (st st2 : ScanState) (s : ℚ) (h : scan_turn E L F cond X y st = some st2)
    (hinv : RowsReady s st y) :
    RowsReady s st2 y ∧ (cond = false → st2 = st) := by
  unfold scan_turn at h
  by_cases hc : (cond && !outside_area E.sqrt X y E.stl_image_X E.stl_image_Y L.diam) = true
  · rw [if_pos hc] at h
    refine ⟨(rows_after_move s st st2 X y _ (scan_move_moves E F st st2 _ _ _ h) hinv).1, ?_⟩
    intro hf
    rw [hf] at hc
    exact absurd hc (by simp)
  · rw [if_neg hc] at h
    simp only [Option.some.injEq] at h
    subst h
    exact ⟨hinv, fun _ => rfl⟩

theorem scan_line_rows_forward (E : Env) (L : ScanLocals) (F : Nat) (y lo hi s : ℚ)
    (hs : L.stepover = s) (h1 : lo < hi) (h2 : lo + s < hi)
    (hk : outside_area E.sqrt (lo + s) y E.stl_image_X E.stl_image_Y L.diam = false) :
    ∀ (fuel : Nat) (v prev : ℚ) (st st2 : ScanState),
      scan_line E L false F (fun v => (v, y)) true lo hi fuel v prev st = some st2 →
      RowsReady s st y → (st.rows.getLast? = some y ∨ v = lo ∨ v = lo + s) →
      RowsReady s st2 y ∧ st2.rows.getLast? = some y := by
  intro fuel
  induction fuel with
  | zero =>
    intro v prev st st2 h hinv hv
    rw [scan_line_unfold] at h
    by_cases hc : v < hi
    · simp only [if_true, if_pos hc] at h
      exact absurd h (by simp)
    · simp only [if_true, if_neg hc, Option.some.injEq] at h
      subst h
      rcases hv with hv | hv | hv
      · exact ⟨hinv, hv⟩
      · exact absurd (hv ▸ h1) hc
      · exact absurd (hv ▸ h2) hc
  | succ fuel ih =>
    intro v prev st st2 h hinv hv
    rw [scan_line_unfold] at h
    by_cases hc : v < hi
    · simp only [if_true, if_pos hc] at h
      cases hp : scan_point E L false F (fun v => (v, y)) (prev + L.stepover / 1.5) v st with
      | none => rw [hp] at h; exact absurd h (by simp)
      | some r =>
        obtain ⟨w, st1⟩ := r
        rw [hp] at h
        simp only at h
        obtain ⟨hw, hinv1, hat1, hkept1⟩ := scan_point_rows E L F y _ v w st st1 s hp hinv
        subst hw
        refine ih (w + L.stepover) w st1 st2 h hinv1 ?_
        rcases hv with hv | hv | hv
        · exact Or.inl (hat1 hv)
        · exact Or.inr (Or.inr (by rw [hv, hs]))
        · exact Or.inl (hkept1 (by rw [hv]; exact hk))
    · simp only [if_true, if_neg hc, Option.some.injEq] at h
      subst h
      rcases hv with hv | hv | hv
      · exact ⟨hinv, hv⟩
      · exact absurd (hv ▸ h1) hc
      · exact absurd (hv ▸ h2) hc

theorem scan_line_rows_backward (E : Env) (L : ScanLocals) (F : Nat) (y lo hi s : ℚ)
    (hs : L.stepover = s) (h1 : lo < hi) (h2 : lo < hi - s)
    (hk : outside_area E.sqrt (hi - s) y E.stl_image_X E.stl_image_Y L.diam = false) :
    ∀ (fuel : Nat) (v prev : ℚ) (st st2 : ScanState),
      scan_line E L false F (fun v => (v, y)) false lo hi fuel v prev st = some st2 →
      RowsReady s st y → (st.rows.getLast? = some y ∨ v = hi ∨ v = hi - s) →
      RowsReady s st2 y ∧ st2.rows.getLast? = some y := by
  intro fuel
  induction fuel with
  | zero =>
    intro v prev st st2 h hinv hv
    rw [scan_line_unfold] at h
    by_cases hc : v > lo
    · simp only [Bool.false_eq_true, if_false, if_pos hc] at h
      exact absurd h (by simp)
    · simp only [Bool.false_eq_true, if_false, if_neg hc, Option.some.injEq] at h
      subst h
      rcases hv with hv | hv | hv
      · exact ⟨hinv, hv⟩
      · exact absurd (hv ▸ h1) hc
      · exact absurd (hv ▸ h2) hc
  | succ fuel ih =>
    intro v prev st st2 h hinv hv
    rw [scan_line_unfold] at h
    by_cases hc : v > lo
    · simp only [Bool.false_eq_true, if_false, if_pos hc] at h
      cases hp : scan_point E L false F (fun v => (v, y)) (prev - L.stepover / 1.5) v st with
      | none => rw [hp] at h; exact absurd h (by simp)
      | some r =>
        obtain ⟨w, st1⟩ := r
        rw [hp] at h
        simp only at h
        obtain ⟨hw, hinv1, hat1, hkept1⟩ := scan_point_rows E L F y _ v w st st1 s hp hinv
        subst hw
        refine ih (w - L.stepover) w st1 st2 h hinv1 ?_
        rcases hv with hv | hv | hv
        · exact Or.inl (hat1 hv)
        · exact Or.inr (Or.inr (by rw [hv, hs]))
        · exact Or.inl (hkept1 (by rw [hv]; exact hk))
    · simp only [Bool.false_eq_true, if_false, if_neg hc, Option.some.injEq] at h
      subst h
      rcases hv with hv | hv | hv
      · exact ⟨hinv, hv⟩
      · exact absurd (hv ▸ h1) hc
      · exact absurd (hv ▸ h2) hc

theorem scan_even_rows (E : Env) (L : ScanLocals) (F : Nat) (s : ℚ)
    (hs : L.stepover = s) (h1 : -L.overshoot < L.maxX)
    (h2 : -L.overshoot + s < L.maxX) (h3 : -L.overshoot < L.maxX - s)
    (hk1 : ∀ y, outside_area E.sqrt (-L.overshoot + s) y E.stl_image_X E.stl_image_Y L.diam
      = false)
    (hk2 : ∀ y, outside_area E.sqrt (L.maxX - s) y E.stl_image_X E.stl_image_Y L.diam
      = false) :
    ∀ (fuel : Nat) (Y : ℚ) (st st2 : ScanState),
      scan_even E L false F fuel Y st = some st2 → RowsReady s st Y →
      List.Chain' (fun a b : ℚ => b = a ∨ b = a + s) st2.rows ∧
        (Y < L.maxY → ∃ j : ℕ, Y + 2 * j * s < L.maxY ∧ L.maxY ≤ Y + (2 * j + 2) * s ∧
          st2.rows.getLast? = some (Y + (2 * j + 1) * s)) := by
  intro fuel
  induction fuel with
  | zero =>
    intro Y st st2 h hinv
    rw [scan_even_unfold] at h
    by_cases hc : Y < L.maxY
    · rw [if_pos hc] at h
      exact absurd h (by simp)
    · rw [if_neg hc, Option.some.injEq] at h
      subst h
      exact ⟨hinv.1, fun h => absurd h hc⟩
  | succ fuel ih =>
    intro Y st st2 h hinv
    rw [scan_even_unfold] at h
    by_cases hc : Y < L.maxY
    · rw [if_pos hc] at h
      simp only at h
      cases hl1 : scan_line E L false F (fun v => (v, Y)) true (-L.overshoot) L.maxX F
          (-L.overshoot) (-L.overshoot) st with
      | none => rw [hl1] at h; exact absurd h (by simp)
      | some st1 =>
        rw [hl1] at h
        simp only at h
        obtain ⟨hinv1, hat1⟩ := scan_line_rows_forward E L F Y (-L.overshoot) L.maxX s hs h1 h2
          (hk1 Y) F _ _ st st1 hl1 hinv (Or.inr (Or.inl rfl))
        cases ht1 : scan_turn E L F true L.maxX (Y + L.stepover) st1 with
        | none => rw [ht1] at h; exact absurd h (by simp)
        | some st2a =>
          rw [ht1] at h
          simp only at h
          rw [hs] at ht1 h
          obtain ⟨hinv2, _⟩ := scan_turn_rows E L F true L.maxX (Y + s) st1 st2a s ht1
            (rows_next_row s st1 Y hinv1.1 hat1)
          cases hl2 : scan_line E L false F (fun v => (v, Y + s)) false (-L.overshoot)
              L.maxX F L.maxX L.maxX st2a with
          | none => rw [hl2] at h; exact absurd h (by simp)
          | some st3 =>
            rw [hl2] at h
            simp only at h
            obtain ⟨hinv3, hat3⟩ := scan_line_rows_backward E L F (Y + s) (-L.overshoot)
              L.maxX s hs h1 h3 (hk2 (Y + s)) F _ _ st2a st3 hl2 hinv2 (Or.inr (Or.inl rfl))
            cases ht2 : scan_turn E L F (decide (Y + s + s < L.maxY)) (-L.overshoot)
                (Y + s + s) st3 with
            | none => rw [ht2] at h; exact absurd h (by simp)
            | some st4 =>
              rw [ht2] at h
              simp only at h
              obtain ⟨hinv4, hsame⟩ := scan_turn_rows E L F _ (-L.overshoot) (Y + s + s) st3 st4
                s ht2 (rows_next_row s st3 (Y + s) hinv3.1 hat3)
              by_cases hc2 : Y + s + s < L.maxY
              · obtain ⟨hch, hex⟩ := ih (Y + s + s) st4 st2 h hinv4
                refine ⟨hch, fun _ => ?_⟩
                obtain ⟨j, hj1, hj2, hj3⟩ := hex hc2
                refine ⟨j + 1, ?_, ?_, ?_⟩
                · push_cast; linarith
                · push_cast; linarith
                · rw [hj3]; push_cast; congr 1; ring
              · have h4 : st4 = st3 := hsame (by simpa using hc2)
                rw [scan_even_unfold, if_neg hc2, Option.some.injEq] at h
                subst h
                subst h4
                refine ⟨hinv3.1, fun _ => ⟨0, ?_, ?_, ?_⟩⟩
                · simpa using hc
                · push_cast; linarith
                · rw [hat3]; congr 1; push_cast; ring
    · rw [if_neg hc, Option.some.injEq] at h
      subst h
      exact ⟨hinv.1, fun h => absurd h hc⟩

theorem create_toolpath_scenario_rows (E : Env) (F : Nat) (g : Globals) (sc : scene)
    (tool : Int) (hdiam : E.tool_diam tool = 6) (hstep : E.get_tool_stepover tool = 3)
    (hflat : E.tool_is_ballnose tool = false) (hX : E.stl_image_X = 50)
    (hY : E.stl_image_Y = 50) (r : ScanState × scene)
    (hr : create_toolpath E F g sc tool false false true = some r) :
    List.Chain' (fun a b : ℚ => b = a ∨ b = a + 150 / 71) r.1.rows ∧
      r.1.rows.getLast? = some (-(27 / 20) + 25 * (150 / 71)) := by
  have hL := scan_locals_scenario E sc tool hdiam hstep hflat hX hY
  unfold create_toolpath at hr
  simp only [if_true] at hr
  rw [Option.map_eq_some'] at hr
  obtain ⟨st2, h, hst⟩ := hr
  rw [← hst]
  simp only
  rw [hL] at h
  obtain ⟨hch, hex⟩ := scan_even_rows E _ F (150 / 71) rfl (by norm_num)
    (by norm_num) (by norm_num)
    (fun y => by
      rw [hX]
      exact outside_area_inside_X _ _ _ _ _ _ (by norm_num) (by norm_num))
    (fun y => by
      rw [hX]
      exact outside_area_inside_X _ _ _ _ _ _ (by norm_num) (by norm_num))
    F _ _ st2 h ⟨by simp [ScanState.rows], by simp [ScanState.rows]⟩
  refine ⟨hch, ?_⟩
  obtain ⟨j, hj1, hj2, hj3⟩ := hex (by norm_num)
  simp only at hj1 hj2 hj3
  have hj : j = 12 := by
    have ha : (j : ℚ) < 13 := by
      by_contra hcon
      push_neg at hcon
      linarith
    have hb : (11 : ℚ) < (j : ℚ) := by
      by_contra hcon
      push_neg at hcon
      linarith
    have ha2 : j < 13 := by exact_mod_cast ha
    have hb2 : 11 < j := by exact_mod_cast hb
    omega
  rw [hj3, hj]
  congr 1
  norm_num

/-- C7 (amended): for a scene with a single flat-end tool of diameter 6 and stepover 3, no
configured cutout depth and no finishing pass, on a 50 by 50 model, `process_stl_file` makes
one `create_toolpath` call, non-roughing, without cutout and with even direction; that call
returns, its first move is on the row Y = -1.35, every move it makes lies on a row
Y = -1.35 + k * (3 / 1.42), the row 3 / 1.42 above the first is visited, and consecutive scan
rows are exactly 3 / 1.42 (about 2.11) units apart: every move is on the row of the move
before it or on the row exactly 3 / 1.42 above that one, so no row is skipped, up to the last
move on the row Y = -1.35 + 25 * (3 / 1.42). The spacing is the stepover divided by 1.42, not
3. Coordinates are exact rationals here; the sums `Y + stepover` of the code are rounded to
`double`. -/
theorem scan_rows_end_to_end (E : Env) (F : Nat) (g : Globals) (sc : scene)
    (maxdepth : Int → ℚ) (tool : Int) (hs : SqrtLaws E.sqrt) (hdiam : E.tool_diam tool = 6)
    (hstep : E.get_tool_stepover tool = 3) (hflat : E.tool_is_ballnose tool = false)
    (hX : E.stl_image_X = 50) (hY : E.stl_image_Y = 50) (htools : sc.tools = [tool])
    (hcut : sc.cutout_depth < 0.01) (hfin : sc.finishing_pass = false)
    (ht : 0 < maxdepth tool) (hg : g.tooldepth = maxdepth tool) (hF : 25 ≤ F)
    (hF2 : 1 + ⌈20 * sc.depth⌉.toNat ≤ F) :
    (process_stl_file sc maxdepth).2
        = [PlannerCall.toolpath (maxdepth tool) tool false false true] ∧
      ∃ r, create_toolpath E F g (process_stl_file sc maxdepth).1 tool false false true
          = some r ∧
        (∃ X Z, r.1.moves.head? = some (X, -1.35, Z)) ∧
        (∀ m ∈ r.1.moves, ∃ k : ℕ, m.2.1 = -1.35 + k * (3 / 1.42)) ∧
        (∃ m ∈ r.1.moves, m.2.1 = -1.35 + 3 / 1.42) ∧
        List.Chain' (fun a b : ℚ => b = a ∨ b = a + 3 / 1.42) r.1.rows ∧
        r.1.rows.getLast? = some (-1.35 + 25 * (3 / 1.42)) := by
  have hp := process_stl_file_single_tool sc maxdepth tool htools hcut hfin
  have e1 : (-1.35 : ℚ) = -(27 / 20) := by norm_num
  have e2 : (3 / 1.42 : ℚ) = 150 / 71 := by norm_num
  rw [hp, e1, e2]
  refine ⟨rfl, ?_⟩
  obtain ⟨r, hr, ⟨Z, hhead⟩, hall, hrow⟩ := create_toolpath_scenario E F g
    { sc with cutout_depth := sc.depth } tool hs hdiam hstep hflat hX hY (by rw [hg]; exact ht)
    hF hF2
  obtain ⟨hch, hlast⟩ := create_toolpath_scenario_rows E F g { sc with cutout_depth := sc.depth }
    tool hdiam hstep hflat hX hY r hr
  exact ⟨r, hr, ⟨_, Z, hhead⟩, hall, hrow, hch, hlast⟩

theorem scan_rows_end_to_end_witness :
    (process_stl_file flat_block_scene (fun _ => 3)).2
        = [PlannerCall.toolpath 3 1 false false true] ∧
      ∃ r, create_toolpath flat_block_env 101 (fresh_pen 3)
          (process_stl_file flat_block_scene (fun _ => 3)).1 1 false false true = some r ∧
        (∃ X Z, r.1.moves.head? = some (X, -1.35, Z)) ∧
        (∀ m ∈ r.1.moves, ∃ k : ℕ, m.2.1 = -1.35 + k * (3 / 1.42)) ∧
        (∃ m ∈ r.1.moves, m.2.1 = -1.35 + 3 / 1.42) ∧
        List.Chain' (fun a b : ℚ => b = a ∨ b = a + 3 / 1.42) r.1.rows ∧
        r.1.rows.getLast? = some (-1.35 + 25 * (3 / 1.42)) :=
  scan_rows_end_to_end flat_block_env 101 (fresh_pen 3) flat_block_scene (fun _ => 3) 1
    sqrt_down_laws rfl rfl rfl rfl rfl rfl (by norm_num [flat_block_scene]) rfl (by norm_num)
    rfl (by norm_num) flat_block_fuel

/-! ## The remembered pen and the roughing lookahead (C20) -/

theorem scan_point_plain (E : Env) (L : ScanLocals) (F : Nat) (pt : ℚ → ℚ × ℚ) (look v : ℚ)
    (st : ScanState) (hF : 1 ≤ F) (hM : L.maxZ - L.offset < 5000)
    (hinv : st.g.tooldepth = 5000 ∧ (st.g.first = true ∨ -5000 < st.g.last_Z)) :
    ∃ st2, scan_point E L false F pt look v st = some (v, st2) ∧
      (st2.g.tooldepth = 5000 ∧ (st2.g.first = true ∨ -5000 < st2.g.last_Z)) ∧
      (outside_area E.sqrt (pt v).1 (pt v).2 E.stl_image_X E.stl_image_Y L.diam = false →
        st2.g.first = false ∧ st2.g.last_Z = -L.maxZ + sample E L (pt v) + L.offset) := by
  rw [scan_point_nonrough]
  by_cases ho : outside_area E.sqrt (pt v).1 (pt v).2 E.stl_image_X E.stl_image_Y L.diam = true
  · rw [if_pos ho]
    refine ⟨st, rfl, hinv, ?_⟩
    intro hf
    rw [hf] at ho
    exact absurd ho (by decide)
  · rw [if_neg ho]
    have hZ : -5000 < -L.maxZ + sample E L (pt v) + L.offset := by
      have := sample_nonneg E L (pt v)
      linarith
    obtain ⟨st2, h, _, _, _, h1, h2, _, _, h3⟩ := scan_move_single E F st (pt v).1 (pt v).2 _
      hinv.1 hF hinv.2 hZ
    rw [h]
    exact ⟨st2, rfl, ⟨h1, Or.inr (by rw [h3]; exact hZ)⟩, fun _ => ⟨h2, h3⟩⟩

theorem scan_turn_plain (E : Env) (L : ScanLocals) (F : Nat) (cond : Bool) (X Y : ℚ)
    (st : ScanState) (hF : 1 ≤ F) (hM : L.maxZ - L.offset < 5000)
    (hinv : st.g.tooldepth = 5000 ∧ (st.g.first = true ∨ -5000 < st.g.last_Z)) :
    ∃ st2, scan_turn E L F cond X Y st = some st2 ∧
      (st2.g.tooldepth = 5000 ∧ (st2.g.first = true ∨ -5000 < st2.g.last_Z)) ∧
      (cond = false → st2 = st) := by
  unfold scan_turn
  by_cases hc : (cond && !outside_area E.sqrt X Y E.stl_image_X E.stl_image_Y L.diam) = true
  · rw [if_pos hc]
    have hZ : -5000 < -L.maxZ + L.offset + sample E L (X, Y) := by
      have := sample_nonneg E L (X, Y)
      linarith
    obtain ⟨st2, h, _, _, _, h1, _, _, _, h3⟩ := scan_move_single E F st X Y _
      hinv.1 hF hinv.2 hZ
    refine ⟨st2, h, ⟨h1, Or.inr (by rw [h3]; exact hZ)⟩, ?_⟩
    intro hf
    rw [hf] at hc
    exact absurd hc (by simp)
  · rw [if_neg hc]
    exact ⟨st, rfl, hinv, fun _ => rfl⟩

theorem scan_line_forward_plain (E : Env) (L : ScanLocals) (F : Nat) (pt : ℚ → ℚ × ℚ)
    (lo hi : ℚ) (hF : 1 ≤ F) (hM : L.maxZ - L.offset < 5000) :
    ∀ (n fuel : Nat) (v prev : ℚ) (st : ScanState),
      (st.g.tooldepth = 5000 ∧ (st.g.first = true ∨ -5000 < st.g.last_Z)) →
      n ≤ fuel → hi ≤ v + n * L.stepover →
      ∃ st2, scan_line E L false F pt true lo hi fuel v prev st = some st2 ∧
        (st2.g.tooldepth = 5000 ∧ (st2.g.first = true ∨ -5000 < st2.g.last_Z)) := by
  intro n
  induction n with
  | zero =>
    intro fuel v prev st hinv _ hv
    rw [scan_line_unfold]
    simp only [Nat.cast_zero, zero_mul, add_zero] at hv
    simp only [if_true, if_neg (not_lt.mpr hv)]
    exact ⟨st, rfl, hinv⟩
  | succ n ih =>
    intro fuel v prev st hinv hfuel hv
    obtain ⟨f, rfl⟩ : ∃ f, fuel = f + 1 := ⟨fuel - 1, by omega⟩
    rw [scan_line_unfold]
    by_cases hc : v < hi
    · simp only [if_true, if_pos hc]
      obtain ⟨st1, h1, hinv1, _⟩ := scan_point_plain E L F pt (prev + L.stepover / 1.5) v st hF
        hM hinv
      rw [h1]
      simp only
      exact ih f (v + L.stepover) v st1 hinv1 (by omega) (by push_cast at hv; linarith)
    · simp only [if_true, if_neg hc]
      exact ⟨st, rfl, hinv⟩

theorem scan_line_backward_plain (E : Env) (L : ScanLocals) (F : Nat) (pt : ℚ → ℚ × ℚ)
    (lo hi : ℚ) (hF : 1 ≤ F) (hM : L.maxZ - L.offset < 5000) (hs : 0 ≤ L.stepover) :
    ∀ (n fuel : Nat) (v prev : ℚ) (st : ScanState),
      (st.g.tooldepth = 5000 ∧ (st.g.first = true ∨ -5000 < st.g.last_Z)) →
      n + 1 ≤ fuel → lo < v - n * L.stepover → v - (n + 1) * L.stepover ≤ lo →
      outside_area E.sqrt (pt (v - n * L.stepover)).1 (pt (v - n * L.stepover)).2
        E.stl_image_X E.stl_image_Y L.diam = false →
      ∃ st2, scan_line E L false F pt false lo hi fuel v prev st = some st2 ∧
        st2.g.tooldepth = 5000 ∧ st2.g.first = false ∧
        st2.g.last_Z = -L.maxZ + sample E L (pt (v - n * L.stepover)) + L.offset := by
  intro n
  induction n with
  | zero =>
    intro fuel v prev st hinv hfuel h1 h2 hk
    obtain ⟨f, rfl⟩ : ∃ f, fuel = f + 1 := ⟨fuel - 1, by omega⟩
    simp only [Nat.cast_zero, zero_mul, sub_zero, zero_add, one_mul] at h1 h2 hk ⊢
    rw [scan_line_unfold]
    simp only [Bool.false_eq_true, if_false, if_pos h1]
    obtain ⟨st1, hp, hinv1, hlast⟩ := scan_point_plain E L F pt (prev - L.stepover / 1.5) v st
      hF hM hinv
    rw [hp]
    simp only
    rw [scan_line_unfold]
    simp only [Bool.false_eq_true, if_false, if_neg (not_lt.mpr h2)]
    exact ⟨st1, rfl, hinv1.1, (hlast hk).1, (hlast hk).2⟩
  | succ n ih =>
    intro fuel v prev st hinv hfuel h1 h2 hk
    obtain ⟨f, rfl⟩ : ∃ f, fuel = f + 1 := ⟨fuel - 1, by omega⟩
    have hn : (0 : ℚ) ≤ (n : ℚ) + 1 := by positivity
    have hv : lo < v := by
      push_cast at h1
      nlinarith
    have e1 : v - L.stepover - (n : ℚ) * L.stepover = v - ((n + 1 : ℕ) : ℚ) * L.stepover := by
      push_cast; ring
    rw [scan_line_unfold]
    simp only [Bool.false_eq_true, if_false, if_pos hv]
    obtain ⟨st1, hp, hinv1, _⟩ := scan_point_plain E L F pt (prev - L.stepover / 1.5) v st
      hF hM hinv
    rw [hp]
    simp only
    obtain ⟨st2, h, ha, hb, hc⟩ := ih f (v - L.stepover) v st1 hinv1 (by omega)
      (by rw [e1]; exact h1) (by push_cast at h2 ⊢; linarith) (by rw [e1]; exact hk)
    rw [e1] at hc
    exact ⟨st2, h, ha, hb, hc⟩

theorem scan_odd_single (E : Env) (L : ScanLocals) (F : Nat) (n1 n2 : Nat) (st : ScanState)
    (hF : 1 ≤ F) (hM : L.maxZ - L.offset < 5000) (hs : 0 ≤ L.stepover)
    (hinv : st.g.tooldepth = 5000 ∧ (st.g.first = true ∨ -5000 < st.g.last_Z))
    (hX : -L.overshoot < L.maxX) (hX2 : L.maxX ≤ -L.overshoot + L.stepover + L.stepover)
    (hn1 : n1 ≤ F) (h1 : L.maxY ≤ -L.overshoot + n1 * L.stepover)
    (hn2 : n2 + 1 ≤ F) (h2 : -L.overshoot < L.maxY - n2 * L.stepover)
    (h3 : L.maxY - (n2 + 1) * L.stepover ≤ -L.overshoot)
    (hk : outside_area E.sqrt (-L.overshoot + L.stepover) (L.maxY - n2 * L.stepover)
      E.stl_image_X E.stl_image_Y L.diam = false) :
    ∃ st2, scan_odd E L false F F (-L.overshoot) st = some st2 ∧
      st2.g.tooldepth = 5000 ∧ st2.g.first = false ∧
      st2.g.last_Z = -L.maxZ
        + sample E L (-L.overshoot + L.stepover, L.maxY - n2 * L.stepover) + L.offset := by
  obtain ⟨f, rfl⟩ : ∃ f, F = f + 1 := ⟨F - 1, by omega⟩
  obtain ⟨st1, hl1, hinv1⟩ := scan_line_forward_plain E L (f + 1) (fun v => (-L.overshoot, v))
    (-L.overshoot) L.maxY hF hM n1 (f + 1) (-L.overshoot) (-L.overshoot) st hinv hn1 h1
  obtain ⟨st2, ht1, hinv2, _⟩ := scan_turn_plain E L (f + 1)
    (decide (-L.overshoot + L.stepover < L.maxX)) (-L.overshoot + L.stepover) L.maxY st1 hF hM
    hinv1
  obtain ⟨st3, hl2, ha, hb, hc⟩ := scan_line_backward_plain E L (f + 1)
    (fun v => (-L.overshoot + L.stepover, v)) (-L.overshoot) L.maxY hF hM hs n2 (f + 1) L.maxY L.maxY
    st2 hinv2 hn2 h2 h3 hk
  obtain ⟨st4, ht2, _, hsame⟩ := scan_turn_plain E L (f + 1)
    (decide (-L.overshoot + L.stepover + L.stepover < L.maxX))
    (-L.overshoot + L.stepover + L.stepover) (-L.overshoot) st3 hF hM
    ⟨ha, Or.inr (by
      rw [hc]
      have := sample_nonneg E L (-L.overshoot + L.stepover, L.maxY - n2 * L.stepover)
      linarith)⟩
  have h4 : st4 = st3 := hsame (by simpa using hX2)
  subst h4
  refine ⟨st4, ?_, ha, hb, hc⟩
  rw [scan_odd_unfold, if_pos hX]
  simp only
  rw [hl1]
  simp only
  rw [ht1]
  simp only
  rw [hl2]
  simp only
  rw [ht2]
  simp only
  rw [scan_odd_unfold, if_neg (not_lt.mpr hX2)]

theorem ring16_offsets_bound : ∀ o ∈ ring16_offsets, |o.1| ≤ 1 ∧ |o.2| ≤ 1 := by
  intro o ho
  simp only [ring16_offsets, List.mem_cons, List.mem_singleton, List.not_mem_nil, or_false] at ho
  rcases ho with h | h | h | h | h | h | h | h | h | h | h | h | h | h | h | h <;>
    subst h <;> constructor <;> rw [abs_le] <;> constructor <;> norm_num

theorem foldl_max_le (b : ℚ) : ∀ (l : List ℚ) (d : ℚ), d ≤ b → (∀ p ∈ l, p ≤ b) →
    l.foldl max d ≤ b
  | [], d, hd, _ => hd
  | a :: l, d, hd, h => by
    rw [List.foldl_cons]
    exact foldl_max_le b l (max d a) (max_le hd (h a (List.mem_cons_self _ _)))
      (fun p hp => h p (List.mem_cons_of_mem _ hp))

theorem probe_within (X Y R Rk : ℚ) (o : ℚ × ℚ) (ho : o ∈ ring16_offsets) (hR : 0 ≤ R)
    (hRk : Rk = R ∨ Rk = R / 1.5 ∨ Rk = R / 1.5 / 1.5) :
    |X + o.1 * Rk - X| ≤ R ∧ |Y + o.2 * Rk - Y| ≤ R := by
  obtain ⟨h1, h2⟩ := ring16_offsets_bound o ho
  have hk0 : 0 ≤ Rk := by
    rcases hRk with h | h | h <;> rw [h] <;> norm_num <;> linarith
  have hk1 : Rk ≤ R := by
    rcases hRk with h | h | h <;> rw [h] <;> norm_num <;> linarith
  have e1 : X + o.1 * Rk - X = o.1 * Rk := by ring
  have e2 : Y + o.2 * Rk - Y = o.2 * Rk := by ring
  rw [e1, e2, abs_mul, abs_mul, abs_of_nonneg hk0]
  constructor
  · calc |o.1| * Rk ≤ 1 * Rk := mul_le_mul_of_nonneg_right h1 hk0
      _ ≤ R := by linarith
  · calc |o.2| * Rk ≤ 1 * Rk := mul_le_mul_of_nonneg_right h2 hk0
      _ ≤ R := by linarith

theorem get_height_tool_floor (sqrt : ℚ → ℚ) (get_height : ℚ → ℚ → ℚ) (X Y R : ℚ)
    (hR : 0 ≤ R)
    (h0 : ∀ x y, |x - X| ≤ R → |y - Y| ≤ R → get_height x y = 0) :
    get_height_tool sqrt get_height X Y R false = 0 := by
  obtain ⟨probes, hv, _, hmem⟩ := get_height_tool_probes sqrt get_height X Y R false
  rw [hv, foldl_max_zero probes, ceilACC_zero]
  intro p hp
  rcases hmem p hp with h | ⟨o, ho, Rk, hRk, h⟩
  · rw [h]
    exact h0 X Y (by simpa using hR) (by simpa using hR)
  · obtain ⟨b1, b2⟩ := probe_within X Y R Rk o ho hR hRk
    rw [h, h0 _ _ b1 b2]
    simp

theorem get_height_tool_top (sqrt : ℚ → ℚ) (get_height : ℚ → ℚ → ℚ) (X Y R b : ℚ)
    (hb : 0 ≤ b) (hle : ∀ x y, get_height x y ≤ b) (o : ℚ × ℚ)
    (ho : o ∈ axis_offsets ++ diag_offsets)
    (htop : get_height (X + o.1 * R) (Y + o.2 * R) = b) :
    get_height_tool sqrt get_height X Y R false = ceilACC b := by
  obtain ⟨probes, hv, hpre, hmem⟩ := get_height_tool_probes sqrt get_height X Y R false
  rw [hv]
  congr 1
  apply le_antisymm
  · apply foldl_max_le b probes 0 hb
    intro p hp
    rcases hmem p hp with h | ⟨o2, _, Rk, _, h⟩
    · rw [h]; exact hle X Y
    · rw [h]
      simp only [Bool.false_eq_true, if_false, add_zero]
      exact hle _ _
  · have hin : b ∈ probes := by
      apply hpre.subset
      apply List.mem_cons_of_mem
      rw [List.mem_map]
      exact ⟨o, ho, by simp [htop]⟩
    exact (le_foldl_max probes 0).2 b hin

theorem ridge_field_le (x y : ℚ) : ridge_field x y ≤ 5 := by
  unfold ridge_field
  split <;> norm_num

theorem ridge_scene_planned (t : Int) (maxdepth : Int → ℚ) :
    process_stl_file (ridge_scene t) maxdepth
      = ({ ridge_scene t with cutout_depth := 5 },
          [PlannerCall.toolpath 5000 t false false true,
           PlannerCall.toolpath 5000 t false false false,
           PlannerCall.toolpath 5000 2 true false true,
           PlannerCall.toolpath (maxdepth 1) 1 true false false]) := by
  have hcut : (ridge_scene t).cutout_depth < 0.01 := by norm_num [ridge_scene]
  have htools : (ridge_scene t).tools = [1, 2, t] := rfl
  have hfin : (ridge_scene t).finishing_pass = true := rfl
  have hdepth : (ridge_scene t).depth = 5 := rfl
  unfold process_stl_file
  simp [hcut, htools, tool_loop, hfin, hdepth]

theorem ridge_locals_rough (sc : scene) (hcd : sc.cutout_depth = 5)
    (hstock : sc.stock_to_leave = 0) :
    scan_locals ridge_env sc 2 true false
      = { diam := 1, maxZ := 5, radius := 1, overshoot := 0, maxX := 1, maxY := 4,
          stepover := 3, offset := 0, ballnose := false } := by
  unfold scan_locals
  simp [ridge_env, hcd, hstock]

theorem ridge_locals_three (sc : scene) (hcd : sc.cutout_depth = 5) :
    scan_locals ridge_env sc 3 false false
      = { diam := 1, maxZ := 5, radius := 1 / 2, overshoot := 9 / 40, maxX := 49 / 40,
          maxY := 169 / 40, stepover := 3 / 2, offset := 0, ballnose := false } := by
  unfold scan_locals
  simp only [ridge_env, hcd]
  norm_num

theorem ridge_locals_four (sc : scene) (hcd : sc.cutout_depth = 5) :
    scan_locals ridge_env sc 4 false false
      = { diam := 1, maxZ := 5, radius := 1 / 2, overshoot := 9 / 40, maxX := 49 / 40,
          maxY := 169 / 40, stepover := 2, offset := 0, ballnose := false } := by
  unfold scan_locals
  simp only [ridge_env, hcd]
  norm_num

theorem scan_point_level (E : Env) (L : ScanLocals) (F : Nat) (pt : ℚ → ℚ × ℚ) (look v : ℚ)
    (st : ScanState) (d0 : ℚ) (hs : ∀ x, sample E L (pt x) = d0) :
    scan_point E L true F pt look v st
      = if outside_area E.sqrt (pt (if |d0 - st.g.last_Z| > 1 then look else v)).1
            (pt (if |d0 - st.g.last_Z| > 1 then look else v)).2
            E.stl_image_X E.stl_image_Y L.diam = true
        then some ((if |d0 - st.g.last_Z| > 1 then look else v), st)
        else (scan_move E F st (pt (if |d0 - st.g.last_Z| > 1 then look else v)).1
            (pt (if |d0 - st.g.last_Z| > 1 then look else v)).2
            (-L.maxZ + d0 + L.offset)).map
          (fun s => ((if |d0 - st.g.last_Z| > 1 then look else v), s)) := by
  unfold scan_point lookahead_trigger
  simp only [hs, Bool.and_true, decide_eq_true_eq, ite_self]
  cases outside_area E.sqrt (pt (if |d0 - st.g.last_Z| > 1 then look else v)).1
    (pt (if |d0 - st.g.last_Z| > 1 then look else v)).2 E.stl_image_X E.stl_image_Y L.diam <;>
    simp

theorem level_scan (E : Env) (F : Nat) (st0 : ScanState) (c : ℚ) (L : ScanLocals)
    (hEY : E.stl_image_Y = 4)
    (hL : L = ⟨1, c, 1, 0, 1, 4, 3, 0, false⟩)
    (hs0 : ∀ x, sample E L (x, 0) = 0) (hs3 : ∀ x, sample E L (x, 3) = 0)
    (hg : st0.g.tooldepth = 5000) (hfirst : st0.g.first = true)
    (hc0 : 0.00001 < c) (hc : c < 5000) (hF : 2 ≤ F) :
    ∃ st3, scan_even E L true F F (-L.overshoot) st0 = some st3 ∧
      st3.moves = st0.moves ++
        [((if |0 - st0.g.last_Z| > 1 then 2 else 0), 0, -c), (1, 3, -c),
         ((if |0 - (-c)| > 1 then -1 else 1), 3, -c)] ∧
      List.Perm st3.input.segments (st0.input.segments ++
        [⟨(if |0 - st0.g.last_Z| > 1 then 2 else 0), 0, 1, 3, -c, -c⟩,
         ⟨1, 3, (if |0 - (-c)| > 1 then -1 else 1), 3, -c, -c⟩]) := by
  have hov : L.overshoot = 0 := by rw [hL]
  have hmx : L.maxX = 1 := by rw [hL]
  have hmy : L.maxY = 4 := by rw [hL]
  have hst : L.stepover = 3 := by rw [hL]
  have hof : L.offset = 0 := by rw [hL]
  have hmz : L.maxZ = c := by rw [hL]
  have hdm : L.diam = 1 := by rw [hL]
  have hy0 : -L.overshoot = 0 := by rw [hov]; norm_num
  have hy3 : -L.overshoot + L.stepover = 3 := by rw [hov, hst]; norm_num
  have hrow0 : ∀ x, sample E L ((fun v => (v, -L.overshoot)) x) = 0 := by
    intro x
    simp only [hy0]
    exact hs0 x
  have hrow3 : ∀ x, sample E L ((fun v => (v, -L.overshoot + L.stepover)) x) = 0 := by
    intro x
    simp only [hy3]
    exact hs3 x
  have hZ : -L.maxZ + 0 + L.offset = -c := by rw [hmz, hof]; ring
  have hZt : -L.maxZ + L.offset + sample E L (L.maxX, -L.overshoot + L.stepover) = -c := by
    rw [hmz, hof, hy3, hs3]; ring
  have hcm : -5000 < -c := by linarith
  obtain ⟨k, rfl⟩ : ∃ k, F = k + 2 := ⟨F - 2, by omega⟩
  -- first row
  obtain ⟨st1, h1, hm1, hp1, _, ht1, hf1, hx1, hy1, hz1⟩ := scan_move_single E (k + 2) st0
    (if |0 - st0.g.last_Z| > 1 then 2 else 0) 0 (-c) hg (by omega) (Or.inl hfirst) hcm
  have hrow1 : scan_line E L true (k + 2) (fun v => (v, -L.overshoot)) true
      (-L.overshoot) L.maxX (k + 2) (-L.overshoot) (-L.overshoot) st0 = some st1 := by
    apply scan_line_one E L true (k + 2) _ true _ _ (k + 1) _ _
      (if |0 - st0.g.last_Z| > 1 then 2 else 0) st0 st1
    · simp only [if_true]; rw [hov, hmx]; norm_num
    · rw [scan_point_level E L (k + 2) _ _ _ st0 0 hrow0]
      simp only [if_true]
      rw [outside_area_inside_Y _ _ _ _ _ _ (by rw [hov]; norm_num)
        (by rw [hov, hEY]; norm_num)]
      simp only [Bool.false_eq_true, if_false]
      rw [hZ, hov, hst]
      have hlook : (-(0 : ℚ) + 3 / 1.5) = 2 := by norm_num
      have hzero : (-(0 : ℚ)) = 0 := by norm_num
      rw [hlook, hzero, h1]
      rfl
    · simp only [if_true]
      rw [hst, hmx]
      split <;> norm_num
  -- the move to the end of the next row
  obtain ⟨st2, h2, hm2, hp2, _, ht2, hf2, hx2, hy2, hz2⟩ := scan_move_single E (k + 2) st1
    1 3 (-c) ht1 (by omega) (Or.inr (by rw [hz1]; exact hcm)) hcm
  have hturn : scan_turn E L (k + 2) true L.maxX (-L.overshoot + L.stepover) st1
      = some st2 := by
    unfold scan_turn
    rw [outside_area_inside_Y _ _ _ _ _ _ (by rw [hov, hst]; norm_num)
      (by rw [hov, hst, hEY]; norm_num)]
    simp only [Bool.not_false, Bool.and_self, if_true]
    rw [hZt, hmx, hov, hst]
    have h3 : (-(0 : ℚ) + 3) = 3 := by norm_num
    rw [h3, h2]
  -- second row, backwards
  obtain ⟨st3, h3, hm3, hp3, _, ht3, hf3, hx3, hy3, hz3⟩ := scan_move_single E (k + 2) st2
    (if |0 - (-c)| > 1 then -1 else 1) 3 (-c) ht2 (by omega)
    (Or.inr (by rw [hz2]; exact hcm)) hcm
  have hrow2 : scan_line E L true (k + 2) (fun v => (v, -L.overshoot + L.stepover))
      false (-L.overshoot) L.maxX (k + 2) L.maxX L.maxX st2 = some st3 := by
    apply scan_line_one E L true (k + 2) _ false _ _ (k + 1) _ _
      (if |0 - (-c)| > 1 then -1 else 1) st2 st3
    · simp only [Bool.false_eq_true, if_false]; rw [hov, hmx]; norm_num
    · rw [scan_point_level E L (k + 2) _ _ _ st2 0 hrow3]
      simp only [Bool.false_eq_true, if_false]
      rw [outside_area_inside_Y _ _ _ _ _ _ (by rw [hov, hst]; norm_num)
        (by rw [hov, hst, hEY]; norm_num)]
      simp only [Bool.false_eq_true, if_false]
      rw [hZ, hov, hst, hmx, hz2]
      have hlook : ((1 : ℚ) - 3 / 1.5) = -1 := by norm_num
      have h03 : (-(0 : ℚ) + 3) = 3 := by norm_num
      rw [hlook, h03, h3]
      rfl
    · simp only [Bool.false_eq_true, if_false]
      rw [hst, hov]
      split <;> norm_num
  have hturn2 : scan_turn E L (k + 2)
      (decide (-L.overshoot + L.stepover + L.stepover < L.maxY)) (-L.overshoot)
      (-L.overshoot + L.stepover + L.stepover) st3 = some st3 := by
    unfold scan_turn
    have hd : decide (-L.overshoot + L.stepover + L.stepover < L.maxY) = false := by
      rw [hov, hst, hmy]; norm_num
    rw [hd]
    rfl
  have hexit : scan_even E L true (k + 2) (k + 1)
      (-L.overshoot + L.stepover + L.stepover) st3 = some st3 := by
    rw [scan_even_unfold, if_neg (by rw [hov, hst, hmy]; norm_num)]
  refine ⟨st3, ?_, ?_, ?_⟩
  · rw [scan_even_unfold, if_pos (by rw [hov, hmy]; norm_num)]
    simp only
    rw [hrow1]
    simp only
    rw [hturn]
    simp only
    rw [hrow2]
    simp only
    rw [hturn2]
    simp only
    exact hexit
  · rw [hm3, hm2, hm1]
    simp
  · refine hp3.trans ?_
    rw [if_pos ⟨hf2, Or.inl (by rw [hz2]; linarith)⟩, hx2, hy2, hz2]
    refine (hp2.append_right _).trans ?_
    rw [if_pos ⟨hf1, Or.inl (by rw [hz1]; linarith)⟩, hx1, hy1, hz1]
    refine ((hp1.append_right _).append_right _).trans ?_
    rw [if_neg (by rw [hfirst]; simp)]
    simp

theorem ridge_sample_rows (L : ScanLocals) (hr : L.radius + L.offset = 1)
    (hb : L.ballnose = false) (x : ℚ) :
    sample ridge_env L (x, 0) = 0 ∧ sample ridge_env L (x, 3) = 0 := by
  unfold sample
  rw [hr, hb]
  constructor
  · apply get_height_tool_floor _ _ _ _ _ (by norm_num)
    intro x2 y2 _ hy
    show ridge_field x2 y2 = 0
    unfold ridge_field
    rw [if_neg]
    rintro ⟨_, _, h3, _⟩
    rw [abs_le] at hy
    simp only at hy
    linarith [hy.2]
  · apply get_height_tool_floor _ _ _ _ _ (by norm_num)
    intro x2 y2 _ hy
    show ridge_field x2 y2 = 0
    unfold ridge_field
    rw [if_neg]
    rintro ⟨_, _, _, h4⟩
    rw [abs_le] at hy
    simp only at hy
    linarith [hy.1]

theorem ridge_sample_top (L : ScanLocals) (hr : L.radius + L.offset = 1 / 2)
    (hb : L.ballnose = false) : sample ridge_env L (51 / 40, 49 / 40) = 5 := by
  unfold sample
  rw [hr, hb]
  rw [get_height_tool_top ridge_env.sqrt ridge_env.get_height _ _ _ 5 (by norm_num)
    ridge_field_le (-0.7071, 0.7071) (by simp [axis_offsets, diag_offsets])
    (by
      show ridge_field _ _ = 5
      unfold ridge_field
      rw [if_pos]
      norm_num)]
  unfold ceilACC
  norm_num

theorem ridge_sample_floor (L : ScanLocals) (hr : L.radius + L.offset = 1 / 2)
    (hb : L.ballnose = false) : sample ridge_env L (71 / 40, 9 / 40) = 0 := by
  unfold sample
  rw [hr, hb]
  apply get_height_tool_floor _ _ _ _ _ (by norm_num)
  intro x2 y2 hx _
  show ridge_field x2 y2 = 0
  unfold ridge_field
  rw [if_neg]
  rintro ⟨_, h2, _, _⟩
  rw [abs_le] at hx
  simp only at hx
  linarith [hx.1]

theorem ridge_finish_three (g0 : Globals) (sc : scene) (hg : g0.tooldepth = 5000)
    (hcd : sc.cutout_depth = 5) :
    ∃ p, create_toolpath ridge_env 4 g0 sc 3 false false
        false = some p ∧ p.1.g.tooldepth = 5000 ∧ p.1.g.last_Z = 0 := by
  obtain ⟨st2, h, ha, _, hc⟩ := scan_odd_single ridge_env
    (scan_locals ridge_env sc 3 false false) 4 3 2
    { g := { { g0 with toolnr := 3 } with first := true },
      input := inputshape.new "STL path", moves := [] }
    (by norm_num) (by rw [ridge_locals_three sc hcd]; norm_num) (by rw [ridge_locals_three sc hcd]; norm_num)
    ⟨hg, Or.inl rfl⟩ (by rw [ridge_locals_three sc hcd]; norm_num)
    (by rw [ridge_locals_three sc hcd]; norm_num) (by norm_num)
    (by rw [ridge_locals_three sc hcd]; norm_num) (by norm_num)
    (by rw [ridge_locals_three sc hcd]; norm_num) (by rw [ridge_locals_three sc hcd]; norm_num)
    (by
      rw [ridge_locals_three sc hcd]
      exact outside_area_inside_Y _ _ _ _ _ _ (by norm_num) (by norm_num [ridge_env]))
  refine ⟨(st2, { sc with
    shapes := sc.shapes ++ [st2.input] }),
    ?_, ha, ?_⟩
  · unfold create_toolpath
    simp only [Bool.false_eq_true, if_false]
    rw [h]
    rfl
  · simp only
    rw [hc]
    have e : ((-(scan_locals ridge_env sc 3 false
        false).overshoot + (scan_locals ridge_env sc 3
        false false).stepover,
        (scan_locals ridge_env sc 3 false false).maxY
          - ((2 : ℕ) : ℚ) * (scan_locals ridge_env sc 3
            false false).stepover) : ℚ × ℚ) = (51 / 40, 49 / 40) := by
      rw [ridge_locals_three sc hcd]
      norm_num
    rw [e, ridge_sample_top _ (by rw [ridge_locals_three sc hcd]; norm_num)
      (by rw [ridge_locals_three sc hcd])]
    rw [ridge_locals_three sc hcd]
    norm_num

theorem ridge_finish_four (g0 : Globals) (sc : scene) (hg : g0.tooldepth = 5000)
    (hcd : sc.cutout_depth = 5) :
    ∃ p, create_toolpath ridge_env 4 g0 sc 4 false false
        false = some p ∧ p.1.g.tooldepth = 5000 ∧ p.1.g.last_Z = -5 := by
  obtain ⟨st2, h, ha, _, hc⟩ := scan_odd_single ridge_env
    (scan_locals ridge_env sc 4 false false) 4 3 2
    { g := { { g0 with toolnr := 4 } with first := true },
      input := inputshape.new "STL path", moves := [] }
    (by norm_num) (by rw [ridge_locals_four sc hcd]; norm_num) (by rw [ridge_locals_four sc hcd]; norm_num)
    ⟨hg, Or.inl rfl⟩ (by rw [ridge_locals_four sc hcd]; norm_num)
    (by rw [ridge_locals_four sc hcd]; norm_num) (by norm_num)
    (by rw [ridge_locals_four sc hcd]; norm_num) (by norm_num)
    (by rw [ridge_locals_four sc hcd]; norm_num) (by rw [ridge_locals_four sc hcd]; norm_num)
    (by
      rw [ridge_locals_four sc hcd]
      exact outside_area_inside_Y _ _ _ _ _ _ (by norm_num) (by norm_num [ridge_env]))
  refine ⟨(st2, { sc with
    shapes := sc.shapes ++ [st2.input] }),
    ?_, ha, ?_⟩
  · unfold create_toolpath
    simp only [Bool.false_eq_true, if_false]
    rw [h]
    rfl
  · simp only
    rw [hc]
    have e : ((-(scan_locals ridge_env sc 4 false
        false).overshoot + (scan_locals ridge_env sc 4
        false false).stepover,
        (scan_locals ridge_env sc 4 false false).maxY
          - ((2 : ℕ) : ℚ) * (scan_locals ridge_env sc 4
            false false).stepover) : ℚ × ℚ) = (71 / 40, 9 / 40) := by
      rw [ridge_locals_four sc hcd]
      norm_num
    rw [e, ridge_sample_floor _ (by rw [ridge_locals_four sc hcd]; norm_num)
      (by rw [ridge_locals_four sc hcd])]
    rw [ridge_locals_four sc hcd]
    norm_num

theorem ridge_rough (g : Globals) (sc : scene) (hg : g.tooldepth = 5000)
    (hcd : sc.cutout_depth = 5) (hstock : sc.stock_to_leave = 0) :
    ∃ r, create_toolpath ridge_env 4 g sc 2 true false true
        = some r ∧
      r.1.moves = [((if |0 - g.last_Z| > 1 then 2 else 0), 0, -5), (1, 3, -5), (-1, 3, -5)] ∧
      List.Perm r.1.input.segments
        [⟨(if |0 - g.last_Z| > 1 then 2 else 0), 0, 1, 3, -5, -5⟩,
         ⟨1, 3, -1, 3, -5, -5⟩] := by
  obtain ⟨st3, h, hm, hp⟩ := level_scan ridge_env 4
    { g := { { g with toolnr := 2 } with first := true },
      input := inputshape.new "STL path", moves := [] } 5
    (scan_locals ridge_env sc 2 true false) rfl
    (ridge_locals_rough sc hcd hstock)
    (fun x => (ridge_sample_rows _ (by rw [ridge_locals_rough sc hcd hstock]; norm_num)
      (by rw [ridge_locals_rough sc hcd hstock]) x).1)
    (fun x => (ridge_sample_rows _ (by rw [ridge_locals_rough sc hcd hstock]; norm_num)
      (by rw [ridge_locals_rough sc hcd hstock]) x).2)
    hg rfl (by norm_num) (by norm_num) (by norm_num)
  have h5 : |(0 : ℚ) - (-5)| > 1 := by norm_num
  rw [if_pos h5] at hm hp
  refine ⟨(st3, { sc with
    shapes := sc.shapes ++ [st3.input] }),
    ?_, ?_, ?_⟩
  · unfold create_toolpath
    simp only [if_true]
    rw [h]
    rfl
  · simpa using hm
  · simpa [inputshape.new, inputshape.segments] using hp

/-- C20 (the code at the failing input): without roughing, the shape, the moves and the scene
that `create_toolpath` produces are the same for any two states of the statics with the same
plunge increment, whatever pen position they remember. With roughing they are not. For the
scene `ridge_scene t` (tools 1, 2 and the finishing tool `t`, a finishing pass wanted, no
cutout depth configured, model height 5) `process_stl_file` sets the cutout depth to 5 and
calls the even and the odd pass of tool `t` and then the roughing pass of tool 2, even
direction, all with plunge increment 5000. Over the model 1 by 4 with the height field
`ridge_field`, for every scene with cutout depth 5 and no stock to leave and whatever the
statics were before, the odd finishing pass of tool 3 returns and leaves the pen at depth 0 (its
last move samples the ridge), and that of tool 4 returns and leaves it at depth -5 (its last
move samples the floor). The roughing pass of tool 2, with the same arguments, scene, tool
parameters and height field, returns from either pen, but after tool 3 its first move goes to
`(0, 0)` and its shape holds the segment from `(0, 0)` to `(1, 3)`, while after tool 4 the
lookahead test, which reads `last_Z` before the first `line_to` of the shape has overwritten
it, fires at the first grid point (`|0 - (-5)| > 1`) and relocates it to `X = 2`, so the shape
holds the segment from `(2, 0)` to `(1, 3)` instead: the two shapes differ. -/
theorem create_toolpath_reads_stale_pen :
    (∀ (E : Env) (F : Nat) (g g2 : Globals) (sc : scene) (tool : Int) (has_cutout even : Bool),
      g.tooldepth = g2.tooldepth →
      (create_toolpath E F g sc tool false has_cutout even).map
          (fun r => (r.1.input, r.1.moves, r.2))
        = (create_toolpath E F g2 sc tool false has_cutout even).map
          (fun r => (r.1.input, r.1.moves, r.2))) ∧
    (∀ (t : Int) (maxdepth : Int → ℚ),
      (process_stl_file (ridge_scene t) maxdepth).1.cutout_depth = 5 ∧
      (process_stl_file (ridge_scene t) maxdepth).1.stock_to_leave = 0 ∧
      (process_stl_file (ridge_scene t) maxdepth).2
        = [PlannerCall.toolpath 5000 t false false true,
           PlannerCall.toolpath 5000 t false false false,
           PlannerCall.toolpath 5000 2 true false true,
           PlannerCall.toolpath (maxdepth 1) 1 true false false]) ∧
    ∀ (g0 : Globals) (sc : scene), g0.tooldepth = 5000 → sc.cutout_depth = 5 →
      ∃ p3 p4,
        create_toolpath ridge_env 4 g0 sc 3 false false false = some p3 ∧
        create_toolpath ridge_env 4 g0 sc 4 false false false = some p4 ∧
        p3.1.g.tooldepth = 5000 ∧ p4.1.g.tooldepth = 5000 ∧
        p3.1.g.last_Z = 0 ∧ p4.1.g.last_Z = -5 ∧
        ∀ sc2 : scene, sc2.cutout_depth = 5 → sc2.stock_to_leave = 0 →
          ∃ r3 r4,
            create_toolpath ridge_env 4 p3.1.g sc2 2 true false true = some r3 ∧
            create_toolpath ridge_env 4 p4.1.g sc2 2 true false true = some r4 ∧
            r3.1.moves = [(0, 0, -5), (1, 3, -5), (-1, 3, -5)] ∧
            r4.1.moves = [(2, 0, -5), (1, 3, -5), (-1, 3, -5)] ∧
            List.Perm r3.1.input.segments
              [⟨0, 0, 1, 3, -5, -5⟩, ⟨1, 3, -1, 3, -5, -5⟩] ∧
            List.Perm r4.1.input.segments
              [⟨2, 0, 1, 3, -5, -5⟩, ⟨1, 3, -1, 3, -5, -5⟩] ∧
            r3.1.input ≠ r4.1.input := by
  refine ⟨create_toolpath_pen_independent, ?_, ?_⟩
  · intro t maxdepth
    rw [ridge_scene_planned t maxdepth]
    exact ⟨rfl, rfl, rfl⟩
  · intro g0 sc hg hcd
    obtain ⟨p3, hp3, ht3, hz3⟩ := ridge_finish_three g0 sc hg hcd
    obtain ⟨p4, hp4, ht4, hz4⟩ := ridge_finish_four g0 sc hg hcd
    refine ⟨p3, p4, hp3, hp4, ht3, ht4, hz3, hz4, ?_⟩
    intro sc2 hcd2 hstock2
    obtain ⟨r3, hr3, hm3, hs3⟩ := ridge_rough p3.1.g sc2 ht3 hcd2 hstock2
    obtain ⟨r4, hr4, hm4, hs4⟩ := ridge_rough p4.1.g sc2 ht4 hcd2 hstock2
    have h3 : ¬ (|0 - p3.1.g.last_Z| > 1) := by rw [hz3]; norm_num
    have h4 : |0 - p4.1.g.last_Z| > 1 := by rw [hz4]; norm_num
    rw [if_neg h3] at hm3 hs3
    rw [if_pos h4] at hm4 hs4
    refine ⟨r3, r4, hr3, hr4, hm3, hm4, hs3, hs4, ?_⟩
    intro h
    have hmem : (⟨0, 0, 1, 3, -5, -5⟩ : PathSegment) ∈ r4.1.input.segments := by
      rw [← h]
      exact hs3.symm.subset (List.mem_cons_self _ _)
    have := hs4.subset hmem
    simp only [List.mem_cons, PathSegment.mk.injEq, List.mem_singleton, List.not_mem_nil,
      or_false] at this
    norm_num at this

end Stl
